import Mathlib

/-! # Insert-mode completion engine (`src/nvim/insexpand.c`)

A shallow embedding of the candidate store, the case inference, the menu
projector and the navigation of `insexpand.c`.

Conventions of the embedding

* A C string is the list of its bytes (`List Nat`), without the terminating
  NUL; reading at or past the end yields NUL (`0`).  A `String` whose `data`
  is `NULL` is `none`.
* Candidates live in an arena (`State.heap`); a `compl_T *` is `Option Nat`,
  `none` being `NULL`.  `xcalloc` appends a zeroed record to the arena.
* A loop that walks the candidate list carries fuel `heap.length + 1`: a walk
  that is longer has entered a cycle that does not contain
  `compl_first_match`, on which the C loop does not terminate.  Such functions
  return `Option`, `none` standing for the non-terminating run.
* Option bit sets whose bit values are generated outside this file
  ('completeopt', 'completefuzzycollect') are records of booleans.
-/

namespace Insexpand

/-! ## Constants -/

/-- Return code `OK` of vim_defs.h. -/
def OK : Int := 1
/-- Return code `FAIL` of vim_defs.h. -/
def FAIL : Int := 0
/-- Return code `NOTDONE` of vim_defs.h. -/
def NOTDONE : Int := 2

/-- The `Direction` enum of vim_defs.h. -/
inductive Direction where
  | kDirectionNotSet
  | FORWARD
  | BACKWARD
  deriving DecidableEq, Repr

open Direction

def CTRL_X_WANT_IDENT : Nat := 0x100
def CTRL_X_NORMAL : Nat := 0
def CTRL_X_NOT_DEFINED_YET : Nat := 1
def CTRL_X_SCROLL : Nat := 2
def CTRL_X_WHOLE_LINE : Nat := 3
def CTRL_X_FILES : Nat := 4
def CTRL_X_TAGS : Nat := 5 + CTRL_X_WANT_IDENT
def CTRL_X_PATH_PATTERNS : Nat := 6 + CTRL_X_WANT_IDENT
def CTRL_X_PATH_DEFINES : Nat := 7 + CTRL_X_WANT_IDENT
def CTRL_X_FINISHED : Nat := 8
def CTRL_X_DICTIONARY : Nat := 9 + CTRL_X_WANT_IDENT
def CTRL_X_THESAURUS : Nat := 10 + CTRL_X_WANT_IDENT
def CTRL_X_CMDLINE : Nat := 11
def CTRL_X_FUNCTION : Nat := 12
def CTRL_X_OMNI : Nat := 13
def CTRL_X_SPELL : Nat := 14
def CTRL_X_LOCAL_MSG : Nat := 15
def CTRL_X_EVAL : Nat := 16
def CTRL_X_CMDLINE_CTRL_X : Nat := 17
def CTRL_X_BUFNAMES : Nat := 18
def CTRL_X_REGISTER : Nat := 19

/-- Values for cp_flags (`cp_flags_T`). -/
def CP_ORIGINAL_TEXT : Nat := 1
def CP_FREE_FNAME : Nat := 2
def CP_CONT_S_IPOS : Nat := 4
def CP_EQUAL : Nat := 8
def CP_ICASE : Nat := 16
def CP_FAST : Nat := 32

/-! ## Data model -/

/-- Structure used to store one match for insert completion (`struct compl_S`).
`cp_text[CPT_COUNT]` is the four fields `cp_text_abbr` .. `cp_text_info`. -/
structure compl_T where
  cp_next : Option Nat := none
  cp_prev : Option Nat := none
  cp_match_next : Option Nat := none
  cp_str : List Nat := []
  cp_text_abbr : Option (List Nat) := none
  cp_text_menu : Option (List Nat) := none
  cp_text_kind : Option (List Nat) := none
  cp_text_info : Option (List Nat) := none
  cp_user_data : Option Nat := none
  cp_fname : Option (List Nat) := none
  cp_flags : Nat := 0
  cp_number : Int := 0
  cp_score : Int := 0
  cp_in_match_array : Bool := false
  cp_user_abbr_hlattr : Int := 0
  cp_user_kind_hlattr : Int := 0
  cp_cpt_source_idx : Int := 0
  deriving DecidableEq, Repr, Inhabited

/-- Completion source information (`cpt_source_T`). -/
structure cpt_source_T where
  cs_refresh_always : Bool := false
  cs_startcol : Int := 0
  cs_max_matches : Int := 0
  deriving DecidableEq, Repr, Inhabited

/-- One entry of the popup menu (`pumitem_T` of popupmenu.h), with the fields
that `ins_compl_build_pum` fills in.  `pum_text` is a pointer into a candidate:
`pum_text_of` is that candidate, so that two `pum_text` are the same pointer
exactly when they have the same `pum_text_of`. -/
structure pumitem_T where
  pum_text : Option (List Nat) := none
  pum_text_of : Nat := 0
  pum_kind : Option (List Nat) := none
  pum_extra : Option (List Nat) := none
  pum_info : Option (List Nat) := none
  pum_cpt_source_idx : Int := 0
  pum_user_abbr_hlattr : Int := 0
  pum_user_kind_hlattr : Int := 0
  deriving DecidableEq, Repr, Inhabited

/-- The flags of 'completeopt' (`kOptCotFlag...`), one boolean per flag. -/
structure CotFlags where
  menu : Bool := false
  menuone : Bool := false
  longest : Bool := false
  preview : Bool := false
  popup : Bool := false
  noinsert : Bool := false
  noselect : Bool := false
  fuzzy : Bool := false
  nosort : Bool := false
  preinsert : Bool := false
  nearest : Bool := false
  deriving DecidableEq, Repr, Inhabited

/-- The flags of 'completefuzzycollect' (`kOptCfcFlag...`). -/
structure CfcFlags where
  keyword : Bool := false
  files : Bool := false
  whole_line : Bool := false
  deriving DecidableEq, Repr, Inhabited

/-- The four optional menu texts passed to `ins_compl_add` (`cptext`). -/
structure CpText where
  abbr : Option (List Nat) := none
  menu : Option (List Nat) := none
  kind : Option (List Nat) := none
  info : Option (List Nat) := none
  deriving DecidableEq, Repr, Inhabited

/-- The file-level variables of insexpand.c, together with the editor state
they are read with (options, the cursor line, what the popup menu shows). -/
structure State where
  heap : List compl_T := []
  compl_first_match : Option Nat := none
  compl_curr_match : Option Nat := none
  compl_shown_match : Option Nat := none
  compl_old_match : Option Nat := none
  compl_enter_selects : Bool := false
  compl_leader : Option (List Nat) := none
  compl_get_longest : Bool := false
  compl_used_match : Bool := false
  compl_was_interrupted : Bool := false
  compl_interrupted : Bool := false
  compl_restarting : Bool := false
  compl_started : Bool := false
  ctrl_x_mode : Nat := CTRL_X_NORMAL
  compl_matches : Int := 0
  compl_direction : Direction := FORWARD
  compl_shows_dir : Direction := FORWARD
  compl_pending : Int := 0
  compl_col : Int := 0
  compl_orig_text : Option (List Nat) := none
  compl_cont_status : Nat := 0
  compl_opt_refresh_always : Bool := false
  compl_selected_item : Int := -1
  cpt_sources_array : Option (List cpt_source_T) := none
  cpt_sources_count : Int := 0
  cpt_sources_index : Int := -1
  compl_match_array : Option (List pumitem_T) := none
  compl_match_arraysize : Int := 0
  /-- The static `adjusted_leader` of `get_leader_for_startcol`. -/
  adjusted_leader : Option (List Nat) := none
  /-- The value `got_int` has after the break check of `ins_compl_add`. -/
  got_int : Bool := false
  b_cot_flags : CotFlags := {}
  cot_flags : CotFlags := {}
  cfc_flags : CfcFlags := {}
  p_ic : Bool := false
  p_inf : Bool := false
  b_p_inf : Bool := false
  /-- The text of the cursor line, `ml_get(curwin->w_cursor.lnum)`. -/
  cursor_line : List Nat := []
  /-- What `pum_display` was last called with (items and selected index);
  `none` when no menu is displayed. -/
  pum_displayed : Option (List pumitem_T × Int) := none
  /-- How many times `pum_display` has been called. -/
  pum_display_calls : Nat := 0
  compl_pattern : Option (List Nat) := none
  compl_cont_mode : Nat := 0
  /-- The mode messages of edit.c, as the text they point to. -/
  edit_submode : Option (List Nat) := none
  edit_submode_pre : Option (List Nat) := none
  edit_submode_extra : Option (List Nat) := none
  redraw_mode : Bool := false
  /-- Whether `State & REPLACE_FLAG` is set. -/
  replace_flag : Bool := false
  /-- The values of 'dictionary', 'thesaurus' and 'thesaurusfunc', local to the
  buffer and global, and of 'spell' in the window. -/
  b_p_dict : List Nat := []
  p_dict : List Nat := []
  b_p_tsr : List Nat := []
  p_tsr : List Nat := []
  b_p_tsrfu : List Nat := []
  p_tsrfu : List Nat := []
  w_p_spell : Bool := false
  deriving DecidableEq, Repr

/-- The functions of mbyte.c, search.c and strings.c that this file calls. -/
structure Ext where
  utf_ptr2char : List Nat → Nat
  utfc_ptr2len : List Nat → Nat
  /-- The character at the start of the string and the string after it. -/
  mb_ptr2char_adv : List Nat → Nat × List Nat
  /-- The bytes of a character. -/
  utf_char2bytes : Nat → List Nat
  mb_islower : Nat → Bool
  mb_isupper : Nat → Bool
  mb_tolower : Nat → Nat
  mb_toupper : Nat → Nat
  ignorecase : List Nat → Bool
  vim_strnicmp : List Nat → List Nat → Nat → Int

/-! ## Strings -/

/-- The byte at offset `i` of a C string: NUL at and past the end. -/
def byteAt (s : List Nat) (i : Nat) : Nat := s.getD i 0

/-- The C library `strncmp`, as the sign of the first difference. -/
def strncmp : List Nat → List Nat → Nat → Int
  | _, _, 0 => 0
  | [], [], _ + 1 => 0
  | [], b :: _, _ + 1 => if b = 0 then 0 else -1
  | a :: _, [], _ + 1 => if a = 0 then 0 else 1
  | a :: as, b :: bs, n + 1 =>
    if a = b then (if a = 0 then 0 else strncmp as bs n)
    else if a < b then -1 else 1

/-- The bytes of a Lean string literal. -/
def bytes (s : String) : List Nat := s.toList.map Char.toNat

/-! ## The arena -/

/-- Dereference a candidate pointer. -/
def deref (h : List compl_T) (p : Nat) : compl_T := h.getD p default

/-- Assign through a candidate pointer: `p->field = ...`. -/
def assign (h : List compl_T) (p : Nat) (f : compl_T → compl_T) : List compl_T :=
  h.set p (f (deref h p))

/-- The record `c` after `c.cp_next = x`. -/
def set_next (x : Option Nat) (c : compl_T) : compl_T := { c with cp_next := x }

/-- The record `c` after `c.cp_prev = x`. -/
def set_prev (x : Option Nat) (c : compl_T) : compl_T := { c with cp_prev := x }

/-- The record `c` after `c.cp_in_match_array = v`. -/
def set_in_match_array (v : Bool) (c : compl_T) : compl_T := { c with cp_in_match_array := v }

/-- The record `c` after `c.cp_match_next = x`. -/
def set_match_next (x : Option Nat) (c : compl_T) : compl_T := { c with cp_match_next := x }

/-- Assign through a pointer that may be NULL, guarded by `if (p)`. -/
def assignOpt (h : List compl_T) (p : Option Nat) (f : compl_T → compl_T) : List compl_T :=
  match p with
  | none => h
  | some q => assign h q f

/-! ## Small predicates on the state -/

/-- Whether `m` is the original text when the completion began. -/
def match_at_original_text (m : compl_T) : Bool :=
  m.cp_flags &&& CP_ORIGINAL_TEXT != 0

/-- Whether `p` is the first match in the completion list. -/
def is_first_match (st : State) (p : Nat) : Bool :=
  st.compl_first_match == some p

def ctrl_x_mode_normal (st : State) : Bool := st.ctrl_x_mode == CTRL_X_NORMAL
def ctrl_x_mode_dictionary (st : State) : Bool := st.ctrl_x_mode == CTRL_X_DICTIONARY
def ctrl_x_mode_files (st : State) : Bool := st.ctrl_x_mode == CTRL_X_FILES
def ctrl_x_mode_whole_line (st : State) : Bool := st.ctrl_x_mode == CTRL_X_WHOLE_LINE
def ctrl_x_mode_function (st : State) : Bool := st.ctrl_x_mode == CTRL_X_FUNCTION
def ctrl_x_mode_omni (st : State) : Bool := st.ctrl_x_mode == CTRL_X_OMNI

def compl_dir_forward (st : State) : Bool := st.compl_direction == FORWARD
def compl_shows_dir_forward (st : State) : Bool := st.compl_shows_dir == FORWARD
def compl_shows_dir_backward (st : State) : Bool := st.compl_shows_dir == BACKWARD

/-- Get the local or global value of 'completeopt' flags: the buffer-local
value when it is not zero. -/
def get_cot_flags (st : State) : CotFlags :=
  if st.b_cot_flags ≠ {} then st.b_cot_flags else st.cot_flags

/-- Check if ctrl_x_mode has been configured in 'completefuzzycollect'. -/
def cfc_has_mode (st : State) : Bool :=
  if ctrl_x_mode_normal st || ctrl_x_mode_dictionary st then st.cfc_flags.keyword
  else if ctrl_x_mode_files st then st.cfc_flags.files
  else if ctrl_x_mode_whole_line st then st.cfc_flags.whole_line
  else false

/-- Whether matches should be sorted based on proximity to the cursor:
'completeopt' has "nearest" and not "fuzzy". -/
def is_nearest_active (st : State) : Bool :=
  (get_cot_flags st).nearest && !(get_cot_flags st).fuzzy

/-- Remove any popup menu. -/
def ins_compl_del_pum (st : State) : State :=
  match st.compl_match_array with
  | none => st
  | some _ => { st with pum_displayed := none, compl_match_array := none }

/-! ## Longest common leader -/

/-- The loop of `ins_compl_longest_match` that walks the leader `p` and the
match `s` character by character; returns what is left of `p` where it
stops.  The fuel is the byte length of the leader. -/
def longest_match_loop (E : Ext) (icase : Bool) : Nat → List Nat → List Nat → List Nat
  | 0, p, _ => p
  | fuel + 1, p, s =>
    if byteAt p 0 = 0 then p
    else
      let c1 := E.utf_ptr2char p
      let c2 := E.utf_ptr2char s
      if (if icase then E.mb_tolower c1 ≠ E.mb_tolower c2 else c1 ≠ c2) then p
      else longest_match_loop E icase fuel (p.drop (E.utfc_ptr2len p)) (s.drop (E.utfc_ptr2len s))

/-- Reduce the longest common string for match `m`.  The edits of the buffer
text (`ins_compl_longest_insert`, `ins_compl_delete`) are outside the model. -/
def ins_compl_longest_match (E : Ext) (st : State) (m : Nat) : State :=
  match st.compl_leader with
  | none =>
    -- First match, use it as a whole.
    { st with compl_leader := some (deref st.heap m).cp_str, compl_used_match := false }
  | some leader =>
    let p := longest_match_loop E ((deref st.heap m).cp_flags &&& CP_ICASE != 0)
      leader.length leader (deref st.heap m).cp_str
    if byteAt p 0 ≠ 0 then
      { st with compl_leader := some (leader.take (leader.length - p.length)),
                compl_used_match := false }
    else
      { st with compl_used_match := false }

/-! ## Adding a match -/

/-- The duplicate test that `ins_compl_add` applies to one list entry. -/
def is_duplicate (m : compl_T) (str : List Nat) (len : Nat) : Bool :=
  !match_at_original_text m
    && strncmp m.cp_str str len == 0
    && (decide (m.cp_str.length ≤ len) || byteAt m.cp_str len == 0)

/-- The do-while loop of `ins_compl_add` that looks for an entry with the same
text: `some (some m)` when entry `m` is a duplicate, `some none` when the walk
ends without one. -/
def find_duplicate (h : List compl_T) (first : Nat) (str : List Nat) (len : Nat) :
    Nat → Nat → Option (Option Nat)
  | 0, _ => none
  | fuel + 1, m =>
    if is_duplicate (deref h m) str len then some (some m)
    else
      match (deref h m).cp_next with
      | none => some none
      | some n => if n = first then some none else find_duplicate h first str len fuel n

/-- The while loop of the fuzzy-collect branch of `ins_compl_add`: walks from
`current` looking for the first entry with a lower score.  Returns the entry
found (or `none`) and the last value of `prev`. -/
def find_score_position (h : List compl_T) (first : Nat) (score : Int) :
    Nat → Option Nat → Nat → Option (Option Nat × Nat)
  | 0, _, _ => none
  | _ + 1, none, prev => some (none, prev)
  | fuel + 1, some current, prev =>
    if current = first then some (none, prev)
    else if (deref h current).cp_score < score then some (some current, prev)
    else find_score_position h first score fuel (deref h current).cp_next current

/-- The part of `ins_compl_add` that links the new match structure `new` after
(FORWARD) or before (BACKWARD) the current match in the list of matches, or,
with 'completefuzzycollect' and "longest", at its place by score.  `h` is the
arena with the new record in it, its links still NULL. -/
def link_new_match (st : State) (h : List compl_T) (new : Nat) (dir : Direction)
    (score : Int) : Option (List compl_T) :=
  let linked : Option (List compl_T) :=
    match st.compl_first_match with
    | none => some h
    | some first =>
      if cfc_has_mode st && 0 < score && st.compl_get_longest then
        -- The direction is ignored when using longest and completefuzzycollect,
        -- because matches are inserted and sorted by score.
        match find_score_position h first score (h.length + 1) (deref h first).cp_next first with
        | none => none
        | some (some current, _) =>
          let h := assign h new (set_next (some current))
          let h := assign h new (set_prev ((deref h current).cp_prev))
          let h := assignOpt h (deref h current).cp_prev (set_next (some new))
          some (assign h current (set_prev (some new)))
        | some (none, prev) =>
          let h := assign h prev (set_next (some new))
          let h := assign h new (set_prev (some prev))
          let h := assign h new (set_next (some first))
          some (assign h first (set_prev (some new)))
      else
        match st.compl_curr_match with
        | none => none
        | some curr =>
          if dir = FORWARD then
            let h := assign h new (set_next ((deref h curr).cp_next))
            some (assign h new (set_prev (some curr)))
          else
            let h := assign h new (set_next (some curr))
            some (assign h new (set_prev ((deref h curr).cp_prev)))
  match linked with
  | none => none
  | some h =>
    let h := assignOpt h (deref h new).cp_next (set_prev (some new))
    some (assignOpt h (deref h new).cp_prev (set_next (some new)))

/-- The match structure that `ins_compl_add` allocates and fills in, before it
is linked into the list. -/
def new_match (st : State) (str : List Nat) (len : Nat) (fname : Option (List Nat))
    (cptext : Option CpText) (user_data : Option Nat) (flags_arg : Nat)
    (user_hl : Option (Int × Int)) (score : Int) : compl_T :=
  let shared : Bool :=
    match fname, st.compl_curr_match with
    | some f, some c => (deref st.heap c).cp_fname == some f
    | _, _ => false
  let flags := if fname.isSome && !shared then flags_arg ||| CP_FREE_FNAME else flags_arg
  let keep (t : Option (List Nat)) : Option (List Nat) :=
    match t with
    | some (c :: cs) => if c ≠ 0 then some (c :: cs) else none
    | _ => none
  { cp_number := if flags_arg &&& CP_ORIGINAL_TEXT ≠ 0 then 0 else -1
    cp_str := str.take len
    cp_fname := fname
    cp_flags := flags
    cp_user_abbr_hlattr := match user_hl with | some hl => hl.1 | none => -1
    cp_user_kind_hlattr := match user_hl with | some hl => hl.2 | none => -1
    cp_score := score
    cp_cpt_source_idx := st.cpt_sources_index
    cp_text_abbr := match cptext with | some t => keep t.abbr | none => none
    cp_text_menu := match cptext with | some t => keep t.menu | none => none
    cp_text_kind := match cptext with | some t => keep t.kind | none => none
    cp_text_info := match cptext with | some t => keep t.info | none => none
    cp_user_data := user_data }

/-- Add a match to the list of matches.  Returns the return code and the new
state; `none` when the run has no result (a list walk that does not end, or a
NULL `compl_curr_match` with a non-empty list).  The strings are copied, so
`cptext_allocated` has no counterpart. -/
def ins_compl_add (E : Ext) (st : State) (str : List Nat) (len : Int)
    (fname : Option (List Nat)) (cptext : Option CpText) (user_data : Option Nat)
    (cdir : Direction) (flags_arg : Nat) (adup : Bool) (user_hl : Option (Int × Int))
    (score : Int) : Option (Int × State) :=
  let dir := if cdir = kDirectionNotSet then st.compl_direction else cdir
  if st.got_int then some (FAIL, st)
  else
    let len : Nat := if len < 0 then str.length else len.toNat
    -- If the same match is already present, don't add it.
    let dup : Option (Option Nat) :=
      match st.compl_first_match, adup with
      | some first, false => find_duplicate st.heap first str len (st.heap.length + 1) first
      | _, _ => some none
    match dup with
    | none => none
    | some (some m) =>
      if is_nearest_active st && 0 < score && score < (deref st.heap m).cp_score then
        some (NOTDONE, { st with heap := assign st.heap m (fun c => { c with cp_score := score }) })
      else some (NOTDONE, st)
    | some none =>
      -- Remove any popup menu before changing the list of matches.
      let st := ins_compl_del_pum st
      -- Allocate a new match structure.
      let new := st.heap.length
      let node := new_match st str len fname cptext user_data flags_arg user_hl score
      match link_new_match st (st.heap ++ [node]) new dir score with
      | none => none
      | some h =>
        let st := { st with
          heap := h
          -- if there's nothing before, it is the first match
          compl_first_match :=
            if (deref h new).cp_prev = none then some new else st.compl_first_match
          compl_curr_match := some new }
        -- Find the longest common string if still doing that.
        some (OK,
          if st.compl_get_longest && node.cp_flags &&& CP_ORIGINAL_TEXT = 0 && !cfc_has_mode st then
            ins_compl_longest_match E st new
          else st)

/-! ## Well-formed candidate lists -/

/-- Two entries are adjacent: `b` is the `cp_next` of `a` and `a` is the
`cp_prev` of `b`. -/
def Adjacent (h : List compl_T) (a b : Nat) : Prop :=
  (deref h a).cp_next = some b ∧ (deref h b).cp_prev = some a

instance (h : List compl_T) : DecidableRel (Adjacent h) :=
  fun _ _ => inferInstanceAs (Decidable (_ ∧ _))

/-- Each entry of the list is adjacent to the one that follows it. -/
def Linked (h : List compl_T) : List Nat → Prop
  | [] => True
  | [_] => True
  | a :: b :: t => Adjacent h a b ∧ Linked h (b :: t)

instance (h : List compl_T) : (ns : List Nat) → Decidable (Linked h ns)
  | [] => isTrue trivial
  | [_] => isTrue trivial
  | a :: b :: t =>
    have : Decidable (Linked h (b :: t)) := instDecidableLinked h (b :: t)
    inferInstanceAs (Decidable (Adjacent h a b ∧ Linked h (b :: t)))

/-- The entries `ns`, in this order, are distinct records of the arena, each
adjacent to the one that follows it. -/
def Segment (h : List compl_T) (ns : List Nat) : Prop :=
  ns.Nodup ∧ (∀ a ∈ ns, a < h.length) ∧ Linked h ns

instance (h : List compl_T) (ns : List Nat) : Decidable (Segment h ns) :=
  inferInstanceAs (Decidable (_ ∧ _ ∧ _))

/-- The last entry of the list `first :: rest`. -/
def lastOf : Nat → List Nat → Nat
  | first, [] => first
  | _, b :: rest => lastOf b rest

/-- A linear (not yet cyclic) list: the first entry has no `cp_prev`, the last
has no `cp_next`. -/
def IsLinear (h : List compl_T) (first : Nat) (rest : List Nat) : Prop :=
  Segment h (first :: rest) ∧ (deref h first).cp_prev = none
    ∧ (deref h (lastOf first rest)).cp_next = none

/-- A closed ring: the last entry is followed by the first. -/
def IsCyclic (h : List compl_T) (first : Nat) (rest : List Nat) : Prop :=
  Segment h (first :: rest) ∧ (deref h first).cp_prev = some (lastOf first rest)
    ∧ (deref h (lastOf first rest)).cp_next = some first

instance (h : List compl_T) (first : Nat) (rest : List Nat) : Decidable (IsLinear h first rest) :=
  inferInstanceAs (Decidable (_ ∧ _ ∧ _))

instance (h : List compl_T) (first : Nat) (rest : List Nat) : Decidable (IsCyclic h first rest) :=
  inferInstanceAs (Decidable (_ ∧ _ ∧ _))

/-- The candidate list of `st` is well formed and consists of the entries
`ns`, in `cp_next` order from `compl_first_match`: it is empty, or it is
linear or cyclic and `compl_curr_match` is one of its entries. -/
def WellFormed (st : State) : List Nat → Prop
  | [] => st.compl_first_match = none
  | first :: rest =>
    st.compl_first_match = some first
      ∧ (IsLinear st.heap first rest ∨ IsCyclic st.heap first rest)
      ∧ ∃ c ∈ first :: rest, st.compl_curr_match = some c

instance (st : State) (ns : List Nat) : Decidable (WellFormed st ns) :=
  match ns with
  | [] => inferInstanceAs (Decidable (_ = _))
  | _ :: _ => inferInstanceAs (Decidable (_ ∧ _ ∧ _))

/-- Follow `cp_next` `k` times from `p`. -/
def follow_next (h : List compl_T) : Nat → Option Nat → Option Nat
  | 0, p => p
  | k + 1, p => follow_next h k (p.bind fun q => (deref h q).cp_next)

/-- Follow `cp_prev` `k` times from `p`. -/
def follow_prev (h : List compl_T) : Nat → Option Nat → Option Nat
  | 0, p => p
  | k + 1, p => follow_prev h k (p.bind fun q => (deref h q).cp_prev)

/-- The text that `ins_compl_add(str, len, ...)` stores and compares:
the first `len` bytes of `str`, all of it when `len` is negative. -/
def added_text (str : List Nat) (len : Int) : List Nat :=
  str.take (if len < 0 then str.length else len.toNat)

/-- Entry `p` is a candidate other than the original text and has text `t`. -/
def is_candidate_with_text (h : List compl_T) (t : List Nat) (p : Nat) : Bool :=
  !match_at_original_text (deref h p) && (deref h p).cp_str == t

/-- A C string proper: no NUL byte inside. -/
def NoNul (s : List Nat) : Prop := ∀ b ∈ s, b ≠ 0

instance (s : List Nat) : Decidable (NoNul s) := inferInstanceAs (Decidable (∀ b ∈ s, b ≠ 0))

/-- What a walk along `cp_next` meets after entry `m`: the entries `post`, none
of them `first`, and then the end of the list (NULL or `first` again). -/
def WalkFrom (h : List compl_T) (first : Nat) : Nat → List Nat → Prop
  | m, [] => (deref h m).cp_next = none ∨ (deref h m).cp_next = some first
  | m, b :: post => (deref h m).cp_next = some b ∧ b ≠ first ∧ WalkFrom h first b post

/-- Two records agree on everything but their list links. -/
def SameData (a b : compl_T) : Prop :=
  { a with cp_next := none, cp_prev := none } = { b with cp_next := none, cp_prev := none }

/-! ## Making the list cyclic -/

/-- The loop of `ins_compl_make_cyclic` that finds the end of the list. -/
def find_list_end (h : List compl_T) (first : Nat) : Nat → Nat → Int → Option (Nat × Int)
  | 0, _, _ => none
  | fuel + 1, m, count =>
    match (deref h m).cp_next with
    | none => some (m, count)
    | some n => if n = first then some (m, count) else find_list_end h first fuel n (count + 1)

/-- Make the completion list cyclic.
Return the number of matches (excluding the original). -/
def ins_compl_make_cyclic (st : State) : Option (Int × State) :=
  match st.compl_first_match with
  | none => some (0, st)
  | some first =>
    match find_list_end st.heap first (st.heap.length + 1) first 0 with
    | none => none
    | some (m, count) =>
      let h := assign st.heap m (set_next (some first))
      let h := assign h first (set_prev (some m))
      some (count, { st with heap := h })

/-- The arena `h1` is the arena `h0` with the record `node` added at the end and
spliced in between `P` (its `cp_prev`) and `N` (its `cp_next`): the `cp_next`
of `P` and the `cp_prev` of `N` point to it and nothing else is changed. -/
def Spliced (h0 : List compl_T) (node : compl_T) (N P : Option Nat) (h1 : List compl_T) : Prop :=
  h1.length = h0.length + 1
    ∧ (∀ p, (deref h1 p).cp_next =
        if p = h0.length then N else if P = some p then some h0.length
        else (deref h0 p).cp_next)
    ∧ (∀ p, (deref h1 p).cp_prev =
        if p = h0.length then P else if N = some p then some h0.length
        else (deref h0 p).cp_prev)
    ∧ (∀ p, SameData (deref h1 p) (deref (h0 ++ [node]) p))

/-! ## Concrete instances for the examples -/

/-- The external character functions restricted to ASCII: one byte per
character, the letters `a`..`z` and `A`..`Z` cased, 'ignorecase' off. -/
def ascii_ops : Ext where
  utf_ptr2char := fun p => byteAt p 0
  utfc_ptr2len := fun p => if p = [] then 0 else 1
  mb_ptr2char_adv := fun p => (byteAt p 0, p.drop 1)
  utf_char2bytes := fun c => [c]
  mb_islower := fun c => decide (97 ≤ c ∧ c ≤ 122)
  mb_isupper := fun c => decide (65 ≤ c ∧ c ≤ 90)
  mb_tolower := fun c => if 65 ≤ c ∧ c ≤ 90 then c + 32 else c
  mb_toupper := fun c => if 97 ≤ c ∧ c ≤ 122 then c - 32 else c
  ignorecase := fun _ => false
  vim_strnicmp := fun a b n =>
    strncmp (a.map fun c => if 65 ≤ c ∧ c ≤ 90 then c + 32 else c)
      (b.map fun c => if 65 ≤ c ∧ c ≤ 90 then c + 32 else c) n

/-- A session that holds only the original text "he". -/
def anchor_only : State :=
  { heap := [{ cp_str := bytes "he", cp_flags := CP_ORIGINAL_TEXT }]
    compl_first_match := some 0
    compl_curr_match := some 0
    compl_shown_match := some 0
    compl_orig_text := some (bytes "he") }

/-- The session `anchor_only` after "hello" was added going forward. -/
def anchor_hello : State :=
  { heap := [{ cp_str := bytes "he", cp_flags := CP_ORIGINAL_TEXT, cp_next := some 1 },
             { cp_str := bytes "hello", cp_prev := some 0, cp_number := -1,
               cp_user_abbr_hlattr := -1, cp_user_kind_hlattr := -1, cp_cpt_source_idx := -1 }]
    compl_first_match := some 0
    compl_curr_match := some 1
    compl_shown_match := some 0
    compl_orig_text := some (bytes "he") }

/-! ## Leader tests -/

/-- The flag set after `flags &= ~bit`. -/
def clear_flag (flags bit : Nat) : Nat := flags ^^^ (flags &&& bit)

/-- The record `c` after `c.cp_flags &= ~CP_ICASE`. -/
def clear_icase (c : compl_T) : compl_T := { c with cp_flags := clear_flag c.cp_flags CP_ICASE }

/-- Check that `str[len]` matches with `m.cp_str`, considering `m.cp_flags`. -/
def ins_compl_equal (E : Ext) (m : compl_T) (str : List Nat) (len : Nat) : Bool :=
  if m.cp_flags &&& CP_EQUAL ≠ 0 then true
  else if m.cp_flags &&& CP_ICASE ≠ 0 then E.vim_strnicmp m.cp_str str len == 0
  else strncmp m.cp_str str len == 0

/-- Check if the complete function returned "always" in the "refresh"
dictionary item. -/
def ins_compl_refresh_always (st : State) : Bool :=
  (ctrl_x_mode_function st || ctrl_x_mode_omni st) && st.compl_opt_refresh_always

/-- Check that we need to find matches again. -/
def ins_compl_need_restart (st : State) : Bool :=
  st.compl_was_interrupted || ins_compl_refresh_always st

/-- The string that `prepend_startcol_text` builds: the bytes of the cursor line
from `startcol` to `compl_col`, followed by `src`. -/
def prepend_startcol_text (st : State) (src : List Nat) (startcol : Int) : List Nat :=
  ((List.range (st.compl_col - startcol).toNat).map fun i =>
    byteAt st.cursor_line (startcol.toNat + i)) ++ src

/-- The completion leader string adjusted for the start column of the source of
`m`; with `m` NULL the cached string is cleared.  Returns the string the
returned pointer points to (`none` when its `data` is NULL) and the state with
the static `adjusted_leader` updated. -/
def get_leader_for_startcol (st : State) (m : Option Nat) (cached : Bool) :
    Option (List Nat) × State :=
  match m with
  | none => (none, { st with adjusted_leader := none })
  | some m =>
    match st.cpt_sources_array, st.compl_leader with
    | some arr, some leader =>
      let cpt_idx := (deref st.heap m).cp_cpt_source_idx
      if cpt_idx < 0 ∨ st.compl_col ≤ 0 then (st.compl_leader, st)
      else
        let startcol := (arr.getD cpt_idx.toNat default).cs_startcol
        if 0 ≤ startcol ∧ startcol < st.compl_col then
          let new_length : Int := (st.compl_col - startcol) + leader.length
          let hit : Bool :=
            match st.adjusted_leader with
            | some adj => cached && new_length == (adj.length : Int)
            | none => false
          if hit then (st.adjusted_leader, st)
          else
            let adj := prepend_startcol_text st leader startcol
            (some adj, { st with adjusted_leader := some adj })
        else (st.compl_leader, st)
    | _, _ => (st.compl_leader, st)

/-! ## The popup menu -/

/-- Check if the popup menu should be displayed: 'completeopt' must contain
"menu" or "menuone". -/
def pum_wanted (st : State) : Bool :=
  (get_cot_flags st).menu || (get_cot_flags st).menuone

/-- The loop of `pum_enough_matches`: counts the matches other than the
original text, up to two. -/
def count_matches (st : State) : Nat → Option Nat → Nat → Option Nat
  | 0, _, _ => none
  | _ + 1, none, i => some i
  | fuel + 1, some comp, i =>
    let counted := !match_at_original_text (deref st.heap comp)
    let i := if counted then i + 1 else i
    if counted && i == 2 then some i
    else
      let next := (deref st.heap comp).cp_next
      if next == st.compl_first_match then some i
      else count_matches st fuel next i

/-- Check that there are two or more matches to be shown in the popup menu.
One if 'completeopt' contains "menuone". -/
def pum_enough_matches (st : State) : Option Bool :=
  match count_matches st (st.heap.length + 2) st.compl_first_match 0 with
  | none => none
  | some i => some (if (get_cot_flags st).menuone then decide (1 ≤ i) else decide (2 ≤ i))

/-- The local variables of `ins_compl_build_pum` that live across its loop,
with the state. -/
structure BuildPum where
  st : State
  match_head : Option Nat := none
  match_tail : Option Nat := none
  match_count : List Int := []
  shown_match_ok : Bool := false
  did_find_shown_match : Bool := false
  shown_compl : Option Nat := none
  i : Int := 0
  cur : Int := -1
  deriving DecidableEq, Repr

/-- The condition of the 'smartcase' behavior in `ins_compl_build_pum`: normal
mode, 'infercase' off, a leader for which `ignorecase()` is false, and no
fuzzy filtering. -/
def pum_smartcase (E : Ext) (fuzzy_filter : Bool) (st : State) : Bool :=
  ctrl_x_mode_normal st && !st.p_inf
    && (match st.compl_leader with
        | some leader => !E.ignorecase leader
        | none => false)
    && !fuzzy_filter

/-- The start of a round of the loop of `ins_compl_build_pum`:
`comp->cp_in_match_array = false`, and the 'smartcase' behavior during normal
mode, which clears CP_ICASE. -/
def pum_reset_entry (E : Ext) (fuzzy_filter : Bool) (st : State) (comp : Nat) : List compl_T :=
  let h := assign st.heap comp (set_in_match_array false)
  if pum_smartcase E fuzzy_filter st then assign h comp clear_icase
  else h

/-- The condition under which the loop of `ins_compl_build_pum` takes an entry:
it is not the original text, and the leader is unset, or `ins_compl_equal`
holds, or fuzzy filtering is on and the score is positive. -/
def pum_entry_matches (E : Ext) (fuzzy_filter : Bool) (c : compl_T)
    (leader : Option (List Nat)) : Bool :=
  !match_at_original_text c
    && (match leader with
        | none => true
        | some l => ins_compl_equal E c l l.length || (fuzzy_filter && decide (0 < c.cp_score)))

/-- Limit number of items from each source if max_items is set: the counters
after entry `c` was counted, and whether its source is over its limit. -/
def pum_count_source (is_forward is_cpt_completion : Bool) (st : State)
    (match_count : List Int) (c : compl_T) : List Int × Bool :=
  let cur_source := c.cp_cpt_source_idx
  if is_forward && cur_source != -1 && is_cpt_completion then
    let match_count :=
      match_count.set cur_source.toNat (match_count.getD cur_source.toNat 0 + 1)
    let max_matches :=
      match st.cpt_sources_array with
      | some arr => (arr.getD cur_source.toNat default).cs_max_matches
      | none => 0
    (match_count, decide (0 < max_matches)
      && decide (max_matches < match_count.getD cur_source.toNat 0))
  else (match_count, false)

/-- Entry `comp` goes into the menu: it is marked, counted and appended to the
`cp_match_next` chain. -/
def pum_include (b : BuildPum) (comp : Nat) : BuildPum :=
  let st := b.st
  let h := assign st.heap comp (set_in_match_array true)
  let h :=
    match b.match_head, b.match_tail with
    | some _, some tail => assign h tail (set_match_next (some comp))
    | _, _ => h
  { b with
    st := { st with heap := h, compl_match_arraysize := st.compl_match_arraysize + 1 }
    match_head := if b.match_head = none then some comp else b.match_head
    match_tail := some comp }

/-- What the loop of `ins_compl_build_pum` does about the shown match when it
has put entry `comp` into the menu at index `b.i`. -/
def pum_track_included (fuzzy_filter : Bool) (b : BuildPum) (comp : Nat) : BuildPum :=
  let b : BuildPum :=
    if !b.shown_match_ok && !fuzzy_filter then
      if b.st.compl_shown_match = some comp || b.did_find_shown_match then
        -- This item is the shown match or this is the first displayed item
        -- after the shown match.
        { b with
          st := { b.st with compl_shown_match := some comp }
          did_find_shown_match := true
          shown_match_ok := true
          cur := b.i }
      else
        -- Remember this displayed match for when the shown match is just
        -- below it.
        { b with shown_compl := some comp, cur := b.i }
    else if fuzzy_filter then
      let b : BuildPum := if b.i = (0 : Int) then { b with shown_compl := some comp } else b
      if !b.shown_match_ok && b.st.compl_shown_match = some comp then
        { b with cur := b.i, shown_match_ok := true }
      else b
    else b
  { b with i := b.i + 1 }

/-- The end of a round of the loop of `ins_compl_build_pum`: what is done when
`comp` is the shown match. -/
def pum_track_shown (fuzzy_filter : Bool) (b : BuildPum) (comp : Nat) : BuildPum :=
  if b.st.compl_shown_match = some comp && !fuzzy_filter then
    let b : BuildPum := { b with did_find_shown_match := true }
    -- When the original text is the shown match don't set compl_shown_match.
    let b : BuildPum :=
      if match_at_original_text (deref b.st.heap comp) then { b with shown_match_ok := true }
      else b
    if !b.shown_match_ok && b.shown_compl.isSome then
      -- The shown match isn't displayed, set it to the previously displayed match.
      { b with st := { b.st with compl_shown_match := b.shown_compl }, shown_match_ok := true }
    else b
  else b

/-- One round of the do-while loop of `ins_compl_build_pum`, for entry `comp`. -/
def build_pum_step (E : Ext) (fuzzy_filter is_forward is_cpt_completion : Bool)
    (b : BuildPum) (comp : Nat) : BuildPum :=
  let h := pum_reset_entry E fuzzy_filter b.st comp
  let (leader, st) := get_leader_for_startcol { b.st with heap := h } (some comp) true
  let c := deref st.heap comp
  let b : BuildPum := { b with st := st }
  let b : BuildPum :=
    if pum_entry_matches E fuzzy_filter c leader then
      let (match_count, match_limit_exceeded) :=
        pum_count_source is_forward is_cpt_completion st b.match_count c
      let b : BuildPum := { b with match_count := match_count }
      if !match_limit_exceeded then pum_track_included fuzzy_filter (pum_include b comp) comp
      else b
    else b
  pum_track_shown fuzzy_filter b comp

/-- The do-while loop of `ins_compl_build_pum` over the list of matches. -/
def build_pum_loop (E : Ext) (fuzzy_filter is_forward is_cpt_completion : Bool) (first : Nat) :
    Nat → BuildPum → Nat → Option BuildPum
  | 0, _, _ => none
  | fuel + 1, b, comp =>
    let b := build_pum_step E fuzzy_filter is_forward is_cpt_completion b comp
    match (deref b.st.heap comp).cp_next with
    | none => some b
    | some next =>
      if next = first then some b
      else build_pum_loop E fuzzy_filter is_forward is_cpt_completion first fuel b next

/-- The popup menu entry that `ins_compl_build_pum` makes of candidate `comp`. -/
def pum_item (c : compl_T) (comp : Nat) : pumitem_T :=
  { pum_text := match c.cp_text_abbr with
      | some abbr => some abbr
      | none => some c.cp_str
    pum_text_of := comp
    pum_kind := c.cp_text_kind
    pum_info := c.cp_text_info
    pum_cpt_source_idx := c.cp_cpt_source_idx
    pum_user_abbr_hlattr := c.cp_user_abbr_hlattr
    pum_user_kind_hlattr := c.cp_user_kind_hlattr
    pum_extra := match c.cp_text_menu with
      | some menu => some menu
      | none => c.cp_fname }

/-- The while loop of `ins_compl_build_pum` that fills `compl_match_array`
along `cp_match_next` and resets `cp_match_next`.  Returns the arena and the
entries filled in, in order. -/
def fill_match_array : Nat → List compl_T → Option Nat → Option (List compl_T × List pumitem_T)
  | 0, _, _ => none
  | _ + 1, h, none => some (h, [])
  | fuel + 1, h, some comp =>
    let item := pum_item (deref h comp) comp
    let match_next := (deref h comp).cp_match_next
    let h := assign h comp (set_match_next none)
    match fill_match_array fuel h match_next with
    | none => none
    | some (h, items) => some (h, item :: items)

/-- The part of `ins_compl_build_pum` after its first loop: nothing to show when
`compl_match_arraysize` is 0; else the shown match of fuzzy filtering is set,
`compl_match_array` is allocated and filled in. -/
def pum_finish (fuzzy_filter compl_no_select : Bool) (b : BuildPum) : Option (Int × State) :=
  let st := b.st
  if st.compl_match_arraysize = 0 then some (-1, st)
  else
    let b : BuildPum :=
      if fuzzy_filter && !compl_no_select && !b.shown_match_ok then
        { b with st := { st with compl_shown_match := b.shown_compl }
                 shown_match_ok := true, cur := 0 }
      else b
    let st := b.st
    match fill_match_array (st.heap.length + 1) st.heap b.match_head with
    | none => none
    | some (h, items) =>
      let st := { st with heap := h, compl_match_array := some items }
      -- no displayed match at all
      some (if !b.shown_match_ok then -1 else b.cur, st)

/-- The body of `ins_compl_build_pum` from `get_cot_flags()` on: the shown
match is moved off the original text, the list is walked and the array is
filled in. -/
def build_pum_body (E : Ext) (st : State) : Option (Int × State) :=
  let compl_no_select := (get_cot_flags st).noselect
  let fuzzy_filter := (get_cot_flags st).fuzzy
  let is_forward := compl_shows_dir_forward st
  let is_cpt_completion := st.cpt_sources_array.isSome
  match st.compl_shown_match, st.compl_first_match with
  | some shown, some first =>
    -- If the current match is the original text don't find the first
    -- match after it, don't highlight anything.
    let shown_match_ok := match_at_original_text (deref st.heap shown)
    let st :=
      if st.compl_leader == st.compl_orig_text && !shown_match_ok then
        { st with compl_shown_match :=
            if compl_no_select then st.compl_first_match else (deref st.heap first).cp_next }
      else st
    let match_count : List Int :=
      if is_cpt_completion then List.replicate st.cpt_sources_count.toNat 0 else []
    let st := (get_leader_for_startcol st none true).2
    let b : BuildPum := { st := st, match_count := match_count, shown_match_ok := shown_match_ok }
    match build_pum_loop E fuzzy_filter is_forward is_cpt_completion first
        (st.heap.length + 1) b first with
    | none => none
    | some b => pum_finish fuzzy_filter compl_no_select b
  | _, _ => none

/-- Build a popup menu to show the completion matches.  Returns the popup menu
entry that should be selected, -1 if nothing should be selected, and the new
state; `none` when `compl_first_match` or `compl_shown_match` is NULL or a
walk does not end. -/
def ins_compl_build_pum (E : Ext) (st : State) : Option (Int × State) :=
  -- Need to build the popup menu list.
  let st := { st with compl_match_arraysize := 0 }
  -- If it's user complete function and refresh_always,
  -- do not use "compl_leader" as prefix filter.
  let st := if ins_compl_need_restart st then { st with compl_leader := none } else st
  build_pum_body E st

/-- The search of `ins_compl_show_pum` for the current item in an existing
popup menu: the first entry whose text is the shown match's text. -/
def find_current_item (items : List pumitem_T) (shown : Nat) : Int :=
  match items.findIdx? (fun it => it.pum_text_of == shown) with
  | some i => i
  | none => -1

/-- Show the popup menu for the list of matches.  Also adjusts
`compl_shown_match` to an entry that is actually displayed.  The screen update
and the CompleteChanged autocommand are outside the model. -/
def ins_compl_show_pum (E : Ext) (st : State) : Option State :=
  match pum_enough_matches st with
  | none => none
  | some enough =>
    if !pum_wanted st || !enough then some st
    else
      let built : Option (Int × Bool × State) :=
        match st.compl_match_array with
        | none =>
          -- Need to build the popup menu list.
          match ins_compl_build_pum E st with
          | none => none
          | some (cur, st) => some (cur, true, st)
        | some items =>
          -- popup menu already exists, only need to find the current item.
          match st.compl_shown_match with
          | none => none
          | some shown =>
            some (find_current_item (items.take st.compl_match_arraysize.toNat) shown, false, st)
      match built with
      | none => none
      | some (cur, _, st) =>
        match st.compl_match_array with
        | none => some st
        | some items =>
          let st := { st with
            compl_selected_item := cur
            pum_displayed := some (items.take st.compl_match_arraysize.toNat, cur)
            pum_display_calls := st.pum_display_calls + 1 }
          -- After adding leader, set the current match to shown match.
          if st.compl_started && st.compl_curr_match != st.compl_shown_match then
            some { st with compl_curr_match := st.compl_shown_match }
          else some st

/-! ## What the menu should hold -/

/-- The state in which the loop of `ins_compl_build_pum` tests the entries:
the leader is dropped when a restart is needed. -/
def pum_test_state (st : State) : State :=
  if ins_compl_need_restart st then { st with compl_leader := none } else st

/-- Whether `ins_compl_build_pum` clears CP_ICASE (the 'smartcase' behavior). -/
def smartcase_applies (E : Ext) (st : State) : Bool :=
  pum_smartcase E (get_cot_flags st).fuzzy st

/-- The leader that candidate `comp` is tested against: the leader adjusted
for the start column of its source, computed afresh. -/
def leader_for (st : State) (comp : Nat) : Option (List Nat) :=
  (get_leader_for_startcol st (some comp) false).1

/-- The leader test for candidate `comp`: it is not the original text, and the
leader is unset, or `ins_compl_equal` holds (CP_ICASE being ignored under
'smartcase'), or fuzzy filtering is on and `cp_score` > 0. -/
def passes_leader_test (E : Ext) (st : State) (comp : Nat) : Bool :=
  let st := pum_test_state st
  let c := deref st.heap comp
  let c := if smartcase_applies E st then clear_icase c else c
  !match_at_original_text c
    && (match leader_for st comp with
        | none => true
        | some l =>
          ins_compl_equal E c l l.length || ((get_cot_flags st).fuzzy && decide (0 < c.cp_score)))

/-- The cap of source `src`: its `cs_max_matches` when sources are set up, the
candidate has a source and the menu is shown forward; 0 (no cap) otherwise. -/
def source_cap (st : State) (src : Int) : Int :=
  if compl_shows_dir_forward st && src != -1 then
    match st.cpt_sources_array with
    | some arr => (arr.getD src.toNat default).cs_max_matches
    | none => 0
  else 0

/-- Of the candidates `l`, in order, keep for each source with a cap N > 0 only
the first N, and all of every other source; `seen` are the candidates that
came before `l`. -/
def first_n_per_source (cap : Int → Int) (src : Nat → Int) : List Nat → List Nat → List Nat
  | _, [] => []
  | seen, x :: xs =>
    if 0 < cap (src x) ∧ cap (src x) ≤ (seen.countP fun y => src y == src x) then
      first_n_per_source cap src (seen ++ [x]) xs
    else x :: first_n_per_source cap src (seen ++ [x]) xs

/-- The candidates that the menu should hold, in the order of the list `ns`. -/
def menu_candidates (E : Ext) (st : State) (ns : List Nat) : List Nat :=
  first_n_per_source (source_cap st) (fun p => (deref st.heap p).cp_cpt_source_idx) []
    (ns.filter (passes_leader_test E st))

/-- The cap that the 'complete' option gives source `src`: its
`cs_max_matches`; 0 (no cap) for a candidate without a source and when no
sources are set up. -/
def configured_cap (st : State) (src : Int) : Int :=
  if src != -1 then
    match st.cpt_sources_array with
    | some arr => (arr.getD src.toNat default).cs_max_matches
    | none => 0
  else 0

/-- The candidates of the list `ns` that pass the leader test, in order, each
source with a cap N > 0 keeping only its first N. -/
def capped_menu (E : Ext) (st : State) (ns : List Nat) : List Nat :=
  first_n_per_source (configured_cap st) (fun p => (deref st.heap p).cp_cpt_source_idx) []
    (ns.filter (passes_leader_test E st))

/-- The menu that `pum_display` is given: the first `compl_match_arraysize`
entries of `compl_match_array`; empty without an array. -/
def menu_of (st : State) : List pumitem_T :=
  match st.compl_match_array with
  | some items => items.take st.compl_match_arraysize.toNat
  | none => []

/-- The part of a record that `ins_compl_build_pum` leaves alone. -/
def frozen (c : compl_T) : compl_T :=
  { c with cp_flags := 0, cp_in_match_array := false, cp_match_next := none }

/-- Two states agree on everything but the arena, the shown match, the menu
size and the cached leader. -/
def SameEnv (a b : State) : Prop :=
  { a with heap := [], compl_shown_match := none, compl_match_arraysize := 0,
           adjusted_leader := none }
    = { b with heap := [], compl_shown_match := none, compl_match_arraysize := 0,
               adjusted_leader := none }

/-- The cached leader is unset or is the adjusted leader of some start column
before `compl_col`. -/
def AdjOK (st : State) (adj : Option (List Nat)) : Prop :=
  adj = none ∨ ∃ leader s, st.compl_leader = some leader ∧ 0 ≤ s ∧ s < st.compl_col
    ∧ adj = some (prepend_startcol_text st leader s)

/-- The entries `inc` are chained by `cp_match_next`, the last one to NULL. -/
def MatchChain (h : List compl_T) : List Nat → Prop
  | [] => True
  | [a] => (deref h a).cp_match_next = none
  | a :: b :: t => (deref h a).cp_match_next = some b ∧ MatchChain h (b :: t)

/-- The candidates of the list are those of sources of the 'complete' option:
`cp_cpt_source_idx` is -1 or an index of `cpt_sources_array`. -/
def SourcesValid (st : State) (ns : List Nat) : Prop :=
  ∀ p ∈ ns, (deref st.heap p).cp_cpt_source_idx = -1
    ∨ (0 ≤ (deref st.heap p).cp_cpt_source_idx
        ∧ (deref st.heap p).cp_cpt_source_idx < st.cpt_sources_count)

instance (st : State) (ns : List Nat) : Decidable (SourcesValid st ns) :=
  inferInstanceAs (Decidable (∀ p ∈ ns, _))

/-- The facts that hold in the loop of `ins_compl_build_pum` after the entries
`done` were handled, `inc` being the entries put into the menu: `st0` is the
state at the start of the loop, `passes` the leader test and `limited` says
whether entries are counted per source. -/
structure PumInv (st0 : State) (passes : Nat → Bool) (limited : Bool)
    (done inc : List Nat) (b : BuildPum) : Prop where
  env : SameEnv b.st st0
  len : b.st.heap.length = st0.heap.length
  froz : ∀ p, frozen (deref b.st.heap p) = frozen (deref st0.heap p)
  flags : ∀ p, p ∉ done → (deref b.st.heap p).cp_flags = (deref st0.heap p).cp_flags
  adj : AdjOK st0 b.st.adjusted_leader
  size : b.st.compl_match_arraysize = (inc.length : Int)
  head : b.match_head = inc.head?
  tail : b.match_tail = inc.getLast?
  chain : MatchChain b.st.heap inc
  rest : ∀ p, p ∉ inc → (deref b.st.heap p).cp_match_next = (deref st0.heap p).cp_match_next
  sub : ∀ p ∈ inc, p ∈ done
  lt : ∀ p ∈ inc, p < st0.heap.length
  nodup : inc.Nodup
  cnt_len : limited = true → b.match_count.length = st0.cpt_sources_count.toNat
  cnt : limited = true → ∀ s : Nat, s < st0.cpt_sources_count.toNat →
    b.match_count.getD s 0
      = (((done.filter passes).countP fun p =>
          (deref st0.heap p).cp_cpt_source_idx == (s : Int) : Nat) : Int)
  idx : b.i = (inc.length : Int)

/-- A session over two sources of the 'complete' option, source 0 capped at 1
and source 1 without a cap: the original text "al", then "alpha1" and "alpha2"
of source 0 and "beta1" of source 1, in a closed ring; no leader is set. -/
def two_sources : State :=
  { heap := [{ cp_str := bytes "al", cp_flags := CP_ORIGINAL_TEXT, cp_next := some 1,
               cp_prev := some 3, cp_cpt_source_idx := -1 },
             { cp_str := bytes "alpha1", cp_prev := some 0, cp_next := some 2,
               cp_cpt_source_idx := 0 },
             { cp_str := bytes "alpha2", cp_prev := some 1, cp_next := some 3,
               cp_cpt_source_idx := 0 },
             { cp_str := bytes "beta1", cp_prev := some 2, cp_next := some 0,
               cp_cpt_source_idx := 1 }]
    compl_first_match := some 0
    compl_curr_match := some 0
    compl_shown_match := some 0
    compl_orig_text := some (bytes "al")
    cpt_sources_array := some [{ cs_startcol := -1, cs_max_matches := 1 }, { cs_startcol := -1 }]
    cpt_sources_count := 2
    cot_flags := { menu := true } }

/-- The session `two_sources` shown in backward direction. -/
def two_sources_backward : State := { two_sources with compl_shows_dir := BACKWARD }

/-- A started session in a closed ring: the original text "he", then "hello",
"help" and "held", none of them of a source of the 'complete' option, with
the leader `leader` and the 'completeopt' flags `cot`; no menu is built. -/
def three_matches (leader : List Nat) (cot : CotFlags) : State :=
  { heap := [{ cp_str := bytes "he", cp_flags := CP_ORIGINAL_TEXT, cp_next := some 1,
               cp_prev := some 3, cp_cpt_source_idx := -1 },
             { cp_str := bytes "hello", cp_prev := some 0, cp_next := some 2,
               cp_cpt_source_idx := -1 },
             { cp_str := bytes "help", cp_prev := some 1, cp_next := some 3,
               cp_cpt_source_idx := -1 },
             { cp_str := bytes "held", cp_prev := some 2, cp_next := some 0,
               cp_cpt_source_idx := -1 }]
    compl_first_match := some 0
    compl_curr_match := some 0
    compl_shown_match := some 0
    compl_orig_text := some (bytes "he")
    compl_leader := some leader
    compl_started := true
    cot_flags := cot }

/-! ## Moving to the next match -/

/-- The do-while loop of `find_next_match_in_menu`, from entry `m`; `none` when
a NULL pointer is dereferenced or the walk does not end. -/
def find_next_match_in_menu_loop (st : State) (is_forward : Bool) : Nat → Nat → Option Nat
  | 0, _ => none
  | fuel + 1, m =>
    match (if is_forward then (deref st.heap m).cp_next else (deref st.heap m).cp_prev) with
    | none => none
    | some m1 =>
      let c := deref st.heap m1
      if c.cp_next.isSome && !c.cp_in_match_array && !match_at_original_text c then
        find_next_match_in_menu_loop st is_forward fuel m1
      else some m1

/-- Find the appropriate completion item when 'complete' includes a
'max_matches' postfix: a match where `cp_in_match_array` is set. -/
def find_next_match_in_menu (st : State) : Option Nat :=
  match st.compl_shown_match with
  | none => none
  | some shown =>
    find_next_match_in_menu_loop st (compl_shows_dir_forward st) (st.heap.length + 1) shown

/-- The value that a C `int` holds after an arithmetic result `x`: 32 bits,
two's complement, so a result past INT_MAX or INT_MIN wraps around. -/
def wrap_int (x : Int) : Int := (x + 2 ^ 31) % 2 ^ 32 - 2 ^ 31

/-- The loop of `find_next_completion_match` that handles any pending
completions.  Its steps bring `compl_pending` nearer to zero, so they do not
leave the range of `int`. -/
def handle_pending (advance : Bool) : Nat → State → Option State
  | 0, _ => none
  | fuel + 1, st =>
    if st.compl_pending != 0 && st.compl_direction == st.compl_shows_dir && advance then
      match st.compl_shown_match with
      | none => none
      | some shown =>
        let st :=
          if 0 < st.compl_pending ∧ (deref st.heap shown).cp_next.isSome then
            { st with compl_shown_match := (deref st.heap shown).cp_next
                      compl_pending := st.compl_pending - 1 }
          else st
        match st.compl_shown_match with
        | none => none
        | some shown =>
          if st.compl_pending < 0 ∧ (deref st.heap shown).cp_prev.isSome then
            handle_pending advance fuel
              { st with compl_shown_match := (deref st.heap shown).cp_prev
                        compl_pending := st.compl_pending + 1 }
          else some st
    else some st

/-- The first part of a round of the loop of `find_next_completion_match`:
the shown match is moved.  The result is an early return (the return value,
`num_matches` and the state), or the state, `found_end` and `num_matches`;
`ins_compl_get_exp`, which finds more matches, is a parameter.  `compl_pending`
is an `int`: what is added to it or taken from it is kept within 32 bits. -/
def find_next_move (ins_compl_get_exp : State → Int × State)
    (allow_get_expansion advance compl_no_select : Bool) (st : State) (shown : Nat)
    (todo num_matches : Int) : Option (Except (Int × Int × State) (State × Bool × Int)) :=
  if compl_shows_dir_forward st && (deref st.heap shown).cp_next.isSome then
    let shown1 : Option Nat :=
      if st.compl_match_array.isSome then find_next_match_in_menu st
      else (deref st.heap shown).cp_next
    match shown1 with
    | none => none
    | some s1 =>
      let st := { st with compl_shown_match := some s1 }
      let found_end := st.compl_first_match.isSome
        && ((deref st.heap s1).cp_next == st.compl_first_match || is_first_match st s1)
      some (.ok (st, found_end, num_matches))
  else if compl_shows_dir_backward st && (deref st.heap shown).cp_prev.isSome then
    let found_end := is_first_match st shown
    let shown1 : Option Nat :=
      if st.compl_match_array.isSome then find_next_match_in_menu st
      else (deref st.heap shown).cp_prev
    match shown1 with
    | none => none
    | some s1 =>
      let st := { st with compl_shown_match := some s1 }
      some (.ok (st, found_end || is_first_match st s1, num_matches))
  else
    if !allow_get_expansion then
      let st :=
        if advance then
          if compl_shows_dir_backward st then
            { st with compl_pending := wrap_int (st.compl_pending - (todo + 1)) }
          else { st with compl_pending := wrap_int (st.compl_pending + (todo + 1)) }
        else st
      some (.error (-1, num_matches, st))
    else
      let st :=
        if !compl_no_select && advance then
          if compl_shows_dir_backward st then
            { st with compl_pending := wrap_int (st.compl_pending - 1) }
          else { st with compl_pending := wrap_int (st.compl_pending + 1) }
        else st
      -- Find matches.
      let (n, st) := ins_compl_get_exp st
      -- handle any pending completions
      match handle_pending advance (st.compl_pending.natAbs + 1) st with
      | none => none
      | some st => some (.ok (st, false, n))

/-- Whether the loop of `find_next_completion_match` skips the entry `c`: it
is not the original text, there is a leader that it does not match, and it has
no fuzzy score. -/
def skips_match (E : Ext) (compl_fuzzy_match : Bool) (c : compl_T)
    (leader : Option (List Nat)) : Bool :=
  !match_at_original_text c
    && (match leader with
        | none => false
        | some l => !ins_compl_equal E c l l.length)
    && !(compl_fuzzy_match && decide (0 < c.cp_score))

/-- The while loop of `find_next_completion_match`; `fuel` bounds the number
of rounds. -/
def find_next_loop (ins_compl_get_exp : State → Int × State) (E : Ext)
    (allow_get_expansion advance compl_no_select compl_fuzzy_match : Bool) :
    Nat → State → Int → Option Nat → Int → Option (Int × Int × State)
  | 0, _, _, _, _ => none
  | fuel + 1, st, todo, found_compl, num_matches =>
    let todo := todo - 1
    if todo < 0 then some (OK, num_matches, st)
    else
      match st.compl_shown_match with
      | none => none
      | some shown =>
        match find_next_move ins_compl_get_exp allow_get_expansion advance compl_no_select
            st shown todo num_matches with
        | none => none
        | some (.error r) => some r
        | some (.ok (st, found_end, num_matches)) =>
          match st.compl_shown_match with
          | none => none
          | some shown =>
            let (leader, st) := get_leader_for_startcol st (some shown) false
            let skip := skips_match E compl_fuzzy_match (deref st.heap shown) leader
            let todo := if skip then todo + 1 else todo
            -- Remember a matching item.
            let found_compl := if skip then found_compl else some shown
            -- Stop at the end of the list when we found a usable match.
            if found_end then
              match found_compl with
              | some found => some (OK, num_matches, { st with compl_shown_match := some found })
              | none =>
                -- use first usable match after wrapping around
                find_next_loop ins_compl_get_exp E allow_get_expansion advance compl_no_select
                  compl_fuzzy_match fuel st 1 found_compl num_matches
            else
              find_next_loop ins_compl_get_exp E allow_get_expansion advance compl_no_select
                compl_fuzzy_match fuel st todo found_compl num_matches

/-- Find the next set of matches for completion.  Repeat the completion `todo`
times.  Returns OK on success and -1 if the number of matches is unknown, with
`num_matches` and the new state; `none` when a NULL pointer is dereferenced or
the loop takes more than `fuel` rounds. -/
def find_next_completion_match (ins_compl_get_exp : State → Int × State) (E : Ext)
    (st : State) (allow_get_expansion : Bool) (todo : Int) (advance : Bool)
    (num_matches : Int) (fuel : Nat) : Option (Int × Int × State) :=
  find_next_loop ins_compl_get_exp E allow_get_expansion advance (get_cot_flags st).noselect
    (get_cot_flags st).fuzzy fuel st todo none num_matches

/-- The state after `j` successive single-step calls of
`find_next_completion_match` that return OK. -/
def successive_calls (ins_compl_get_exp : State → Int × State) (E : Ext)
    (allow_get_expansion advance : Bool) (fuel : Nat) : Nat → State → Option State
  | 0, st => some st
  | j + 1, st =>
    match successive_calls ins_compl_get_exp E allow_get_expansion advance fuel j st with
    | none => none
    | some s =>
      match find_next_completion_match ins_compl_get_exp E s allow_get_expansion 1 advance 0
          fuel with
      | none => none
      | some (r, _, s1) => if r = OK then some s1 else none

/-! ## Inferring the case -/

/-- The wide character array of the first `char_len` characters of `str`. -/
def wca_fill (E : Ext) : Nat → List Nat → List Nat
  | 0, _ => []
  | n + 1, p => (E.mb_ptr2char_adv p).1 :: wca_fill E n (E.mb_ptr2char_adv p).2

/-- The array after `for (i = compl_char_len; i < char_len; i++) wca[i] = f(wca[i])`. -/
def convert_from (f : Nat → Nat) (compl_char_len : Nat) (wca : List Nat) : List Nat :=
  wca.take compl_char_len ++ (wca.drop compl_char_len).map f

/-- Rule 1 of `ins_compl_infercase_gettext`, from index `i` on, `typed` being
the typed characters from there on: were any chars converted to lower?
Returns `has_lower` and the array. -/
def infer_rule1 (E : Ext) (compl_char_len : Nat) : Nat → List Nat → List Nat → Bool × List Nat
  | _, [], wca => (false, wca)
  | i, c :: typed, wca =>
    if E.mb_islower c then
      if E.mb_isupper (wca.getD i 0) then
        -- Rule 1 is satisfied.
        (true, convert_from E.mb_tolower compl_char_len wca)
      else (true, (infer_rule1 E compl_char_len (i + 1) typed wca).2)
    else infer_rule1 E compl_char_len (i + 1) typed wca

/-- Rule 2 of `ins_compl_infercase_gettext`, from index `i` on: no lower case,
2nd consecutive letter converted to upper case. -/
def infer_rule2 (E : Ext) (compl_char_len : Nat) : Nat → Bool → List Nat → List Nat → List Nat
  | _, _, [], wca => wca
  | i, was_letter, c :: typed, wca =>
    if was_letter && E.mb_isupper c && E.mb_islower (wca.getD i 0) then
      -- Rule 2 is satisfied.
      convert_from E.mb_toupper compl_char_len wca
    else infer_rule2 E compl_char_len (i + 1) (E.mb_islower c || E.mb_isupper c) typed wca

/-- The character `w` in the case of the typed character `c`. -/
def copy_case_char (E : Ext) (c w : Nat) : Nat :=
  if E.mb_islower c then E.mb_tolower w
  else if E.mb_isupper c then E.mb_toupper w
  else w

/-- The last loop over the typed characters in `ins_compl_infercase_gettext`,
from index `i` on: copy the original case of the part we typed. -/
def copy_case (E : Ext) : Nat → List Nat → List Nat → List Nat
  | _, [], wca => wca
  | i, c :: typed, wca =>
    copy_case E (i + 1) typed (wca.set i (copy_case_char E c (wca.getD i 0)))

/-- What `ins_compl_infercase_gettext` does to the wide character array,
`typed` being the first `min_len` characters of the original text. -/
def infercase_wca (E : Ext) (typed : List Nat) (compl_char_len : Nat) (wca : List Nat) :
    List Nat :=
  let r := infer_rule1 E compl_char_len 0 typed wca
  let wca := if !r.1 then infer_rule2 E compl_char_len 0 false typed r.2 else r.2
  copy_case E 0 typed wca

/-- Get the completed text by inferring the case of the originally typed text:
the bytes of the returned string; `none` when `compl_orig_text.data` is NULL
and read. -/
def ins_compl_infercase_gettext (E : Ext) (st : State) (str : List Nat)
    (char_len compl_char_len min_len : Nat) : Option (List Nat) :=
  -- Allocate wide character array for the completion and fill it.
  let wca := wca_fill E char_len str
  let typed : Option (List Nat) :=
    match st.compl_orig_text with
    | some orig => some (wca_fill E min_len orig)
    | none => if min_len = 0 then some [] else none
  match typed with
  | none => none
  | some typed =>
    -- Generate encoding specific output from wide character array.
    some ((infercase_wca E typed compl_char_len wca).flatMap E.utf_char2bytes)

/-- The loops of `ins_compl_add_infercase` that count the characters of a
string, advancing with `MB_PTR_ADV`. -/
def count_chars (E : Ext) : Nat → List Nat → Option Nat
  | 0, _ => none
  | fuel + 1, p =>
    if byteAt p 0 = 0 then some 0
    else (count_chars E fuel (p.drop (E.utfc_ptr2len p))).map (· + 1)

/-- The text that `ins_compl_add_infercase` hands to `ins_compl_add`: with
'ignorecase' and 'infercase' set and `len` > 0 the text with the case inferred,
else `str`. -/
def infercase_text (E : Ext) (st : State) (str : List Nat) (len : Int) : Option (List Nat) :=
  if st.p_ic && st.b_p_inf && decide (0 < len) then
    -- Find actual length of completion.
    match count_chars E (str.length + 1) str with
    | none => none
    | some char_len =>
      -- Find actual length of original text.
      match st.compl_orig_text with
      | none => none
      | some orig =>
        match count_chars E (orig.length + 1) orig with
        | none => none
        | some compl_char_len =>
          -- "char_len" may be smaller than "compl_char_len" when using
          -- thesaurus, only use the minimum when comparing.
          let min_len := min char_len compl_char_len
          ins_compl_infercase_gettext E st str char_len compl_char_len min_len
  else some str

/-- This is like `ins_compl_add`, but if 'ic' and 'inf' are set, then the case
of the originally typed text is used, and the case of the completed text is
inferred. -/
def ins_compl_add_infercase (E : Ext) (st : State) (str_arg : List Nat) (len : Int)
    (icase : Bool) (fname : Option (List Nat)) (dir : Direction) (cont_s_ipos : Bool)
    (score : Int) : Option (Int × State) :=
  match infercase_text E st str_arg len with
  | none => none
  | some str =>
    let flags : Nat := 0
    let flags := if cont_s_ipos then flags ||| CP_CONT_S_IPOS else flags
    let flags := if icase then flags ||| CP_ICASE else flags
    ins_compl_add E st str len fname none none dir flags false none score

/-! ## What the inferred case should be -/

/-- Some typed character is lower-case while the candidate character at the
same index is upper-case. -/
def lower_faces_upper (E : Ext) (typed cand : List Nat) : Bool :=
  (typed.zip cand).any fun oc => E.mb_islower oc.1 && E.mb_isupper oc.2

/-- Some typed upper-case character that directly follows a typed letter faces
a lower-case candidate character; `was_letter` says whether a letter comes
before `typed`. -/
def upper_after_letter_faces_lower (E : Ext) : Bool → List Nat → List Nat → Bool
  | was_letter, o :: typed, c :: cand =>
    (was_letter && E.mb_isupper o && E.mb_islower c)
      || upper_after_letter_faces_lower E (E.mb_islower o || E.mb_isupper o) typed cand
  | _, _, _ => false

/-- The session with the original text `orig` in which 'ignorecase' and
'infercase' are set. -/
def infercase_session (orig : List Nat) : State :=
  { heap := [{ cp_str := orig, cp_flags := CP_ORIGINAL_TEXT }]
    compl_first_match := some 0
    compl_curr_match := some 0
    compl_shown_match := some 0
    compl_orig_text := some orig
    p_ic := true
    b_p_inf := true }

/-! ## Keys and CTRL-X modes -/

/-- ASCII control characters (ascii_defs.h). -/
def NUL : Int := 0
def NL : Int := 10
def CAR : Int := 13
def Ctrl_C : Int := 3
def Ctrl_D : Int := 4
def Ctrl_E : Int := 5
def Ctrl_F : Int := 6
def Ctrl_I : Int := 9
def Ctrl_K : Int := 11
def Ctrl_L : Int := 12
def Ctrl_N : Int := 14
def Ctrl_O : Int := 15
def Ctrl_P : Int := 16
def Ctrl_Q : Int := 17
def Ctrl_R : Int := 18
def Ctrl_S : Int := 19
def Ctrl_T : Int := 20
def Ctrl_U : Int := 21
def Ctrl_V : Int := 22
def Ctrl_X : Int := 24
def Ctrl_Y : Int := 25
def Ctrl_Z : Int := 26
def Ctrl_RSB : Int := 29

/-- The codes of the special keys (keycodes.h) that this file names; their
values are parameters of the model. -/
structure KeyCodes where
  K_SELECT : Int
  K_MOUSEDOWN : Int
  K_MOUSEUP : Int
  K_MOUSELEFT : Int
  K_MOUSERIGHT : Int
  K_MOUSEMOVE : Int
  K_EVENT : Int
  K_COMMAND : Int
  K_LUA : Int
  K_PAGEUP : Int
  K_KPAGEUP : Int
  K_S_UP : Int
  K_PAGEDOWN : Int
  K_KPAGEDOWN : Int
  K_S_DOWN : Int
  K_UP : Int
  K_DOWN : Int
  K_S_TAB : Int
  K_KENTER : Int
  deriving DecidableEq

/-- The keys that `ins_compl_prep` ignores: end of Select mode mapping, mouse
scroll and movement, events. -/
def ignored_keys (K : KeyCodes) : List Int :=
  [K.K_SELECT, K.K_MOUSEDOWN, K.K_MOUSEUP, K.K_MOUSELEFT, K.K_MOUSERIGHT, K.K_MOUSEMOVE,
    K.K_EVENT, K.K_COMMAND, K.K_LUA]

/-- The keys that are completion keys only while the popup menu is shown. -/
def pum_keys (K : KeyCodes) : List Int :=
  [K.K_PAGEUP, K.K_KPAGEUP, K.K_S_UP, K.K_PAGEDOWN, K.K_KPAGEDOWN, K.K_S_DOWN, K.K_UP, K.K_DOWN]

/-- What keycodes.h guarantees of the special keys: their codes are negative,
and they are different keys. -/
def KeyCodes.Sane (K : KeyCodes) : Prop :=
  (∀ k ∈ ignored_keys K ++ pum_keys K ++ [K.K_S_TAB, K.K_KENTER], k < 0)
    ∧ (ignored_keys K ++ pum_keys K ++ [K.K_S_TAB, K.K_KENTER]).Nodup

instance (K : KeyCodes) : Decidable K.Sane := inferInstanceAs (Decidable (_ ∧ _))

/-- Key codes by the scheme of keycodes.h, `-(a + 256 * b)`; the numbers of
the keys of the `KS_EXTRA` family are sample values. -/
def sample_keys : KeyCodes where
  K_SELECT := -(245 + 256 * 88)
  K_MOUSEDOWN := -(253 + 256 * 75)
  K_MOUSEUP := -(253 + 256 * 76)
  K_MOUSELEFT := -(253 + 256 * 77)
  K_MOUSERIGHT := -(253 + 256 * 78)
  K_MOUSEMOVE := -(253 + 256 * 100)
  K_EVENT := -(253 + 256 * 102)
  K_COMMAND := -(253 + 256 * 104)
  K_LUA := -(253 + 256 * 103)
  K_PAGEUP := -(107 + 256 * 80)
  K_KPAGEUP := -(75 + 256 * 51)
  K_S_UP := -(253 + 256 * 4)
  K_PAGEDOWN := -(107 + 256 * 78)
  K_KPAGEDOWN := -(75 + 256 * 53)
  K_S_DOWN := -(253 + 256 * 5)
  K_UP := -(107 + 256 * 117)
  K_DOWN := -(107 + 256 * 100)
  K_S_TAB := -(107 + 256 * 66)
  K_KENTER := -(75 + 256 * 65)

def CONT_ADDING : Nat := 1
def CONT_INTRPT : Nat := 2 + 4
def CONT_N_ADDS : Nat := 4
def CONT_S_IPOS : Nat := 8
def CONT_SOL : Nat := 16
def CONT_LOCAL : Nat := 32

def ctrl_x_mode_scroll (st : State) : Bool := st.ctrl_x_mode == CTRL_X_SCROLL
/-- Whether other than default completion has been selected. -/
def ctrl_x_mode_not_default (st : State) : Bool := st.ctrl_x_mode != CTRL_X_NORMAL
/-- Whether CTRL-X was typed without a following character. -/
def ctrl_x_mode_not_defined_yet (st : State) : Bool := st.ctrl_x_mode == CTRL_X_NOT_DEFINED_YET

/-- Whether the popup menu is displayed (`pum_visible()` of popupmenu.c). -/
def pum_visible (st : State) : Bool := st.pum_displayed.isSome

/-- Check that the 'dictionary' or 'thesaurus' option can be used: `dict_opt`
checks 'dictionary' when true, 'thesaurus' when false.  The error message,
the beep and the delay are outside the model. -/
def check_compl_option (st : State) (dict_opt : Bool) : Bool × State :=
  if (if dict_opt then
        st.b_p_dict = [] ∧ st.p_dict = [] ∧ st.w_p_spell = false
      else st.b_p_tsr = [] ∧ st.p_tsr = [] ∧ st.b_p_tsrfu = [] ∧ st.p_tsrfu = []) then
    (false, { st with ctrl_x_mode := CTRL_X_NORMAL, edit_submode := none })
  else (true, st)

/-- Check that `c` is a valid completion key only while the popup menu is
shown. -/
def ins_compl_pum_key (K : KeyCodes) (st : State) (c : Int) : Bool :=
  pum_visible st && (c == K.K_PAGEUP || c == K.K_KPAGEUP || c == K.K_S_UP
    || c == K.K_PAGEDOWN || c == K.K_KPAGEDOWN
    || c == K.K_S_DOWN || c == K.K_UP || c == K.K_DOWN)

/-- The `switch (ctrl_x_mode)` of `vim_is_ctrl_x_key`: what the case of `mode`
returns for the key `c`; `none` when no case is taken and the function goes on
to `internal_error`. -/
def ctrl_x_key_table (mode : Nat) (c : Int) : Option Bool :=
  if mode = 0 then  -- Not in any CTRL-X mode
    some (c == Ctrl_N || c == Ctrl_P || c == Ctrl_X)
  else if mode = CTRL_X_NOT_DEFINED_YET ∨ mode = CTRL_X_CMDLINE_CTRL_X then
    some (c == Ctrl_X || c == Ctrl_Y || c == Ctrl_E
      || c == Ctrl_L || c == Ctrl_F || c == Ctrl_RSB
      || c == Ctrl_I || c == Ctrl_D || c == Ctrl_P
      || c == Ctrl_N || c == Ctrl_T || c == Ctrl_V
      || c == Ctrl_Q || c == Ctrl_U || c == Ctrl_O
      || c == Ctrl_S || c == Ctrl_K || c == 115
      || c == Ctrl_Z || c == Ctrl_R)
  else if mode = CTRL_X_SCROLL then some (c == Ctrl_Y || c == Ctrl_E)
  else if mode = CTRL_X_WHOLE_LINE then some (c == Ctrl_L || c == Ctrl_P || c == Ctrl_N)
  else if mode = CTRL_X_FILES then some (c == Ctrl_F || c == Ctrl_P || c == Ctrl_N)
  else if mode = CTRL_X_DICTIONARY then some (c == Ctrl_K || c == Ctrl_P || c == Ctrl_N)
  else if mode = CTRL_X_THESAURUS then some (c == Ctrl_T || c == Ctrl_P || c == Ctrl_N)
  else if mode = CTRL_X_TAGS then some (c == Ctrl_RSB || c == Ctrl_P || c == Ctrl_N)
  else if mode = CTRL_X_PATH_PATTERNS then some (c == Ctrl_P || c == Ctrl_N)
  else if mode = CTRL_X_PATH_DEFINES then some (c == Ctrl_D || c == Ctrl_P || c == Ctrl_N)
  else if mode = CTRL_X_CMDLINE then
    some (c == Ctrl_V || c == Ctrl_Q || c == Ctrl_P || c == Ctrl_N || c == Ctrl_X)
  else if mode = CTRL_X_FUNCTION then some (c == Ctrl_U || c == Ctrl_P || c == Ctrl_N)
  else if mode = CTRL_X_OMNI then some (c == Ctrl_O || c == Ctrl_P || c == Ctrl_N)
  else if mode = CTRL_X_SPELL then some (c == Ctrl_S || c == Ctrl_P || c == Ctrl_N)
  else if mode = CTRL_X_EVAL then some (c == Ctrl_P || c == Ctrl_N)
  else if mode = CTRL_X_BUFNAMES then some (c == Ctrl_P || c == Ctrl_N)
  else if mode = CTRL_X_REGISTER then some (c == Ctrl_R || c == Ctrl_P || c == Ctrl_N)
  else none

/-- Check that the character `c` is a valid key to go to or keep us in CTRL-X
mode.  This depends on the current mode. -/
def vim_is_ctrl_x_key (K : KeyCodes) (st : State) (c : Int) : Bool :=
  -- Always allow ^R - let its results then be checked
  if c == Ctrl_R && st.ctrl_x_mode != CTRL_X_REGISTER then true
  -- Accept <PageUp> and <PageDown> if the popup menu is visible.
  else if ins_compl_pum_key K st c then true
  else
    match ctrl_x_key_table st.ctrl_x_mode c with
    | some r => r
    | none => false  -- internal_error("vim_is_ctrl_x_key()")

/-- Set the CTRL-X completion mode based on the key `c` typed after a CTRL-X;
`vpeekc` is the next character of the typeahead.  Returns true when the
character is not to be inserted.  Moving the cursor back to the bad word
(spell) is outside the model. -/
def set_ctrl_x_mode (K : KeyCodes) (vpeekc : Int) (st : State) (c : Int) : Bool × State :=
  if c = Ctrl_E ∨ c = Ctrl_Y then
    -- scroll the window one line up or down
    (false, { st with
      ctrl_x_mode := CTRL_X_SCROLL
      edit_submode :=
        if !st.replace_flag then some (bytes " (insert) Scroll (^E/^Y)")
        else some (bytes " (replace) Scroll (^E/^Y)")
      edit_submode_pre := none
      redraw_mode := true })
  else if c = Ctrl_L then (false, { st with ctrl_x_mode := CTRL_X_WHOLE_LINE })
  else if c = Ctrl_F then (false, { st with ctrl_x_mode := CTRL_X_FILES })
  else if c = Ctrl_K then (false, { st with ctrl_x_mode := CTRL_X_DICTIONARY })
  else if c = Ctrl_R then
    -- When CTRL-R is followed by '=', don't trigger register completion
    if vpeekc = 61 then (false, st)
    else (false, { st with ctrl_x_mode := CTRL_X_REGISTER })
  else if c = Ctrl_T then (false, { st with ctrl_x_mode := CTRL_X_THESAURUS })
  else if c = Ctrl_U then (false, { st with ctrl_x_mode := CTRL_X_FUNCTION })
  else if c = Ctrl_O then (false, { st with ctrl_x_mode := CTRL_X_OMNI })
  else if c = 115 ∨ c = Ctrl_S then (false, { st with ctrl_x_mode := CTRL_X_SPELL })
  else if c = Ctrl_RSB then (false, { st with ctrl_x_mode := CTRL_X_TAGS })
  else if c = Ctrl_I ∨ c = K.K_S_TAB then (false, { st with ctrl_x_mode := CTRL_X_PATH_PATTERNS })
  else if c = Ctrl_D then (false, { st with ctrl_x_mode := CTRL_X_PATH_DEFINES })
  else if c = Ctrl_V ∨ c = Ctrl_Q then (false, { st with ctrl_x_mode := CTRL_X_CMDLINE })
  else if c = Ctrl_Z then
    -- stop completion
    (true, { st with ctrl_x_mode := CTRL_X_NORMAL, edit_submode := none, redraw_mode := true })
  else
    let st :=
      if c = Ctrl_P ∨ c = Ctrl_N then
        if st.compl_cont_status &&& CONT_INTRPT = 0 then
          { st with compl_cont_status := st.compl_cont_status ||| CONT_LOCAL }
        else if st.compl_cont_mode ≠ 0 then
          { st with compl_cont_status := clear_flag st.compl_cont_status CONT_LOCAL }
        else st
      else st
    let st :=
      if c = Ctrl_X then
        if st.compl_cont_mode ≠ 0 then { st with compl_cont_status := 0 }
        else { st with compl_cont_mode := CTRL_X_NOT_DEFINED_YET }
      else st
    (false, { st with ctrl_x_mode := CTRL_X_NORMAL, edit_submode := none, redraw_mode := true })

/-- The loop of `ins_compl_free` over the list, from entry `m`: it ends at
NULL or at the first entry.  The freed records stay in the arena, out of reach. -/
def free_matches (h : List compl_T) (first : Nat) : Nat → Nat → Option Unit
  | 0, _ => none
  | fuel + 1, m =>
    match (deref h m).cp_next with
    | none => some ()
    | some next => if next = first then some () else free_matches h first fuel next

/-- Free the list of completions. -/
def ins_compl_free (st : State) : Option State :=
  let st := { st with compl_pattern := none, compl_leader := none }
  match st.compl_first_match with
  | none => some st
  | some first =>
    let st := ins_compl_del_pum st
    match free_matches st.heap first (st.heap.length + 1) first with
    | none => none
    | some _ =>
      some { st with
        compl_first_match := none, compl_curr_match := none
        compl_shown_match := none, compl_old_match := none }

/-- Stop insert completion mode.  The edits of the buffer (removing the
pre-inserted text, the redo buffer, indenting and formatting, putting the
typed text back for CTRL-E) are outside the model, `line_after` being the text
of the cursor line after them; the autocommands are taken not to touch the
state.  `none` when `compl_shown_match` is NULL and read. -/
def ins_compl_stop (K : KeyCodes) (line_after : List Nat) (st : State) (c : Int)
    (prev_mode : Nat) (retval : Bool) : Option (Bool × State) :=
  -- If the popup menu is displayed pressing CTRL-Y means accepting
  -- the selection without inserting anything.  When
  -- compl_enter_selects is set the Enter key does the same.
  let accept := (c == Ctrl_Y || (st.compl_enter_selects
    && (c == CAR || c == K.K_KENTER || c == NL))) && pum_visible st
  if accept && st.compl_shown_match.isNone then none
  else
    let retval := if accept then true else retval
    -- CTRL-E means completion is Ended, go back to the typed text.
    let retval := if c == Ctrl_E then true else retval
    let st := { st with cursor_line := line_after }
    -- Trigger the CompleteDonePre event, with ctrl_x_mode restored.
    let st := { st with ctrl_x_mode := prev_mode }
    match ins_compl_free st with
    | none => none
    | some st =>
      let st := { st with
        compl_started := false
        compl_matches := 0
        ctrl_x_mode := CTRL_X_NORMAL
        compl_enter_selects := false }
      let st :=
        if st.edit_submode.isSome then { st with edit_submode := none, redraw_mode := true }
        else st
      some (retval, st)

/-- Prepare for Insert mode completion, or stop it; called just after typing
the character `c` in Insert mode.  Returns true when the character is not to
be inserted.  `fuel` bounds the depth of the recursion. -/
def ins_compl_prep_rounds (K : KeyCodes) (vpeekc : Int) (line_after : List Nat) :
    Nat → State → Int → Option (Bool × State)
  | 0, _, _ => none
  | fuel + 1, st, c =>
    let retval := false
    let prev_mode := st.ctrl_x_mode
    -- Forget any previous 'special' messages if this is actually
    -- a ^X mode key - bar ^R, in which case we wait to see what it gives us.
    let st :=
      if c != Ctrl_R && vim_is_ctrl_x_key K st c then { st with edit_submode_extra := none }
      else st
    -- Ignore end of Select mode mapping and mouse scroll/movement.
    if c == K.K_SELECT || c == K.K_MOUSEDOWN || c == K.K_MOUSEUP
        || c == K.K_MOUSELEFT || c == K.K_MOUSERIGHT || c == K.K_MOUSEMOVE
        || c == K.K_EVENT || c == K.K_COMMAND || c == K.K_LUA then
      some (retval, st)
    else
      let r1 : Option (Bool × State) :=
        if st.ctrl_x_mode = CTRL_X_CMDLINE_CTRL_X ∧ c ≠ Ctrl_X then
          if c == Ctrl_V || c == Ctrl_Q || c == Ctrl_Z || ins_compl_pum_key K st c
              || !vim_is_ctrl_x_key K st c then
            -- Not starting another completion mode.
            -- CTRL-X CTRL-Z should stop completion without inserting anything
            some (if c == Ctrl_Z then true else retval,
              { st with ctrl_x_mode := CTRL_X_CMDLINE })
          else
            -- Other CTRL-X keys first stop completion, then start another
            -- completion mode.
            match ins_compl_prep_rounds K vpeekc line_after fuel
                { st with ctrl_x_mode := CTRL_X_CMDLINE } 32 with
            | none => none
            | some (_, st) => some (retval, { st with ctrl_x_mode := CTRL_X_NOT_DEFINED_YET })
        else some (retval, st)
      match r1 with
      | none => none
      | some (retval, st) =>
        -- Set "compl_get_longest" when finding the first matches.
        let st :=
          if ctrl_x_mode_not_defined_yet st || (ctrl_x_mode_normal st && !st.compl_started) then
            { st with compl_get_longest := (get_cot_flags st).longest, compl_used_match := true }
          else st
        let r2 : Bool × State :=
          if ctrl_x_mode_not_defined_yet st then
            -- We have just typed CTRL-X and aren't quite sure which CTRL-X mode
            -- it will be yet.  Now we decide.
            set_ctrl_x_mode K vpeekc st c
          else if ctrl_x_mode_not_default st then
            -- We're already in CTRL-X mode, do we stay in it?
            let st :=
              if !vim_is_ctrl_x_key K st c then
                { st with
                  ctrl_x_mode := if ctrl_x_mode_scroll st then CTRL_X_NORMAL else CTRL_X_FINISHED
                  edit_submode := none }
              else st
            (retval, { st with redraw_mode := true })
          else (retval, st)
        let retval := r2.1
        let st := r2.2
        let r3 : Option (Bool × State) :=
          if st.compl_started || st.ctrl_x_mode == CTRL_X_FINISHED then
            let st := { st with redraw_mode := true }
            if (ctrl_x_mode_normal st && c != Ctrl_N && c != Ctrl_P && c != Ctrl_R
                && !ins_compl_pum_key K st c) || st.ctrl_x_mode == CTRL_X_FINISHED then
              ins_compl_stop K line_after st c prev_mode retval
            else some (retval, st)
          else some (retval, st)
        match r3 with
        | none => none
        | some (retval, st) =>
          -- reset continue_* if we left expansion-mode, if we stay they'll be
          -- (re)set properly in ins_complete()
          let st :=
            if !vim_is_ctrl_x_key K st c then
              { st with compl_cont_status := 0, compl_cont_mode := 0 }
            else st
          some (retval, st)

/-- The call `ins_compl_prep(c)`: the function calls itself at most once. -/
def ins_compl_prep (K : KeyCodes) (vpeekc : Int) (line_after : List Nat) (st : State)
    (c : Int) : Option (Bool × State) :=
  ins_compl_prep_rounds K vpeekc line_after 2 st c

/-! ## The shown match in the menu -/

/-- Whether the loop of `ins_compl_build_pum` takes entry `comp` after the
entries `done`: it passes the leader test and its source is not over its
cap. -/
def pum_takes (st0 : State) (passes : Nat → Bool) (done : List Nat) (comp : Nat) : Prop :=
  passes comp = true
    ∧ ¬ (0 < source_cap st0 (deref st0.heap comp).cp_cpt_source_idx
      ∧ source_cap st0 (deref st0.heap comp).cp_cpt_source_idx
        ≤ (((done.filter passes).countP fun y =>
            (deref st0.heap y).cp_cpt_source_idx
              == (deref st0.heap comp).cp_cpt_source_idx : Nat) : Int))

instance (st0 : State) (passes : Nat → Bool) (done : List Nat) (comp : Nat) :
    Decidable (pum_takes st0 passes done comp) := inferInstanceAs (Decidable (_ ∧ _))

/-- The menu entries that come before the entries `pre` end, that is, before
the shown match in the order of the list. -/
def menu_before (E : Ext) (st : State) (ns pre : List Nat) : List Nat :=
  (menu_candidates E st ns).filter fun p => decide (p ∈ pre)

/-- The first of the entries `menu` met when going along the ring `ns` from
entry `shown` on, `shown` included. -/
def first_at_or_after (menu ns : List Nat) (shown : Nat) : Option Nat :=
  ((ns.dropWhile fun p => p != shown) ++ ns.takeWhile fun p => p != shown).find?
    fun p => decide (p ∈ menu)

/-- The facts about the shown match that hold in the loop of
`ins_compl_build_pum` without fuzzy filtering, when the shown match `shown` at
the start is not the original text and the entries before it in the list are
`pre`: `done` are the entries handled and `inc` the entries put into the
menu. -/
def ShownInv (shown : Nat) (pre done inc : List Nat) (b : BuildPum) : Prop :=
  (shown ∉ done →
      b.shown_match_ok = false ∧ b.did_find_shown_match = false
        ∧ b.st.compl_shown_match = some shown ∧ b.shown_compl = inc.getLast?
        ∧ b.cur = (inc.length : Int) - 1)
    ∧ (shown ∈ done → shown ∈ inc ∨
        (((inc.filter fun p => decide (p ∈ pre)) ≠ [] →
            b.shown_match_ok = true
              ∧ b.st.compl_shown_match = (inc.filter fun p => decide (p ∈ pre)).getLast?
              ∧ b.cur = ((inc.filter fun p => decide (p ∈ pre)).length : Int) - 1)
          ∧ ((inc.filter fun p => decide (p ∈ pre)) = [] →
              b.did_find_shown_match = true
                ∧ (inc = [] → b.shown_match_ok = false
                    ∧ b.st.compl_shown_match = some shown ∧ b.cur = -1)
                ∧ (inc ≠ [] → b.shown_match_ok = true
                    ∧ b.st.compl_shown_match = inc.head? ∧ b.cur = 0))))

/-- The session `two_sources` with "alpha2", which is over the cap of its
source, as the shown match. -/
def two_sources_shown_capped : State := { two_sources with compl_shown_match := some 2 }

/-- A session in normal mode with the leader "he": the original text "he" and
the candidate "Hello", which was added ignoring case (CP_ICASE). -/
def icase_session : State :=
  { heap := [{ cp_str := bytes "he", cp_flags := CP_ORIGINAL_TEXT, cp_next := some 1,
               cp_prev := some 1, cp_cpt_source_idx := -1 },
             { cp_str := bytes "Hello", cp_flags := CP_ICASE, cp_prev := some 0,
               cp_next := some 0, cp_cpt_source_idx := -1 }]
    compl_first_match := some 0
    compl_curr_match := some 0
    compl_shown_match := some 0
    compl_leader := some (bytes "he")
    compl_orig_text := some (bytes "he")
    cot_flags := { menu := true } }

/-! ## Sequence numbers -/

/-- The record `c` after `c.cp_number = n`. -/
def set_number (n : Int) (c : compl_T) : compl_T := { c with cp_number := n }

/-- The first loop of `ins_compl_update_sequence_numbers` going forward: from
`m` back along `cp_prev` for the first entry with a number, up to the first
match.  Returns where the loop stops (NULL at the end of a list that is not
cyclic) and `number`. -/
def seek_number_back (st : State) : Nat → Option Nat → Option (Option Nat × Int)
  | 0, _ => none
  | _ + 1, none => some (none, 0)
  | fuel + 1, some m =>
    if is_first_match st m then some (some m, 0)
    else if (deref st.heap m).cp_number ≠ -1 then some (some m, (deref st.heap m).cp_number)
    else seek_number_back st fuel (deref st.heap m).cp_prev

/-- The first loop of `ins_compl_update_sequence_numbers` going backward: from
`m` on along `cp_next` for the first entry with a number, up to the first
match. -/
def seek_number_on (st : State) : Nat → Option Nat → Option (Option Nat × Int)
  | 0, _ => none
  | _ + 1, none => some (none, 0)
  | fuel + 1, some m =>
    if is_first_match st m then some (some m, 0)
    else if (deref st.heap m).cp_number ≠ -1 then some (some m, (deref st.heap m).cp_number)
    else seek_number_on st fuel (deref st.heap m).cp_next

/-- The second loop going forward: go up along `cp_next` and assign all
numbers which are not assigned yet. -/
def assign_numbers_up : Nat → List compl_T → Option Nat → Int → Option (List compl_T)
  | 0, _, _, _ => none
  | _ + 1, h, none, _ => some h
  | fuel + 1, h, some m, number =>
    if (deref h m).cp_number = -1 then
      let h := assign h m (set_number (number + 1))
      assign_numbers_up fuel h (deref h m).cp_next (number + 1)
    else some h

/-- The second loop going backward: go down along `cp_prev` and assign all
numbers which are not assigned yet. -/
def assign_numbers_down : Nat → List compl_T → Option Nat → Int → Option (List compl_T)
  | 0, _, _, _ => none
  | _ + 1, h, none, _ => some h
  | fuel + 1, h, some m, number =>
    if (deref h m).cp_number = -1 then
      let h := assign h m (set_number (number + 1))
      assign_numbers_down fuel h (deref h m).cp_prev (number + 1)
    else some h

/-- Assign the sequence number to all the completion matches which don't have
one assigned yet.  `none` when `compl_curr_match` is NULL. -/
def ins_compl_update_sequence_numbers (st : State) : Option State :=
  match st.compl_curr_match with
  | none => none
  | some curr =>
    if compl_dir_forward st then
      -- Search backwards for the first valid (!= -1) number.
      match seek_number_back st (st.heap.length + 1) (deref st.heap curr).cp_prev with
      | none => none
      | some (none, _) => some st
      | some (some m, number) =>
        -- go up and assign all numbers which are not assigned yet
        match assign_numbers_up (st.heap.length + 1) st.heap (deref st.heap m).cp_next
            number with
        | none => none
        | some h => some { st with heap := h }
    else
      -- Search forwards (upwards) for the first valid (!= -1) number.
      match seek_number_on st (st.heap.length + 1) (deref st.heap curr).cp_next with
      | none => none
      | some (none, _) => some st
      | some (some m, number) =>
        -- go down and assign all numbers which are not assigned yet
        match assign_numbers_down (st.heap.length + 1) st.heap (deref st.heap m).cp_prev
            number with
        | none => none
        | some h => some { st with heap := h }

/-- The arena after the entries `l` were given the numbers that follow
`number`, in this order. -/
def number_entries (h : List compl_T) : List Nat → Int → List compl_T
  | [], _ => h
  | b :: t, number => number_entries (assign h b (set_number (number + 1))) t (number + 1)

/-- A closed ring going forward: the original text with number 0, "one" with
number 1 and "two" without a number; the current match is `curr`. -/
def numbered_ring (curr : Nat) : State :=
  { heap := [{ cp_str := bytes "o", cp_flags := CP_ORIGINAL_TEXT, cp_next := some 1,
               cp_prev := some 2, cp_number := 0 },
             { cp_str := bytes "one", cp_prev := some 0, cp_next := some 2, cp_number := 1 },
             { cp_str := bytes "two", cp_prev := some 1, cp_next := some 0, cp_number := -1 }]
    compl_first_match := some 0
    compl_curr_match := some curr
    compl_shown_match := some curr
    compl_orig_text := some (bytes "o") }

/-! ## Sorting the list -/

/-- Make the completion list non-cyclic. -/
def ins_compl_make_linear (st : State) : State :=
  match st.compl_first_match with
  | none => st
  | some first =>
    match (deref st.heap first).cp_prev with
    | none => st
    | some m =>
      let h := assign st.heap m (set_next none)
      let h := assign h first (set_prev none)
      { st with heap := h }

/-- The entries of the NULL-terminated list that starts at `head`. -/
def list_nodes (h : List compl_T) : Nat → Option Nat → Option (List Nat)
  | 0, _ => none
  | _ + 1, none => some []
  | fuel + 1, some m => (list_nodes h fuel (deref h m).cp_next).map fun l => m :: l

/-- Link the entries `ns`, in this order, as a NULL-terminated list: `prev` is
the `cp_prev` of the first of them. -/
def link_nodes (h : List compl_T) (prev : Option Nat) : List Nat → List compl_T
  | [] => h
  | a :: t =>
    link_nodes (assign h a fun c => { c with cp_prev := prev, cp_next := t.head? }) (some a) t

/-- The call `mergesort_list(head, cp_get_next, cp_set_next, cp_get_prev,
cp_set_prev, compare)`.  The sort helper is not part of this file; it is taken
as putting the entries of the NULL-terminated list at `head` in the order that
`order` gives (a stable sort by `compare`, which reads the records) and
linking them anew.  Returns the arena and the new head. -/
def mergesort_list (order : List compl_T → List Nat → List Nat) (h : List compl_T)
    (head : Option Nat) : Option (List compl_T × Option Nat) :=
  match list_nodes h (h.length + 1) head with
  | none => none
  | some ns => some (link_nodes h none (order h ns), (order h ns).head?)

/-- The loop of `sort_compl_match_list` that finds the tail of the sorted
list. -/
def find_tail (h : List compl_T) : Nat → Nat → Option Nat
  | 0, _ => none
  | fuel + 1, m =>
    match (deref h m).cp_next with
    | none => some m
    | some n => find_tail h fuel n

/-- Sort completion matches, excluding the node that contains the leader.
`none` when a NULL pointer is read or a walk does not end. -/
def sort_compl_match_list (order : List compl_T → List Nat → List Nat) (st : State) :
    Option State :=
  match st.compl_first_match with
  | none => some st
  | some first =>
    if (deref st.heap first).cp_next = some first then some st
    else
      let comp := (deref st.heap first).cp_prev
      let st := ins_compl_make_linear st
      if compl_shows_dir_forward st then
        match (deref st.heap first).cp_next with
        | none => none
        | some n1 =>
          let h := assign st.heap n1 (set_prev none)
          match mergesort_list order h (deref h first).cp_next with
          | none => none
          | some (h, hd) =>
            let h := assign h first (set_next hd)
            match hd with
            | none => none
            | some hd =>
              let h := assign h hd (set_prev (some first))
              (ins_compl_make_cyclic { st with heap := h }).map fun r => r.2
      else
        match comp with
        | none => none
        | some comp =>
          match (deref st.heap comp).cp_prev with
          | none => none
          | some cprev =>
            let h := assign st.heap cprev (set_next none)
            match mergesort_list order h (some first) with
            | none => none
            | some (_, none) => none
            | some (h, some hd) =>
              let st := { st with heap := h, compl_first_match := some hd }
              match find_tail st.heap (st.heap.length + 1) hd with
              | none => none
              | some tail =>
                let h := assign st.heap tail (set_next (some comp))
                let h := assign h comp (set_prev (some tail))
                (ins_compl_make_cyclic { st with heap := h }).map fun r => r.2

/-- The order of a stable sort by descending `cp_score`, as the comparator of
the fuzzy sort has it. -/
def by_score (h : List compl_T) (l : List Nat) : List Nat :=
  l.insertionSort fun a b => (deref h b).cp_score ≤ (deref h a).cp_score

/-- A closed ring shown forward: the original text, then "lo" with score 1,
which is the current match, and "hi" with score 5. -/
def scored_ring : State :=
  { heap := [{ cp_str := bytes "x", cp_flags := CP_ORIGINAL_TEXT, cp_next := some 1,
               cp_prev := some 2 },
             { cp_str := bytes "lo", cp_prev := some 0, cp_next := some 2, cp_score := 1 },
             { cp_str := bytes "hi", cp_prev := some 1, cp_next := some 0, cp_score := 5 }]
    compl_first_match := some 0
    compl_curr_match := some 1
    compl_shown_match := some 1
    compl_orig_text := some (bytes "x") }

/-! ## Comparators and pattern quoting -/

/-- The comparator `cp_compare_fuzzy`: descending score. -/
def cp_compare_fuzzy (a b : compl_T) : Int :=
  let score_a := a.cp_score
  let score_b := b.cp_score
  if score_b > score_a then 1 else if score_b < score_a then -1 else 0

/-- The comparator `cp_compare_nearest`: ascending score, where a score of
zero compares equal to every score. -/
def cp_compare_nearest (a b : compl_T) : Int :=
  let score_a := a.cp_score
  let score_b := b.cp_score
  if score_a = 0 ∨ score_b = 0 then 0
  else if score_a > score_b then 1 else if score_a < score_b then -1 else 0

def ctrl_x_mode_thesaurus (st : State) : Bool := st.ctrl_x_mode == CTRL_X_THESAURUS

/-- The switch of `quote_meta`: whether a backslash is put before the byte `c`.
`magic` is the value of `magic_isset()`. -/
def quote_meta_quotes (st : State) (magic : Bool) (c : Nat) : Bool :=
  let dict := ctrl_x_mode_dictionary st || ctrl_x_mode_thesaurus st
  -- '.', '*', '['
  if c = 46 ∨ c = 42 ∨ c = 91 then !dict && magic && !dict
  -- '~'
  else if c = 126 then magic && !dict
  -- '\\'
  else if c = 92 then !dict
  -- '^', '$'
  else decide (c = 94 ∨ c = 36)

/-- The for loop of `quote_meta`.  `pos` is how far `src` has advanced, `len`
the value of `len` before the `--len` of the loop test, `m` the unsigned
counter and `dest` what has been written (`none` when `dest` is NULL). -/
def quote_meta_loop (E : Ext) (st : State) (magic : Bool) (src : List Nat) :
    Nat → Nat → Int → Nat → Option (List Nat) → Option (Nat × Option (List Nat))
  | 0, _, _, _, _ => none
  | fuel + 1, pos, len, m, dest =>
    let len := len - 1
    if len < 0 then some (m, dest)
    else
      let c := byteAt src pos
      let q := quote_meta_quotes st magic c
      let m := if q then (m + 1) % 2 ^ 32 else m
      let dest := if q then dest.map (· ++ [92]) else dest
      let dest := dest.map (· ++ [c])
      -- Copy remaining bytes of a multibyte character.
      let mb_len : Int := (E.utfc_ptr2len (src.drop pos) : Int) - 1
      if 0 < mb_len ∧ mb_len ≤ len then
        quote_meta_loop E st magic src fuel (pos + mb_len.toNat + 1) (len - mb_len) m
          (dest.map (· ++ (List.range mb_len.toNat).map fun i => byteAt src (pos + 1 + i)))
      else quote_meta_loop E st magic src fuel (pos + 1) len m dest

/-- Looks in the first `len` bytes of `src` for search metacharacters.  With
`dest` true the bytes are copied, quoting the metacharacters with a backslash,
and NUL terminated.  Returns the length needed and what was written. -/
def quote_meta (E : Ext) (st : State) (magic : Bool) (dest : Bool) (src : List Nat)
    (len : Int) : Option (Nat × Option (List Nat)) :=
  match quote_meta_loop E st magic src (len.toNat + 1) 0 len (((len + 1) % 2 ^ 32).toNat)
      (if dest then some [] else none) with
  | none => none
  | some (m, d) => some (m, d.map (· ++ [0]))

/-- The `n` bytes of `src` from offset `pos` on. -/
def src_bytes (src : List Nat) (pos n : Nat) : List Nat :=
  (List.range n).map fun i => byteAt src (pos + i)

/-- The C library `strcat`: `src` and a NUL written over the first NUL of
`dest`. -/
def strcat (dest src : List Nat) : List Nat :=
  dest.takeWhile (· ≠ 0) ++ src ++ [0]

/-- The pattern that `get_normal_compl_info` builds in its 7-byte buffer when
`compl_length` is 1: "\<", the quoted character at `compl_col` of the line, and
"\k".  Returns the bytes in the buffer after `quote_meta` and after `strcat`. -/
def one_char_pattern (E : Ext) (st : State) (magic : Bool) (line : List Nat)
    (compl_col : Nat) : Option (List Nat × List Nat) :=
  match quote_meta E st magic true (line.drop compl_col) 1 with
  | some (_, some w) => some ([92, 60] ++ w, strcat ([92, 60] ++ w) [92, 107])
  | _ => none

/-- The leader for candidate `comp` in the words of the specification: when a
leader is set, `compl_col` > 0, the source index of the candidate is >= 0 and
the start column `s` of its source has `0 ≤ s < compl_col`, the bytes of the
cursor line from `s` up to `compl_col` followed by `compl_leader`; in every
other case `compl_leader` itself. -/
def adjusted_leader_spec (st : State) (comp : Nat) : Option (List Nat) :=
  match st.cpt_sources_array, st.compl_leader with
  | some arr, some leader =>
    let idx := (deref st.heap comp).cp_cpt_source_idx
    let s := (arr.getD idx.toNat default).cs_startcol
    if 0 ≤ idx ∧ 0 < st.compl_col ∧ 0 ≤ s ∧ s < st.compl_col then
      some (src_bytes st.cursor_line s.toNat (st.compl_col - s).toNat ++ leader)
    else some leader
  | _, _ => st.compl_leader

/-- The session `two_sources` with the leader "al" at column 3 of the line
"x.yal", source 0 starting at column 1 and source 1 without a start column. -/
def startcol_session : State :=
  { two_sources with
    compl_leader := some (bytes "al")
    compl_col := 3
    cursor_line := bytes "x.yal"
    cpt_sources_array := some [{ cs_startcol := 1, cs_max_matches := 1 }, { cs_startcol := -1 }] }

/-- A session that collects fuzzy matches with "longest": the original text
"x", then "hi" with score 5 and "lo" with score 1, in a closed ring. -/
def fuzzy_ring : State :=
  { heap := [{ cp_str := bytes "x", cp_flags := CP_ORIGINAL_TEXT, cp_next := some 1,
               cp_prev := some 2 },
             { cp_str := bytes "hi", cp_prev := some 0, cp_next := some 2, cp_score := 5 },
             { cp_str := bytes "lo", cp_prev := some 1, cp_next := some 0, cp_score := 1 }]
    compl_first_match := some 0
    compl_curr_match := some 2
    compl_shown_match := some 0
    compl_orig_text := some (bytes "x")
    compl_get_longest := true
    cfc_flags := { keyword := true } }

/-- The session `fuzzy_ring` after "mid" was added with score 3. -/
def fuzzy_ring_mid : State :=
  { fuzzy_ring with
    heap := [{ cp_str := bytes "x", cp_flags := CP_ORIGINAL_TEXT, cp_next := some 1,
               cp_prev := some 2 },
             { cp_str := bytes "hi", cp_prev := some 0, cp_next := some 3, cp_score := 5 },
             { cp_str := bytes "lo", cp_prev := some 3, cp_next := some 0, cp_score := 1 },
             { cp_str := bytes "mid", cp_prev := some 1, cp_next := some 2, cp_score := 3,
               cp_number := -1, cp_user_abbr_hlattr := -1, cp_user_kind_hlattr := -1,
               cp_cpt_source_idx := -1 }]
    compl_curr_match := some 3 }

/-- The value of `found_end` after a round of the loop of
`find_next_completion_match` that moved the shown match from `cur` to `w`
(forward when `fwd`, backward otherwise). -/
def round_end (fwd : Bool) (st : State) (cur w : Nat) : Bool :=
  if fwd then
    st.compl_first_match.isSome
      && ((deref st.heap w).cp_next == st.compl_first_match || is_first_match st w)
  else is_first_match st cur || is_first_match st w

/-- The session `anchor_hello`, an open list of the original text "he" and
"hello", with "hello" shown and the display direction backward. -/
def open_list_backward : State :=
  { anchor_hello with compl_shown_match := some 1, compl_shows_dir := BACKWARD }

/-- The session `anchor_hello` with "hello", the last entry, shown, the display
direction forward and one step pending. -/
def last_shown_pending : State :=
  { anchor_hello with compl_shown_match := some 1, compl_pending := 1 }

/-- Whether the loop of `find_next_completion_match` takes the entry `w` as a
usable match: it is the original text, or no leader is set, or it matches the
leader of its source, or fuzzy filtering is on and it has a score. -/
def usable (E : Ext) (st : State) (w : Nat) : Bool :=
  !skips_match E (get_cot_flags st).fuzzy (deref st.heap w) (leader_for st w)

/-- Entry `b` is the one the shown match moves to from `a`: its `cp_next`
going forward, its `cp_prev` going backward. -/
def link_to (fwd : Bool) (h : List compl_T) (a b : Nat) : Prop :=
  (if fwd then (deref h a).cp_next else (deref h a).cp_prev) = some b

instance (fwd : Bool) (h : List compl_T) : DecidableRel (link_to fwd h) :=
  fun _ _ => inferInstanceAs (Decidable (_ = _))

/-- The loop of `find_next_completion_match` read on the list `ws` of the
entries that the shown match meets from `cur` on: `U` tells the usable
entries, `isEnd` the rounds that set `found_end`.  The result is the entry
shown when the loop ends, `none` when `ws` is used up before. -/
def walk_list (U : Nat → Bool) (isEnd : Nat → Nat → Bool) :
    Nat → List Nat → Int → Option Nat → Option Nat
  | cur, [], todo, _ => if todo - 1 < 0 then some cur else none
  | cur, w :: ws, todo, fc =>
    if todo - 1 < 0 then some cur
    else if isEnd cur w then
      match (if U w then some w else fc) with
      | some f => some f
      | none => walk_list U isEnd w ws 1 none
    else walk_list U isEnd w ws (if U w then todo - 1 else todo) (if U w then some w else fc)

/-- What makes the loop on the list `ws` end: with a usable entry found
already, `ws` holds the first entry of the list of matches; without one, `ws`
holds a usable entry and, at or after it, the first entry. -/
def EndsWithin (U : Nat → Bool) (first : Nat) (ws : List Nat) : Option Nat → Prop
  | some _ => first ∈ ws
  | none => ∃ A u B, ws = A ++ u :: B ∧ U u = true ∧ first ∈ u :: B

/-! ## Checking for keys while collecting -/

/-- The typeahead functions of getchar.c and the globals that
`ins_compl_check_keys` reads, over a type `I` of input states. -/
structure KeyInput (I : Type) where
  using_script : I → Bool
  ex_normal_busy : I → Bool
  test_disable_char_avail : I → Bool
  /-- The next key of the typeahead, NUL when there is none. -/
  vpeekc_any : I → Int
  /-- Take the next key. -/
  safe_vgetc : I → Int × I
  /-- The value of `KeyTyped`, set by the last `safe_vgetc`. -/
  KeyTyped : I → Bool
  /-- Put a key back. -/
  vungetc : Int → I → I

/-- A typeahead: the keys that wait, each with the value `KeyTyped` gets when
it is read. -/
structure Typeahead where
  keys : List (Int × Bool) := []
  key_typed : Bool := false
  script : Bool := false
  normal_busy : Bool := false
  no_char_avail : Bool := false
  deriving DecidableEq

/-- The typeahead functions on a `Typeahead`: keys are taken from the front,
and a key put back is the next one taken, with its `KeyTyped`. -/
def queue_input : KeyInput Typeahead where
  using_script := fun i => i.script
  ex_normal_busy := fun i => i.normal_busy
  test_disable_char_avail := fun i => i.no_char_avail
  vpeekc_any := fun i => match i.keys with | [] => NUL | (c, _) :: _ => c
  safe_vgetc := fun i =>
    match i.keys with
    | [] => (NUL, i)
    | (c, t) :: rest => (c, { i with keys := rest, key_typed := t })
  KeyTyped := fun i => i.key_typed
  vungetc := fun c i => { i with keys := (c, i.key_typed) :: i.keys }

/-- A sample value for `K_IGNORE`, by the scheme of keycodes.h. -/
def sample_K_IGNORE : Int := -(253 + 256 * 53)

/-- Decide the direction of Insert mode complete from the key typed;
`pum_want_item` is `pum_want.item`. -/
def ins_compl_key2dir (K : KeyCodes) (pum_want_item : Int) (st : State) (c : Int) : Direction :=
  if c == K.K_EVENT || c == K.K_COMMAND || c == K.K_LUA then
    if pum_want_item < st.compl_selected_item then BACKWARD else FORWARD
  else if c == Ctrl_P || c == Ctrl_L || c == K.K_PAGEUP || c == K.K_KPAGEUP
      || c == K.K_S_UP || c == K.K_UP then BACKWARD
  else FORWARD

/-- Decide the number of completions to move forward: 1 for most keys, the
height of the popup menu (`pum_height`, from `pum_get_height()`) for the
page-up and page-down keys. -/
def ins_compl_key2count (K : KeyCodes) (pum_want_item pum_height : Int) (st : State)
    (c : Int) : Int :=
  if c == K.K_EVENT || c == K.K_COMMAND || c == K.K_LUA then
    ((pum_want_item - st.compl_selected_item).natAbs : Int)
  else if ins_compl_pum_key K st c && c != K.K_UP && c != K.K_DOWN then
    if pum_height > 3 then pum_height - 2 else pum_height
  else 1

/-- The last statement of `ins_compl_check_keys`: when `compl_pending` is not
zero, show a completion as soon as possible. -/
def check_keys_pending (ins_compl_next : Bool → Int → Bool → State → State) (st : State) :
    State :=
  if st.compl_pending != 0 && !st.got_int && !st.cot_flags.noinsert then
    let todo := if st.compl_pending > 0 then st.compl_pending else -st.compl_pending
    ins_compl_next false todo true { st with compl_pending := 0 }
  else st

/-- Check whether the user has hit a key that should change the currently
displayed completion, or exit completion mode.  `count` is the static counter
of the function; `ins_compl_next`, which shows another match, is a parameter.
Returns the state, the counter and the input state. -/
def ins_compl_check_keys {I : Type} (G : KeyInput I) (K : KeyCodes) (K_IGNORE : Int)
    (ins_compl_next : Bool → Int → Bool → State → State) (pum_want_item pum_height : Int)
    (frequency : Int) (in_compl_func : Bool) (st : State) (count : Int) (inp : I) :
    State × Int × I :=
  -- Don't check when reading keys from a script, :normal or feedkeys().
  if !in_compl_func && (G.using_script inp || G.ex_normal_busy inp) then (st, count, inp)
  -- Only do this at regular intervals
  else if count + 1 < frequency then (st, count + 1, inp)
  else
    -- Check for a typed key.
    let c := G.vpeekc_any inp
    let r : State × I :=
      if c != NUL && !G.test_disable_char_avail inp then
        if vim_is_ctrl_x_key K st c && c != Ctrl_X && c != Ctrl_R then
          -- Eat the character
          let g := G.safe_vgetc inp
          let st := { st with compl_shows_dir := ins_compl_key2dir K pum_want_item st g.1 }
          (ins_compl_next false (ins_compl_key2count K pum_want_item pum_height st g.1)
            (g.1 != K.K_UP && g.1 != K.K_DOWN) st, g.2)
        else
          -- Need to get the character to have KeyTyped set.  It is put back
          -- with vungetc() below.  But skip K_IGNORE.
          let g := G.safe_vgetc inp
          if g.1 != K_IGNORE then
            -- Don't interrupt completion when the character wasn't typed.
            let st :=
              if g.1 != Ctrl_R && G.KeyTyped g.2 then { st with compl_interrupted := true }
              else st
            (st, G.vungetc g.1 g.2)
          else (st, g.2)
      else (st, inp)
    (check_keys_pending ins_compl_next r.1, 0, r.2)

/-- The session `anchor_hello` while collecting, nothing pending. -/
def collecting_session : State := { anchor_hello with compl_started := true }

/-! ## User defined completion functions -/

/-- A position in the buffer (`pos_T`). -/
structure Pos where
  lnum : Int := 1
  col : Int := 0
  coladd : Int := 0
  deriving DecidableEq, Repr, Inhabited

/-- One item that a completion function returned, as `ins_compl_add_tv` reads
it: a string gives only `word`; a dictionary gives the entries "word", "abbr",
"menu", "kind", "info", the attributes of "abbr_hlgroup" and "kind_hlgroup",
"user_data", "icase", "dup", "empty" and "equal". -/
structure TvItem where
  word : Option (List Nat) := none
  abbr : Option (List Nat) := none
  menu : Option (List Nat) := none
  kind : Option (List Nat) := none
  info : Option (List Nat) := none
  user_hl : Int × Int := (-1, -1)
  user_data : Option Nat := none
  icase : Bool := false
  dup : Bool := false
  empty : Bool := false
  equal : Bool := false
  deriving DecidableEq, Repr, Inhabited

/-- What a completion function returned (`rettv`): a list of items, a
dictionary with its "refresh" string and its "words" list, or anything else. -/
inductive CallbackReply where
  | list (items : List TvItem)
  | dict (refresh : Option (List Nat)) (words : Option (List TvItem))
  | other
  deriving DecidableEq, Repr

/-- The callbacks that a completion function is called through: one of a
function in the 'complete' option, or those of 'completefunc', 'omnifunc' and
of the local and the global 'thesaurusfunc'. -/
inductive CallbackId where
  | cpt (n : Nat)
  | b_cfu_cb
  | b_ofu_cb
  | b_tsrfu_cb
  | tsrfu_cb
  deriving DecidableEq, Repr

/-- The editor around insexpand.c as the user defined completion uses it, over
a type `W` of editor states: the cursor of the current window, `check_cursor`
and `validate_cursor`, the cursor line, `aborting()` and `did_emsg`, the
values of 'completefunc' and 'omnifunc', and the calls of a callback, which may
change the editor state and the file-level variables. -/
structure Editor (W : Type) where
  w_cursor : W → Pos
  set_cursor : Pos → W → W
  check_cursor : W → W
  validate_cursor : W → W
  cursor_line : W → List Nat
  aborting : W → Bool
  did_emsg : W → Bool
  b_p_cfu : W → List Nat
  b_p_ofu : W → List Nat
  /-- The call `callback_call(cb, 2, args, &rettv)` with `a:findstart` 0 and
  `a:base`; `none` when the call fails. -/
  callback_call : CallbackId → List Nat → W × State → Option CallbackReply × W × State
  /-- The call `callback_call_retnr(cb, 2, args)` with `a:findstart` 1. -/
  callback_call_retnr : CallbackId → W × State → Int × W × State

/-- Get the user-defined completion function name for completion `type`. -/
def get_complete_funcname {W : Type} (Ed : Editor W) (st : State) (w : W) (type : Nat) :
    List Nat :=
  if type = CTRL_X_FUNCTION then Ed.b_p_cfu w
  else if type = CTRL_X_OMNI then Ed.b_p_ofu w
  else if type = CTRL_X_THESAURUS then
    (if byteAt st.b_p_tsrfu 0 = 0 then st.p_tsrfu else st.b_p_tsrfu)
  else []

/-- Get the callback to use for insert mode completion. -/
def get_insert_callback (st : State) (type : Nat) : CallbackId :=
  if type = CTRL_X_FUNCTION then .b_cfu_cb
  else if type = CTRL_X_OMNI then .b_ofu_cb
  else if byteAt st.b_p_tsrfu 0 ≠ 0 then .b_tsrfu_cb else .tsrfu_cb

/-- The callback that `expand_by_function` and `get_userdefined_compl_info`
call: `cb` when it is not NULL, else the callback of the option for `type`,
and none at all when that option is empty. -/
def resolve_callback {W : Type} (Ed : Editor W) (st : State) (w : W) (type : Nat)
    (cb : Option CallbackId) : Option CallbackId :=
  match cb with
  | some c => some c
  | none =>
    if byteAt (get_complete_funcname Ed st w type) 0 = 0 then none
    else some (get_insert_callback st type)

/-- Add a match to the list of matches from a Vimscript object.  Returns
NOTDONE if the string is already in the list, OK if it was added, FAIL in case
of error. -/
def ins_compl_add_tv (E : Ext) (st : State) (tv : TvItem) (dir : Direction) (fast : Bool) :
    Option (Int × State) :=
  let flags := if fast then CP_FAST else 0
  let flags := if tv.icase then flags ||| CP_ICASE else flags
  let flags := if tv.equal then flags ||| CP_EQUAL else flags
  match tv.word with
  | none => some (FAIL, st)
  | some word =>
    if !tv.empty && byteAt word 0 == 0 then some (FAIL, st)
    else
      ins_compl_add E st word (-1) none
        (some { abbr := tv.abbr, menu := tv.menu, kind := tv.kind, info := tv.info })
        tv.user_data dir flags tv.dup (some tv.user_hl) 0

/-- The loop of `ins_compl_add_list` over the items, from direction `dir`. -/
def ins_compl_add_list_loop (E : Ext) (did_emsg : Bool) :
    List TvItem → Direction → State → Option State
  | [], _, st => some st
  | tv :: rest, dir, st =>
    match ins_compl_add_tv E st tv dir true with
    | none => none
    | some (r, st) =>
      -- If dir was BACKWARD then honor it just once.
      if r = OK then ins_compl_add_list_loop E did_emsg rest FORWARD st
      else if did_emsg then some st
      else ins_compl_add_list_loop E did_emsg rest dir st

/-- Add completions from a list. -/
def ins_compl_add_list (E : Ext) (did_emsg : Bool) (st : State) (list : List TvItem) :
    Option State :=
  ins_compl_add_list_loop E did_emsg list st.compl_direction st

/-- Add completions from a dict: its "refresh" item and its "words" list. -/
def ins_compl_add_dict (E : Ext) (did_emsg : Bool) (st : State)
    (refresh : Option (List Nat)) (words : Option (List TvItem)) : Option State :=
  -- Check for optional "refresh" item.
  let st := { st with compl_opt_refresh_always := false }
  let st :=
    match refresh with
    | some v => if v = bytes "always" then { st with compl_opt_refresh_always := true } else st
    | none => st
  -- Add completions from a "words" list.
  match words with
  | some l => ins_compl_add_list E did_emsg st l
  | none => some st

/-- Execute user defined complete function 'completefunc', 'omnifunc' or
'thesaurusfunc', and add its matches.  `cb` is set if triggered by a function
in the 'complete' option.  The text lock, the editor mode that is saved and
restored, and the error message are outside the model. -/
def expand_by_function {W : Type} (E : Ext) (Ed : Editor W) (type : Nat)
    (base : Option (List Nat)) (cb : Option CallbackId) (st : State) (w : W) :
    Option (State × W) :=
  match resolve_callback Ed st w type cb with
  | none => some (st, w)
  | some c =>
    let pos := Ed.w_cursor w
    -- Call a function, which returns a list or dict.
    let r := Ed.callback_call c (base.getD []) (w, st)
    -- restore the cursor position
    let w := Ed.set_cursor pos r.2.1
    -- make sure cursor position is valid, just in case
    let w := Ed.check_cursor w
    let w := Ed.validate_cursor w
    if Ed.w_cursor w ≠ pos then some (r.2.2, w)
    else
      match r.1 with
      | some (.list items) => (ins_compl_add_list E (Ed.did_emsg w) r.2.2 items).map (·, w)
      | some (.dict refresh words) =>
        (ins_compl_add_dict E (Ed.did_emsg w) r.2.2 refresh words).map (·, w)
      | _ => some (r.2.2, w)

/-- What `get_userdefined_compl_info` returns and leaves behind: the return
code, the column stored through `startcol`, the value assigned to
`compl_length`, which is not among the fields of `State`, and the states. -/
structure ProbeResult (W : Type) where
  ret : Int
  startcol : Option Int := none
  compl_length : Option Int := none
  st : State
  w : W

/-- The part of `set_compl_globals` for a completion function that is not one
of the 'complete' option: `compl_pattern`, `compl_col` and `compl_length`. -/
def set_compl_globals {W : Type} (Ed : Editor W) (startcol curs_col : Int) (st : State)
    (w : W) : State × Int :=
  let startcol := if startcol < 0 ∨ startcol > curs_col then curs_col else startcol
  -- Re-obtain line in case it has changed
  let line := Ed.cursor_line w
  let len := curs_col - startcol
  ({ st with compl_pattern := some (src_bytes line startcol.toNat len.toNat)
             compl_col := startcol }, len)

/-- Get the pattern, column and length for user defined completion
('omnifunc', 'completefunc' and 'thesaurusfunc').  `cb` is set if triggered by
a function in the 'complete' option; `want_startcol` tells whether `startcol`
is not NULL.  The messages are outside the model. -/
def get_userdefined_compl_info {W : Type} (Ed : Editor W) (curs_col : Int)
    (cb : Option CallbackId) (want_startcol : Bool) (st : State) (w : W) : ProbeResult W :=
  match resolve_callback Ed st w st.ctrl_x_mode cb with
  | none => { ret := FAIL, st := st, w := w }
  | some c =>
    let pos := Ed.w_cursor w
    let r := Ed.callback_call_retnr c (w, st)
    let col := r.1
    let st := r.2.2
    -- restore the cursor position
    let w := Ed.set_cursor pos r.2.1
    -- make sure cursor position is valid, just in case
    let w := Ed.check_cursor w
    let w := Ed.validate_cursor w
    if Ed.w_cursor w ≠ pos then { ret := FAIL, st := st, w := w }
    else
      let out := if want_startcol then some col else none
      -- Return value -2 means the user complete function wants to cancel the
      -- complete without an error.
      if col = -2 ∨ Ed.aborting w then { ret := FAIL, startcol := out, st := st, w := w }
      -- Return value -3 does the same as -2 and leaves CTRL-X mode.
      else if col = -3 then
        if cb.isSome then { ret := FAIL, startcol := out, st := st, w := w }
        else
          { ret := FAIL, startcol := out,
            st := { st with ctrl_x_mode := CTRL_X_NORMAL, edit_submode := none }, w := w }
      else
        -- Reset extended parameters of completion, when starting new completion.
        let st := { st with compl_opt_refresh_always := false }
        if !cb.isSome then
          let g := set_compl_globals Ed col curs_col st w
          { ret := OK, startcol := out, compl_length := some g.2, st := g.1, w := w }
        else { ret := OK, startcol := out, st := st, w := w }

/-- A buffer with a cursor. -/
structure Buffer where
  cursor : Pos := {}
  lines : List (List Nat) := []
  deriving DecidableEq, Repr

/-- An editor on a `Buffer`, with given completion functions: `check_cursor`
brings the cursor back into the text, 'completefunc' is set and 'omnifunc' is
not. -/
def buffer_editor
    (call : CallbackId → List Nat → Buffer × State → Option CallbackReply × Buffer × State)
    (call_retnr : CallbackId → Buffer × State → Int × Buffer × State) : Editor Buffer where
  w_cursor := fun w => w.cursor
  set_cursor := fun p w => { w with cursor := p }
  check_cursor := fun w =>
    let lnum := max 1 (min w.cursor.lnum w.lines.length)
    let len : Int := (w.lines.getD (lnum.toNat - 1) []).length
    { w with cursor := { lnum := lnum, col := max 0 (min w.cursor.col len),
                         coladd := w.cursor.coladd } }
  validate_cursor := fun w => w
  cursor_line := fun w => w.lines.getD (w.cursor.lnum.toNat - 1) []
  aborting := fun _ => false
  did_emsg := fun _ => false
  b_p_cfu := fun _ => bytes "CompleteFunc"
  b_p_ofu := fun _ => []
  callback_call := call
  callback_call_retnr := call_retnr

/-- A completion function that moves the cursor to the start of the first
line, adds a line at the end of the buffer, and returns the one word
"hello". -/
def moving_callback (_ : CallbackId) (_ : List Nat) (x : Buffer × State) :
    Option CallbackReply × Buffer × State :=
  (some (.list [{ word := some (bytes "hello") }]),
    { cursor := { lnum := 1, col := 0 }, lines := x.1.lines ++ [bytes "more"] }, x.2)

/-- A find-start probe that moves the cursor to the start of the first line,
adds a line at the end of the buffer, and returns column 0. -/
def moving_probe (_ : CallbackId) (x : Buffer × State) : Int × Buffer × State :=
  (0, { cursor := { lnum := 1, col := 0 }, lines := x.1.lines ++ [bytes "more"] }, x.2)

/-- A completion function that deletes the text of the buffer and returns the
one word "hello". -/
def deleting_callback (_ : CallbackId) (_ : List Nat) (x : Buffer × State) :
    Option CallbackReply × Buffer × State :=
  (some (.list [{ word := some (bytes "hello") }]), { x.1 with lines := [[]] }, x.2)

/-- The buffer with the one line "he" and the cursor after it. -/
def he_buffer : Buffer := { cursor := { lnum := 1, col := 2 }, lines := [bytes "he"] }

/-- The session `anchor_only` in 'completefunc' completion. -/
def function_session : State := { anchor_only with ctrl_x_mode := CTRL_X_FUNCTION }

/-- A find-start probe that deletes the text of the buffer and returns
column 0. -/
def deleting_probe (_ : CallbackId) (x : Buffer × State) : Int × Buffer × State :=
  (0, { x.1 with lines := [[]] }, x.2)

/-! ## Characters of a text -/

/-- The characters of the text `s` as `ins_compl_longest_match` reads them:
`utf_ptr2char` at the start, then on from `utfc_ptr2len` bytes further, up to
the NUL.  The fuel is the byte length of the text. -/
def chars (E : Ext) : Nat → List Nat → List Nat
  | 0, _ => []
  | fuel + 1, s =>
    if byteAt s 0 = 0 then []
    else E.utf_ptr2char s :: chars E fuel (s.drop (E.utfc_ptr2len s))

/-- The characters of the text `s`. -/
def text_chars (E : Ext) (s : List Nat) : List Nat := chars E s.length s

/-- The character `c` as it is compared: folded to lower case when case is
ignored. -/
def fold_char (E : Ext) (icase : Bool) (c : Nat) : Nat := if icase then E.mb_tolower c else c

/-- Whether the candidate carries CP_ICASE. -/
def has_icase (m : compl_T) : Bool := m.cp_flags &&& CP_ICASE != 0

/-- The text `L` is, character by character, a prefix of the text of the
candidate `m`, compared without regard to case when `m` carries CP_ICASE. -/
def agrees_with (E : Ext) (m : compl_T) (L : List Nat) : Prop :=
  (text_chars E L).map (fold_char E (has_icase m))
    <+: (text_chars E m.cp_str).map (fold_char E (has_icase m))

/-- What the loop of `ins_compl_longest_match` relies on in the functions of
mbyte.c: a character is NUL exactly at the end of the text, a character takes
at least one byte and lies within the text, reading a character does not look
past its bytes, and only NUL folds to NUL. -/
structure WellRead (E : Ext) : Prop where
  char_nul : ∀ s, byteAt s 0 = 0 → E.utf_ptr2char s = 0
  char_pos : ∀ s, byteAt s 0 ≠ 0 → E.utf_ptr2char s ≠ 0
  len_pos : ∀ s, byteAt s 0 ≠ 0 → 1 ≤ E.utfc_ptr2len s
  len_le : ∀ s, E.utfc_ptr2len s ≤ s.length
  local_char : ∀ s n, E.utfc_ptr2len s ≤ n → E.utf_ptr2char (s.take n) = E.utf_ptr2char s
  local_len : ∀ s n, E.utfc_ptr2len s ≤ n → E.utfc_ptr2len (s.take n) = E.utfc_ptr2len s
  tolower_zero : ∀ c, E.mb_tolower c = 0 ↔ c = 0

/-- How many characters at the start of `x` and `y` are equal under `f`. -/
def common_len (f : Nat → Nat) : List Nat → List Nat → Nat
  | a :: as, b :: bs => if f a = f b then common_len f as bs + 1 else 0
  | _, _ => 0

/-- The characters `c` cut down to those that the candidate `m` has at its
start as well, compared as `m` asks for. -/
def narrow (E : Ext) (h : List compl_T) (c : List Nat) (m : Nat) : List Nat :=
  c.take (common_len (fold_char E (has_icase (deref h m))) c (text_chars E (deref h m).cp_str))

/-- The session `three_matches` before a leader is set. -/
def no_leader_session : State := { three_matches [] {} with compl_leader := none }

/-! ## Removing the matches of a source -/

/-- The local variables of the first loop of `remove_old_matches`. -/
structure Scan where
  sublist_start : Option Nat := none
  sublist_end : Option Nat := none
  insert_at : Option Nat := none
  compl_shown_removed : Bool := false
  deriving DecidableEq, Repr

/-- The two `if` statements in the body of the first loop of
`remove_old_matches`, for the entry `current`. -/
def remove_scan_step (st : State) (forward : Bool) (current : Nat) (s : Scan) : Scan :=
  let idx := (deref st.heap current).cp_cpt_source_idx
  let s :=
    if idx < st.cpt_sources_index ∧ (forward = true ∨ (forward = false ∧ s.insert_at = none)) then
      { s with insert_at := some current }
    else s
  if idx = st.cpt_sources_index then
    { s with
      sublist_start := if s.sublist_start = none then some current else s.sublist_start
      sublist_end := some current
      compl_shown_removed :=
        if !s.compl_shown_removed && st.compl_shown_match == some current then true
        else s.compl_shown_removed }
  else s

/-- The first loop of `remove_old_matches`: identify the sublist of old matches
that needs removal. -/
def remove_scan (st : State) (forward : Bool) : Nat → Option Nat → Scan → Option Scan
  | 0, _, _ => none
  | _ + 1, none, s => some s
  | fuel + 1, some current, s =>
    let s := remove_scan_step st forward current s
    if (forward = true ∧ (deref st.heap current).cp_cpt_source_idx > st.cpt_sources_index)
        ∨ (forward = false ∧ s.insert_at ≠ none) then some s
    else remove_scan st forward fuel (deref st.heap current).cp_next s

/-- The loop of `remove_old_matches` that goes to the last node of the list. -/
def walk_to_last (h : List compl_T) : Nat → Nat → Option Nat
  | 0, _ => none
  | fuel + 1, current =>
    match (deref h current).cp_next with
    | none => some current
    | some n => walk_to_last h fuel n

/-- Remove the matches linked to the current completion source (as indicated by
`cpt_sources_index`) from the completion list.  Returns the node to insert
after and the new state; `none` when a NULL pointer is dereferenced or a walk
does not end.  The nodes that are freed stay in the arena, out of the list. -/
def remove_old_matches (st : State) : Option (Option Nat × State) :=
  match st.compl_first_match with
  | none => none
  | some first =>
    let forward : Bool := decide ((deref st.heap first).cp_cpt_source_idx < 0)
    let st := { st with compl_direction := if forward then FORWARD else BACKWARD
                        compl_shows_dir := if forward then FORWARD else BACKWARD }
    -- Identify the sublist of old matches that needs removal
    match remove_scan st forward (st.heap.length + 1) (some first) {} with
    | none => none
    | some s =>
      -- Re-assign compl_shown_match if necessary
      let shown : Option (Option Nat) :=
        if s.compl_shown_removed then
          if forward then some st.compl_first_match
          -- Last node will have the prefix that is being completed
          else (walk_to_last st.heap (st.heap.length + 1) first).map some
        else some st.compl_shown_match
      match shown with
      | none => none
      | some shown =>
        let st := { st with compl_shown_match := shown }
        match s.sublist_start, s.sublist_end with
        | some sublist_start, some sublist_end =>
          -- Update links to remove sublist
          let h := st.heap
          let first1 :=
            if (deref h sublist_start).cp_prev = none then (deref h sublist_end).cp_next
            else st.compl_first_match
          let h := assignOpt h (deref h sublist_start).cp_prev
            (set_next (deref h sublist_end).cp_next)
          let h := assignOpt h (deref h sublist_end).cp_next
            (set_prev (deref h sublist_start).cp_prev)
          -- Free all nodes in the sublist
          let h := assign h sublist_end (set_next none)
          some (s.insert_at, { st with heap := h, compl_first_match := first1 })
        | _, _ =>
          -- No nodes to remove
          some (s.insert_at, st)

/-- The entries met from `p` on along `cp_next`, at most `fuel` of them. -/
def list_from (h : List compl_T) : Nat → Option Nat → List Nat
  | 0, _ => []
  | _ + 1, none => []
  | fuel + 1, some p => p :: list_from h fuel (deref h p).cp_next

/-- An open list in which the sources are mixed, as the sort by fuzzy score in
`ins_compl_new_leader` leaves it: the original text, then "a1" of source 1
(score 30), "b" of source 0 (score 20) and "a2" of source 1 (score 10); source
1, which asks to be refreshed always, is the current one. -/
def mixed_sources : State :=
  { heap := [{ cp_str := bytes "x", cp_flags := CP_ORIGINAL_TEXT, cp_next := some 1,
               cp_cpt_source_idx := -1 },
             { cp_str := bytes "a1", cp_prev := some 0, cp_next := some 2,
               cp_cpt_source_idx := 1, cp_score := 30 },
             { cp_str := bytes "b", cp_prev := some 1, cp_next := some 3,
               cp_cpt_source_idx := 0, cp_score := 20 },
             { cp_str := bytes "a2", cp_prev := some 2, cp_cpt_source_idx := 1,
               cp_score := 10 }]
    compl_first_match := some 0
    compl_curr_match := some 0
    compl_shown_match := some 0
    compl_orig_text := some (bytes "x")
    compl_started := true
    cot_flags := { fuzzy := true }
    cpt_sources_array := some [{}, { cs_refresh_always := true }]
    cpt_sources_count := 2
    cpt_sources_index := 1 }

/-- An open list with the sources in order: the original text, "b" of source
0, then "a1" and "a2" of source 1; source 1 is the current one. -/
def ordered_sources : State :=
  { heap := [{ cp_str := bytes "x", cp_flags := CP_ORIGINAL_TEXT, cp_next := some 1,
               cp_cpt_source_idx := -1 },
             { cp_str := bytes "b", cp_prev := some 0, cp_next := some 2,
               cp_cpt_source_idx := 0 },
             { cp_str := bytes "a1", cp_prev := some 1, cp_next := some 3,
               cp_cpt_source_idx := 1 },
             { cp_str := bytes "a2", cp_prev := some 2, cp_cpt_source_idx := 1 }]
    compl_first_match := some 0
    compl_curr_match := some 0
    compl_shown_match := some 0
    compl_orig_text := some (bytes "x")
    cpt_sources_array := some [{}, {}]
    cpt_sources_count := 2
    cpt_sources_index := 1 }

/-- An open backward list with the sources in order: "a2" and "a1" of source
1, "b" of source 0, then the original text; source 0 is the current one. -/
def ordered_sources_backward : State :=
  { heap := [{ cp_str := bytes "a2", cp_next := some 1, cp_cpt_source_idx := 1 },
             { cp_str := bytes "a1", cp_prev := some 0, cp_next := some 2,
               cp_cpt_source_idx := 1 },
             { cp_str := bytes "b", cp_prev := some 1, cp_next := some 3,
               cp_cpt_source_idx := 0 },
             { cp_str := bytes "x", cp_flags := CP_ORIGINAL_TEXT, cp_prev := some 2,
               cp_cpt_source_idx := -1 }]
    compl_first_match := some 0
    compl_curr_match := some 3
    compl_shown_match := some 2
    compl_orig_text := some (bytes "x")
    cpt_sources_array := some [{}, {}]
    cpt_sources_count := 2
    cpt_sources_index := 0 }

/-- The first loop of `remove_old_matches` read on the list of the entries
that it meets. -/
def scan_list (st : State) (forward : Bool) : List Nat → Scan → Scan
  | [], s => s
  | current :: rest, s =>
    if (forward = true ∧ (deref st.heap current).cp_cpt_source_idx > st.cpt_sources_index)
        ∨ (forward = false ∧ (remove_scan_step st forward current s).insert_at ≠ none) then
      remove_scan_step st forward current s
    else scan_list st forward rest (remove_scan_step st forward current s)

/-- Whether `get_leader_for_startcol` puts text of the line before the leader
for the entry `comp`: sources are set up, the entry is of one of them, and that
source has a start column of its own, before `compl_col`. -/
def source_starts_before (st : State) (comp : Nat) : Bool :=
  match st.cpt_sources_array with
  | none => false
  | some arr =>
    let cpt_idx := (deref st.heap comp).cp_cpt_source_idx
    decide (¬ (cpt_idx < 0 ∨ st.compl_col ≤ 0)
      ∧ 0 ≤ (arr.getD cpt_idx.toNat default).cs_startcol
      ∧ (arr.getD cpt_idx.toNat default).cs_startcol < st.compl_col)

/-- The session `three_matches` with the leader "hell", after a search for
matches that was interrupted. -/
def interrupted_session : State :=
  { three_matches (bytes "hell") {} with compl_was_interrupted := true }

/-! ## Characters with composing characters -/

/-- A model of `utf_ptr2len` of mbyte.c (not under src/) for texts of one-byte
and two-byte UTF-8 characters: 0 at the NUL, 2 for a lead byte 0xC2..0xDF
followed by a trail byte 0x80..0xBF, 1 otherwise. -/
def utf_ptr2len (p : List Nat) : Nat :=
  if byteAt p 0 = 0 then 0
  else if 0xC2 ≤ byteAt p 0 ∧ byteAt p 0 ≤ 0xDF ∧ byteAt p 1 / 64 = 2 then 2
  else 1

/-- A model of `utf_ptr2char` of mbyte.c (not under src/) for the same texts:
the byte itself below 0x80, the code point of a two-byte sequence, and the
first byte for anything else. -/
def utf_ptr2char (p : List Nat) : Nat :=
  if byteAt p 0 < 0x80 then byteAt p 0
  else if 0xC2 ≤ byteAt p 0 ∧ byteAt p 0 ≤ 0xDF ∧ byteAt p 1 / 64 = 2 then
    byteAt p 0 % 32 * 64 + byteAt p 1 % 64
  else byteAt p 0

/-- A model of `utf_iscomposing` of mbyte.c (not under src/): the combining
diacritical marks U+0300..U+036F, the first range of its table. -/
def utf_iscomposing (c : Nat) : Bool := decide (0x300 ≤ c ∧ c ≤ 0x36F)

/-- The loop of `utfc_ptr2len` that goes over the composing characters after
the character of `len` bytes at the start of `p`. -/
def utfc_ptr2len_loop (p : List Nat) : Nat → Nat → Nat
  | 0, len => len
  | fuel + 1, len =>
    if byteAt p len < 0x80 ∨ utf_iscomposing (utf_ptr2char (p.drop len)) = false then len
    else utfc_ptr2len_loop p fuel (len + utf_ptr2len (p.drop len))

/-- A model of `utfc_ptr2len` of mbyte.c (not under src/): the length in bytes
of the character at the start of `p` with the composing characters that follow
it. -/
def utfc_ptr2len (p : List Nat) : Nat :=
  if byteAt p 0 = 0 then 0
  else if byteAt p 0 < 0x80 ∧ byteAt p 1 < 0x80 then 1
  else if utf_ptr2len p = 1 ∧ 0x80 ≤ byteAt p 0 then 1
  else utfc_ptr2len_loop p p.length (utf_ptr2len p)

/-- The external character functions of `ascii_ops` with `utf_ptr2char` and
`utfc_ptr2len` reading two-byte characters and composing characters. -/
def composing_ops : Ext :=
  { ascii_ops with utf_ptr2char := utf_ptr2char, utfc_ptr2len := utfc_ptr2len }

/-- A session without a leader that holds the original text "e" and the
candidates "e" with an acute accent followed by "t" and "e" with a grave accent
followed by "s", both accents written as composing characters (U+0301 is the
bytes 0xCC 0x81, U+0300 the bytes 0xCC 0x80). -/
def accents_session : State :=
  { heap := [{ cp_str := bytes "e", cp_flags := CP_ORIGINAL_TEXT, cp_next := some 1,
               cp_prev := some 2, cp_cpt_source_idx := -1 },
             { cp_str := [0x65, 0xCC, 0x81, 0x74], cp_prev := some 0, cp_next := some 2,
               cp_cpt_source_idx := -1 },
             { cp_str := [0x65, 0xCC, 0x80, 0x73], cp_prev := some 1, cp_next := some 0,
               cp_cpt_source_idx := -1 }]
    compl_first_match := some 0
    compl_curr_match := some 0
    compl_shown_match := some 0
    compl_orig_text := some (bytes "e")
    compl_started := true }

/-! # Properties -/

theorem linked_iff_chain (h : List compl_T) :
    ∀ (ns : List Nat), Linked h ns ↔ List.Chain' (Adjacent h) ns
  | [] => by simp [Linked]
  | [_] => by simp [Linked]
  | a :: b :: t => by
    rw [List.chain'_cons, ← linked_iff_chain h (b :: t)]
    rfl

theorem segment_chain {h : List compl_T} {ns : List Nat} (hs : Segment h ns) :
    List.Chain' (Adjacent h) ns :=
  (linked_iff_chain h ns).mp hs.2.2

theorem length_assign (h : List compl_T) (p : Nat) (f : compl_T → compl_T) :
    (assign h p f).length = h.length := by
  simp [assign]

theorem deref_assign (h : List compl_T) (p q : Nat) (f : compl_T → compl_T) :
    deref (assign h p f) q = if q = p ∧ p < h.length then f (deref h p) else deref h q := by
  unfold assign
  by_cases hqp : q = p
  · subst hqp
    by_cases hlt : q < h.length
    · simp [deref, hlt]
    · have hle : h.length ≤ q := by omega
      simp [deref, hlt, List.getElem?_eq_none, hle]
  · have : ¬ p = q := fun e => hqp e.symm
    simp [deref, hqp, this, List.getElem?_set]

theorem deref_assign_ne (h : List compl_T) (p q : Nat) (f : compl_T → compl_T) (hne : q ≠ p) :
    deref (assign h p f) q = deref h q := by
  simp [deref_assign, hne]

theorem deref_assign_same (h : List compl_T) (p : Nat) (f : compl_T → compl_T)
    (hp : p < h.length) : deref (assign h p f) p = f (deref h p) := by
  simp [deref_assign, hp]

theorem deref_append_lt (h : List compl_T) (x : compl_T) (q : Nat) (hq : q < h.length) :
    deref (h ++ [x]) q = deref h q := by
  unfold deref
  simp [List.getD_eq_getElem?_getD, List.getElem?_append_left hq]

theorem deref_append_new (h : List compl_T) (x : compl_T) :
    deref (h ++ [x]) h.length = x := by
  unfold deref
  simp [List.getD_eq_getElem?_getD]

theorem segment_length_le {h : List compl_T} {ns : List Nat} (hs : Segment h ns) :
    ns.length ≤ h.length := by
  have hsub : ns ⊆ List.range h.length := fun a ha => List.mem_range.mpr (hs.2.1 a ha)
  simpa using (List.subperm_of_subset hs.1 hsub).length_le

theorem walkFrom_of_chain (h : List compl_T) (first : Nat) :
    ∀ (post : List Nat) (m : Nat), List.Chain' (Adjacent h) (m :: post) → first ∉ post →
      ((deref h (lastOf m post)).cp_next = none
        ∨ (deref h (lastOf m post)).cp_next = some first) →
      WalkFrom h first m post
  | [], m, _, _, hend => by simpa [WalkFrom, lastOf] using hend
  | b :: post, m, hc, hnot, hend => by
    rw [List.chain'_cons] at hc
    refine ⟨hc.1.1, ?_, walkFrom_of_chain h first post b hc.2 ?_ ?_⟩
    · intro e; exact hnot (by simp [e])
    · intro hm; exact hnot (List.mem_cons_of_mem _ hm)
    · simpa [lastOf] using hend

theorem walkFrom_of_linear {h : List compl_T} {first : Nat} {rest : List Nat}
    (hl : IsLinear h first rest) : WalkFrom h first first rest :=
  walkFrom_of_chain h first rest first (segment_chain hl.1) (List.nodup_cons.mp hl.1.1).1 (Or.inl hl.2.2)

theorem walkFrom_of_cyclic {h : List compl_T} {first : Nat} {rest : List Nat}
    (hl : IsCyclic h first rest) : WalkFrom h first first rest :=
  walkFrom_of_chain h first rest first (segment_chain hl.1) (List.nodup_cons.mp hl.1.1).1 (Or.inr hl.2.2)

theorem find_duplicate_eq (h : List compl_T) (first : Nat) (str : List Nat) (len : Nat) :
    ∀ (post : List Nat) (m fuel : Nat), WalkFrom h first m post → post.length < fuel →
      find_duplicate h first str len fuel m
        = some ((m :: post).find? fun p => is_duplicate (deref h p) str len)
  | [], m, fuel + 1, hw, _ => by
    cases hd : is_duplicate (deref h m) str len
    · rcases hw with hw | hw <;> simp [find_duplicate, hd, hw, List.find?]
    · simp [find_duplicate, hd, List.find?]
  | b :: post, m, fuel + 1, hw, hf => by
    obtain ⟨hn, hb, hw⟩ := hw
    cases hd : is_duplicate (deref h m) str len
    · have ih := find_duplicate_eq h first str len post b fuel hw (by simpa using hf)
      simp only [find_duplicate, hd, hn, hb, if_false, ih]
      simp [List.find?, hd]
    · simp [find_duplicate, hd, List.find?]

theorem next_mem_of_chain (h : List compl_T) :
    ∀ (post : List Nat) (m p q : Nat), List.Chain' (Adjacent h) (m :: post) → p ∈ m :: post →
      (deref h p).cp_next = some q → q ∈ post ∨ p = lastOf m post
  | [], m, p, q, _, hp, _ => by right; simpa [lastOf] using hp
  | b :: post, m, p, q, hc, hp, hq => by
    rw [List.chain'_cons] at hc
    rcases List.mem_cons.mp hp with rfl | hp
    · left
      have := hc.1.1
      rw [hq] at this
      simp [Option.some.inj this]
    · rcases next_mem_of_chain h post b p q hc.2 hp hq with h1 | h1
      · left; exact List.mem_cons_of_mem _ h1
      · right; simpa [lastOf] using h1

theorem prev_mem_of_chain (h : List compl_T) :
    ∀ (post : List Nat) (m p q : Nat), List.Chain' (Adjacent h) (m :: post) → p ∈ m :: post →
      (deref h p).cp_prev = some q → q ∈ m :: post ∨ p = m
  | [], m, p, q, _, hp, _ => by right; simpa using hp
  | b :: post, m, p, q, hc, hp, hq => by
    rw [List.chain'_cons] at hc
    rcases List.mem_cons.mp hp with rfl | hp
    · right; rfl
    · left
      rcases prev_mem_of_chain h post b p q hc.2 hp hq with h1 | h1
      · exact List.mem_cons_of_mem _ h1
      · subst h1
        have := hc.1.2
        rw [hq] at this
        simp [Option.some.inj this]

theorem lastOf_mem : ∀ (rest : List Nat) (first : Nat), lastOf first rest ∈ first :: rest
  | [], first => by simp [lastOf]
  | b :: rest, first => by
    simp only [lastOf]
    exact List.mem_cons_of_mem _ (lastOf_mem rest b)

/-- In a well-formed list the links of an entry lead to entries of the list. -/
theorem wf_links_mem {st : State} {first : Nat} {rest : List Nat}
    (hwf : WellFormed st (first :: rest)) {p q : Nat} (hp : p ∈ first :: rest) :
    ((deref st.heap p).cp_next = some q → q ∈ first :: rest)
      ∧ ((deref st.heap p).cp_prev = some q → q ∈ first :: rest) := by
  obtain ⟨-, hshape, -⟩ := hwf
  constructor
  · intro hq
    rcases hshape with hl | hc
    · rcases next_mem_of_chain _ rest first p q (segment_chain hl.1) hp hq with h1 | h1
      · exact List.mem_cons_of_mem _ h1
      · subst h1; rw [hl.2.2] at hq; cases hq
    · rcases next_mem_of_chain _ rest first p q (segment_chain hc.1) hp hq with h1 | h1
      · exact List.mem_cons_of_mem _ h1
      · subst h1; rw [hc.2.2] at hq; cases hq; simp
  · intro hq
    rcases hshape with hl | hc
    · rcases prev_mem_of_chain _ rest first p q (segment_chain hl.1) hp hq with h1 | h1
      · exact h1
      · subst h1; rw [hl.2.1] at hq; cases hq
    · rcases prev_mem_of_chain _ rest first p q (segment_chain hc.1) hp hq with h1 | h1
      · exact h1
      · subst h1; rw [hc.2.1] at hq; cases hq; exact lastOf_mem rest p

theorem wf_lt {st : State} {first : Nat} {rest : List Nat}
    (hwf : WellFormed st (first :: rest)) {p : Nat} (hp : p ∈ first :: rest) :
    p < st.heap.length := by
  obtain ⟨-, hshape, -⟩ := hwf
  rcases hshape with hl | hc
  · exact hl.1.2.1 p hp
  · exact hc.1.2.1 p hp

@[simp] theorem del_pum_heap (st : State) : (ins_compl_del_pum st).heap = st.heap := by
  unfold ins_compl_del_pum; split <;> rfl
@[simp] theorem del_pum_first (st : State) :
    (ins_compl_del_pum st).compl_first_match = st.compl_first_match := by
  unfold ins_compl_del_pum; split <;> rfl
@[simp] theorem del_pum_curr (st : State) :
    (ins_compl_del_pum st).compl_curr_match = st.compl_curr_match := by
  unfold ins_compl_del_pum; split <;> rfl
@[simp] theorem del_pum_cfc (st : State) : cfc_has_mode (ins_compl_del_pum st) = cfc_has_mode st := by
  unfold ins_compl_del_pum; split <;> rfl
@[simp] theorem del_pum_longest (st : State) :
    (ins_compl_del_pum st).compl_get_longest = st.compl_get_longest := by
  unfold ins_compl_del_pum; split <;> rfl
@[simp] theorem del_pum_srcidx (st : State) :
    (ins_compl_del_pum st).cpt_sources_index = st.cpt_sources_index := by
  unfold ins_compl_del_pum; split <;> rfl

@[simp] theorem longest_match_heap (E : Ext) (st : State) (m : Nat) :
    (ins_compl_longest_match E st m).heap = st.heap := by
  unfold ins_compl_longest_match; split
  · rfl
  · simp only []; split <;> rfl
@[simp] theorem longest_match_first (E : Ext) (st : State) (m : Nat) :
    (ins_compl_longest_match E st m).compl_first_match = st.compl_first_match := by
  unfold ins_compl_longest_match; split
  · rfl
  · simp only []; split <;> rfl
@[simp] theorem longest_match_curr (E : Ext) (st : State) (m : Nat) :
    (ins_compl_longest_match E st m).compl_curr_match = st.compl_curr_match := by
  unfold ins_compl_longest_match; split
  · rfl
  · simp only []; split <;> rfl

theorem deref_out_of_range (h : List compl_T) (p : Nat) (hp : h.length ≤ p) :
    deref h p = default := by
  simp [deref, List.getElem?_eq_none, hp]

theorem deref_append (h : List compl_T) (x : compl_T) (p : Nat) :
    deref (h ++ [x]) p = if p < h.length then deref h p else if p = h.length then x else default := by
  by_cases h1 : p < h.length
  · simp [h1, deref_append_lt]
  · by_cases h2 : p = h.length
    · subst h2; simp [deref_append_new]
    · simp [h1, h2]
      apply deref_out_of_range
      simp; omega

theorem next_assign_set_next (h : List compl_T) (p q : Nat) (x : Option Nat) :
    (deref (assign h p (set_next x)) q).cp_next
      = if q = p ∧ p < h.length then x else (deref h q).cp_next := by
  rw [deref_assign]; split <;> rfl

theorem prev_assign_set_next (h : List compl_T) (p q : Nat) (x : Option Nat) :
    (deref (assign h p (set_next x)) q).cp_prev = (deref h q).cp_prev := by
  rw [deref_assign]; split
  · rename_i hc; rw [hc.1]; rfl
  · rfl

theorem next_assign_set_prev (h : List compl_T) (p q : Nat) (x : Option Nat) :
    (deref (assign h p (set_prev x)) q).cp_next = (deref h q).cp_next := by
  rw [deref_assign]; split
  · rename_i hc; rw [hc.1]; rfl
  · rfl

theorem prev_assign_set_prev (h : List compl_T) (p q : Nat) (x : Option Nat) :
    (deref (assign h p (set_prev x)) q).cp_prev
      = if q = p ∧ p < h.length then x else (deref h q).cp_prev := by
  rw [deref_assign]; split <;> rfl

theorem sameData_assign_set_next (h : List compl_T) (p q : Nat) (x : Option Nat) (c : compl_T) :
    SameData (deref (assign h p (set_next x)) q) c ↔ SameData (deref h q) c := by
  rw [deref_assign]; split
  · rename_i hc; rw [hc.1]; exact Iff.rfl
  · exact Iff.rfl

theorem sameData_assign_set_prev (h : List compl_T) (p q : Nat) (x : Option Nat) (c : compl_T) :
    SameData (deref (assign h p (set_prev x)) q) c ↔ SameData (deref h q) c := by
  rw [deref_assign]; split
  · rename_i hc; rw [hc.1]; exact Iff.rfl
  · exact Iff.rfl

theorem next_append (h : List compl_T) (x : compl_T) (hx : x.cp_next = none) (p : Nat) :
    (deref (h ++ [x]) p).cp_next = if p = h.length then none else (deref h p).cp_next := by
  rw [deref_append]
  by_cases h1 : p < h.length
  · have : p ≠ h.length := by omega
    simp [h1, this]
  · by_cases h2 : p = h.length
    · simp [h2, hx]
    · simp [h1, h2]
      rw [deref_out_of_range h p (by omega)]

theorem prev_append (h : List compl_T) (x : compl_T) (hx : x.cp_prev = none) (p : Nat) :
    (deref (h ++ [x]) p).cp_prev = if p = h.length then none else (deref h p).cp_prev := by
  rw [deref_append]
  by_cases h1 : p < h.length
  · have : p ≠ h.length := by omega
    simp [h1, this]
  · by_cases h2 : p = h.length
    · simp [h2, hx]
    · simp [h1, h2]
      rw [deref_out_of_range h p (by omega)]

theorem length_assignOpt (h : List compl_T) (P : Option Nat) (f : compl_T → compl_T) :
    (assignOpt h P f).length = h.length := by
  cases P <;> simp [assignOpt, length_assign]

theorem next_assignOpt_set_next (h : List compl_T) (P : Option Nat) (q : Nat) (x : Option Nat) :
    (deref (assignOpt h P (set_next x)) q).cp_next
      = if P = some q ∧ q < h.length then x else (deref h q).cp_next := by
  cases P with
  | none => simp [assignOpt]
  | some p =>
    simp only [assignOpt, next_assign_set_next, Option.some.injEq]
    by_cases hqp : q = p
    · subst hqp; simp
    · have : ¬ p = q := fun e => hqp e.symm
      simp [hqp, this]

theorem prev_assignOpt_set_next (h : List compl_T) (P : Option Nat) (q : Nat) (x : Option Nat) :
    (deref (assignOpt h P (set_next x)) q).cp_prev = (deref h q).cp_prev := by
  cases P <;> simp [assignOpt, prev_assign_set_next]

theorem next_assignOpt_set_prev (h : List compl_T) (P : Option Nat) (q : Nat) (x : Option Nat) :
    (deref (assignOpt h P (set_prev x)) q).cp_next = (deref h q).cp_next := by
  cases P <;> simp [assignOpt, next_assign_set_prev]

theorem prev_assignOpt_set_prev (h : List compl_T) (P : Option Nat) (q : Nat) (x : Option Nat) :
    (deref (assignOpt h P (set_prev x)) q).cp_prev
      = if P = some q ∧ q < h.length then x else (deref h q).cp_prev := by
  cases P with
  | none => simp [assignOpt]
  | some p =>
    simp only [assignOpt, prev_assign_set_prev, Option.some.injEq]
    by_cases hqp : q = p
    · subst hqp; simp
    · have : ¬ p = q := fun e => hqp e.symm
      simp [hqp, this]

theorem sameData_assignOpt_set_next (h : List compl_T) (P : Option Nat) (q : Nat)
    (x : Option Nat) (c : compl_T) :
    SameData (deref (assignOpt h P (set_next x)) q) c ↔ SameData (deref h q) c := by
  cases P <;> simp [assignOpt, sameData_assign_set_next]

theorem sameData_assignOpt_set_prev (h : List compl_T) (P : Option Nat) (q : Nat)
    (x : Option Nat) (c : compl_T) :
    SameData (deref (assignOpt h P (set_prev x)) q) c ↔ SameData (deref h q) c := by
  cases P <;> simp [assignOpt, sameData_assign_set_prev]

/-- The closing statements of `link_new_match`: `new->cp_next->cp_prev = new`
and `new->cp_prev->cp_next = new`, each guarded by a NULL test. -/
theorem trailing_links (hA : List compl_T) (new : Nat) (N P : Option Nat)
    (hN : (deref hA new).cp_next = N) (hP : (deref hA new).cp_prev = P)
    (hNlt : ∀ q, N = some q → q < hA.length ∧ q ≠ new)
    (hPlt : ∀ q, P = some q → q < hA.length ∧ q ≠ new) :
    ∃ h1, assignOpt (assignOpt hA (deref hA new).cp_next (set_prev (some new)))
        (deref (assignOpt hA (deref hA new).cp_next (set_prev (some new))) new).cp_prev
        (set_next (some new)) = h1
      ∧ h1.length = hA.length
      ∧ (∀ p, (deref h1 p).cp_next = if P = some p then some new else (deref hA p).cp_next)
      ∧ (∀ p, (deref h1 p).cp_prev = if N = some p then some new else (deref hA p).cp_prev)
      ∧ (∀ p, SameData (deref h1 p) (deref hA p)) := by
  have e1 : (deref (assignOpt hA (deref hA new).cp_next (set_prev (some new))) new).cp_prev = P := by
    rw [prev_assignOpt_set_prev, hN, hP]
    rw [if_neg]
    rintro ⟨h1, -⟩
    exact (hNlt new h1).2 rfl
  refine ⟨_, rfl, ?_, ?_, ?_, ?_⟩
  · simp [length_assignOpt]
  · intro p
    rw [e1, hN, next_assignOpt_set_next, next_assignOpt_set_prev, length_assignOpt]
    by_cases hc : P = some p
    · simp [hc, (hPlt p hc).1]
    · simp [hc]
  · intro p
    rw [e1, hN, prev_assignOpt_set_next, prev_assignOpt_set_prev]
    by_cases hc : N = some p
    · simp [hc, (hNlt p hc).1]
    · simp [hc]
  · intro p
    rw [sameData_assignOpt_set_next, sameData_assignOpt_set_prev]
    rfl

/-- Splicing a fresh record in: set its two links, then let the neighbours
point to it. -/
theorem spliced_plain (h0 : List compl_T) (node : compl_T) (N P : Option Nat)
    (hnode : node.cp_next = none ∧ node.cp_prev = none)
    (hNlt : ∀ q, N = some q → q < h0.length) (hPlt : ∀ q, P = some q → q < h0.length)
    (hA : List compl_T)
    (hAdef : hA = assign (assign (h0 ++ [node]) h0.length (set_next N)) h0.length (set_prev P)) :
    Spliced h0 node N P
      (assignOpt (assignOpt hA (deref hA h0.length).cp_next (set_prev (some h0.length)))
        (deref (assignOpt hA (deref hA h0.length).cp_next (set_prev (some h0.length)))
          h0.length).cp_prev
        (set_next (some h0.length))) := by
  have hlen : hA.length = h0.length + 1 := by simp [hAdef, length_assign]
  have hAn : ∀ p, (deref hA p).cp_next = if p = h0.length then N else (deref h0 p).cp_next := by
    intro p
    rw [hAdef, next_assign_set_prev, next_assign_set_next, next_append _ _ hnode.1]
    by_cases hp : p = h0.length <;> simp [hp]
  have hAp : ∀ p, (deref hA p).cp_prev = if p = h0.length then P else (deref h0 p).cp_prev := by
    intro p
    rw [hAdef, prev_assign_set_prev, prev_assign_set_next, prev_append _ _ hnode.2]
    by_cases hp : p = h0.length <;> simp [hp, length_assign]
  have hAd : ∀ p, SameData (deref hA p) (deref (h0 ++ [node]) p) := by
    intro p
    rw [hAdef, sameData_assign_set_prev, sameData_assign_set_next]
    rfl
  obtain ⟨h1, he, h1len, h1n, h1p, h1d⟩ := trailing_links hA h0.length N P
    (by simp [hAn]) (by simp [hAp])
    (fun q hq => ⟨by have := hNlt q hq; omega, by have := hNlt q hq; omega⟩)
    (fun q hq => ⟨by have := hPlt q hq; omega, by have := hPlt q hq; omega⟩)
  rw [he]
  refine ⟨by omega, ?_, ?_, ?_⟩
  · intro p
    rw [h1n, hAn]
    by_cases hp : p = h0.length
    · have : P ≠ some p := fun e => by have := hPlt p e; omega
      subst hp
      simp [this]
    · simp [hp]
  · intro p
    rw [h1p, hAp]
    by_cases hp : p = h0.length
    · have : N ≠ some p := fun e => by have := hNlt p e; omega
      subst hp
      simp [this]
    · simp [hp]
  · intro p
    exact (h1d p).trans (hAd p)

theorem lastOf_getLast? : ∀ (rest : List Nat) (first : Nat),
    (first :: rest).getLast? = some (lastOf first rest)
  | [], first => by simp [lastOf]
  | b :: rest, first => by
    rw [List.getLast?_cons_cons, lastOf_getLast? rest b]; rfl

theorem lastOf_append_cons : ∀ (l : List Nat) (first x : Nat) (m : List Nat),
    lastOf first (l ++ x :: m) = lastOf x m
  | [], _, _, _ => rfl
  | c :: l, _, x, m => by
    show lastOf c (l ++ x :: m) = lastOf x m
    exact lastOf_append_cons l c x m

theorem lastOf_concat (l : List Nat) (first x : Nat) : lastOf first (l ++ [x]) = x := by
  rw [lastOf_append_cons]; rfl

theorem lastOf_not_mem_dropLast : ∀ (rest : List Nat) (first : Nat), (first :: rest).Nodup →
    lastOf first rest ∉ (first :: rest).dropLast
  | [], first, _ => by simp
  | b :: rest, first, hnd => by
    have hnd2 := (List.nodup_cons.mp hnd).2
    have ih := lastOf_not_mem_dropLast rest b hnd2
    have hmem := lastOf_mem rest b
    simp only [lastOf, List.dropLast_cons₂, List.mem_cons, not_or]
    exact ⟨fun e => (List.nodup_cons.mp hnd).1 (e ▸ hmem), ih⟩

/-- Links that are kept on the inner positions of a chain keep it a chain. -/
theorem chain_transfer (h0 h1 : List compl_T) :
    ∀ (l : List Nat), List.Chain' (Adjacent h0) l →
      (∀ x ∈ l.dropLast, (deref h1 x).cp_next = (deref h0 x).cp_next) →
      (∀ y ∈ l.tail, (deref h1 y).cp_prev = (deref h0 y).cp_prev) →
      List.Chain' (Adjacent h1) l
  | [], _, _, _ => List.chain'_nil
  | [_], _, _, _ => List.chain'_singleton _
  | a :: b :: t, hc, hn, hp => by
    rw [List.chain'_cons] at hc ⊢
    refine ⟨⟨?_, ?_⟩, chain_transfer h0 h1 (b :: t) hc.2 ?_ ?_⟩
    · rw [hn a (by simp), hc.1.1]
    · rw [hp b (by simp), hc.1.2]
    · intro x hx; exact hn x (by simp [List.dropLast_cons₂, hx])
    · intro y hy; exact hp y (by simp at hy ⊢; exact Or.inr hy)

theorem spliced_next_old {h0 h1 : List compl_T} {node : compl_T} {N P : Option Nat}
    (hsp : Spliced h0 node N P h1) {p : Nat} (hp : p < h0.length) (hP : P ≠ some p) :
    (deref h1 p).cp_next = (deref h0 p).cp_next := by
  rw [hsp.2.1 p]
  have : p ≠ h0.length := by omega
  simp [this, hP]

theorem spliced_prev_old {h0 h1 : List compl_T} {node : compl_T} {N P : Option Nat}
    (hsp : Spliced h0 node N P h1) {p : Nat} (hp : p < h0.length) (hN : N ≠ some p) :
    (deref h1 p).cp_prev = (deref h0 p).cp_prev := by
  rw [hsp.2.2.1 p]
  have : p ≠ h0.length := by omega
  simp [this, hN]

theorem spliced_next_new {h0 h1 : List compl_T} {node : compl_T} {N P : Option Nat}
    (hsp : Spliced h0 node N P h1) : (deref h1 h0.length).cp_next = N := by
  rw [hsp.2.1]; simp

theorem spliced_prev_new {h0 h1 : List compl_T} {node : compl_T} {N P : Option Nat}
    (hsp : Spliced h0 node N P h1) : (deref h1 h0.length).cp_prev = P := by
  rw [hsp.2.2.1]; simp

theorem spliced_next_P {h0 h1 : List compl_T} {node : compl_T} {N : Option Nat} {a : Nat}
    (hsp : Spliced h0 node N (some a) h1) (ha : a < h0.length) :
    (deref h1 a).cp_next = some h0.length := by
  rw [hsp.2.1]
  have : a ≠ h0.length := by omega
  simp [this]

theorem spliced_prev_N {h0 h1 : List compl_T} {node : compl_T} {P : Option Nat} {b : Nat}
    (hsp : Spliced h0 node (some b) P h1) (hb : b < h0.length) :
    (deref h1 b).cp_prev = some h0.length := by
  rw [hsp.2.2.1]
  have : b ≠ h0.length := by omega
  simp [this]

/-- Splicing between two adjacent entries of a segment. -/
theorem splice_middle {h0 h1 : List compl_T} {node : compl_T} {pre post : List Nat} {a b : Nat}
    (hseg : Segment h0 (pre ++ a :: b :: post))
    (hsp : Spliced h0 node (some b) (some a) h1) :
    Segment h1 (pre ++ a :: h0.length :: b :: post) := by
  have hch := segment_chain hseg
  obtain ⟨hnd, hlt, -⟩ := hseg
  have ha : a < h0.length := hlt a (by simp)
  have hb : b < h0.length := hlt b (by simp)
  have hnew : h0.length ∉ pre ++ a :: b :: post := fun hm => by have := hlt _ hm; omega
  have hnd' : (pre ++ a :: b :: post).Nodup := hnd
  rw [List.nodup_append] at hnd
  obtain ⟨hndpre, hndab, hdisj⟩ := hnd
  have hapre : a ∉ pre := fun hm => hdisj hm (by simp)
  have hbpre : b ∉ pre := fun hm => hdisj hm (by simp)
  have hab : a ≠ b := by
    intro e; subst e; simp at hndab
  have hapost : a ∉ post := by
    intro hm; simp at hndab; exact hndab.1.2 hm
  have hbpost : b ∉ post := by
    intro hm; simp at hndab; exact hndab.2.1 hm
  refine ⟨?_, ?_, ?_⟩
  · have : pre ++ a :: h0.length :: b :: post = (pre ++ [a]) ++ h0.length :: (b :: post) := by simp
    rw [this, List.nodup_middle]
    refine List.nodup_cons.mpr ⟨?_, by simpa using hnd'⟩
    simpa using hnew
  · intro x hx
    rw [hsp.1]
    simp only [List.mem_append, List.mem_cons] at hx
    rcases hx with hx | rfl | rfl | rfl | hx
    · have := hlt x (by simp [hx]); omega
    · omega
    · omega
    · omega
    · have := hlt x (by simp [hx]); omega
  · rw [linked_iff_chain]
    rw [List.chain'_split] at hch ⊢
    obtain ⟨hch1, hch2⟩ := hch
    rw [List.chain'_cons] at hch2
    refine ⟨chain_transfer h0 h1 _ hch1 ?_ ?_, ?_⟩
    · intro x hx
      rw [List.dropLast_concat] at hx
      exact spliced_next_old hsp (hlt x (by simp [hx])) (by
        intro e; cases e; exact hapre hx)
    · intro y hy
      have hy' : y ∈ pre ++ [a] := List.mem_of_mem_tail hy
      refine spliced_prev_old hsp (hlt y ?_) ?_
      · simp at hy'; rcases hy' with h | h <;> simp [h]
      · intro e; cases e
        simp at hy'; rcases hy' with h | h
        · exact hbpre h
        · exact hab h.symm
    · rw [List.chain'_cons, List.chain'_cons]
      refine ⟨⟨spliced_next_P hsp ha, spliced_prev_new hsp⟩,
        ⟨spliced_next_new hsp, spliced_prev_N hsp hb⟩, chain_transfer h0 h1 _ hch2.2 ?_ ?_⟩
      · intro x hx
        have hx' : x ∈ b :: post := List.mem_of_mem_dropLast hx
        refine spliced_next_old hsp (hlt x ?_) ?_
        · simp at hx'; rcases hx' with h | h <;> simp [h]
        · intro e; cases e
          simp at hx'; rcases hx' with h | h
          · exact hab h
          · exact hapost h
      · intro y hy
        simp only [List.tail_cons] at hy
        exact spliced_prev_old hsp (hlt y (by simp [hy])) (by
          intro e; cases e; exact hbpost hy)

/-- Splicing after the last entry: `N` is NULL or the first entry. -/
theorem splice_end {h0 h1 : List compl_T} {node : compl_T} {first : Nat} {rest : List Nat}
    {N : Option Nat} (hseg : Segment h0 (first :: rest))
    (hsp : Spliced h0 node N (some (lastOf first rest)) h1)
    (hN : N = none ∨ N = some first) :
    Segment h1 (first :: (rest ++ [h0.length])) := by
  have hch := segment_chain hseg
  obtain ⟨hnd, hlt, -⟩ := hseg
  have hlast : lastOf first rest < h0.length := hlt _ (lastOf_mem rest first)
  have hnew : h0.length ∉ first :: rest := fun hm => by have := hlt _ hm; omega
  refine ⟨?_, ?_, ?_⟩
  · have : first :: (rest ++ [h0.length]) = (first :: rest) ++ [h0.length] := by simp
    rw [this]
    exact List.Nodup.append hnd (List.nodup_singleton _) (by
      intro x hx hx2
      simp only [List.mem_singleton] at hx2
      subst hx2
      exact hnew hx)
  · intro x hx
    rw [hsp.1]
    have hx' : x ∈ (first :: rest) ++ [h0.length] := by simpa using hx
    rcases List.mem_append.mp hx' with h | h
    · have := hlt x h; omega
    · simp at h; omega
  · have : first :: (rest ++ [h0.length]) = (first :: rest) ++ [h0.length] := by simp
    rw [linked_iff_chain, this]
    refine List.Chain'.append (chain_transfer h0 h1 _ hch ?_ ?_) (List.chain'_singleton _) ?_
    · intro x hx
      refine spliced_next_old hsp (hlt x (List.mem_of_mem_dropLast hx)) ?_
      intro e; cases e
      exact lastOf_not_mem_dropLast rest first hnd hx
    · intro y hy
      simp only [List.tail_cons] at hy
      refine spliced_prev_old hsp (hlt y (List.mem_cons_of_mem _ hy)) ?_
      rcases hN with rfl | rfl
      · simp
      · intro e; cases e
        exact (List.nodup_cons.mp hnd).1 hy
    · intro x hx y hy
      rw [lastOf_getLast?] at hx
      simp only [Option.mem_def, Option.some.injEq, List.head?_cons] at hx hy
      subst hx; subst hy
      exact ⟨spliced_next_P hsp hlast, spliced_prev_new hsp⟩

/-- Splicing before the first entry of a linear list. -/
theorem splice_front {h0 h1 : List compl_T} {node : compl_T} {first : Nat} {rest : List Nat}
    (hseg : Segment h0 (first :: rest))
    (hsp : Spliced h0 node (some first) none h1) :
    Segment h1 (h0.length :: first :: rest) := by
  have hch := segment_chain hseg
  obtain ⟨hnd, hlt, -⟩ := hseg
  have hfirst : first < h0.length := hlt _ (by simp)
  have hnew : h0.length ∉ first :: rest := fun hm => by have := hlt _ hm; omega
  refine ⟨List.nodup_cons.mpr ⟨hnew, hnd⟩, ?_, ?_⟩
  · intro x hx
    rw [hsp.1]
    rcases List.mem_cons.mp hx with h | h
    · omega
    · have := hlt x h; omega
  · rw [linked_iff_chain, List.chain'_cons]
    refine ⟨⟨spliced_next_new hsp, spliced_prev_N hsp hfirst⟩, chain_transfer h0 h1 _ hch ?_ ?_⟩
    · intro x hx
      exact spliced_next_old hsp (hlt x (List.mem_of_mem_dropLast hx)) (by simp)
    · intro y hy
      simp only [List.tail_cons] at hy
      refine spliced_prev_old hsp (hlt y (List.mem_cons_of_mem _ hy)) ?_
      intro e; cases e
      exact (List.nodup_cons.mp hnd).1 hy

/-- The two shapes of a well-formed list. -/
theorem shape_iff (h : List compl_T) (first : Nat) (rest : List Nat) :
    (IsLinear h first rest ∨ IsCyclic h first rest) ↔
      Segment h (first :: rest) ∧
        (((deref h first).cp_prev = none ∧ (deref h (lastOf first rest)).cp_next = none)
          ∨ ((deref h first).cp_prev = some (lastOf first rest)
            ∧ (deref h (lastOf first rest)).cp_next = some first)) := by
  unfold IsLinear IsCyclic
  tauto

/-- Splicing between two adjacent entries keeps the shape of the list. -/
theorem splice_middle_shape {h0 h1 : List compl_T} {node : compl_T} {first : Nat}
    {rest pre post : List Nat} {a b : Nat}
    (hshape : IsLinear h0 first rest ∨ IsCyclic h0 first rest)
    (heq : first :: rest = pre ++ a :: b :: post)
    (hsp : Spliced h0 node (some b) (some a) h1) :
    ∃ rest1, first :: rest1 = pre ++ a :: h0.length :: b :: post
      ∧ ((IsLinear h0 first rest → IsLinear h1 first rest1)
        ∧ (IsCyclic h0 first rest → IsCyclic h1 first rest1)) := by
  have hseg : Segment h0 (first :: rest) := by
    rcases hshape with h | h <;> exact h.1
  have hseg1 := splice_middle (heq ▸ hseg) hsp
  obtain ⟨hnd, hlt, -⟩ := hseg
  have hfirst : first < h0.length := hlt _ (by simp)
  have hlastlt : lastOf first rest < h0.length := hlt _ (lastOf_mem rest first)
  have hnd' : (pre ++ a :: b :: post).Nodup := heq ▸ hnd
  have hfb : first ≠ b := by
    cases pre with
    | nil =>
      simp only [List.nil_append, List.cons.injEq] at heq
      rw [heq.1]
      intro e; subst e; simp at hnd'
    | cons f pre' =>
      simp only [List.cons_append, List.cons.injEq] at heq
      rw [heq.1]
      intro e; subst e
      simp at hnd'
  have hla : lastOf first rest ≠ a := by
    have e1 : lastOf first rest = lastOf b post := by
      cases pre with
      | nil =>
        simp only [List.nil_append, List.cons.injEq] at heq
        rw [heq.2]; rfl
      | cons f pre' =>
        simp only [List.cons_append, List.cons.injEq] at heq
        rw [heq.2, lastOf_append_cons]; rfl
    rw [e1]
    intro e
    have hm := lastOf_mem post b
    rw [e] at hm
    rw [List.nodup_append] at hnd'
    have := hnd'.2.1
    simp at this hm
    rcases hm with h | h
    · exact this.1.1 h
    · exact this.1.2 h
  have hpf : (deref h1 first).cp_prev = (deref h0 first).cp_prev :=
    spliced_prev_old hsp hfirst (by intro e; cases e; exact hfb rfl)
  have hnl : (deref h1 (lastOf first rest)).cp_next = (deref h0 (lastOf first rest)).cp_next :=
    spliced_next_old hsp hlastlt (by intro e; cases e; exact hla rfl)
  cases pre with
  | nil =>
    simp only [List.nil_append, List.cons.injEq] at heq
    obtain ⟨rfl, rfl⟩ := heq
    refine ⟨h0.length :: b :: post, rfl, ?_, ?_⟩
    · intro hl
      exact ⟨hseg1, by rw [hpf]; exact hl.2.1, by
        show (deref h1 (lastOf first (b :: post))).cp_next = none
        rw [hnl]; exact hl.2.2⟩
    · intro hl
      exact ⟨hseg1, by
        show (deref h1 first).cp_prev = some (lastOf first (b :: post))
        rw [hpf]; exact hl.2.1, by
        show (deref h1 (lastOf first (b :: post))).cp_next = some first
        rw [hnl]; exact hl.2.2⟩
  | cons f pre' =>
    simp only [List.cons_append, List.cons.injEq] at heq
    obtain ⟨rfl, rfl⟩ := heq
    have e2 : lastOf first (pre' ++ a :: h0.length :: b :: post)
        = lastOf first (pre' ++ a :: b :: post) := by
      rw [lastOf_append_cons, lastOf_append_cons]; rfl
    refine ⟨pre' ++ a :: h0.length :: b :: post, rfl, ?_, ?_⟩
    · intro hl
      exact ⟨hseg1, by rw [hpf]; exact hl.2.1, by rw [e2, hnl]; exact hl.2.2⟩
    · intro hl
      exact ⟨hseg1, by rw [hpf, e2]; exact hl.2.1, by rw [e2, hnl]; exact hl.2.2⟩

theorem walkFrom_congr (h h1 : List compl_T) (first : Nat) :
    ∀ (post : List Nat) (m : Nat),
      (∀ p ∈ m :: post, (deref h1 p).cp_next = (deref h p).cp_next) →
      WalkFrom h first m post → WalkFrom h1 first m post
  | [], m, he, hw => by
    simp only [WalkFrom] at hw ⊢
    rw [he m (by simp)]; exact hw
  | b :: post, m, he, hw => by
    obtain ⟨h1n, h2, h3⟩ := hw
    refine ⟨by rw [he m (by simp)]; exact h1n, h2, walkFrom_congr h h1 first post b ?_ h3⟩
    intro p hp; exact he p (List.mem_cons_of_mem _ hp)

/-- What the score walk of the fuzzy-collect branch returns on a list. -/
theorem find_score_position_spec (h : List compl_T) (first : Nat) (score : Int) :
    ∀ (post : List Nat) (m fuel : Nat), WalkFrom h first m post → post.length < fuel →
      ∃ r, find_score_position h first score fuel (deref h m).cp_next m = some r ∧
        ((∃ l1 c l2, post = l1 ++ c :: l2 ∧ r.1 = some c ∧ (deref h c).cp_score < score
            ∧ ∀ x ∈ l1, ¬ (deref h x).cp_score < score)
          ∨ (r = (none, lastOf m post) ∧ ∀ x ∈ post, ¬ (deref h x).cp_score < score))
  | [], m, fuel + 1, hw, _ => by
    rcases hw with hw | hw
    · refine ⟨(none, m), by rw [hw]; rfl, Or.inr ⟨rfl, by simp⟩⟩
    · refine ⟨(none, m), by rw [hw]; simp [find_score_position], Or.inr ⟨rfl, by simp⟩⟩
  | b :: post, m, fuel + 1, hw, hf => by
    obtain ⟨hn, hb, hw⟩ := hw
    rw [hn]
    by_cases hs : (deref h b).cp_score < score
    · exact ⟨(some b, m), by simp [find_score_position, hb, hs],
        Or.inl ⟨[], b, post, rfl, rfl, hs, by simp⟩⟩
    · obtain ⟨r, hr, hcase⟩ := find_score_position_spec h first score post b fuel hw
        (by simpa using hf)
      refine ⟨r, by simp [find_score_position, hb, hs, hr], ?_⟩
      rcases hcase with ⟨l1, c, l2, he, hc, hcs, hl1⟩ | ⟨hr2, hall⟩
      · refine Or.inl ⟨b :: l1, c, l2, by rw [he]; rfl, hc, hcs, ?_⟩
        intro x hx
        rcases List.mem_cons.mp hx with rfl | hx
        · exact hs
        · exact hl1 x hx
      · refine Or.inr ⟨by rw [hr2]; rfl, ?_⟩
        intro x hx
        rcases List.mem_cons.mp hx with rfl | hx
        · exact hs
        · exact hall x hx

/-- The fuzzy-collect branch, entry with a lower score found: the new record
goes in before `current`. -/
theorem spliced_before (h0 : List compl_T) (node : compl_T) (current a : Nat)
    (hnode : node.cp_next = none ∧ node.cp_prev = none)
    (hc : current < h0.length) (ha : a < h0.length)
    (hprev : (deref h0 current).cp_prev = some a) (hA : List compl_T)
    (hAdef : hA = assign (assignOpt
        (assign (assign (h0 ++ [node]) h0.length (set_next (some current))) h0.length
          (set_prev (deref (assign (h0 ++ [node]) h0.length (set_next (some current)))
            current).cp_prev))
        (deref (assign (assign (h0 ++ [node]) h0.length (set_next (some current))) h0.length
          (set_prev (deref (assign (h0 ++ [node]) h0.length (set_next (some current)))
            current).cp_prev)) current).cp_prev
        (set_next (some h0.length))) current (set_prev (some h0.length))) :
    Spliced h0 node (some current) (some a)
      (assignOpt (assignOpt hA (deref hA h0.length).cp_next (set_prev (some h0.length)))
        (deref (assignOpt hA (deref hA h0.length).cp_next (set_prev (some h0.length)))
          h0.length).cp_prev
        (set_next (some h0.length))) := by
  have hcn : current ≠ h0.length := by omega
  have han : a ≠ h0.length := by omega
  have e1 : (deref (assign (h0 ++ [node]) h0.length (set_next (some current))) current).cp_prev
      = some a := by
    rw [prev_assign_set_next, prev_append _ _ hnode.2]; simp [hcn, hprev]
  have e2 : (deref (assign (assign (h0 ++ [node]) h0.length (set_next (some current))) h0.length
      (set_prev (some a))) current).cp_prev = some a := by
    rw [prev_assign_set_prev, prev_assign_set_next, prev_append _ _ hnode.2]; simp [hcn, hprev]
  rw [e1, e2] at hAdef
  have hlen : hA.length = h0.length + 1 := by simp [hAdef, length_assign, length_assignOpt]
  have hAn : ∀ p, (deref hA p).cp_next =
      if p = h0.length then some current else if p = a then some h0.length
      else (deref h0 p).cp_next := by
    intro p
    rw [hAdef, next_assign_set_prev, next_assignOpt_set_next, next_assign_set_prev,
      next_assign_set_next, next_append _ _ hnode.1]
    by_cases hp : p = h0.length
    · subst hp
      have : a ≠ h0.length := han
      simp [length_assign, this]
    · by_cases hpa : p = a
      · subst hpa; simp [length_assign, hp]; omega
      · have : ¬ a = p := fun e => hpa e.symm
        simp [hp, hpa, this]
  have hAp : ∀ p, (deref hA p).cp_prev =
      if p = h0.length then some a else if p = current then some h0.length
      else (deref h0 p).cp_prev := by
    intro p
    rw [hAdef, prev_assign_set_prev, prev_assignOpt_set_next, prev_assign_set_prev,
      prev_assign_set_next, prev_append _ _ hnode.2]
    by_cases hp : p = h0.length
    · subst hp
      have : ¬ h0.length = current := fun e => hcn e.symm
      simp [length_assign, length_assignOpt, this]
    · by_cases hpc : p = current
      · subst hpc; simp [length_assign, length_assignOpt, hp]; omega
      · simp [hp, hpc]
  have hAd : ∀ p, SameData (deref hA p) (deref (h0 ++ [node]) p) := by
    intro p
    rw [hAdef, sameData_assign_set_prev, sameData_assignOpt_set_next, sameData_assign_set_prev,
      sameData_assign_set_next]
    rfl
  obtain ⟨h1, he, h1len, h1n, h1p, h1d⟩ := trailing_links hA h0.length (some current) (some a)
    (by simp [hAn]) (by simp [hAp])
    (fun q hq => by cases hq; exact ⟨by omega, hcn⟩)
    (fun q hq => by cases hq; exact ⟨by omega, han⟩)
  rw [he]
  refine ⟨by omega, ?_, ?_, ?_⟩
  · intro p
    rw [h1n, hAn]
    by_cases hp : p = h0.length
    · subst hp; simp [han]
    · by_cases hpa : p = a
      · subst hpa; simp [hp]
      · have : ¬ a = p := fun e => hpa e.symm
        simp [hp, hpa, this]
  · intro p
    rw [h1p, hAp]
    by_cases hp : p = h0.length
    · subst hp; simp [hcn]
    · by_cases hpc : p = current
      · subst hpc; simp [hp]
      · have : ¬ current = p := fun e => hpc e.symm
        simp [hp, hpc, this]
  · intro p
    exact (h1d p).trans (hAd p)

/-- The fuzzy-collect branch, no entry with a lower score: the new record goes
in after `prev` and is closed onto the first entry. -/
theorem spliced_after (h0 : List compl_T) (node : compl_T) (first z : Nat)
    (hnode : node.cp_next = none ∧ node.cp_prev = none)
    (hf : first < h0.length) (hz : z < h0.length) (hA : List compl_T)
    (hAdef : hA = assign (assign (assign (assign (h0 ++ [node]) z (set_next (some h0.length)))
        h0.length (set_prev (some z))) h0.length (set_next (some first))) first
        (set_prev (some h0.length))) :
    Spliced h0 node (some first) (some z)
      (assignOpt (assignOpt hA (deref hA h0.length).cp_next (set_prev (some h0.length)))
        (deref (assignOpt hA (deref hA h0.length).cp_next (set_prev (some h0.length)))
          h0.length).cp_prev
        (set_next (some h0.length))) := by
  have hfn : first ≠ h0.length := by omega
  have hzn : z ≠ h0.length := by omega
  have hlen : hA.length = h0.length + 1 := by simp [hAdef, length_assign]
  have hAn : ∀ p, (deref hA p).cp_next =
      if p = h0.length then some first else if p = z then some h0.length
      else (deref h0 p).cp_next := by
    intro p
    rw [hAdef, next_assign_set_prev, next_assign_set_next, next_assign_set_prev,
      next_assign_set_next, next_append _ _ hnode.1]
    by_cases hp : p = h0.length
    · subst hp; simp [length_assign]
    · by_cases hpz : p = z
      · subst hpz; simp [length_assign, hp]; omega
      · simp [hp, hpz]
  have hAp : ∀ p, (deref hA p).cp_prev =
      if p = h0.length then some z else if p = first then some h0.length
      else (deref h0 p).cp_prev := by
    intro p
    rw [hAdef, prev_assign_set_prev, prev_assign_set_next, prev_assign_set_prev,
      prev_assign_set_next, prev_append _ _ hnode.2]
    by_cases hp : p = h0.length
    · subst hp
      have : ¬ h0.length = first := fun e => hfn e.symm
      simp [length_assign, this]
    · by_cases hpc : p = first
      · subst hpc; simp [length_assign, hp]; omega
      · simp [hp, hpc]
  have hAd : ∀ p, SameData (deref hA p) (deref (h0 ++ [node]) p) := by
    intro p
    rw [hAdef, sameData_assign_set_prev, sameData_assign_set_next, sameData_assign_set_prev,
      sameData_assign_set_next]
    rfl
  obtain ⟨h1, he, h1len, h1n, h1p, h1d⟩ := trailing_links hA h0.length (some first) (some z)
    (by simp [hAn]) (by simp [hAp])
    (fun q hq => by cases hq; exact ⟨by omega, hfn⟩)
    (fun q hq => by cases hq; exact ⟨by omega, hzn⟩)
  rw [he]
  refine ⟨by omega, ?_, ?_, ?_⟩
  · intro p
    rw [h1n, hAn]
    by_cases hp : p = h0.length
    · subst hp; simp [hzn]
    · by_cases hpa : p = z
      · subst hpa; simp [hp]
      · have : ¬ z = p := fun e => hpa e.symm
        simp [hp, hpa, this]
  · intro p
    rw [h1p, hAp]
    by_cases hp : p = h0.length
    · subst hp; simp [hfn]
    · by_cases hpc : p = first
      · subst hpc; simp [hp]
      · have : ¬ first = p := fun e => hpc e.symm
        simp [hp, hpc, this]
  · intro p
    exact (h1d p).trans (hAd p)

/-- The state after `ins_compl_add` has linked the new record in. -/
theorem wf_splice_middle {st : State} {first : Nat} {rest pre post : List Nat} {a b : Nat}
    {node : compl_T} {h1 : List compl_T}
    (hwf : WellFormed st (first :: rest))
    (heq : first :: rest = pre ++ a :: b :: post)
    (hsp : Spliced st.heap node (some b) (some a) h1) :
    WellFormed { st with
        heap := h1
        compl_first_match :=
          if (deref h1 st.heap.length).cp_prev = none then some st.heap.length
          else st.compl_first_match
        compl_curr_match := some st.heap.length }
      (pre ++ a :: st.heap.length :: b :: post) := by
  obtain ⟨hfirst, hshape, -⟩ := hwf
  obtain ⟨rest1, he1, hlin, hcyc⟩ := splice_middle_shape hshape heq hsp
  rw [← he1]
  refine ⟨?_, ?_, ⟨st.heap.length, ?_, rfl⟩⟩
  · simp [spliced_prev_new hsp, hfirst]
  · rcases hshape with h | h
    · exact Or.inl (hlin h)
    · exact Or.inr (hcyc h)
  · rw [he1]; simp

theorem wf_splice_close {st : State} {first : Nat} {rest : List Nat}
    {node : compl_T} {h1 : List compl_T}
    (hwf : WellFormed st (first :: rest))
    (hsp : Spliced st.heap node (some first) (some (lastOf first rest)) h1) :
    WellFormed { st with
        heap := h1
        compl_first_match :=
          if (deref h1 st.heap.length).cp_prev = none then some st.heap.length
          else st.compl_first_match
        compl_curr_match := some st.heap.length }
      (first :: (rest ++ [st.heap.length])) := by
  obtain ⟨hfirst, hshape, -⟩ := hwf
  have hseg : Segment st.heap (first :: rest) := by
    rcases hshape with h | h <;> exact h.1
  have hseg1 := splice_end hseg hsp (Or.inr rfl)
  refine ⟨?_, Or.inr ⟨hseg1, ?_, ?_⟩, ⟨st.heap.length, by simp, rfl⟩⟩
  · simp [spliced_prev_new hsp, hfirst]
  · show (deref h1 first).cp_prev = some (lastOf first (rest ++ [st.heap.length]))
    rw [lastOf_concat]
    exact spliced_prev_N hsp (hseg.2.1 first (by simp))
  · show (deref h1 (lastOf first (rest ++ [st.heap.length]))).cp_next = some first
    rw [lastOf_concat]
    exact spliced_next_new hsp

theorem wf_splice_end_linear {st : State} {first : Nat} {rest : List Nat}
    {node : compl_T} {h1 : List compl_T}
    (hwf : WellFormed st (first :: rest)) (hlin : IsLinear st.heap first rest)
    (hsp : Spliced st.heap node none (some (lastOf first rest)) h1) :
    WellFormed { st with
        heap := h1
        compl_first_match :=
          if (deref h1 st.heap.length).cp_prev = none then some st.heap.length
          else st.compl_first_match
        compl_curr_match := some st.heap.length }
      (first :: (rest ++ [st.heap.length])) := by
  obtain ⟨hfirst, -, -⟩ := hwf
  have hseg := hlin.1
  have hseg1 := splice_end hseg hsp (Or.inl rfl)
  refine ⟨?_, Or.inl ⟨hseg1, ?_, ?_⟩, ⟨st.heap.length, by simp, rfl⟩⟩
  · simp [spliced_prev_new hsp, hfirst]
  · show (deref h1 first).cp_prev = none
    rw [spliced_prev_old hsp (hseg.2.1 first (by simp)) (by simp)]
    exact hlin.2.1
  · show (deref h1 (lastOf first (rest ++ [st.heap.length]))).cp_next = none
    rw [lastOf_concat]
    exact spliced_next_new hsp

theorem wf_splice_front {st : State} {first : Nat} {rest : List Nat}
    {node : compl_T} {h1 : List compl_T}
    (hwf : WellFormed st (first :: rest)) (hlin : IsLinear st.heap first rest)
    (hsp : Spliced st.heap node (some first) none h1) :
    WellFormed { st with
        heap := h1
        compl_first_match :=
          if (deref h1 st.heap.length).cp_prev = none then some st.heap.length
          else st.compl_first_match
        compl_curr_match := some st.heap.length }
      (st.heap.length :: first :: rest) := by
  obtain ⟨hfirst, -, -⟩ := hwf
  have hseg := hlin.1
  have hseg1 := splice_front hseg hsp
  have hlastlt : lastOf first rest < st.heap.length := hseg.2.1 _ (lastOf_mem rest first)
  refine ⟨?_, Or.inl ⟨hseg1, ?_, ?_⟩, ⟨st.heap.length, by simp, rfl⟩⟩
  · simp [spliced_prev_new hsp]
  · exact spliced_prev_new hsp
  · show (deref h1 (lastOf first rest)).cp_next = none
    rw [spliced_next_old hsp hlastlt (by simp)]
    exact hlin.2.2

theorem wf_splice_empty {st : State} {node : compl_T} {h1 : List compl_T}
    (hsp : Spliced st.heap node none none h1) :
    WellFormed { st with
        heap := h1
        compl_first_match :=
          if (deref h1 st.heap.length).cp_prev = none then some st.heap.length
          else st.compl_first_match
        compl_curr_match := some st.heap.length }
      [st.heap.length] := by
  refine ⟨?_, Or.inl ⟨⟨List.nodup_singleton _, ?_, trivial⟩, ?_, ?_⟩,
    ⟨st.heap.length, by simp, rfl⟩⟩
  · simp [spliced_prev_new hsp]
  · intro x hx
    simp only [List.mem_singleton] at hx
    subst hx
    show st.heap.length < h1.length
    rw [hsp.1]; omega
  · exact spliced_prev_new hsp
  · exact spliced_next_new hsp

/-- Between two consecutive entries of a segment the links are as listed. -/
theorem segment_adjacent {h : List compl_T} {pre post : List Nat} {a b : Nat}
    (hseg : Segment h (pre ++ a :: b :: post)) : Adjacent h a b := by
  have := segment_chain hseg
  rw [List.chain'_split, List.chain'_cons] at this
  exact this.2.1

theorem cfc_branch_false {st : State} {score : Int}
    (hbranch : ¬ (cfc_has_mode st = true ∧ 0 < score ∧ st.compl_get_longest = true)) :
    (cfc_has_mode st && decide (0 < score) && st.compl_get_longest) = false := by
  rcases hc : cfc_has_mode st <;> rcases hl : st.compl_get_longest <;>
    by_cases hs : 0 < score <;> simp_all

theorem cfc_branch_true {st : State} {score : Int}
    (hbranch : cfc_has_mode st = true ∧ 0 < score ∧ st.compl_get_longest = true) :
    (cfc_has_mode st && decide (0 < score) && st.compl_get_longest) = true := by
  simp [hbranch.1, hbranch.2.1, hbranch.2.2]

/-- Linking into an empty list. -/
theorem link_empty (st : State) (node : compl_T) (dir : Direction) (score : Int)
    (hnode : node.cp_next = none ∧ node.cp_prev = none)
    (hfirst : st.compl_first_match = none) :
    link_new_match st (st.heap ++ [node]) st.heap.length dir score = some (st.heap ++ [node])
      ∧ Spliced st.heap node none none (st.heap ++ [node]) := by
  have e1 : (deref (st.heap ++ [node]) st.heap.length).cp_next = none := by
    rw [next_append _ _ hnode.1]; simp
  have e2 : (deref (st.heap ++ [node]) st.heap.length).cp_prev = none := by
    rw [prev_append _ _ hnode.2]; simp
  refine ⟨by simp [link_new_match, hfirst, e1, e2, assignOpt], ?_, ?_, ?_, ?_⟩
  · simp
  · intro p
    rw [next_append _ _ hnode.1]
    by_cases hp : p = st.heap.length <;> simp [hp]
  · intro p
    rw [prev_append _ _ hnode.2]
    by_cases hp : p = st.heap.length <;> simp [hp]
  · intro p; rfl

/-- Linking next to the current match, outside the fuzzy-collect branch. -/
theorem link_plain (st : State) (node : compl_T) (first curr : Nat) (dir : Direction)
    (score : Int) (hnode : node.cp_next = none ∧ node.cp_prev = none)
    (hfirst : st.compl_first_match = some first)
    (hcurr : st.compl_curr_match = some curr) (hlt : curr < st.heap.length)
    (hN : ∀ q, (deref st.heap curr).cp_next = some q → q < st.heap.length)
    (hP : ∀ q, (deref st.heap curr).cp_prev = some q → q < st.heap.length)
    (hbranch : ¬ (cfc_has_mode st = true ∧ 0 < score ∧ st.compl_get_longest = true)) :
    ∃ h1, link_new_match st (st.heap ++ [node]) st.heap.length dir score = some h1
      ∧ Spliced st.heap node
          (if dir = FORWARD then (deref st.heap curr).cp_next else some curr)
          (if dir = FORWARD then some curr else (deref st.heap curr).cp_prev) h1 := by
  have hb := cfc_branch_false hbranch
  have hne : curr ≠ st.heap.length := by omega
  by_cases hdir : dir = FORWARD
  · simp only [link_new_match, hfirst, hb, hcurr, hdir, if_true, Bool.false_eq_true, if_false]
    refine ⟨_, rfl, ?_⟩
    refine spliced_plain st.heap node _ _ hnode hN (fun q hq => by cases hq; exact hlt) _ ?_
    rw [next_append _ _ hnode.1]; simp [hne]
  · simp only [link_new_match, hfirst, hb, hcurr, hdir, Bool.false_eq_true, if_false]
    refine ⟨_, rfl, ?_⟩
    refine spliced_plain st.heap node _ _ hnode (fun q hq => by cases hq; exact hlt) hP _ ?_
    rw [prev_assign_set_next, prev_append _ _ hnode.2]; simp [hne]

theorem exists_concat_of_ne_nil : ∀ (l : List Nat), l ≠ [] → ∃ l1 a, l = l1 ++ [a]
  | [], h => absurd rfl h
  | [a], _ => ⟨[], a, rfl⟩
  | a :: b :: t, _ => by
    obtain ⟨l1, z, he⟩ := exists_concat_of_ne_nil (b :: t) (by simp)
    exact ⟨a :: l1, z, by rw [he]; rfl⟩

theorem lastOf_of_eq_concat {first : Nat} {rest pre : List Nat} {c : Nat}
    (heq : first :: rest = pre ++ [c]) : lastOf first rest = c := by
  cases pre with
  | nil =>
    simp only [List.nil_append, List.cons.injEq] at heq
    rw [heq.1, heq.2]; rfl
  | cons f pre' =>
    simp only [List.cons_append, List.cons.injEq] at heq
    rw [heq.2, lastOf_concat]

theorem wf_segment {st : State} {first : Nat} {rest : List Nat}
    (hwf : WellFormed st (first :: rest)) : Segment st.heap (first :: rest) := by
  rcases hwf.2.1 with h | h <;> exact h.1

/-- Linking a new record into a well-formed list gives a well-formed list with
the new record in it. -/
theorem link_new_match_wf (st : State) (ns : List Nat) (hwf : WellFormed st ns)
    (node : compl_T) (hnode : node.cp_next = none ∧ node.cp_prev = none)
    (dir : Direction) (score : Int) :
    ∃ h1 ns1 N P, link_new_match st (st.heap ++ [node]) st.heap.length dir score = some h1
      ∧ Spliced st.heap node N P h1
      ∧ WellFormed { st with
          heap := h1
          compl_first_match :=
            if (deref h1 st.heap.length).cp_prev = none then some st.heap.length
            else st.compl_first_match
          compl_curr_match := some st.heap.length } ns1
      ∧ ns1.Perm (st.heap.length :: ns) := by
  cases ns with
  | nil =>
    have hfirst : st.compl_first_match = none := hwf
    obtain ⟨hl, hsp⟩ := link_empty st node dir score hnode hfirst
    exact ⟨_, [st.heap.length], none, none, hl, hsp, wf_splice_empty hsp, List.Perm.refl _⟩
  | cons first rest =>
    have hseg := wf_segment hwf
    obtain ⟨hfirst, hshape, c, hc, hcurr⟩ := hwf
    have hwf : WellFormed st (first :: rest) := ⟨hfirst, hshape, c, hc, hcurr⟩
    have hflt : first < st.heap.length := hseg.2.1 first (by simp)
    have hlastlt : lastOf first rest < st.heap.length := hseg.2.1 _ (lastOf_mem rest first)
    by_cases hbr : cfc_has_mode st = true ∧ 0 < score ∧ st.compl_get_longest = true
    · -- inserted by score
      have hb := cfc_branch_true hbr
      have hwalk0 : WalkFrom st.heap first first rest := by
        rcases hshape with h | h
        · exact walkFrom_of_linear h
        · exact walkFrom_of_cyclic h
      have hwalk : WalkFrom (st.heap ++ [node]) first first rest := by
        refine walkFrom_congr st.heap _ first rest first ?_ hwalk0
        intro p hp
        have := hseg.2.1 p hp
        rw [next_append _ _ hnode.1]
        simp [Nat.ne_of_lt this]
      have hlen := segment_length_le hseg
      obtain ⟨r, hr, hcase⟩ := find_score_position_spec (st.heap ++ [node]) first score rest first
        ((st.heap ++ [node]).length + 1) hwalk (by simp at hlen ⊢; omega)
      rcases hcase with ⟨l1, cu, l2, he, hr1, -, -⟩ | ⟨hr2, -⟩
      · obtain ⟨pre, a, hpre⟩ := exists_concat_of_ne_nil (first :: l1) (by simp)
        have heq : first :: rest = pre ++ a :: cu :: l2 := by
          rw [he, ← List.cons_append, hpre]; simp
        have hadj := segment_adjacent (heq ▸ hseg)
        have hcu : cu < st.heap.length := hseg.2.1 cu (by rw [heq]; simp)
        have ha : a < st.heap.length := hseg.2.1 a (by rw [heq]; simp)
        have hsp := spliced_before st.heap node cu a hnode hcu ha hadj.2 _ rfl
        obtain ⟨r1, r2⟩ := r
        simp only at hr1
        subst hr1
        refine ⟨_, pre ++ a :: st.heap.length :: cu :: l2, some cu, some a, ?_, hsp,
          wf_splice_middle hwf heq hsp, ?_⟩
        · simp only [link_new_match, hfirst, hb, if_true, hr]
        · rw [heq]
          have : pre ++ a :: st.heap.length :: cu :: l2
              = (pre ++ [a]) ++ st.heap.length :: (cu :: l2) := by simp
          rw [this]
          refine (List.perm_middle).trans ?_
          simp
      · have hsp := spliced_after st.heap node first (lastOf first rest) hnode hflt hlastlt _ rfl
        subst hr2
        refine ⟨_, first :: (rest ++ [st.heap.length]), some first, some (lastOf first rest), ?_,
          hsp, wf_splice_close hwf hsp, ?_⟩
        · simp only [link_new_match, hfirst, hb, if_true, hr]
        · have : first :: (rest ++ [st.heap.length]) = (first :: rest) ++ [st.heap.length] := by
            simp
          rw [this]
          exact List.perm_append_singleton _ _
    · -- next to the current match
      have hclt : c < st.heap.length := hseg.2.1 c hc
      obtain ⟨h1, hl, hsp⟩ := link_plain st node first c dir score hnode hfirst hcurr hclt
        (fun q hq => wf_lt hwf ((wf_links_mem hwf hc).1 hq))
        (fun q hq => wf_lt hwf ((wf_links_mem hwf hc).2 hq)) hbr
      obtain ⟨pre, post, heq⟩ := List.append_of_mem hc
      by_cases hdir : dir = FORWARD
      · simp only [hdir, if_true] at hsp
        cases post with
        | nil =>
          have hlast := lastOf_of_eq_concat heq
          rcases hshape with hlin | hcyc
          · have hn : (deref st.heap c).cp_next = none := by rw [← hlast]; exact hlin.2.2
            rw [hn, ← hlast] at hsp
            exact ⟨h1, _, _, _, hl, hsp, wf_splice_end_linear hwf hlin hsp, by
              have : first :: (rest ++ [st.heap.length])
                  = (first :: rest) ++ [st.heap.length] := by simp
              rw [this]
              exact List.perm_append_singleton _ _⟩
          · have hn : (deref st.heap c).cp_next = some first := by rw [← hlast]; exact hcyc.2.2
            rw [hn, ← hlast] at hsp
            exact ⟨h1, _, _, _, hl, hsp, wf_splice_close hwf hsp, by
              have : first :: (rest ++ [st.heap.length])
                  = (first :: rest) ++ [st.heap.length] := by simp
              rw [this]
              exact List.perm_append_singleton _ _⟩
        | cons b post' =>
          have hadj := segment_adjacent (heq ▸ hseg)
          rw [hadj.1] at hsp
          refine ⟨h1, _, _, _, hl, hsp, wf_splice_middle hwf heq hsp, ?_⟩
          rw [heq]
          have : pre ++ c :: st.heap.length :: b :: post'
              = (pre ++ [c]) ++ st.heap.length :: (b :: post') := by simp
          rw [this]
          refine (List.perm_middle).trans ?_
          simp
      · simp only [hdir, if_false] at hsp
        by_cases hpre : pre = []
        · subst hpre
          simp only [List.nil_append, List.cons.injEq] at heq
          obtain ⟨rfl, rfl⟩ := heq
          rcases hshape with hlin | hcyc
          · rw [hlin.2.1] at hsp
            exact ⟨h1, _, _, _, hl, hsp, wf_splice_front hwf hlin hsp, List.Perm.refl _⟩
          · rw [hcyc.2.1] at hsp
            exact ⟨h1, _, _, _, hl, hsp, wf_splice_close hwf hsp, by
              have : first :: (rest ++ [st.heap.length])
                  = (first :: rest) ++ [st.heap.length] := by simp
              rw [this]
              exact List.perm_append_singleton _ _⟩
        · obtain ⟨pre', a, hp⟩ := exists_concat_of_ne_nil pre hpre
          have heq' : first :: rest = pre' ++ a :: c :: post := by rw [heq, hp]; simp
          have hadj := segment_adjacent (heq' ▸ hseg)
          rw [hadj.2] at hsp
          refine ⟨h1, _, _, _, hl, hsp, wf_splice_middle hwf heq' hsp, ?_⟩
          rw [heq']
          have : pre' ++ a :: st.heap.length :: c :: post
              = (pre' ++ [a]) ++ st.heap.length :: (c :: post) := by simp
          rw [this]
          refine (List.perm_middle).trans ?_
          simp

theorem link_del_pum (st : State) (h : List compl_T) (new : Nat) (dir : Direction)
    (score : Int) :
    link_new_match (ins_compl_del_pum st) h new dir score = link_new_match st h new dir score := by
  simp only [link_new_match, del_pum_first, del_pum_curr, del_pum_cfc, del_pum_longest]

theorem new_match_del_pum (st : State) (str : List Nat) (len : Nat) (fname : Option (List Nat))
    (cptext : Option CpText) (user_data : Option Nat) (flags_arg : Nat)
    (user_hl : Option (Int × Int)) (score : Int) :
    new_match (ins_compl_del_pum st) str len fname cptext user_data flags_arg user_hl score
      = new_match st str len fname cptext user_data flags_arg user_hl score := by
  simp only [new_match, del_pum_heap, del_pum_curr, del_pum_srcidx]

theorem new_match_links (st : State) (str : List Nat) (len : Nat) (fname : Option (List Nat))
    (cptext : Option CpText) (user_data : Option Nat) (flags_arg : Nat)
    (user_hl : Option (Int × Int)) (score : Int) :
    (new_match st str len fname cptext user_data flags_arg user_hl score).cp_next = none
      ∧ (new_match st str len fname cptext user_data flags_arg user_hl score).cp_prev = none :=
  ⟨rfl, rfl⟩

theorem longest_match_ite (E : Ext) (st : State) (new : Nat) (c : Prop) [Decidable c] :
    (if c then ins_compl_longest_match E st new else st).heap = st.heap
      ∧ (if c then ins_compl_longest_match E st new else st).compl_curr_match
          = st.compl_curr_match
      ∧ (if c then ins_compl_longest_match E st new else st).compl_first_match
          = st.compl_first_match := by
  by_cases hc : c <;> simp [hc]

/-- What a call of `ins_compl_add` that returns OK has done. -/
theorem ins_compl_add_ok_inv {E : Ext} {st st1 : State} {str : List Nat} {len : Int}
    {fname : Option (List Nat)} {cptext : Option CpText} {user_data : Option Nat}
    {cdir : Direction} {flags_arg : Nat} {adup : Bool} {user_hl : Option (Int × Int)}
    {score : Int}
    (hok : ins_compl_add E st str len fname cptext user_data cdir flags_arg adup user_hl score
      = some (OK, st1)) :
    st.got_int = false ∧
    ∃ h1, link_new_match st
        (st.heap ++ [new_match st str (if len < 0 then str.length else len.toNat) fname cptext
          user_data flags_arg user_hl score])
        st.heap.length (if cdir = kDirectionNotSet then st.compl_direction else cdir) score
        = some h1
      ∧ st1.heap = h1 ∧ st1.compl_curr_match = some st.heap.length
      ∧ st1.compl_first_match =
          if (deref h1 st.heap.length).cp_prev = none then some st.heap.length
          else st.compl_first_match := by
  unfold ins_compl_add at hok
  simp only at hok
  split at hok
  · simp [OK, FAIL] at hok
  · rename_i hgi
    refine ⟨by simpa using hgi, ?_⟩
    split at hok
    · cases hok
    · split at hok <;> simp [OK, NOTDONE] at hok
    · rw [link_del_pum, new_match_del_pum, del_pum_heap] at hok
      split at hok
      · cases hok
      · rename_i h1 hl
        refine ⟨h1, hl, ?_⟩
        simp only [Option.some.injEq, Prod.mk.injEq, true_and] at hok
        subst hok
        obtain ⟨e1, e2, e3⟩ := longest_match_ite E
          { ins_compl_del_pum st with
            heap := h1
            compl_first_match :=
              if (deref h1 st.heap.length).cp_prev = none then some st.heap.length
              else (ins_compl_del_pum st).compl_first_match
            compl_curr_match := some st.heap.length } st.heap.length
          (((ins_compl_del_pum st).compl_get_longest
            && decide ((new_match st str (if len < 0 then str.length else len.toNat) fname cptext
                user_data flags_arg user_hl score).cp_flags &&& CP_ORIGINAL_TEXT = 0)
            && !cfc_has_mode { ins_compl_del_pum st with
                heap := h1
                compl_first_match :=
                  if (deref h1 st.heap.length).cp_prev = none then some st.heap.length
                  else (ins_compl_del_pum st).compl_first_match
                compl_curr_match := some st.heap.length }) = true)
        simp only [del_pum_heap, del_pum_first] at e1 e2 e3 ⊢
        exact ⟨e1, e2, e3⟩

/-- **C3.** For every non-empty well-formed candidate list and every call of
`ins_compl_add` that returns OK outside the fuzzy-collect-with-longest branch:
going FORWARD the new entry becomes the `cp_next` of the former current entry
and the `cp_prev` of that entry's former successor; going BACKWARD it becomes
the `cp_prev` of the former current entry and the `cp_next` of that entry's
former predecessor, and `compl_first_match` when there was no predecessor;
`compl_curr_match` becomes the new entry; and the links of every other entry
than the former current one and that one neighbour are unchanged. -/
theorem ins_compl_add_links_at_current (E : Ext) (st st1 : State) (ns : List Nat)
    (str : List Nat) (len : Int) (fname : Option (List Nat)) (cptext : Option CpText)
    (user_data : Option Nat) (cdir : Direction) (flags_arg : Nat) (adup : Bool)
    (user_hl : Option (Int × Int)) (score : Int)
    (hwf : WellFormed st ns) (hne : ns ≠ [])
    (hbranch : ¬ (cfc_has_mode st = true ∧ 0 < score ∧ st.compl_get_longest = true))
    (hok : ins_compl_add E st str len fname cptext user_data cdir flags_arg adup user_hl score
      = some (OK, st1)) :
    ∃ curr, st.compl_curr_match = some curr ∧
      st1.compl_curr_match = some st.heap.length ∧
      ((if cdir = kDirectionNotSet then st.compl_direction else cdir) = FORWARD →
        (deref st1.heap curr).cp_next = some st.heap.length
          ∧ (deref st1.heap st.heap.length).cp_prev = some curr
          ∧ (deref st1.heap st.heap.length).cp_next = (deref st.heap curr).cp_next
          ∧ ∀ q, (deref st.heap curr).cp_next = some q →
              (deref st1.heap q).cp_prev = some st.heap.length) ∧
      ((if cdir = kDirectionNotSet then st.compl_direction else cdir) = BACKWARD →
        (deref st1.heap curr).cp_prev = some st.heap.length
          ∧ (deref st1.heap st.heap.length).cp_next = some curr
          ∧ (deref st1.heap st.heap.length).cp_prev = (deref st.heap curr).cp_prev
          ∧ (∀ q, (deref st.heap curr).cp_prev = some q →
              (deref st1.heap q).cp_next = some st.heap.length)
          ∧ ((deref st.heap curr).cp_prev = none →
              st1.compl_first_match = some st.heap.length)) ∧
      (∀ p, p < st.heap.length → p ≠ curr →
        (if (if cdir = kDirectionNotSet then st.compl_direction else cdir) = FORWARD
          then (deref st.heap curr).cp_next else (deref st.heap curr).cp_prev) ≠ some p →
        (deref st1.heap p).cp_next = (deref st.heap p).cp_next
          ∧ (deref st1.heap p).cp_prev = (deref st.heap p).cp_prev) := by
  cases ns with
  | nil => exact absurd rfl hne
  | cons first rest =>
    obtain ⟨-, h1, hl, hheap, hcurr1, hfirst1⟩ := ins_compl_add_ok_inv hok
    have hseg := wf_segment hwf
    obtain ⟨hfirst, hshape, c, hc, hcurr⟩ := hwf
    have hwf : WellFormed st (first :: rest) := ⟨hfirst, hshape, c, hc, hcurr⟩
    have hclt : c < st.heap.length := hseg.2.1 c hc
    have hNlt : ∀ q, (deref st.heap c).cp_next = some q → q < st.heap.length :=
      fun q hq => wf_lt hwf ((wf_links_mem hwf hc).1 hq)
    have hPlt : ∀ q, (deref st.heap c).cp_prev = some q → q < st.heap.length :=
      fun q hq => wf_lt hwf ((wf_links_mem hwf hc).2 hq)
    obtain ⟨h1', hl', hsp⟩ := link_plain st _ first c _ score (new_match_links ..) hfirst hcurr
      hclt hNlt hPlt hbranch
    rw [hl] at hl'
    cases hl'
    rw [hheap]
    refine ⟨c, hcurr, hcurr1, ?_, ?_, ?_⟩
    · intro hdir
      simp only [hdir, if_true] at hsp
      refine ⟨spliced_next_P hsp hclt, spliced_prev_new hsp, spliced_next_new hsp, ?_⟩
      intro q hq
      rw [hq] at hsp
      exact spliced_prev_N hsp (hNlt q hq)
    · intro hdir
      have hnf : ¬ (if cdir = kDirectionNotSet then st.compl_direction else cdir) = FORWARD := by
        rw [hdir]; decide
      simp only [hnf, if_false] at hsp
      refine ⟨spliced_prev_N hsp hclt, spliced_next_new hsp, spliced_prev_new hsp, ?_, ?_⟩
      · intro q hq
        rw [hq] at hsp
        exact spliced_next_P hsp (hPlt q hq)
      · intro hq
        rw [hfirst1, spliced_prev_new hsp, hq]
        simp
    · intro p hp hpc hnb
      by_cases hdir : (if cdir = kDirectionNotSet then st.compl_direction else cdir) = FORWARD
      · simp only [hdir, if_true] at hsp hnb
        exact ⟨spliced_next_old hsp hp (by intro e; cases e; exact hpc rfl),
          spliced_prev_old hsp hp hnb⟩
      · simp only [hdir, if_false] at hsp hnb
        exact ⟨spliced_next_old hsp hp hnb,
          spliced_prev_old hsp hp (by intro e; cases e; exact hpc rfl)⟩

theorem ins_compl_add_links_at_current_witness :
    WellFormed anchor_only [0]
      ∧ ins_compl_add ascii_ops anchor_only (bytes "hello") (-1) none none none FORWARD 0
          false none 0 = some (OK, anchor_hello)
      ∧ ∃ curr, anchor_only.compl_curr_match = some curr
          ∧ anchor_hello.compl_curr_match = some 1
          ∧ (deref anchor_hello.heap curr).cp_next = some 1 := by
  refine ⟨by decide, by decide, ?_⟩
  obtain ⟨curr, h1, h2, hf, -⟩ := ins_compl_add_links_at_current ascii_ops anchor_only
    anchor_hello [0] (bytes "hello") (-1) none none none FORWARD 0 false none 0
    (by decide) (by decide) (by decide) (by decide)
  exact ⟨curr, h1, h2, (hf rfl).1⟩

theorem noNul_cons {b : Nat} {s : List Nat} (h : NoNul (b :: s)) : b ≠ 0 ∧ NoNul s :=
  ⟨h b (by simp), fun c hc => h c (List.mem_cons_of_mem _ hc)⟩

/-- On C strings `strncmp` is 0 exactly when the first `n` bytes agree. -/
theorem strncmp_eq_zero_iff : ∀ (a s : List Nat) (n : Nat), NoNul a → NoNul s →
    (strncmp a s n = 0 ↔ a.take n = s.take n)
  | _, _, 0, _, _ => by simp [strncmp]
  | [], [], _ + 1, _, _ => by simp [strncmp]
  | [], b :: _, _ + 1, _, hs => by
    have := (noNul_cons hs).1
    simp [strncmp, this]
  | a :: _, [], _ + 1, ha, _ => by
    have := (noNul_cons ha).1
    simp [strncmp, this]
  | a :: as, b :: bs, n + 1, ha, hs => by
    have ha0 := (noNul_cons ha).1
    have ih := strncmp_eq_zero_iff as bs n (noNul_cons ha).2 (noNul_cons hs).2
    by_cases hab : a = b
    · subst hab
      simp [strncmp, ha0, ih]
    · by_cases hlt : a < b
      · simp [strncmp, hab, hlt]
      · simp [strncmp, hab, hlt]

/-- On C strings the duplicate test of `ins_compl_add` is: not the original
text, and the same text as the first `len` bytes of `str`. -/
theorem is_duplicate_eq (h : List compl_T) (p : Nat) (str : List Nat) (n : Nat)
    (hp : NoNul (deref h p).cp_str) (hs : NoNul str) :
    is_duplicate (deref h p) str n = is_candidate_with_text h (str.take n) p := by
  unfold is_duplicate is_candidate_with_text
  cases ho : match_at_original_text (deref h p)
  · simp only [Bool.not_false, Bool.true_and]
    have hiff := strncmp_eq_zero_iff (deref h p).cp_str str n hp hs
    by_cases heq : (deref h p).cp_str = str.take n
    · have h1 : strncmp (deref h p).cp_str str n = 0 := by
        rw [hiff, heq, List.take_take]; simp
      have h2 : (deref h p).cp_str.length ≤ n := by
        rw [heq, List.length_take]; omega
      rw [← heq]
      simp [h1, h2]
    · have : ¬ (strncmp (deref h p).cp_str str n = 0
          ∧ ((deref h p).cp_str.length ≤ n ∨ byteAt (deref h p).cp_str n = 0)) := by
        rintro ⟨h1, h2⟩
        rw [hiff] at h1
        rcases h2 with h2 | h2
        · exact heq (by rw [← h1, List.take_of_length_le h2])
        · by_cases hl : n < (deref h p).cp_str.length
          · have hm : byteAt (deref h p).cp_str n ∈ (deref h p).cp_str := by
              unfold byteAt
              rw [List.getD_eq_getElem _ _ hl]
              exact List.getElem_mem hl
            exact hp _ hm h2
          · exact heq (by rw [← h1, List.take_of_length_le (by omega)])
      have hne : ((deref h p).cp_str == str.take n) = false := by simpa using heq
      rw [hne]
      simp only [Bool.and_eq_true, beq_iff_eq, Bool.or_eq_true, decide_eq_true_eq] at this ⊢
      by_cases h1 : strncmp (deref h p).cp_str str n = 0
      · have h2 : ¬ ((deref h p).cp_str.length ≤ n ∨ byteAt (deref h p).cp_str n = 0) :=
          fun h2 => this ⟨h1, h2⟩
        simp only [not_or] at h2
        simp [h1, h2.1, h2.2]
      · simp [h1]
  · simp

@[simp] theorem del_pum_got_int (st : State) : (ins_compl_del_pum st).got_int = st.got_int := by
  unfold ins_compl_del_pum; split <;> rfl

@[simp] theorem longest_match_got_int (E : Ext) (st : State) (m : Nat) :
    (ins_compl_longest_match E st m).got_int = st.got_int := by
  unfold ins_compl_longest_match; split
  · rfl
  · simp only []; split <;> rfl

theorem longest_match_ite_got_int (E : Ext) (st : State) (new : Nat) (c : Prop) [Decidable c] :
    (if c then ins_compl_longest_match E st new else st).got_int = st.got_int := by
  by_cases hc : c <;> simp [hc]

/-- A call of `ins_compl_add` that meets no interrupt and no duplicate returns
OK, once the new record is linked in. -/
theorem ins_compl_add_ok_of (E : Ext) {st : State} {str : List Nat} {len : Int}
    {fname : Option (List Nat)} {cptext : Option CpText} {user_data : Option Nat}
    {cdir : Direction} {flags_arg : Nat} (adup : Bool) {user_hl : Option (Int × Int)}
    {score : Int} {h1 : List compl_T}
    (hgi : st.got_int = false)
    (hdup : ∀ first, st.compl_first_match = some first → adup = false →
      find_duplicate st.heap first str (if len < 0 then str.length else len.toNat)
        (st.heap.length + 1) first = some none)
    (hl : link_new_match st
        (st.heap ++ [new_match st str (if len < 0 then str.length else len.toNat) fname cptext
          user_data flags_arg user_hl score])
        st.heap.length (if cdir = kDirectionNotSet then st.compl_direction else cdir) score
        = some h1) :
    ∃ st1, ins_compl_add E st str len fname cptext user_data cdir flags_arg adup user_hl score
        = some (OK, st1)
      ∧ st1.heap = h1 ∧ st1.compl_curr_match = some st.heap.length
      ∧ st1.compl_first_match =
          (if (deref h1 st.heap.length).cp_prev = none then some st.heap.length
            else st.compl_first_match)
      ∧ st1.got_int = false := by
  have hstep : ins_compl_add E st str len fname cptext user_data cdir flags_arg adup user_hl
      score = some (OK,
        if ((ins_compl_del_pum st).compl_get_longest
          && decide ((new_match st str (if len < 0 then str.length else len.toNat) fname cptext
              user_data flags_arg user_hl score).cp_flags &&& CP_ORIGINAL_TEXT = 0)
          && !cfc_has_mode { ins_compl_del_pum st with
              heap := h1
              compl_first_match :=
                if (deref h1 st.heap.length).cp_prev = none then some st.heap.length
                else (ins_compl_del_pum st).compl_first_match
              compl_curr_match := some st.heap.length }) = true
        then ins_compl_longest_match E
          { ins_compl_del_pum st with
            heap := h1
            compl_first_match :=
              if (deref h1 st.heap.length).cp_prev = none then some st.heap.length
              else (ins_compl_del_pum st).compl_first_match
            compl_curr_match := some st.heap.length } st.heap.length
        else
          { ins_compl_del_pum st with
            heap := h1
            compl_first_match :=
              if (deref h1 st.heap.length).cp_prev = none then some st.heap.length
              else (ins_compl_del_pum st).compl_first_match
            compl_curr_match := some st.heap.length }) := by
    unfold ins_compl_add
    rcases hf : st.compl_first_match with _ | first
    · simp only [hgi, Bool.false_eq_true, if_false, link_del_pum, new_match_del_pum,
        del_pum_heap, hl]
    · cases adup
      · have := hdup first hf rfl
        simp only [hgi, Bool.false_eq_true, if_false, this, link_del_pum, new_match_del_pum,
          del_pum_heap, hl]
      · simp only [hgi, Bool.false_eq_true, if_false, link_del_pum, new_match_del_pum,
          del_pum_heap, hl]
  refine ⟨_, hstep, ?_⟩
  obtain ⟨e1, e2, e3⟩ := longest_match_ite E
    { ins_compl_del_pum st with
      heap := h1
      compl_first_match :=
        if (deref h1 st.heap.length).cp_prev = none then some st.heap.length
        else (ins_compl_del_pum st).compl_first_match
      compl_curr_match := some st.heap.length } st.heap.length
    (((ins_compl_del_pum st).compl_get_longest
      && decide ((new_match st str (if len < 0 then str.length else len.toNat) fname cptext
          user_data flags_arg user_hl score).cp_flags &&& CP_ORIGINAL_TEXT = 0)
      && !cfc_has_mode { ins_compl_del_pum st with
          heap := h1
          compl_first_match :=
            if (deref h1 st.heap.length).cp_prev = none then some st.heap.length
            else (ins_compl_del_pum st).compl_first_match
          compl_curr_match := some st.heap.length }) = true)
  simp only [del_pum_heap, del_pum_first] at e1 e2 e3 ⊢
  refine ⟨e1, e2, e3, ?_⟩
  rw [longest_match_ite_got_int]
  simp [hgi]

/-- A call of `ins_compl_add` that finds a duplicate returns NOTDONE and
changes at most the score of the duplicate. -/
theorem ins_compl_add_dup (E : Ext) {st : State} {str : List Nat} {len : Int}
    (fname : Option (List Nat)) (cptext : Option CpText) (user_data : Option Nat)
    (cdir : Direction) (flags_arg : Nat) (user_hl : Option (Int × Int))
    (score : Int) {first m : Nat}
    (hgi : st.got_int = false) (hfirst : st.compl_first_match = some first)
    (hdup : find_duplicate st.heap first str (if len < 0 then str.length else len.toNat)
      (st.heap.length + 1) first = some (some m)) :
    ∃ st2, ins_compl_add E st str len fname cptext user_data cdir flags_arg false user_hl score
        = some (NOTDONE, st2)
      ∧ st2.heap.length = st.heap.length
      ∧ (∀ p, { deref st2.heap p with cp_score := 0 } = { deref st.heap p with cp_score := 0 })
      ∧ st2.compl_first_match = st.compl_first_match
      ∧ st2.compl_curr_match = st.compl_curr_match := by
  unfold ins_compl_add
  simp only [hgi, Bool.false_eq_true, if_false, hfirst, hdup]
  split
  · refine ⟨_, rfl, by simp [length_assign], ?_, rfl, rfl⟩
    intro p
    simp only [deref_assign]
    split
    · rename_i hc; rw [hc.1]
    · rfl
  · exact ⟨_, rfl, rfl, fun _ => rfl, hfirst, rfl⟩

theorem linked_congr (h h1 : List compl_T) :
    ∀ (ns : List Nat), (∀ p ∈ ns, (deref h1 p).cp_next = (deref h p).cp_next
        ∧ (deref h1 p).cp_prev = (deref h p).cp_prev) →
      Linked h ns → Linked h1 ns
  | [], _, _ => trivial
  | [_], _, _ => trivial
  | a :: b :: t, he, hl => by
    obtain ⟨⟨h1n, h1p⟩, hl⟩ := hl
    refine ⟨⟨by rw [(he a (by simp)).1]; exact h1n, by rw [(he b (by simp)).2]; exact h1p⟩,
      linked_congr h h1 (b :: t) (fun p hp => he p (List.mem_cons_of_mem _ hp)) hl⟩

/-- Well-formedness only looks at the links, the size of the arena, and the
first and current entry. -/
theorem wf_congr {st st2 : State} {ns : List Nat} (hwf : WellFormed st ns)
    (hlen : st2.heap.length = st.heap.length)
    (hlinks : ∀ p, (deref st2.heap p).cp_next = (deref st.heap p).cp_next
        ∧ (deref st2.heap p).cp_prev = (deref st.heap p).cp_prev)
    (hfirst : st2.compl_first_match = st.compl_first_match)
    (hcurr : st2.compl_curr_match = st.compl_curr_match) :
    WellFormed st2 ns := by
  cases ns with
  | nil => exact hfirst.trans hwf
  | cons first rest =>
    obtain ⟨hf, hshape, hc⟩ := hwf
    have hseg : ∀ {l}, Segment st.heap l → Segment st2.heap l := fun hs =>
      ⟨hs.1, fun a ha => hlen ▸ hs.2.1 a ha, linked_congr _ _ _ (fun p _ => hlinks p) hs.2.2⟩
    refine ⟨hfirst.trans hf, ?_, by rw [hcurr]; exact hc⟩
    rcases hshape with hl | hl
    · exact Or.inl ⟨hseg hl.1, by rw [(hlinks first).2]; exact hl.2.1,
        by rw [(hlinks _).1]; exact hl.2.2⟩
    · exact Or.inr ⟨hseg hl.1, by rw [(hlinks first).2]; exact hl.2.1,
        by rw [(hlinks _).1]; exact hl.2.2⟩

theorem sameData_fields {a b : compl_T} (h : SameData a b) :
    a.cp_str = b.cp_str ∧ a.cp_flags = b.cp_flags := by
  have h1 := congrArg compl_T.cp_str h
  have h2 := congrArg compl_T.cp_flags h
  exact ⟨h1, h2⟩

theorem same_but_score_fields {a b : compl_T}
    (h : { a with cp_score := 0 } = { b with cp_score := 0 }) :
    a.cp_str = b.cp_str ∧ a.cp_flags = b.cp_flags ∧ a.cp_next = b.cp_next
      ∧ a.cp_prev = b.cp_prev := by
  have h1 := congrArg compl_T.cp_str h
  have h2 := congrArg compl_T.cp_flags h
  have h3 := congrArg compl_T.cp_next h
  have h4 := congrArg compl_T.cp_prev h
  exact ⟨h1, h2, h3, h4⟩

theorem new_match_not_original (st : State) (str : List Nat) (len : Nat)
    (fname : Option (List Nat)) (cptext : Option CpText) (user_data : Option Nat)
    (flags_arg : Nat) (user_hl : Option (Int × Int)) (score : Int)
    (hflags : flags_arg &&& CP_ORIGINAL_TEXT = 0) :
    match_at_original_text
      (new_match st str len fname cptext user_data flags_arg user_hl score) = false := by
  have h2 : (flags_arg ||| CP_FREE_FNAME) &&& CP_ORIGINAL_TEXT = 0 := by
    rw [Nat.and_comm, Nat.and_or_distrib_left, Nat.and_comm, hflags]
    decide
  unfold match_at_original_text new_match
  simp only []
  split <;> simp [hflags, h2]

theorem noNul_take {s : List Nat} (h : NoNul s) (n : Nat) : NoNul (s.take n) :=
  fun b hb => h b (List.mem_of_mem_take hb)

theorem wf_walk {st : State} {first : Nat} {rest : List Nat}
    (hwf : WellFormed st (first :: rest)) : WalkFrom st.heap first first rest := by
  rcases hwf.2.1 with h | h
  · exact walkFrom_of_linear h
  · exact walkFrom_of_cyclic h

/-- **C1.** For every well-formed candidate list that holds no candidate other
than the original text with text `t`, two successive calls of `ins_compl_add`
with the same text and length (`adup` false, no interrupt pending, the added
text being a candidate, not the original text) leave exactly one such
candidate: the first call returns OK, the second returns NOTDONE without
adding a record or changing any link. -/
theorem ins_compl_add_twice_keeps_one (E : Ext) (st : State) (ns : List Nat)
    (str : List Nat) (len : Int)
    (fname : Option (List Nat)) (cptext : Option CpText) (user_data : Option Nat)
    (cdir : Direction) (flags_arg : Nat) (user_hl : Option (Int × Int)) (score : Int)
    (fname2 : Option (List Nat)) (cptext2 : Option CpText) (user_data2 : Option Nat)
    (cdir2 : Direction) (flags_arg2 : Nat) (user_hl2 : Option (Int × Int)) (score2 : Int)
    (hwf : WellFormed st ns) (hgi : st.got_int = false)
    (hstr : NoNul str) (htexts : ∀ p ∈ ns, NoNul (deref st.heap p).cp_str)
    (hnone : ∀ p ∈ ns, is_candidate_with_text st.heap (added_text str len) p = false)
    (hflags : flags_arg &&& CP_ORIGINAL_TEXT = 0) :
    ∃ st1 st2 ns1,
      ins_compl_add E st str len fname cptext user_data cdir flags_arg false user_hl score
          = some (OK, st1)
      ∧ ins_compl_add E st1 str len fname2 cptext2 user_data2 cdir2 flags_arg2 false user_hl2
          score2 = some (NOTDONE, st2)
      ∧ WellFormed st1 ns1 ∧ WellFormed st2 ns1
      ∧ st2.heap.length = st1.heap.length
      ∧ (∀ p, (deref st2.heap p).cp_next = (deref st1.heap p).cp_next
          ∧ (deref st2.heap p).cp_prev = (deref st1.heap p).cp_prev)
      ∧ st2.compl_first_match = st1.compl_first_match
      ∧ st2.compl_curr_match = st1.compl_curr_match
      ∧ ns1.countP (is_candidate_with_text st2.heap (added_text str len)) = 1 := by
  have hseglt : ∀ p ∈ ns, p < st.heap.length := by
    intro p hp
    cases ns with
    | nil => cases hp
    | cons first rest => exact wf_lt hwf hp
  -- the first call finds no duplicate
  have hdup : ∀ first, st.compl_first_match = some first → false = false →
      find_duplicate st.heap first str (if len < 0 then str.length else len.toNat)
        (st.heap.length + 1) first = some none := by
    intro first hf _
    cases ns with
    | nil => rw [show st.compl_first_match = none from hwf] at hf; cases hf
    | cons f rest =>
      have hf' : f = first := by
        have := hwf.1; rw [hf] at this; exact (Option.some.inj this).symm
      subst hf'
      have hlen := segment_length_le (wf_segment hwf)
      rw [find_duplicate_eq _ _ _ _ rest f _ (wf_walk hwf) (by simp at hlen; omega)]
      congr 1
      rw [List.find?_eq_none]
      intro x hx
      rw [is_duplicate_eq _ _ _ _ (htexts x hx) hstr]
      have := hnone x hx
      unfold added_text at this
      simp [this]
  obtain ⟨h1, ns1, N, P, hl, hsp, hwf1, hperm⟩ := link_new_match_wf st ns hwf
    (new_match st str (if len < 0 then str.length else len.toNat) fname cptext user_data
      flags_arg user_hl score) (new_match_links ..)
    (if cdir = kDirectionNotSet then st.compl_direction else cdir) score
  obtain ⟨st1, hadd1, hheap1, hcurr1, hfirst1, hgi1⟩ :=
    ins_compl_add_ok_of E false hgi hdup hl
  have hwf1' : WellFormed st1 ns1 :=
    wf_congr hwf1 (by rw [hheap1]) (fun p => by rw [hheap1]; exact ⟨rfl, rfl⟩)
      (by rw [hfirst1]) (by rw [hcurr1])
  -- how the entries look after the first call
  have hcand_old : ∀ p ∈ ns, is_candidate_with_text st1.heap (added_text str len) p = false := by
    intro p hp
    have hd := sameData_fields (hsp.2.2.2 p)
    rw [deref_append_lt _ _ _ (hseglt p hp)] at hd
    have := hnone p hp
    unfold is_candidate_with_text match_at_original_text at this ⊢
    rw [hheap1, hd.1, hd.2]
    exact this
  have hnew_data := sameData_fields (hsp.2.2.2 st.heap.length)
  rw [deref_append_new] at hnew_data
  have hcand_new : is_candidate_with_text st1.heap (added_text str len) st.heap.length = true := by
    have hno := new_match_not_original st str (if len < 0 then str.length else len.toNat) fname
      cptext user_data flags_arg user_hl score hflags
    unfold is_candidate_with_text match_at_original_text at hno ⊢
    rw [hheap1, hnew_data.1, hnew_data.2, hno]
    simp [new_match, added_text]
  have hnew_mem : st.heap.length ∈ ns1 := hperm.symm.subset (by simp)
  -- the second call finds a duplicate
  cases ns1 with
  | nil => cases hnew_mem
  | cons f1 rest1 =>
    have hf1 := hwf1'.1
    have hlen1 := segment_length_le (wf_segment hwf1')
    have hfd := find_duplicate_eq st1.heap f1 str (if len < 0 then str.length else len.toNat)
      rest1 f1 (st1.heap.length + 1) (wf_walk hwf1') (by simp at hlen1; omega)
    have hnew_dup : is_duplicate (deref st1.heap st.heap.length) str
        (if len < 0 then str.length else len.toNat) = true := by
      rw [is_duplicate_eq _ _ _ _ (by
        rw [hheap1, hnew_data.1]; exact noNul_take hstr _) hstr]
      exact hcand_new
    have hsome : ((f1 :: rest1).find? fun p => is_duplicate (deref st1.heap p) str
        (if len < 0 then str.length else len.toNat)).isSome = true :=
      List.find?_isSome.mpr ⟨_, hnew_mem, hnew_dup⟩
    obtain ⟨m, hm⟩ := Option.isSome_iff_exists.mp hsome
    rw [hm] at hfd
    obtain ⟨st2, hadd2, hlen2, hsame2, hfirst2, hcurr2⟩ :=
      ins_compl_add_dup E fname2 cptext2 user_data2 cdir2 flags_arg2 user_hl2 score2
        hgi1 hf1 hfd
    have hlinks : ∀ p, (deref st2.heap p).cp_next = (deref st1.heap p).cp_next
        ∧ (deref st2.heap p).cp_prev = (deref st1.heap p).cp_prev := fun p =>
      ⟨(same_but_score_fields (hsame2 p)).2.2.1, (same_but_score_fields (hsame2 p)).2.2.2⟩
    have hcand2 : ∀ p, is_candidate_with_text st2.heap (added_text str len) p
        = is_candidate_with_text st1.heap (added_text str len) p := by
      intro p
      have := same_but_score_fields (hsame2 p)
      unfold is_candidate_with_text match_at_original_text
      rw [this.1, this.2.1]
    refine ⟨st1, st2, f1 :: rest1, hadd1, hadd2, hwf1', wf_congr hwf1' hlen2 hlinks hfirst2 hcurr2,
      hlen2, hlinks, hfirst2, hcurr2, ?_⟩
    rw [List.Perm.countP_eq _ hperm, List.countP_cons, hcand2, hcand_new]
    have : List.countP (is_candidate_with_text st2.heap (added_text str len)) ns = 0 := by
      rw [List.countP_eq_zero]
      intro a ha
      rw [hcand2, hcand_old a ha]
      simp
    rw [this]
    rfl

theorem ins_compl_add_twice_keeps_one_witness :
    WellFormed anchor_only [0] ∧ anchor_only.got_int = false ∧ NoNul (bytes "he")
      ∧ (∀ p ∈ [0], NoNul (deref anchor_only.heap p).cp_str)
      ∧ (∀ p ∈ [0], is_candidate_with_text anchor_only.heap (added_text (bytes "he") (-1)) p
          = false)
      ∧ (0 : Nat) &&& CP_ORIGINAL_TEXT = 0
      ∧ ∃ st1 st2,
          ins_compl_add ascii_ops anchor_only (bytes "he") (-1) none none none FORWARD 0 false
            none 0 = some (OK, st1)
          ∧ ins_compl_add ascii_ops st1 (bytes "he") (-1) none none none FORWARD 0 false
            none 0 = some (NOTDONE, st2) := by
  refine ⟨by decide, by decide, by decide, by decide, by decide, by decide, ?_⟩
  obtain ⟨st1, st2, -, h1, h2, -⟩ := ins_compl_add_twice_keeps_one ascii_ops anchor_only [0]
    (bytes "he") (-1) none none none FORWARD 0 none 0 none none none FORWARD 0 none 0
    (by decide) (by decide) (by decide) (by decide) (by decide) (by decide)
  exact ⟨st1, st2, h1, h2⟩

theorem find_list_end_eq (h : List compl_T) (first : Nat) :
    ∀ (post : List Nat) (m fuel : Nat) (count : Int), WalkFrom h first m post →
      post.length < fuel →
      find_list_end h first fuel m count = some (lastOf m post, count + post.length)
  | [], m, fuel + 1, count, hw, _ => by
    rcases hw with hw | hw <;> simp [find_list_end, hw, lastOf]
  | b :: post, m, fuel + 1, count, hw, hf => by
    obtain ⟨hn, hb, hw⟩ := hw
    have ih := find_list_end_eq h first post b fuel (count + 1) hw (by simpa using hf)
    simp only [find_list_end, hn, hb, if_false, ih, lastOf]
    simp only [List.length_cons, Nat.cast_add, Nat.cast_one]
    congr 2
    omega

/-- Closing a well-formed list onto its first entry gives a ring. -/
theorem close_ring {h : List compl_T} {first : Nat} {rest : List Nat}
    (hshape : IsLinear h first rest ∨ IsCyclic h first rest) :
    IsCyclic
      (assign (assign h (lastOf first rest) (set_next (some first))) first
        (set_prev (some (lastOf first rest)))) first rest := by
  have hseg : Segment h (first :: rest) := by
    rcases hshape with h | h <;> exact h.1
  have hch := segment_chain hseg
  obtain ⟨hnd, hlt, -⟩ := hseg
  have hflt : first < h.length := hlt _ (by simp)
  have hllt : lastOf first rest < h.length := hlt _ (lastOf_mem rest first)
  refine ⟨⟨hnd, ?_, ?_⟩, ?_, ?_⟩
  · intro a ha
    rw [length_assign, length_assign]
    exact hlt a ha
  · rw [linked_iff_chain]
    refine chain_transfer h _ _ hch ?_ ?_
    · intro x hx
      rw [next_assign_set_prev, next_assign_set_next]
      have : x ≠ lastOf first rest := fun e =>
        lastOf_not_mem_dropLast rest first hnd (e ▸ hx)
      simp [this]
    · intro y hy
      simp only [List.tail_cons] at hy
      rw [prev_assign_set_prev, prev_assign_set_next]
      have : y ≠ first := fun e => (List.nodup_cons.mp hnd).1 (e ▸ hy)
      simp [this]
  · rw [prev_assign_set_prev, length_assign]
    simp [hflt]
  · rw [next_assign_set_prev, next_assign_set_next]
    simp [hllt]

/-- What `ins_compl_make_cyclic` does on a well-formed list. -/
theorem ins_compl_make_cyclic_eq {st : State} {first : Nat} {rest : List Nat}
    (hwf : WellFormed st (first :: rest)) :
    ins_compl_make_cyclic st = some ((rest.length : Int),
      { st with heap := (assign (assign st.heap (lastOf first rest) (set_next (some first)))
          first (set_prev (some (lastOf first rest)))) }) := by
  have hlen := segment_length_le (wf_segment hwf)
  unfold ins_compl_make_cyclic
  rw [hwf.1]
  simp only []
  rw [find_list_end_eq st.heap first rest first _ 0 (wf_walk hwf) (by simp at hlen; omega)]
  simp

theorem linked_getD (h : List compl_T) :
    ∀ (ns : List Nat) (i : Nat), Linked h ns → i + 1 < ns.length →
      Adjacent h (ns.getD i 0) (ns.getD (i + 1) 0)
  | [], _, _, hi => by simp at hi
  | [_], _, _, hi => by simp at hi
  | a :: b :: t, 0, hl, _ => by simpa using hl.1
  | a :: b :: t, i + 1, hl, hi => by
    have := linked_getD h (b :: t) i hl.2 (by simpa using hi)
    simpa using this

theorem lastOf_getD : ∀ (rest : List Nat) (first : Nat),
    lastOf first rest = (first :: rest).getD rest.length 0
  | [], _ => by simp [lastOf]
  | b :: rest, first => by
    have := lastOf_getD rest b
    simp only [lastOf, List.length_cons, List.getD_cons_succ]
    exact this

/-- In a ring each entry is adjacent to the next one, counting positions
modulo the size of the ring. -/
theorem cyclic_step {h : List compl_T} {first : Nat} {rest : List Nat}
    (hc : IsCyclic h first rest) (i : Nat) (hi : i < rest.length + 1) :
    Adjacent h ((first :: rest).getD i 0) ((first :: rest).getD ((i + 1) % (rest.length + 1)) 0) := by
  by_cases hlast : i + 1 < rest.length + 1
  · rw [Nat.mod_eq_of_lt hlast]
    exact linked_getD h (first :: rest) i hc.1.2.2 (by simpa using hlast)
  · have hi' : i = rest.length := by omega
    subst hi'
    rw [Nat.mod_self, ← lastOf_getD]
    exact ⟨hc.2.2, hc.2.1⟩

theorem follow_next_ring {h : List compl_T} {first : Nat} {rest : List Nat}
    (hc : IsCyclic h first rest) :
    ∀ (k i : Nat), i < rest.length + 1 →
      follow_next h k (some ((first :: rest).getD i 0))
        = some ((first :: rest).getD ((i + k) % (rest.length + 1)) 0)
  | 0, i, hi => by simp [follow_next, Nat.mod_eq_of_lt hi]
  | k + 1, i, hi => by
    have hstep := (cyclic_step hc i hi).1
    have ih := follow_next_ring hc k ((i + 1) % (rest.length + 1)) (Nat.mod_lt _ (by omega))
    simp only [follow_next, Option.some_bind, hstep, ih]
    rw [Nat.mod_add_mod]
    congr 3
    omega

theorem cyclic_step_back {h : List compl_T} {first : Nat} {rest : List Nat}
    (hc : IsCyclic h first rest) (i : Nat) (hi : i < rest.length + 1) :
    (deref h ((first :: rest).getD i 0)).cp_prev
      = some ((first :: rest).getD ((i + rest.length) % (rest.length + 1)) 0) := by
  have hj : (i + rest.length) % (rest.length + 1) < rest.length + 1 := Nat.mod_lt _ (by omega)
  have := (cyclic_step hc _ hj).2
  have e : ((i + rest.length) % (rest.length + 1) + 1) % (rest.length + 1) = i := by
    rw [Nat.mod_add_mod]
    have : i + rest.length + 1 = i + (rest.length + 1) := by omega
    rw [this, Nat.add_mod_right, Nat.mod_eq_of_lt hi]
  rw [e] at this
  exact this

theorem follow_prev_ring {h : List compl_T} {first : Nat} {rest : List Nat}
    (hc : IsCyclic h first rest) :
    ∀ (k i : Nat), i < rest.length + 1 →
      follow_prev h k (some ((first :: rest).getD i 0))
        = some ((first :: rest).getD ((i + k * rest.length) % (rest.length + 1)) 0)
  | 0, i, hi => by simp [follow_prev, Nat.mod_eq_of_lt hi]
  | k + 1, i, hi => by
    have hstep := cyclic_step_back hc i hi
    have ih := follow_prev_ring hc k ((i + rest.length) % (rest.length + 1))
      (Nat.mod_lt _ (by omega))
    simp only [follow_prev, Option.some_bind, hstep, ih]
    rw [Nat.mod_add_mod]
    congr 3
    rw [Nat.add_mul]
    omega

/-- **Ring closure** in a ring of `n` entries. -/
theorem ring_closure {h : List compl_T} {first : Nat} {rest : List Nat}
    (hc : IsCyclic h first rest) (p : Nat) (hp : p ∈ first :: rest) :
    follow_next h (rest.length + 1) (some p) = some p
      ∧ follow_prev h (rest.length + 1) (some p) = some p := by
  obtain ⟨i, hi, rfl⟩ := List.mem_iff_getElem.mp hp
  have hi' : i < rest.length + 1 := by simpa using hi
  have e : (first :: rest)[i] = (first :: rest).getD i 0 := by
    rw [List.getD_eq_getElem _ _ hi]
  rw [e, follow_next_ring hc _ i hi', follow_prev_ring hc _ i hi']
  constructor
  · rw [Nat.add_mod_right, Nat.mod_eq_of_lt hi']
  · rw [Nat.add_mul_mod_self_left, Nat.mod_eq_of_lt hi']

/-- **C2.** For every non-empty well-formed candidate list of `n` entries
starting at `compl_first_match` (linear or already cyclic),
`ins_compl_make_cyclic` returns, and afterwards following `cp_next` `n` times
from any entry leads back to that entry, and so does following `cp_prev` `n`
times. -/
theorem ins_compl_make_cyclic_closes_ring (st : State) (first : Nat) (rest : List Nat)
    (hwf : WellFormed st (first :: rest)) :
    ∃ st1, ins_compl_make_cyclic st = some ((rest.length : Int), st1)
      ∧ IsCyclic st1.heap first rest
      ∧ ∀ p ∈ first :: rest,
          follow_next st1.heap (first :: rest).length (some p) = some p
            ∧ follow_prev st1.heap (first :: rest).length (some p) = some p := by
  refine ⟨_, ins_compl_make_cyclic_eq hwf, close_ring hwf.2.1, ?_⟩
  intro p hp
  exact ring_closure (close_ring hwf.2.1) p hp

theorem ins_compl_make_cyclic_closes_ring_witness :
    WellFormed anchor_hello [0, 1]
      ∧ ∃ st1, ins_compl_make_cyclic anchor_hello = some (1, st1)
          ∧ follow_next st1.heap 2 (some 1) = some 1
          ∧ follow_prev st1.heap 2 (some 1) = some 1 := by
  refine ⟨by decide, ?_⟩
  obtain ⟨st1, h1, -, h2⟩ := ins_compl_make_cyclic_closes_ring anchor_hello 0 [1] (by decide)
  exact ⟨st1, h1, h2 1 (by simp)⟩

theorem sameEnv_refl (a : State) : SameEnv a a := rfl

theorem sameEnv_trans {a b c : State} (h1 : SameEnv a b) (h2 : SameEnv b c) : SameEnv a c :=
  Eq.trans h1 h2

theorem sameEnv_fields {a b : State} (h : SameEnv a b) :
    a.compl_leader = b.compl_leader ∧ a.cpt_sources_array = b.cpt_sources_array
      ∧ a.compl_col = b.compl_col ∧ a.cursor_line = b.cursor_line
      ∧ a.ctrl_x_mode = b.ctrl_x_mode ∧ a.p_inf = b.p_inf
      ∧ a.compl_first_match = b.compl_first_match := by
  have h1 := congrArg State.compl_leader h
  have h2 := congrArg State.cpt_sources_array h
  have h3 := congrArg State.compl_col h
  have h4 := congrArg State.cursor_line h
  have h5 := congrArg State.ctrl_x_mode h
  have h6 := congrArg State.p_inf h
  have h7 := congrArg State.compl_first_match h
  exact ⟨h1, h2, h3, h4, h5, h6, h7⟩

theorem sameEnv_set_heap (a : State) (h : List compl_T) : SameEnv { a with heap := h } a := rfl

theorem sameEnv_set_shown (a : State) (x : Option Nat) :
    SameEnv { a with compl_shown_match := x } a := rfl

theorem sameEnv_set_adj (a : State) (x : Option (List Nat)) :
    SameEnv { a with adjusted_leader := x } a := rfl

/-- `get_leader_for_startcol` changes nothing but the cached leader. -/
theorem get_leader_state (st : State) (m : Option Nat) (cached : Bool) :
    ∃ x, (get_leader_for_startcol st m cached).2 = { st with adjusted_leader := x } := by
  unfold get_leader_for_startcol
  split
  · exact ⟨none, rfl⟩
  · split
    · simp only []
      split
      · exact ⟨st.adjusted_leader, rfl⟩
      · split
        · split
          · exact ⟨st.adjusted_leader, rfl⟩
          · exact ⟨_, rfl⟩
        · exact ⟨st.adjusted_leader, rfl⟩
    · exact ⟨st.adjusted_leader, rfl⟩

theorem prepend_startcol_text_length (st : State) (src : List Nat) (s : Int) :
    (prepend_startcol_text st src s).length = (st.compl_col - s).toNat + src.length := by
  simp [prepend_startcol_text]

theorem prepend_startcol_text_env {a b : State} (h : SameEnv a b) (src : List Nat) (s : Int) :
    prepend_startcol_text a src s = prepend_startcol_text b src s := by
  obtain ⟨-, -, h3, h4, -⟩ := sameEnv_fields h
  simp [prepend_startcol_text, h3, h4]

/-- The outcomes of `get_leader_for_startcol` for a candidate: either the
leader itself with the state unchanged, or the adjusted leader of a start
column `s` before `compl_col`, taken from the cache or computed and cached. -/
theorem get_leader_cases (st : State) (comp : Nat) (cached : Bool) :
    (get_leader_for_startcol st (some comp) cached = (st.compl_leader, st)
      ∧ ∀ arr leader, st.cpt_sources_array = some arr → st.compl_leader = some leader →
          ¬ ((deref st.heap comp).cp_cpt_source_idx < 0 ∨ st.compl_col ≤ 0) →
          ¬ (0 ≤ (arr.getD (deref st.heap comp).cp_cpt_source_idx.toNat default).cs_startcol
            ∧ (arr.getD (deref st.heap comp).cp_cpt_source_idx.toNat default).cs_startcol
                < st.compl_col))
    ∨ ∃ arr leader s, st.cpt_sources_array = some arr ∧ st.compl_leader = some leader
        ∧ ¬ ((deref st.heap comp).cp_cpt_source_idx < 0 ∨ st.compl_col ≤ 0)
        ∧ s = (arr.getD (deref st.heap comp).cp_cpt_source_idx.toNat default).cs_startcol
        ∧ 0 ≤ s ∧ s < st.compl_col
        ∧ ((get_leader_for_startcol st (some comp) cached
              = (some (prepend_startcol_text st leader s),
                  { st with adjusted_leader := some (prepend_startcol_text st leader s) }))
          ∨ (cached = true ∧ ∃ adj, st.adjusted_leader = some adj
              ∧ (st.compl_col - s + (leader.length : Int) = (adj.length : Int))
              ∧ get_leader_for_startcol st (some comp) cached = (some adj, st))) := by
  rcases harr : st.cpt_sources_array with _ | arr
  · left
    refine ⟨by simp [get_leader_for_startcol, harr], ?_⟩
    intro arr leader h; cases h
  rcases hlead : st.compl_leader with _ | leader
  · left
    refine ⟨by simp [get_leader_for_startcol, harr, hlead], ?_⟩
    intro arr leader _ h; cases h
  by_cases hc1 : (deref st.heap comp).cp_cpt_source_idx < 0 ∨ st.compl_col ≤ 0
  · left
    refine ⟨by simp only [get_leader_for_startcol, harr, hlead, hc1, if_true], ?_⟩
    intro _ _ _ _ hn; exact absurd hc1 hn
  by_cases hc2 : 0 ≤ (arr.getD (deref st.heap comp).cp_cpt_source_idx.toNat default).cs_startcol
      ∧ (arr.getD (deref st.heap comp).cp_cpt_source_idx.toNat default).cs_startcol
        < st.compl_col
  · right
    refine ⟨arr, leader, _, rfl, rfl, hc1, rfl, hc2.1, hc2.2, ?_⟩
    rcases hadj : st.adjusted_leader with _ | adj
    · left
      simp only [get_leader_for_startcol, harr, hlead, hc1, if_false, hc2, and_self, if_true,
        hadj, Bool.false_eq_true]
    · by_cases hhit : (cached && (st.compl_col
            - (arr.getD (deref st.heap comp).cp_cpt_source_idx.toNat default).cs_startcol
            + (leader.length : Int) == (adj.length : Int))) = true
      · right
        simp only [Bool.and_eq_true, beq_iff_eq] at hhit
        refine ⟨hhit.1, adj, rfl, hhit.2, ?_⟩
        simp only [get_leader_for_startcol, harr, hlead, hc1, if_false, hc2, and_self, if_true,
          hadj, hhit.1, hhit.2, Bool.true_and, beq_self_eq_true]
      · left
        simp only [get_leader_for_startcol, harr, hlead, hc1, if_false, hc2, and_self,
          if_true, hadj, hhit, Bool.false_eq_true]
  · left
    refine ⟨by simp only [get_leader_for_startcol, harr, hlead, hc1, if_false, hc2], ?_⟩
    intro arr' leader' ha hl _
    cases ha; cases hl
    exact hc2

theorem leader_for_cases (st : State) (comp : Nat) :
    (leader_for st comp = st.compl_leader
      ∧ ∀ arr leader, st.cpt_sources_array = some arr → st.compl_leader = some leader →
          ¬ ((deref st.heap comp).cp_cpt_source_idx < 0 ∨ st.compl_col ≤ 0) →
          ¬ (0 ≤ (arr.getD (deref st.heap comp).cp_cpt_source_idx.toNat default).cs_startcol
            ∧ (arr.getD (deref st.heap comp).cp_cpt_source_idx.toNat default).cs_startcol
                < st.compl_col))
    ∨ ∃ arr leader s, st.cpt_sources_array = some arr ∧ st.compl_leader = some leader
        ∧ ¬ ((deref st.heap comp).cp_cpt_source_idx < 0 ∨ st.compl_col ≤ 0)
        ∧ s = (arr.getD (deref st.heap comp).cp_cpt_source_idx.toNat default).cs_startcol
        ∧ 0 ≤ s ∧ s < st.compl_col
        ∧ leader_for st comp = some (prepend_startcol_text st leader s) := by
  unfold leader_for
  rcases get_leader_cases st comp false with ⟨h1, h2⟩ | ⟨arr, leader, s, ha, hl, hc, hs, hs0, hs1, h⟩
  · left; exact ⟨by rw [h1], h2⟩
  · right
    refine ⟨arr, leader, s, ha, hl, hc, hs, hs0, hs1, ?_⟩
    rcases h with h | ⟨hcach, -⟩
    · rw [h]
    · cases hcach

/-- With a sound cache, the cached call of `get_leader_for_startcol` returns
what the uncached call on the initial state returns, and keeps the cache
sound. -/
theorem get_leader_cached {st st0 : State} (henv : SameEnv st st0) (comp : Nat)
    (hsrc : (deref st.heap comp).cp_cpt_source_idx = (deref st0.heap comp).cp_cpt_source_idx)
    (hadj : AdjOK st0 st.adjusted_leader) :
    (get_leader_for_startcol st (some comp) true).1 = leader_for st0 comp
      ∧ AdjOK st0 (get_leader_for_startcol st (some comp) true).2.adjusted_leader := by
  obtain ⟨e1, e2, e3, e4, -⟩ := sameEnv_fields henv
  rcases get_leader_cases st comp true with ⟨h1, h2⟩ | ⟨arr, leader, s, ha, hl, hc, hs, hs0, hs1, h⟩
  · rw [h1]
    refine ⟨?_, hadj⟩
    rcases leader_for_cases st0 comp with ⟨g1, -⟩ | ⟨arr, leader, s, ha, hl, hc, hs, hs0, hs1, -⟩
    · rw [g1, e1]
    · exfalso
      rw [← e2] at ha
      rw [← e1] at hl
      have := h2 arr leader ha hl (by rw [hsrc, e3]; exact hc)
      rw [hsrc, e3, ← hs] at this
      exact this ⟨hs0, hs1⟩
  · have hlf : leader_for st0 comp = some (prepend_startcol_text st0 leader s) := by
      rcases leader_for_cases st0 comp with ⟨-, g2⟩ |
        ⟨arr', leader', s', ha', hl', hc', hs', hs0', hs1', g⟩
      · exfalso
        rw [e2] at ha
        rw [e1] at hl
        have := g2 arr leader ha hl (by rw [← hsrc, ← e3]; exact hc)
        rw [← hsrc, ← e3, ← hs] at this
        exact this ⟨hs0, hs1⟩
      · rw [e2, ha'] at ha
        rw [e1, hl'] at hl
        cases ha; cases hl
        rw [g, hs', hs, hsrc]
    rw [hlf]
    rcases h with h | ⟨-, adj, hadjeq, hlen, h⟩
    · rw [h]
      refine ⟨by rw [prepend_startcol_text_env henv], Or.inr ⟨leader, s, ?_, hs0, ?_, ?_⟩⟩
      · rw [← e1]; exact hl
      · rw [← e3]; exact hs1
      · show some (prepend_startcol_text st leader s) = _
        rw [prepend_startcol_text_env henv]
    · rw [h]
      refine ⟨?_, hadj⟩
      rcases hadj with hnone | ⟨leader', s', hl', hs0', hs1', hadjeq'⟩
      · rw [hnone] at hadjeq; cases hadjeq
      · rw [hadjeq] at hadjeq'
        cases hadjeq'
        rw [e1, hl'] at hl
        cases hl
        rw [prepend_startcol_text_length] at hlen
        have hss : s = s' := by
          have : ((st0.compl_col - s').toNat : Int) = st0.compl_col - s' :=
            Int.toNat_of_nonneg (by omega)
          push_cast at hlen
          omega
        rw [hss]

/-- An assignment that keeps a view `g` of the record keeps it on every
record of the arena. -/
theorem proj_assign {α : Type} (g : compl_T → α) (f : compl_T → compl_T)
    (hf : ∀ c, g (f c) = g c) (h : List compl_T) (p q : Nat) :
    g (deref (assign h p f) q) = g (deref h q) := by
  rw [deref_assign]
  split
  · rename_i hc; rw [hc.1, hf]
  · rfl

theorem frozen_fields {a b : compl_T} (h : frozen a = frozen b) :
    a.cp_str = b.cp_str ∧ a.cp_score = b.cp_score
      ∧ a.cp_cpt_source_idx = b.cp_cpt_source_idx ∧ a.cp_next = b.cp_next
      ∧ a.cp_prev = b.cp_prev := by
  have h1 := congrArg compl_T.cp_str h
  have h2 := congrArg compl_T.cp_score h
  have h3 := congrArg compl_T.cp_cpt_source_idx h
  have h4 := congrArg compl_T.cp_next h
  have h5 := congrArg compl_T.cp_prev h
  exact ⟨h1, h2, h3, h4, h5⟩

/-- What `pum_reset_entry` does to the arena. -/
theorem pum_reset_entry_spec (E : Ext) (ff : Bool) (st : State) (comp : Nat)
    (hlt : comp < st.heap.length) :
    (pum_reset_entry E ff st comp).length = st.heap.length
      ∧ (∀ p, frozen (deref (pum_reset_entry E ff st comp) p) = frozen (deref st.heap p))
      ∧ (∀ p, (deref (pum_reset_entry E ff st comp) p).cp_match_next
          = (deref st.heap p).cp_match_next)
      ∧ (∀ p, p ≠ comp → (deref (pum_reset_entry E ff st comp) p).cp_flags
          = (deref st.heap p).cp_flags)
      ∧ (deref (pum_reset_entry E ff st comp) comp).cp_flags
          = (if pum_smartcase E ff st = true
            then clear_flag (deref st.heap comp).cp_flags CP_ICASE
            else (deref st.heap comp).cp_flags) := by
  unfold pum_reset_entry
  simp only []
  split
  · refine ⟨by simp [length_assign], ?_, ?_, ?_, ?_⟩
    · intro p
      rw [proj_assign frozen clear_icase (fun _ => rfl),
        proj_assign frozen (set_in_match_array false) (fun _ => rfl)]
    · intro p
      rw [proj_assign compl_T.cp_match_next clear_icase (fun _ => rfl),
        proj_assign compl_T.cp_match_next (set_in_match_array false) (fun _ => rfl)]
    · intro p hp
      rw [deref_assign_ne _ _ _ _ hp, deref_assign_ne _ _ _ _ hp]
    · rename_i hsc
      rw [deref_assign_same _ _ _ (by rw [length_assign]; exact hlt),
        deref_assign_same _ _ _ hlt]
      rfl
  · refine ⟨by simp [length_assign], ?_, ?_, ?_, ?_⟩
    · intro p
      rw [proj_assign frozen (set_in_match_array false) (fun _ => rfl)]
    · intro p
      rw [proj_assign compl_T.cp_match_next (set_in_match_array false) (fun _ => rfl)]
    · intro p hp
      rw [deref_assign_ne _ _ _ _ hp]
    · rename_i hsc
      rw [deref_assign_same _ _ _ hlt]
      rfl

theorem matchChain_congr (h h1 : List compl_T) :
    ∀ (inc : List Nat), (∀ p ∈ inc, (deref h1 p).cp_match_next = (deref h p).cp_match_next) →
      MatchChain h inc → MatchChain h1 inc
  | [], _, _ => trivial
  | [a], he, hc => by
    show (deref h1 a).cp_match_next = none
    rw [he a (by simp)]; exact hc
  | a :: b :: t, he, hc => by
    refine ⟨by rw [he a (by simp)]; exact hc.1,
      matchChain_congr h h1 (b :: t) (fun p hp => he p (List.mem_cons_of_mem _ hp)) hc.2⟩

/-- Appending an entry to the `cp_match_next` chain. -/
theorem matchChain_append (h h1 : List compl_T) (comp : Nat) :
    ∀ (inc : List Nat), (inc ++ [comp]).Nodup →
      (∀ p, inc.getLast? ≠ some p → (deref h1 p).cp_match_next = (deref h p).cp_match_next) →
      (∀ z, inc.getLast? = some z → (deref h1 z).cp_match_next = some comp) →
      (deref h comp).cp_match_next = none →
      MatchChain h inc → MatchChain h1 (inc ++ [comp])
  | [], _, hother, _, hcomp, _ => by
    show (deref h1 comp).cp_match_next = none
    rw [hother comp (by simp)]; exact hcomp
  | [a], _, _, hlast, _, _ => by
    refine ⟨hlast a (by simp), ?_⟩
    show (deref h1 comp).cp_match_next = none
    rename_i hnd hother hcomp _
    have : a ≠ comp := by
      intro e; subst e; simp at hnd
    rw [hother comp (by simp; exact this)]; exact hcomp
  | a :: b :: t, hnd, hother, hlast, hcomp, hc => by
    have hnd' : ((b :: t) ++ [comp]).Nodup := (List.nodup_cons.mp hnd).2
    have ha : a ∉ (b :: t) ++ [comp] := (List.nodup_cons.mp hnd).1
    refine ⟨?_, matchChain_append h h1 comp (b :: t) hnd' ?_ ?_ hcomp hc.2⟩
    · rw [hother a ?_]
      · exact hc.1
      · rw [List.getLast?_cons_cons]
        intro e
        exact ha (List.mem_append_left _ (List.mem_of_getLast?_eq_some e))
    · intro p hp
      exact hother p (by rw [List.getLast?_cons_cons]; exact hp)
    · intro z hz
      exact hlast z (by rw [List.getLast?_cons_cons]; exact hz)

/-- What `pum_include` does, `inc` being the entries included before. -/
theorem pum_include_spec (b : BuildPum) (comp : Nat) (inc : List Nat)
    (hhead : b.match_head = inc.head?) (htail : b.match_tail = inc.getLast?)
    (hlt : ∀ p ∈ inc, p < b.st.heap.length) :
    SameEnv (pum_include b comp).st b.st
      ∧ (pum_include b comp).st.compl_shown_match = b.st.compl_shown_match
      ∧ (pum_include b comp).st.adjusted_leader = b.st.adjusted_leader
      ∧ (pum_include b comp).st.compl_match_arraysize = b.st.compl_match_arraysize + 1
      ∧ (pum_include b comp).st.heap.length = b.st.heap.length
      ∧ (∀ p, frozen (deref (pum_include b comp).st.heap p) = frozen (deref b.st.heap p))
      ∧ (∀ p, (deref (pum_include b comp).st.heap p).cp_flags = (deref b.st.heap p).cp_flags)
      ∧ (∀ p, inc.getLast? ≠ some p →
          (deref (pum_include b comp).st.heap p).cp_match_next
            = (deref b.st.heap p).cp_match_next)
      ∧ (∀ z, inc.getLast? = some z →
          (deref (pum_include b comp).st.heap z).cp_match_next = some comp)
      ∧ (pum_include b comp).match_head = (inc ++ [comp]).head?
      ∧ (pum_include b comp).match_tail = (inc ++ [comp]).getLast?
      ∧ (pum_include b comp).match_count = b.match_count
      ∧ (pum_include b comp).i = b.i
      ∧ (pum_include b comp).shown_match_ok = b.shown_match_ok := by
  cases inc with
  | nil =>
    simp only [List.head?_nil, List.getLast?_nil] at hhead htail
    unfold pum_include
    simp only [hhead, htail]
    refine ⟨by trivial, by trivial, by trivial, by trivial, by simp [length_assign],
      ?_, ?_, ?_, ?_, by trivial, by trivial, by trivial, by trivial, by trivial⟩
    · intro p; rw [proj_assign frozen (set_in_match_array true) (fun _ => rfl)]
    · intro p; rw [proj_assign compl_T.cp_flags (set_in_match_array true) (fun _ => rfl)]
    · intro p _
      rw [proj_assign compl_T.cp_match_next (set_in_match_array true) (fun _ => rfl)]
    · intro z hz; cases hz
  | cons a t =>
    obtain ⟨z, hz⟩ : ∃ z, (a :: t).getLast? = some z :=
      ⟨(a :: t).getLast (by simp), List.getLast?_eq_getLast _ _⟩
    have hzlt : z < b.st.heap.length := hlt z (List.mem_of_getLast?_eq_some hz)
    rw [hz] at htail
    simp only [List.head?_cons] at hhead
    unfold pum_include
    simp only [hhead, htail]
    refine ⟨by trivial, by trivial, by trivial, by trivial, by simp [length_assign],
      ?_, ?_, ?_, ?_, ?_, ?_, by trivial, by trivial, by trivial⟩
    · intro p
      rw [proj_assign frozen (set_match_next (some comp)) (fun _ => rfl),
        proj_assign frozen (set_in_match_array true) (fun _ => rfl)]
    · intro p
      rw [proj_assign compl_T.cp_flags (set_match_next (some comp)) (fun _ => rfl),
        proj_assign compl_T.cp_flags (set_in_match_array true) (fun _ => rfl)]
    · intro p hp
      have hpz : p ≠ z := fun e => hp (by rw [hz, e])
      rw [deref_assign_ne _ _ _ _ hpz,
        proj_assign compl_T.cp_match_next (set_in_match_array true) (fun _ => rfl)]
    · intro z' hz'
      rw [hz] at hz'
      cases hz'
      rw [deref_assign_same _ _ _ (by rw [length_assign]; exact hzlt)]
      rfl
    · simp
    · have : a :: (t ++ [comp]) = (a :: t) ++ [comp] := rfl
      simp only [List.cons_append]
      rw [this, List.getLast?_append]
      simp

/-- `pum_track_included` only moves the shown match and the local cursor
variables, and counts the entry. -/
theorem pum_track_included_frame (ff : Bool) (b : BuildPum) (comp : Nat) :
    (∃ x, (pum_track_included ff b comp).st = { b.st with compl_shown_match := x })
      ∧ (pum_track_included ff b comp).match_head = b.match_head
      ∧ (pum_track_included ff b comp).match_tail = b.match_tail
      ∧ (pum_track_included ff b comp).match_count = b.match_count
      ∧ (pum_track_included ff b comp).i = b.i + 1 := by
  unfold pum_track_included
  simp only []
  split
  · split
    · exact ⟨⟨_, rfl⟩, rfl, rfl, rfl, rfl⟩
    · exact ⟨⟨b.st.compl_shown_match, rfl⟩, rfl, rfl, rfl, rfl⟩
  · split
    · split
      · split
        · exact ⟨⟨b.st.compl_shown_match, rfl⟩, rfl, rfl, rfl, rfl⟩
        · exact ⟨⟨b.st.compl_shown_match, rfl⟩, rfl, rfl, rfl, rfl⟩
      · split
        · exact ⟨⟨b.st.compl_shown_match, rfl⟩, rfl, rfl, rfl, rfl⟩
        · exact ⟨⟨b.st.compl_shown_match, rfl⟩, rfl, rfl, rfl, rfl⟩
    · exact ⟨⟨b.st.compl_shown_match, rfl⟩, rfl, rfl, rfl, rfl⟩

/-- `pum_track_shown` only moves the shown match and the local cursor
variables. -/
theorem pum_track_shown_frame (ff : Bool) (b : BuildPum) (comp : Nat) :
    (∃ x, (pum_track_shown ff b comp).st = { b.st with compl_shown_match := x })
      ∧ (pum_track_shown ff b comp).match_head = b.match_head
      ∧ (pum_track_shown ff b comp).match_tail = b.match_tail
      ∧ (pum_track_shown ff b comp).match_count = b.match_count
      ∧ (pum_track_shown ff b comp).i = b.i := by
  unfold pum_track_shown
  simp only []
  split
  · split
    · split
      · exact ⟨⟨_, rfl⟩, rfl, rfl, rfl, rfl⟩
      · exact ⟨⟨b.st.compl_shown_match, rfl⟩, rfl, rfl, rfl, rfl⟩
    · split
      · exact ⟨⟨_, rfl⟩, rfl, rfl, rfl, rfl⟩
      · exact ⟨⟨b.st.compl_shown_match, rfl⟩, rfl, rfl, rfl, rfl⟩
  · exact ⟨⟨b.st.compl_shown_match, rfl⟩, rfl, rfl, rfl, rfl⟩

/-- The loop facts do not depend on the shown match nor on the local cursor
variables. -/
theorem pumInv_frame {st0 : State} {passes : Nat → Bool} {limited : Bool}
    {done inc : List Nat} {b b1 : BuildPum}
    (hinv : PumInv st0 passes limited done inc b)
    (hst : ∃ x, b1.st = { b.st with compl_shown_match := x })
    (hhead : b1.match_head = b.match_head) (htail : b1.match_tail = b.match_tail)
    (hcnt : b1.match_count = b.match_count) (hi : b1.i = b.i) :
    PumInv st0 passes limited done inc b1 := by
  obtain ⟨x, hx⟩ := hst
  exact
    { env := by rw [hx]; exact sameEnv_trans (sameEnv_set_shown _ _) hinv.env
      len := by rw [hx]; exact hinv.len
      froz := by rw [hx]; exact hinv.froz
      flags := by rw [hx]; exact hinv.flags
      adj := by rw [hx]; exact hinv.adj
      size := by rw [hx]; exact hinv.size
      head := by rw [hhead]; exact hinv.head
      tail := by rw [htail]; exact hinv.tail
      chain := by rw [hx]; exact hinv.chain
      rest := by rw [hx]; exact hinv.rest
      sub := hinv.sub
      lt := hinv.lt
      nodup := hinv.nodup
      cnt_len := by rw [hcnt]; exact hinv.cnt_len
      cnt := by rw [hcnt]; exact hinv.cnt
      idx := by rw [hi]; exact hinv.idx }

/-- Putting an entry into the menu extends the list of included entries. -/
theorem pumInv_include {st0 : State} {passes : Nat → Bool} {limited : Bool}
    {done inc : List Nat} {b : BuildPum} (ff : Bool) (comp : Nat)
    (hinv : PumInv st0 passes limited done inc b)
    (hdone : comp ∈ done) (hninc : comp ∉ inc) (hlt : comp < st0.heap.length)
    (hmn : (deref st0.heap comp).cp_match_next = none) :
    PumInv st0 passes limited done (inc ++ [comp])
      (pum_track_included ff (pum_include b comp) comp) := by
  obtain ⟨i1, i2, i3, i4, i5, i6, i7, i8, i9, i10, i11, i12, i13, -⟩ :=
    pum_include_spec b comp inc hinv.head hinv.tail (fun p hp => by
      rw [hinv.len]; exact hinv.lt p hp)
  obtain ⟨⟨x, hx⟩, t2, t3, t4, t5⟩ := pum_track_included_frame ff (pum_include b comp) comp
  have hnd : (inc ++ [comp]).Nodup :=
    List.Nodup.append hinv.nodup (List.nodup_singleton _) (by
      intro a ha ha2
      simp only [List.mem_singleton] at ha2
      subst ha2
      exact hninc ha)
  exact
    { env := by rw [hx]; exact sameEnv_trans (sameEnv_set_shown _ _) (sameEnv_trans i1 hinv.env)
      len := by rw [hx]; exact i5.trans hinv.len
      froz := by rw [hx]; exact fun p => (i6 p).trans (hinv.froz p)
      flags := by rw [hx]; exact fun p hp => (i7 p).trans (hinv.flags p hp)
      adj := by rw [hx]; show AdjOK st0 (pum_include b comp).st.adjusted_leader
                rw [i3]; exact hinv.adj
      size := by
        rw [hx]
        show (pum_include b comp).st.compl_match_arraysize = _
        rw [i4, hinv.size]; simp
      head := by rw [t2]; exact i10
      tail := by rw [t3]; exact i11
      chain := by
        rw [hx]
        refine matchChain_append b.st.heap _ comp inc hnd i8 i9 ?_ hinv.chain
        rw [hinv.rest comp hninc]; exact hmn
      rest := by
        rw [hx]
        intro p hp
        have hp1 : p ∉ inc := fun h => hp (List.mem_append_left _ h)
        rw [← hinv.rest p hp1]
        refine i8 p ?_
        intro e
        exact hp1 (List.mem_of_getLast?_eq_some e)
      sub := by
        intro p hp
        rcases List.mem_append.mp hp with h | h
        · exact hinv.sub p h
        · simp only [List.mem_singleton] at h; subst h; exact hdone
      lt := by
        intro p hp
        rcases List.mem_append.mp hp with h | h
        · exact hinv.lt p h
        · simp only [List.mem_singleton] at h; subst h; exact hlt
      nodup := hnd
      cnt_len := by rw [t4, i12]; exact hinv.cnt_len
      cnt := by rw [t4, i12]; exact hinv.cnt
      idx := by rw [t5, i13, hinv.idx]; simp }

/-- What `pum_count_source` returns when the counters hold the number of
entries seen so far per source. -/
theorem pum_count_source_spec (fwd cpt : Bool) (st st0 : State) (mc : List Int) (c : compl_T)
    (seen : List Nat) (srcf : Nat → Int)
    (harr : st.cpt_sources_array = st0.cpt_sources_array)
    (hfwd : fwd = compl_shows_dir_forward st0) (hcpt : cpt = st0.cpt_sources_array.isSome)
    (hlen : (fwd && cpt) = true → mc.length = st0.cpt_sources_count.toNat)
    (hcnt : (fwd && cpt) = true → ∀ s : Nat, s < st0.cpt_sources_count.toNat →
      mc.getD s 0 = ((seen.countP fun p => srcf p == (s : Int) : Nat) : Int))
    (hvalid : (fwd && cpt) = true → c.cp_cpt_source_idx = -1
      ∨ (0 ≤ c.cp_cpt_source_idx ∧ c.cp_cpt_source_idx < st0.cpt_sources_count)) :
    (pum_count_source fwd cpt st mc c).2
        = decide (0 < source_cap st0 c.cp_cpt_source_idx
            ∧ source_cap st0 c.cp_cpt_source_idx
              ≤ ((seen.countP fun y => srcf y == c.cp_cpt_source_idx : Nat) : Int))
      ∧ ((fwd && cpt) = true →
          (pum_count_source fwd cpt st mc c).1.length = st0.cpt_sources_count.toNat
          ∧ ∀ s : Nat, s < st0.cpt_sources_count.toNat →
            (pum_count_source fwd cpt st mc c).1.getD s 0
              = ((seen.countP fun p => srcf p == (s : Int) : Nat) : Int)
                + (if c.cp_cpt_source_idx = (s : Int) then 1 else 0)) := by
  unfold pum_count_source source_cap
  simp only [← hfwd]
  by_cases hlim : (fwd && c.cp_cpt_source_idx != -1 && cpt) = true
  · simp only [hlim, if_true]
    simp only [Bool.and_eq_true, bne_iff_ne, ne_eq] at hlim
    obtain ⟨⟨hf, hsrc⟩, hc⟩ := hlim
    have hfc : (fwd && cpt) = true := by simp [hf, hc]
    have hv := (hvalid hfc).resolve_left hsrc
    obtain ⟨arr, harr0⟩ : ∃ arr, st0.cpt_sources_array = some arr := by
      rw [hcpt] at hc
      exact Option.isSome_iff_exists.mp hc
    have hidx : c.cp_cpt_source_idx.toNat < st0.cpt_sources_count.toNat := by omega
    have hcast : ((c.cp_cpt_source_idx.toNat : Nat) : Int) = c.cp_cpt_source_idx :=
      Int.toNat_of_nonneg hv.1
    have hget : (mc.set c.cp_cpt_source_idx.toNat
        (mc.getD c.cp_cpt_source_idx.toNat 0 + 1)).getD c.cp_cpt_source_idx.toNat 0
        = mc.getD c.cp_cpt_source_idx.toNat 0 + 1 := by
      rw [List.getD_eq_getElem?_getD, List.getElem?_set_self (by rw [hlen hfc]; exact hidx)]
      rfl
    have hseen := hcnt hfc _ hidx
    rw [hcast] at hseen
    refine ⟨?_, fun _ => ⟨by simp [hlen hfc], ?_⟩⟩
    · have hne : (c.cp_cpt_source_idx != -1) = true := by simpa using hsrc
      simp only [hf, hne, Bool.and_self, if_true, harr, harr0]
      rw [hget, hseen]
      generalize (arr.getD c.cp_cpt_source_idx.toNat default).cs_max_matches = mx
      generalize ((seen.countP fun y => srcf y == c.cp_cpt_source_idx : Nat) : Int) = k
      by_cases h1 : 0 < mx
      · by_cases h2 : mx ≤ k
        · have h3 : mx < k + 1 := by omega
          simp [h1, h2, h3]
        · have h3 : ¬ mx < k + 1 := by omega
          simp [h1, h2, h3]
      · simp [h1]
    · intro s hs
      by_cases hss : s = c.cp_cpt_source_idx.toNat
      · subst hss
        rw [hget, hcnt hfc _ hidx, hcast]
        simp
      · have : ¬ c.cp_cpt_source_idx = (s : Int) := by omega
        rw [List.getD_eq_getElem?_getD, List.getElem?_set_ne (fun e => hss e.symm),
          ← List.getD_eq_getElem?_getD, hcnt hfc s hs]
        simp [this]
  · simp only [hlim, Bool.false_eq_true, if_false]
    constructor
    · by_cases hf : fwd = true
      · by_cases hsrc : c.cp_cpt_source_idx = -1
        · simp [hsrc]
        · have hne : (c.cp_cpt_source_idx != -1) = true := by simpa using hsrc
          have hc : cpt = false := by
            rcases hcc : cpt with _ | _
            · rfl
            · simp [hf, hne, hcc] at hlim
          rw [hcpt] at hc
          have harr0 : st0.cpt_sources_array = none := by
            rcases h : st0.cpt_sources_array with _ | a
            · rfl
            · rw [h] at hc; simp at hc
          simp [hf, hne, harr0]
      · simp [hf]
    · intro hfc
      simp only [Bool.and_eq_true] at hfc
      have hsrc : c.cp_cpt_source_idx = -1 := by
        by_contra hne
        have hne' : (c.cp_cpt_source_idx != -1) = true := by simpa using hne
        simp [hfc.1, hfc.2, hne'] at hlim
      refine ⟨hlen (by simp [hfc.1, hfc.2]), ?_⟩
      intro s hs
      have : ¬ c.cp_cpt_source_idx = (s : Int) := by omega
      rw [hcnt (by simp [hfc.1, hfc.2]) s hs]
      simp [this]

theorem build_pum_step_eq (E : Ext) (ff fwd cpt : Bool) (b : BuildPum) (comp : Nat) :
    build_pum_step E ff fwd cpt b comp =
      pum_track_shown ff
        (if pum_entry_matches E ff
            (deref (get_leader_for_startcol
              { b.st with heap := pum_reset_entry E ff b.st comp } (some comp) true).2.heap comp)
            (get_leader_for_startcol
              { b.st with heap := pum_reset_entry E ff b.st comp } (some comp) true).1 = true
        then
          (if (!(pum_count_source fwd cpt
                (get_leader_for_startcol
                  { b.st with heap := pum_reset_entry E ff b.st comp } (some comp) true).2
                b.match_count
                (deref (get_leader_for_startcol
                  { b.st with heap := pum_reset_entry E ff b.st comp } (some comp) true).2.heap
                  comp)).2) = true
          then pum_track_included ff (pum_include
              { b with
                st := (get_leader_for_startcol
                  { b.st with heap := pum_reset_entry E ff b.st comp } (some comp) true).2
                match_count := (pum_count_source fwd cpt
                  (get_leader_for_startcol
                    { b.st with heap := pum_reset_entry E ff b.st comp } (some comp) true).2
                  b.match_count
                  (deref (get_leader_for_startcol
                    { b.st with heap := pum_reset_entry E ff b.st comp } (some comp) true).2.heap
                    comp)).1 } comp) comp
          else
            { b with
              st := (get_leader_for_startcol
                { b.st with heap := pum_reset_entry E ff b.st comp } (some comp) true).2
              match_count := (pum_count_source fwd cpt
                (get_leader_for_startcol
                  { b.st with heap := pum_reset_entry E ff b.st comp } (some comp) true).2
                b.match_count
                (deref (get_leader_for_startcol
                  { b.st with heap := pum_reset_entry E ff b.st comp } (some comp) true).2.heap
                  comp)).1 })
        else
          { b with st := (get_leader_for_startcol
              { b.st with heap := pum_reset_entry E ff b.st comp } (some comp) true).2 })
        comp := by
  rfl

theorem pum_entry_matches_congr (E : Ext) (ff : Bool) {a b : compl_T} (l : Option (List Nat))
    (h1 : a.cp_flags = b.cp_flags) (h2 : a.cp_str = b.cp_str) (h3 : a.cp_score = b.cp_score) :
    pum_entry_matches E ff a l = pum_entry_matches E ff b l := by
  unfold pum_entry_matches match_at_original_text ins_compl_equal
  rw [h1, h2, h3]

theorem pum_smartcase_env (E : Ext) (ff : Bool) {a b : State} (h : SameEnv a b) :
    pum_smartcase E ff a = pum_smartcase E ff b := by
  obtain ⟨h1, -, -, -, h5, h6, -⟩ := sameEnv_fields h
  unfold pum_smartcase ctrl_x_mode_normal
  rw [h1, h5, h6]

/-- The loop facts after the start of a round: the entry is reset, the leader
fetched and the entry counted, but not yet included. -/
theorem pumInv_after_reset {st0 : State} {passes : Nat → Bool} {limited : Bool}
    {done inc : List Nat} {b : BuildPum} (hinv : PumInv st0 passes limited done inc b)
    (st1 : State) (mc : List Int) (comp : Nat)
    (henv : SameEnv st1 st0) (hlen : st1.heap.length = b.st.heap.length)
    (hfroz : ∀ p, frozen (deref st1.heap p) = frozen (deref b.st.heap p))
    (hflags : ∀ p, p ≠ comp → (deref st1.heap p).cp_flags = (deref b.st.heap p).cp_flags)
    (hmn : ∀ p, (deref st1.heap p).cp_match_next = (deref b.st.heap p).cp_match_next)
    (hadj : AdjOK st0 st1.adjusted_leader)
    (hsize : st1.compl_match_arraysize = b.st.compl_match_arraysize)
    (hcl : limited = true → mc.length = st0.cpt_sources_count.toNat)
    (hc : limited = true → ∀ s : Nat, s < st0.cpt_sources_count.toNat →
      mc.getD s 0
        = ((((done ++ [comp]).filter passes).countP fun p =>
            (deref st0.heap p).cp_cpt_source_idx == (s : Int) : Nat) : Int)) :
    PumInv st0 passes limited (done ++ [comp]) inc { b with st := st1, match_count := mc } :=
  { env := henv
    len := hlen.trans hinv.len
    froz := fun p => (hfroz p).trans (hinv.froz p)
    flags := by
      intro p hp
      have hp1 : p ∉ done := fun h => hp (List.mem_append_left _ h)
      have hp2 : p ≠ comp := fun h => hp (by simp [h])
      exact (hflags p hp2).trans (hinv.flags p hp1)
    adj := hadj
    size := hsize.trans hinv.size
    head := hinv.head
    tail := hinv.tail
    chain := matchChain_congr _ _ inc (fun p _ => hmn p) hinv.chain
    rest := fun p hp => (hmn p).trans (hinv.rest p hp)
    sub := fun p hp => List.mem_append_left _ (hinv.sub p hp)
    lt := hinv.lt
    nodup := hinv.nodup
    cnt_len := hcl
    cnt := hc
    idx := hinv.idx }

theorem countP_filter_append_one (passes : Nat → Bool) (q : Nat → Bool) (done : List Nat)
    (comp : Nat) :
    ((done ++ [comp]).filter passes).countP q
      = (done.filter passes).countP q + (if passes comp = true ∧ q comp = true then 1 else 0) := by
  rw [List.filter_append, List.countP_append]
  congr 1
  by_cases hp : passes comp = true
  · by_cases hq : q comp = true
    · simp [hp, hq]
    · simp [hp, hq]
  · simp [hp]

/-- **The loop of `ins_compl_build_pum`, one round.**  The loop facts are
kept, the entry being included exactly when it passes the leader test and its
source is not over its cap. -/
theorem build_pum_step_inv (E : Ext) (ff fwd cpt : Bool) {st0 : State} {passes : Nat → Bool}
    {done inc : List Nat} {b : BuildPum} (comp : Nat)
    (hinv : PumInv st0 passes (fwd && cpt) done inc b)
    (hfwd : fwd = compl_shows_dir_forward st0) (hcpt : cpt = st0.cpt_sources_array.isSome)
    (hpass : passes comp = pum_entry_matches E ff
      (if pum_smartcase E ff st0 then clear_icase (deref st0.heap comp)
        else deref st0.heap comp) (leader_for st0 comp))
    (hcomp : comp ∉ done) (hlt : comp < st0.heap.length)
    (hmn : (deref st0.heap comp).cp_match_next = none)
    (hvalid : (fwd && cpt) = true → (deref st0.heap comp).cp_cpt_source_idx = -1
      ∨ (0 ≤ (deref st0.heap comp).cp_cpt_source_idx
        ∧ (deref st0.heap comp).cp_cpt_source_idx < st0.cpt_sources_count)) :
    PumInv st0 passes (fwd && cpt) (done ++ [comp])
      (inc ++ (if passes comp = true
          ∧ ¬ (0 < source_cap st0 (deref st0.heap comp).cp_cpt_source_idx
            ∧ source_cap st0 (deref st0.heap comp).cp_cpt_source_idx
              ≤ (((done.filter passes).countP fun y =>
                  (deref st0.heap y).cp_cpt_source_idx
                    == (deref st0.heap comp).cp_cpt_source_idx : Nat) : Int))
        then [comp] else []))
      (build_pum_step E ff fwd cpt b comp) := by
  rw [build_pum_step_eq]
  have hlt' : comp < b.st.heap.length := by rw [hinv.len]; exact hlt
  obtain ⟨r1, r2, r3, r4, r5⟩ := pum_reset_entry_spec E ff b.st comp hlt'
  obtain ⟨x, hx⟩ := get_leader_state { b.st with heap := pum_reset_entry E ff b.st comp }
    (some comp) true
  have hsrc0 : (deref (pum_reset_entry E ff b.st comp) comp).cp_cpt_source_idx
      = (deref st0.heap comp).cp_cpt_source_idx :=
    (frozen_fields ((r2 comp).trans (hinv.froz comp))).2.2.1
  obtain ⟨hl1, hl2⟩ := @get_leader_cached
    { b.st with heap := pum_reset_entry E ff b.st comp } st0
    (sameEnv_trans (sameEnv_set_heap _ _) hinv.env) comp hsrc0 hinv.adj
  generalize get_leader_for_startcol { b.st with heap := pum_reset_entry E ff b.st comp }
    (some comp) true = g at hx hl1 hl2 ⊢
  obtain ⟨lead, st1⟩ := g
  simp only at hx hl1 hl2 ⊢
  subst hx
  subst hl1
  simp only at hl2 ⊢
  -- the leader test on the entry is the test of the specification
  have htest : pum_entry_matches E ff (deref (pum_reset_entry E ff b.st comp) comp)
      (leader_for st0 comp) = passes comp := by
    rw [hpass]
    have hf := frozen_fields ((r2 comp).trans (hinv.froz comp))
    refine pum_entry_matches_congr E ff _ ?_ ?_ ?_
    · rw [r5, pum_smartcase_env E ff hinv.env, hinv.flags comp hcomp]
      split <;> rfl
    · rw [hf.1]; split <;> rfl
    · rw [hf.2.1]; split <;> rfl
  rw [htest]
  have henv1 : SameEnv { b.st with heap := pum_reset_entry E ff b.st comp, adjusted_leader := x }
      st0 := sameEnv_trans rfl hinv.env
  by_cases hp : passes comp = true
  · -- the entry passes the leader test
    obtain ⟨c1, c2⟩ := pum_count_source_spec fwd cpt
      { b.st with heap := pum_reset_entry E ff b.st comp, adjusted_leader := x } st0
      b.match_count (deref (pum_reset_entry E ff b.st comp) comp) (done.filter passes)
      (fun p => (deref st0.heap p).cp_cpt_source_idx)
      (sameEnv_fields henv1).2.1 hfwd hcpt hinv.cnt_len hinv.cnt
      (by rw [hsrc0]; exact hvalid)
    rw [hsrc0] at c1 c2
    have hbase := pumInv_after_reset hinv
      { b.st with heap := pum_reset_entry E ff b.st comp, adjusted_leader := x }
      (pum_count_source fwd cpt
        { b.st with heap := pum_reset_entry E ff b.st comp, adjusted_leader := x }
        b.match_count (deref (pum_reset_entry E ff b.st comp) comp)).1 comp
      henv1 r1 r2 r4 r3 hl2 rfl (fun hlim => (c2 hlim).1) (by
        intro hlim s hs
        rw [(c2 hlim).2 s hs, countP_filter_append_one]
        simp only [hp, true_and, beq_iff_eq]
        push_cast
        rfl)
    simp only [hp, if_true, true_and]
    rw [c1]
    by_cases hex : 0 < source_cap st0 (deref st0.heap comp).cp_cpt_source_idx
        ∧ source_cap st0 (deref st0.heap comp).cp_cpt_source_idx
          ≤ (((done.filter passes).countP fun y =>
              (deref st0.heap y).cp_cpt_source_idx
                == (deref st0.heap comp).cp_cpt_source_idx : Nat) : Int)
    · simp only [hex, and_self, decide_True, Bool.not_true, Bool.false_eq_true, if_false,
        not_true_eq_false, List.append_nil]
      obtain ⟨t1, t2, t3, t4, t5⟩ := pum_track_shown_frame ff
        { b with
          st := { b.st with heap := pum_reset_entry E ff b.st comp, adjusted_leader := x }
          match_count := (pum_count_source fwd cpt
            { b.st with heap := pum_reset_entry E ff b.st comp, adjusted_leader := x }
            b.match_count (deref (pum_reset_entry E ff b.st comp) comp)).1 } comp
      exact pumInv_frame hbase t1 t2 t3 t4 t5
    · simp only [hex, decide_False, Bool.not_false, if_true, not_false_eq_true]
      have hincl := pumInv_include ff comp hbase (by simp)
        (fun h => hcomp (hinv.sub comp h)) hlt hmn
      obtain ⟨t1, t2, t3, t4, t5⟩ := pum_track_shown_frame ff
        (pum_track_included ff (pum_include
          { b with
            st := { b.st with heap := pum_reset_entry E ff b.st comp, adjusted_leader := x }
            match_count := (pum_count_source fwd cpt
              { b.st with heap := pum_reset_entry E ff b.st comp, adjusted_leader := x }
              b.match_count (deref (pum_reset_entry E ff b.st comp) comp)).1 } comp) comp) comp
      exact pumInv_frame hincl t1 t2 t3 t4 t5
  · -- the entry is filtered out by the leader
    have hbase := pumInv_after_reset hinv
      { b.st with heap := pum_reset_entry E ff b.st comp, adjusted_leader := x }
      b.match_count comp henv1 r1 r2 r4 r3 hl2 rfl hinv.cnt_len (by
        intro hlim s hs
        rw [hinv.cnt hlim s hs, countP_filter_append_one]
        simp [hp])
    simp only [hp, Bool.false_eq_true, if_false, false_and, List.append_nil]
    obtain ⟨t1, t2, t3, t4, t5⟩ := pum_track_shown_frame ff
      { b with
        st := { b.st with heap := pum_reset_entry E ff b.st comp, adjusted_leader := x } } comp
    exact pumInv_frame hbase t1 t2 t3 t4 t5

theorem first_n_step (cap : Int → Int) (src : Nat → Int) (passes : Nat → Bool)
    (done rest : List Nat) (comp : Nat) :
    (if passes comp = true
          ∧ ¬ (0 < cap (src comp)
            ∧ cap (src comp) ≤ (((done.filter passes).countP fun y => src y == src comp : Nat) : Int))
        then [comp] else [])
      ++ first_n_per_source cap src ((done ++ [comp]).filter passes) (rest.filter passes)
      = first_n_per_source cap src (done.filter passes) ((comp :: rest).filter passes) := by
  by_cases hp : passes comp = true
  · rw [List.filter_cons_of_pos hp, List.filter_append, List.filter_cons_of_pos hp,
      List.filter_nil, first_n_per_source]
    simp only [hp, true_and]
    split <;> simp_all
  · rw [List.filter_cons_of_neg hp, List.filter_append, List.filter_cons_of_neg hp,
      List.filter_nil, List.append_nil]
    simp [hp]

/-- **The loop of `ins_compl_build_pum`.**  On a list of entries it ends, and
the entries put into the menu are the ones of the specification. -/
theorem build_pum_loop_spec (E : Ext) (ff fwd cpt : Bool) {st0 : State} {passes : Nat → Bool}
    (first : Nat)
    (hfwd : fwd = compl_shows_dir_forward st0) (hcpt : cpt = st0.cpt_sources_array.isSome)
    (hpass : ∀ comp, passes comp = pum_entry_matches E ff
      (if pum_smartcase E ff st0 then clear_icase (deref st0.heap comp)
        else deref st0.heap comp) (leader_for st0 comp)) :
    ∀ (rest : List Nat) (comp : Nat) (done inc : List Nat) (b : BuildPum) (fuel : Nat),
      WalkFrom st0.heap first comp rest → (done ++ comp :: rest).Nodup →
      (∀ p ∈ comp :: rest, p < st0.heap.length) →
      (∀ p ∈ comp :: rest, (deref st0.heap p).cp_match_next = none) →
      (∀ p ∈ comp :: rest, (deref st0.heap p).cp_cpt_source_idx = -1
        ∨ (0 ≤ (deref st0.heap p).cp_cpt_source_idx
          ∧ (deref st0.heap p).cp_cpt_source_idx < st0.cpt_sources_count)) →
      PumInv st0 passes (fwd && cpt) done inc b → rest.length < fuel →
      ∃ b1, build_pum_loop E ff fwd cpt first fuel b comp = some b1
        ∧ PumInv st0 passes (fwd && cpt) (done ++ comp :: rest)
            (inc ++ first_n_per_source (source_cap st0)
              (fun p => (deref st0.heap p).cp_cpt_source_idx) (done.filter passes)
              ((comp :: rest).filter passes)) b1
  | [], comp, done, inc, b, fuel + 1, hw, hnd, hlt, hmn, hv, hinv, _ => by
    have hcomp : comp ∉ done := by
      intro h
      exact (List.nodup_append.mp hnd).2.2 h (by simp)
    have hstep := build_pum_step_inv E ff fwd cpt comp hinv hfwd hcpt (hpass comp) hcomp
      (hlt comp (by simp)) (hmn comp (by simp)) (fun _ => hv comp (by simp))
    have hnext := (frozen_fields (hstep.froz comp)).2.2.2.1
    refine ⟨build_pum_step E ff fwd cpt b comp, ?_, ?_⟩
    · simp only [build_pum_loop, WalkFrom] at hw ⊢
      rw [hnext]
      rcases hw with hw | hw
      · rw [hw]
      · rw [hw]; simp
    · have := first_n_step (source_cap st0) (fun p => (deref st0.heap p).cp_cpt_source_idx)
        passes done [] comp
      simp only [List.filter_nil, first_n_per_source, List.append_nil] at this
      rw [← this]
      exact hstep
  | nxt :: rest, comp, done, inc, b, fuel + 1, hw, hnd, hlt, hmn, hv, hinv, hf => by
    have hcomp : comp ∉ done := by
      intro h
      exact (List.nodup_append.mp hnd).2.2 h (by simp)
    have hstep := build_pum_step_inv E ff fwd cpt comp hinv hfwd hcpt (hpass comp) hcomp
      (hlt comp (by simp)) (hmn comp (by simp)) (fun _ => hv comp (by simp))
    have hnext := (frozen_fields (hstep.froz comp)).2.2.2.1
    obtain ⟨hw1, hw2, hw3⟩ := hw
    obtain ⟨b1, hb1, hinv1⟩ := build_pum_loop_spec E ff fwd cpt first hfwd hcpt hpass rest nxt
      (done ++ [comp]) _ _ fuel hw3 (by simpa using hnd)
      (fun p hp => hlt p (List.mem_cons_of_mem _ hp))
      (fun p hp => hmn p (List.mem_cons_of_mem _ hp))
      (fun p hp => hv p (List.mem_cons_of_mem _ hp)) hstep
      (by simp only [List.length_cons] at hf; omega)
    refine ⟨b1, ?_, ?_⟩
    · simp only [build_pum_loop]
      rw [hnext, hw1]
      simp only [hw2, if_false]
      exact hb1
    · have e := first_n_step (source_cap st0) (fun p => (deref st0.heap p).cp_cpt_source_idx)
        passes done (nxt :: rest) comp
      have hd : done ++ comp :: nxt :: rest = (done ++ [comp]) ++ nxt :: rest := by simp
      rw [hd, ← e, ← List.append_assoc]
      exact hinv1

theorem pum_item_frozen {a b : compl_T} (h : frozen a = frozen b) (p : Nat) :
    pum_item a p = pum_item b p := by
  have h1 := congrArg compl_T.cp_text_abbr h
  have h2 := congrArg compl_T.cp_str h
  have h3 := congrArg compl_T.cp_text_kind h
  have h4 := congrArg compl_T.cp_text_info h
  have h5 := congrArg compl_T.cp_cpt_source_idx h
  have h6 := congrArg compl_T.cp_user_abbr_hlattr h
  have h7 := congrArg compl_T.cp_user_kind_hlattr h
  have h8 := congrArg compl_T.cp_text_menu h
  have h9 := congrArg compl_T.cp_fname h
  simp only [frozen] at h1 h2 h3 h4 h5 h6 h7 h8 h9
  simp only [pum_item, h1, h2, h3, h4, h5, h6, h7, h8, h9]

theorem frozen_set_match_next (h : List compl_T) (comp p : Nat) (x : Option Nat) :
    frozen (deref (assign h comp (set_match_next x)) p) = frozen (deref h p) := by
  by_cases hp : p = comp
  · subst hp
    by_cases hl : p < h.length
    · rw [deref_assign_same _ _ _ hl]; rfl
    · rw [deref_out_of_range _ _ (by rw [length_assign]; omega),
        deref_out_of_range _ _ (by omega)]
  · rw [deref_assign_ne _ _ _ _ hp]

/-- **The second loop of `ins_compl_build_pum`.**  It ends and fills in the
entries of the `cp_match_next` chain, in order. -/
theorem fill_match_array_spec :
    ∀ (inc : List Nat) (h : List compl_T) (fuel : Nat), MatchChain h inc → inc.Nodup →
      (∀ p ∈ inc, p < h.length) → inc.length < fuel →
      ∃ h1, fill_match_array fuel h inc.head?
          = some (h1, inc.map fun p => pum_item (deref h p) p)
        ∧ h1.length = h.length ∧ ∀ p, frozen (deref h1 p) = frozen (deref h p)
  | [], h, fuel + 1, _, _, _, _ => ⟨h, by simp [fill_match_array], rfl, fun _ => rfl⟩
  | [a], h, fuel + 1, hc, _, hlt, hf => by
    simp only [MatchChain] at hc
    refine ⟨assign h a (set_match_next none), ?_, length_assign _ _ _, ?_⟩
    · simp only [List.head?_cons, fill_match_array, hc, List.map_cons, List.map_nil]
      cases fuel with
      | zero => simp at hf
      | succ n => simp [fill_match_array]
    · intro p; exact frozen_set_match_next h a p none
  | a :: c :: t, h, fuel + 1, hc, hnd, hlt, hf => by
    obtain ⟨hc1, hc2⟩ := hc
    have hna : a ∉ c :: t := (List.nodup_cons.mp hnd).1
    have hchain : MatchChain (assign h a (set_match_next none)) (c :: t) :=
      matchChain_congr _ _ (c :: t) (fun p hp => by
        rw [deref_assign_ne]
        rintro rfl; exact hna hp) hc2
    obtain ⟨h1, e1, e2, e3⟩ := fill_match_array_spec (c :: t) (assign h a (set_match_next none))
      fuel hchain (List.nodup_cons.mp hnd).2
      (fun p hp => by rw [length_assign]; exact hlt p (List.mem_cons_of_mem _ hp))
      (by simp only [List.length_cons] at hf ⊢; omega)
    refine ⟨h1, ?_, by rw [e2, length_assign], fun p => (e3 p).trans
      (frozen_set_match_next h a p none)⟩
    simp only [List.head?_cons, fill_match_array, hc1] at e1 ⊢
    rw [e1]
    simp only [List.map_cons, Option.some.injEq, Prod.mk.injEq, true_and, List.cons.injEq]
    refine ⟨?_, ?_⟩
    · rw [deref_assign_ne]
      rintro rfl; exact hna (by simp)
    · apply List.map_congr_left
      intro p hp
      rw [deref_assign_ne]
      rintro rfl; exact hna (List.mem_cons_of_mem _ hp)

theorem sameEnv_symm {a b : State} (h : SameEnv a b) : SameEnv b a := Eq.symm h

theorem leader_for_env {a b : State} (henv : SameEnv a b)
    (hsrc : ∀ p, (deref a.heap p).cp_cpt_source_idx = (deref b.heap p).cp_cpt_source_idx)
    (comp : Nat) : leader_for a comp = leader_for b comp := by
  have h1 := (@get_leader_cached { a with adjusted_leader := none } a rfl comp rfl
    (Or.inl rfl)).1
  have h2 := (@get_leader_cached { a with adjusted_leader := none } b
    (sameEnv_trans rfl henv) comp (hsrc comp) (Or.inl rfl)).1
  rw [← h1, ← h2]

theorem pum_test_state_fields (st : State) :
    (pum_test_state st).heap = st.heap
      ∧ get_cot_flags (pum_test_state st) = get_cot_flags st
      ∧ compl_shows_dir_forward (pum_test_state st) = compl_shows_dir_forward st
      ∧ (pum_test_state st).cpt_sources_array = st.cpt_sources_array
      ∧ (pum_test_state st).cpt_sources_count = st.cpt_sources_count
      ∧ (pum_test_state st).compl_match_array = st.compl_match_array
      ∧ (pum_test_state st).pum_display_calls = st.pum_display_calls
      ∧ (pum_test_state st).pum_displayed = st.pum_displayed := by
  unfold pum_test_state
  split <;> exact ⟨rfl, rfl, rfl, rfl, rfl, rfl, rfl, rfl⟩

theorem sameEnv_more {a b : State} (h : SameEnv a b) :
    get_cot_flags a = get_cot_flags b
      ∧ compl_shows_dir_forward a = compl_shows_dir_forward b
      ∧ a.cpt_sources_count = b.cpt_sources_count
      ∧ a.compl_match_array = b.compl_match_array
      ∧ a.pum_display_calls = b.pum_display_calls
      ∧ a.pum_displayed = b.pum_displayed := by
  have h1 := congrArg get_cot_flags h
  have h2 := congrArg compl_shows_dir_forward h
  have h3 := congrArg State.cpt_sources_count h
  have h4 := congrArg State.compl_match_array h
  have h5 := congrArg State.pum_display_calls h
  have h6 := congrArg State.pum_displayed h
  exact ⟨h1, h2, h3, h4, h5, h6⟩

/-- The leader test of the loop, in the state in which the loop starts, is the
leader test of the specification. -/
theorem passes_link (E : Ext) (st st0 : State) (henv : SameEnv st0 (pum_test_state st))
    (hheap : st0.heap = st.heap) (comp : Nat) :
    passes_leader_test E st comp
      = pum_entry_matches E (get_cot_flags st).fuzzy
          (if pum_smartcase E (get_cot_flags st).fuzzy st0 then clear_icase (deref st0.heap comp)
            else deref st0.heap comp) (leader_for st0 comp) := by
  obtain ⟨t1, t2, -⟩ := pum_test_state_fields st
  have hl : leader_for st0 comp = leader_for (pum_test_state st) comp :=
    leader_for_env henv (fun p => by rw [hheap, t1]) comp
  unfold passes_leader_test smartcase_applies
  simp only []
  rw [hl, pum_smartcase_env E _ henv, t1, t2, hheap]
  rfl

/-- The start of `ins_compl_build_pum`, up to its loop. -/
theorem build_pum_body_eq (E : Ext) (s : State) (shown first : Nat)
    (hshown : s.compl_shown_match = some shown) (hfirst : s.compl_first_match = some first) :
    ∃ st0 sok, build_pum_body E s
        = (match build_pum_loop E (get_cot_flags s).fuzzy (compl_shows_dir_forward s)
              s.cpt_sources_array.isSome first (s.heap.length + 1)
              { st := st0
                match_count :=
                  if s.cpt_sources_array.isSome then
                    List.replicate s.cpt_sources_count.toNat 0
                  else []
                shown_match_ok := sok } first with
          | none => none
          | some b => pum_finish (get_cot_flags s).fuzzy (get_cot_flags s).noselect b)
      ∧ SameEnv st0 s ∧ st0.heap = s.heap ∧ st0.adjusted_leader = none
      ∧ st0.compl_match_arraysize = s.compl_match_arraysize := by
  by_cases hc : (s.compl_leader == s.compl_orig_text
      && !match_at_original_text (deref s.heap shown)) = true
  · refine ⟨(get_leader_for_startcol { s with
        compl_shown_match :=
          if (get_cot_flags s).noselect then s.compl_first_match
          else (deref s.heap first).cp_next } none true).2,
      match_at_original_text (deref s.heap shown), ?_, rfl, rfl, rfl, rfl⟩
    unfold build_pum_body
    simp only []
    rw [hshown, hfirst]
    simp only []
    rw [if_pos hc]
    rfl
  · refine ⟨(get_leader_for_startcol s none true).2,
      match_at_original_text (deref s.heap shown), ?_, rfl, rfl, rfl, rfl⟩
    unfold build_pum_body
    simp only []
    rw [hshown, hfirst]
    simp only []
    rw [if_neg hc]
    rfl

theorem ins_compl_build_pum_eq (E : Ext) (st : State) :
    ∃ s, ins_compl_build_pum E st = build_pum_body E s
      ∧ SameEnv s (pum_test_state st) ∧ s.heap = st.heap ∧ s.compl_match_arraysize = 0
      ∧ s.compl_shown_match = st.compl_shown_match := by
  unfold ins_compl_build_pum pum_test_state
  by_cases hr : ins_compl_need_restart st = true
  · have hr1 : ins_compl_need_restart { st with compl_match_arraysize := 0 } = true := hr
    rw [if_pos hr]
    simp only []
    rw [if_pos hr1]
    exact ⟨_, rfl, rfl, rfl, rfl, rfl⟩
  · have hr1 : ¬ ins_compl_need_restart { st with compl_match_arraysize := 0 } = true := hr
    rw [if_neg hr]
    simp only []
    rw [if_neg hr1]
    exact ⟨_, rfl, rfl, rfl, rfl, rfl⟩

/-- The loop facts hold when the loop of `ins_compl_build_pum` starts. -/
theorem pumInv_init (st0 : State) (passes : Nat → Bool) (limited : Bool) (sok : Bool)
    (mc : List Int) (hadj : st0.adjusted_leader = none) (hsize : st0.compl_match_arraysize = 0)
    (hmc : limited = true → mc = List.replicate st0.cpt_sources_count.toNat 0) :
    PumInv st0 passes limited [] []
      { st := st0, match_count := mc, shown_match_ok := sok } :=
  { env := rfl
    len := rfl
    froz := fun _ => rfl
    flags := fun _ _ => rfl
    adj := Or.inl hadj
    size := by simpa using hsize
    head := rfl
    tail := rfl
    chain := trivial
    rest := fun _ _ => rfl
    sub := fun _ h => h
    lt := fun _ h => by cases h
    nodup := List.nodup_nil
    cnt_len := fun h => by rw [hmc h]; simp
    cnt := fun h s hs => by
      rw [hmc h]
      simp [List.getD_eq_getElem?_getD, List.getElem?_replicate, hs]
    idx := rfl }

/-- The end of `ins_compl_build_pum`: with nothing included it returns -1 and
allocates no array; else the array holds the included entries, in order. -/
theorem pum_finish_spec {st0 : State} {passes : Nat → Bool} {limited : Bool}
    {done inc : List Nat} {b : BuildPum} (ff nosel : Bool)
    (hinv : PumInv st0 passes limited done inc b) :
    ∃ cur st1, pum_finish ff nosel b = some (cur, st1)
      ∧ st1.compl_match_arraysize = (inc.length : Int)
      ∧ (inc = [] → cur = -1 ∧ SameEnv st1 st0)
      ∧ (inc ≠ [] → st1.compl_match_array
          = some (inc.map fun p => pum_item (deref st0.heap p) p)) := by
  unfold pum_finish
  by_cases h0 : inc = []
  · subst h0
    have hs : b.st.compl_match_arraysize = 0 := by simpa using hinv.size
    simp only [hs, if_true]
    exact ⟨_, _, rfl, hs, fun _ => ⟨rfl, hinv.env⟩, fun h => absurd rfl h⟩
  · have hs : ¬ b.st.compl_match_arraysize = 0 := by
      rw [hinv.size]
      have : inc.length ≠ 0 := fun h => h0 (List.length_eq_zero.mp h)
      exact_mod_cast this
    simp only [hs, if_false]
    obtain ⟨h1, e1, e2, e3⟩ := fill_match_array_spec inc b.st.heap (b.st.heap.length + 1)
      hinv.chain hinv.nodup (fun p hp => by rw [hinv.len]; exact hinv.lt p hp) (by
        have := hinv.nodup
        have hle : inc.length ≤ b.st.heap.length := by
          have hsub : inc ⊆ List.range b.st.heap.length := fun p hp =>
            List.mem_range.mpr (by rw [hinv.len]; exact hinv.lt p hp)
          have := (List.subperm_of_subset hinv.nodup hsub).length_le
          simpa using this
        omega)
    have hmap : (inc.map fun p => pum_item (deref b.st.heap p) p)
        = inc.map fun p => pum_item (deref st0.heap p) p :=
      List.map_congr_left fun p _ => pum_item_frozen (hinv.froz p) p
    rw [hmap, ← hinv.head] at e1
    by_cases hfz : (ff && !nosel && !b.shown_match_ok) = true
    · rw [if_pos hfz]
      simp only []
      rw [e1]
      exact ⟨_, _, rfl, hinv.size, fun h => absurd h h0, fun _ => rfl⟩
    · rw [if_neg hfz]
      rw [e1]
      exact ⟨_, _, rfl, hinv.size, fun h => absurd h h0, fun _ => rfl⟩

theorem pum_test_state_first (st : State) :
    (pum_test_state st).compl_first_match = st.compl_first_match := by
  unfold pum_test_state
  split <;> rfl

/-- **`ins_compl_build_pum`.**  On a well-formed list it returns, and the menu
holds the candidates that pass the leader test and are not over the cap of
their source, in the order of the list. -/
theorem build_pum_menu (E : Ext) (st : State) (first : Nat) (rest : List Nat) (shown : Nat)
    (hwf : WellFormed st (first :: rest)) (hshown : st.compl_shown_match = some shown)
    (hmn : ∀ p ∈ first :: rest, (deref st.heap p).cp_match_next = none)
    (hvalid : SourcesValid st (first :: rest)) :
    ∃ cur st1, ins_compl_build_pum E st = some (cur, st1)
      ∧ st1.compl_match_arraysize = ((menu_candidates E st (first :: rest)).length : Int)
      ∧ (menu_candidates E st (first :: rest) = []
          → cur = -1 ∧ SameEnv st1 (pum_test_state st))
      ∧ (menu_candidates E st (first :: rest) ≠ [] → st1.compl_match_array
          = some ((menu_candidates E st (first :: rest)).map fun p =>
              pum_item (deref st.heap p) p)) := by
  obtain ⟨s, hs, henv_s, hheap_s, hsize_s, hshown_s⟩ := ins_compl_build_pum_eq E st
  have hfirst_s : s.compl_first_match = some first := by
    rw [(sameEnv_fields henv_s).2.2.2.2.2.2, pum_test_state_first]; exact hwf.1
  obtain ⟨st0, sok, hb, henv0, hheap0, hadj0, hsize0⟩ :=
    build_pum_body_eq E s shown first (hshown_s.trans hshown) hfirst_s
  have henv : SameEnv st0 (pum_test_state st) := sameEnv_trans henv0 henv_s
  have hheap : st0.heap = st.heap := hheap0.trans hheap_s
  obtain ⟨t1, t2, t3, t4, t5, -⟩ := pum_test_state_fields st
  obtain ⟨m1, m2, m3, -⟩ := sameEnv_more henv
  obtain ⟨n1, n2, n3, -⟩ := sameEnv_more henv0
  have harr0 : st0.cpt_sources_array = s.cpt_sources_array := (sameEnv_fields henv0).2.1
  have harr : st0.cpt_sources_array = st.cpt_sources_array :=
    ((sameEnv_fields henv).2.1).trans t4
  have hff : (get_cot_flags s).fuzzy = (get_cot_flags st).fuzzy := by rw [← n1, m1, t2]
  have hpass : ∀ comp, passes_leader_test E st comp
      = pum_entry_matches E (get_cot_flags s).fuzzy
          (if pum_smartcase E (get_cot_flags s).fuzzy st0 then clear_icase (deref st0.heap comp)
            else deref st0.heap comp) (leader_for st0 comp) := by
    intro comp
    rw [hff]
    exact passes_link E st st0 henv hheap comp
  have hseg : Segment st.heap (first :: rest) := wf_segment hwf
  have hlen : rest.length < s.heap.length + 1 := by
    have := segment_length_le hseg
    rw [hheap_s]
    simp only [List.length_cons] at this
    omega
  have hinit := pumInv_init st0 (passes_leader_test E st)
    (compl_shows_dir_forward s && s.cpt_sources_array.isSome) sok
    (if s.cpt_sources_array.isSome then List.replicate s.cpt_sources_count.toNat 0 else [])
    hadj0 (hsize0.trans hsize_s) (by
      intro h
      simp only [Bool.and_eq_true] at h
      rw [if_pos h.2, n3])
  obtain ⟨b1, hloop, hinv⟩ := build_pum_loop_spec E (get_cot_flags s).fuzzy
    (compl_shows_dir_forward s) s.cpt_sources_array.isSome first n2.symm
    (by rw [harr0]) hpass rest first [] [] _ (s.heap.length + 1)
    (by rw [hheap]; exact wf_walk hwf) (by simpa using hseg.1)
    (fun p hp => by rw [hheap]; exact hseg.2.1 p hp)
    (fun p hp => by rw [hheap]; exact hmn p hp)
    (fun p hp => by
      rw [hheap, m3, t5]
      exact hvalid p hp) hinit hlen
  have hcap : source_cap st0 = source_cap st := by
    funext x
    unfold source_cap
    rw [harr, m2, t3]
  have hinc : ([] : List Nat) ++ first_n_per_source (source_cap st0)
      (fun p => (deref st0.heap p).cp_cpt_source_idx) (List.filter (passes_leader_test E st) [])
      (List.filter (passes_leader_test E st) (first :: rest))
      = menu_candidates E st (first :: rest) := by
    rw [hcap, hheap]
    rfl
  rw [hinc] at hinv
  obtain ⟨cur, st1, f1, f2, f3, f4⟩ := pum_finish_spec (get_cot_flags s).fuzzy
    (get_cot_flags s).noselect hinv
  refine ⟨cur, st1, ?_, f2, fun h => ⟨(f3 h).1, sameEnv_trans (f3 h).2 henv⟩, ?_⟩
  · rw [hs, hb, hloop]
    exact f1
  · intro h
    rw [f4 h, hheap]

theorem source_cap_forward (st : State) (hfwd : compl_shows_dir_forward st = true) :
    source_cap st = configured_cap st := by
  funext x
  unfold source_cap configured_cap
  rw [hfwd]
  simp

theorem capped_menu_eq (E : Ext) (st : State) (ns : List Nat)
    (hfwd : compl_shows_dir_forward st = true) :
    menu_candidates E st ns = capped_menu E st ns := by
  unfold menu_candidates capped_menu
  rw [source_cap_forward st hfwd]

/-- Of the entries that `first_n_per_source` keeps, at most N are of a source
with cap N > 0, the entries seen before counting as kept. -/
theorem first_n_count (cap : Int → Int) (src : Nat → Int) (s : Int) (hs : 0 < cap s) :
    ∀ (l seen : List Nat),
      (((first_n_per_source cap src seen l).countP fun y => src y == s : Nat) : Int)
        + (seen.countP fun y => src y == s : Nat)
        ≤ max (cap s) (seen.countP fun y => src y == s : Nat)
  | [], seen => by simp [first_n_per_source]
  | x :: xs, seen => by
    have ih := first_n_count cap src s hs xs (seen ++ [x])
    rw [List.countP_append] at ih
    unfold first_n_per_source
    by_cases hx : src x = s
    · subst hx
      have h1 : List.countP (fun y => src y == src x) [x] = 1 := by simp
      rw [h1] at ih
      push_cast at ih
      by_cases hc : 0 < cap (src x)
          ∧ cap (src x) ≤ ((seen.countP fun y => src y == src x : Nat) : Int)
      · rw [if_pos hc]
        omega
      · rw [if_neg hc, List.countP_cons_of_pos _ _ (by simp)]
        push_cast
        have : ((seen.countP fun y => src y == src x : Nat) : Int) < cap (src x) := by
          by_contra hcon
          exact hc ⟨hs, by omega⟩
        omega
    · have h1 : List.countP (fun y => src y == s) [x] = 0 := by simp [hx]
      rw [h1] at ih
      split
      · simpa using ih
      · have e : ∀ L : List Nat, List.countP (fun y => src y == s) (x :: L)
            = List.countP (fun y => src y == s) L := by
          intro L
          simp [List.countP_cons, hx]
        rw [e]
        simpa using ih

theorem menu_of_eq (st1 : State) (l : List pumitem_T)
    (hsize : st1.compl_match_arraysize = (l.length : Int))
    (harr : l ≠ [] → st1.compl_match_array = some l) : menu_of st1 = l := by
  unfold menu_of
  by_cases h : l = []
  · subst h
    simp only [List.length_nil, Nat.cast_zero] at hsize
    rw [hsize]
    split <;> simp
  · rw [harr h, hsize]
    simp

/-- In forward direction `ins_compl_build_pum` returns, and the menu is the
capped menu of the specification. -/
theorem build_pum_forward (E : Ext) (st : State) (first : Nat) (rest : List Nat) (shown : Nat)
    (hwf : WellFormed st (first :: rest)) (hshown : st.compl_shown_match = some shown)
    (hmn : ∀ p ∈ first :: rest, (deref st.heap p).cp_match_next = none)
    (hvalid : SourcesValid st (first :: rest))
    (hfwd : compl_shows_dir_forward st = true) :
    ∃ cur st1, ins_compl_build_pum E st = some (cur, st1)
      ∧ st1.compl_match_arraysize = ((capped_menu E st (first :: rest)).length : Int)
      ∧ menu_of st1
          = (capped_menu E st (first :: rest)).map fun p => pum_item (deref st.heap p) p := by
  obtain ⟨cur, st1, h1, h2, -, h4⟩ := build_pum_menu E st first rest shown hwf hshown hmn hvalid
  rw [capped_menu_eq E st _ hfwd] at h2 h4
  refine ⟨cur, st1, h1, h2, menu_of_eq st1 _ (by simpa using h2) ?_⟩
  intro h
  exact h4 (by simpa using h)

/-- **C4, as stated, fails.**  In backward display direction the cap is not
applied: in the session `two_sources_backward` source 0 has the cap 1, and the
menu that `ins_compl_build_pum` builds holds two entries of source 0. -/
theorem ins_compl_build_pum_backward_over_cap :
    WellFormed two_sources_backward [0, 1, 2, 3]
      ∧ configured_cap two_sources_backward 0 = 1
      ∧ (ins_compl_build_pum ascii_ops two_sources_backward).map
          (fun r => (menu_of r.2).countP fun it => it.pum_cpt_source_idx == 0) = some 2 := by
  decide

/-- **C4, amended.**  In forward display direction, for every well-formed
candidate list, every leader and every source S of the 'complete' option
configured with a cap N > 0, `ins_compl_build_pum` returns and the menu it
builds holds at most N entries whose `cp_cpt_source_idx` is S. -/
theorem ins_compl_build_pum_forward_cap (E : Ext) (st : State) (first : Nat)
    (rest : List Nat) (shown : Nat)
    (hwf : WellFormed st (first :: rest)) (hshown : st.compl_shown_match = some shown)
    (hmn : ∀ p ∈ first :: rest, (deref st.heap p).cp_match_next = none)
    (hvalid : SourcesValid st (first :: rest))
    (hfwd : compl_shows_dir_forward st = true)
    (S : Nat) (N : Int) (hN : 0 < N) (hcap : configured_cap st (S : Int) = N) :
    ∃ cur st1, ins_compl_build_pum E st = some (cur, st1)
      ∧ (((menu_of st1).countP fun it => it.pum_cpt_source_idx == (S : Int) : Nat) : Int) ≤ N := by
  obtain ⟨cur, st1, h1, -, h3⟩ := build_pum_forward E st first rest shown hwf hshown hmn hvalid hfwd
  refine ⟨cur, st1, h1, ?_⟩
  rw [h3, List.countP_map]
  have := first_n_count (configured_cap st) (fun p => (deref st.heap p).cp_cpt_source_idx)
    (S : Int) (by rw [hcap]; exact hN) (List.filter (passes_leader_test E st) (first :: rest)) []
  simp only [List.countP_nil, Nat.cast_zero, add_zero, hcap] at this
  have hmax : max N 0 = N := max_eq_left (le_of_lt hN)
  rw [hmax] at this
  exact this

theorem ins_compl_build_pum_forward_cap_witness :
    ∃ cur st1, ins_compl_build_pum ascii_ops two_sources = some (cur, st1)
      ∧ (((menu_of st1).countP fun it => it.pum_cpt_source_idx == ((0 : Nat) : Int) : Nat) : Int)
          ≤ 1 :=
  ins_compl_build_pum_forward_cap ascii_ops two_sources 0 [1, 2, 3] 0
    (by decide) rfl (by decide) (by decide) rfl 0 1 (by decide) (by decide)

/-- The loop of `pum_enough_matches` on a list: it ends, with the number of
entries other than the original text, counted up to two. -/
theorem count_matches_spec (st : State) (first : Nat)
    (hfirst : st.compl_first_match = some first) :
    ∀ (post : List Nat) (m fuel i : Nat), WalkFrom st.heap first m post →
      post.length + 1 < fuel → i < 2 →
      count_matches st fuel (some m) i
        = some (min 2 (i + ((m :: post).filter fun p =>
            !match_at_original_text (deref st.heap p)).length))
  | [], m, fuel + 2, i, hw, _, hi => by
    simp only [WalkFrom] at hw
    unfold count_matches
    simp only [hfirst]
    by_cases hc : match_at_original_text (deref st.heap m) = true
    · simp only [hc, Bool.not_true, Bool.false_eq_true, if_false, Bool.false_and,
        List.filter_cons_of_neg, not_false_eq_true, List.filter_nil, List.length_nil, add_zero]
      rcases hw with hw | hw
      · rw [hw]
        simp only [count_matches]
        simp
        omega
      · rw [hw]
        simp
        omega
    · simp only [Bool.not_eq_true] at hc
      simp only [hc, Bool.not_false, if_true, Bool.true_and, List.filter_cons_of_pos,
        List.filter_nil, List.length_cons, List.length_nil]
      by_cases h2 : i + 1 = 2
      · simp [h2]
      · have h3 : (i + 1 == 2) = false := by simpa using h2
        simp only [h3, Bool.false_eq_true, if_false]
        rcases hw with hw | hw
        · rw [hw]
          simp only [count_matches]
          simp
          omega
        · rw [hw]
          simp
          omega
  | b :: post, m, fuel + 1, i, hw, hf, hi => by
    obtain ⟨hw1, hw2, hw3⟩ := hw
    unfold count_matches
    simp only [hfirst, hw1]
    have hne : (some b == some first) = false := by simpa using hw2
    by_cases hc : match_at_original_text (deref st.heap m) = true
    · simp only [hc, Bool.not_true, Bool.false_eq_true, if_false, Bool.false_and, hne]
      have e1 : (m :: b :: post).filter (fun p => !match_at_original_text (deref st.heap p))
          = (b :: post).filter (fun p => !match_at_original_text (deref st.heap p)) :=
        List.filter_cons_of_neg (by simp [hc])
      rw [e1]
      exact count_matches_spec st first hfirst post b fuel i hw3
        (by simp only [List.length_cons] at hf; omega) hi
    · simp only [Bool.not_eq_true] at hc
      simp only [hc, Bool.not_false, if_true, Bool.true_and]
      have e1 : (m :: b :: post).filter (fun p => !match_at_original_text (deref st.heap p))
          = m :: (b :: post).filter (fun p => !match_at_original_text (deref st.heap p)) :=
        List.filter_cons_of_pos (by simp [hc])
      rw [e1]
      by_cases h2 : i + 1 = 2
      · simp only [h2, beq_self_eq_true, if_true]
        simp only [List.length_cons]
        congr 1
        omega
      · have h3 : (i + 1 == 2) = false := by simpa using h2
        simp only [h3, Bool.false_eq_true, if_false, hne]
        rw [count_matches_spec st first hfirst post b fuel (i + 1) hw3
          (by simp only [List.length_cons] at hf; omega) (by omega)]
        simp only [List.length_cons]
        congr 2
        omega

/-- What `pum_enough_matches` returns on a well-formed list. -/
theorem pum_enough_matches_spec (st : State) (first : Nat) (rest : List Nat)
    (hwf : WellFormed st (first :: rest)) :
    pum_enough_matches st
      = some (if (get_cot_flags st).menuone then
          decide (1 ≤ ((first :: rest).filter fun p =>
            !match_at_original_text (deref st.heap p)).length)
        else decide (2 ≤ ((first :: rest).filter fun p =>
            !match_at_original_text (deref st.heap p)).length)) := by
  unfold pum_enough_matches
  have hlen := segment_length_le (wf_segment hwf)
  simp only [List.length_cons] at hlen
  rw [hwf.1, count_matches_spec st first hwf.1 rest first (st.heap.length + 2) 0 (wf_walk hwf)
    (by omega) (by omega)]
  simp only [zero_add]
  split
  · congr 1
    simp only [decide_eq_decide]
    omega
  · congr 1
    simp only [decide_eq_decide]
    omega

/-- **C10, as stated, fails.**  In the session with the candidates "hello",
"help" and "held" and the leader "hell", exactly one candidate ("hello",
entry 1) is eligible and 'completeopt' holds "menu" but not "menuone"; yet
`ins_compl_show_pum` calls `pum_display`, with the one entry "hello":
`pum_enough_matches` counts the candidates of the list, not the eligible ones. -/
theorem ins_compl_show_pum_single_entry_menu :
    WellFormed (three_matches (bytes "hell") { menu := true }) [0, 1, 2, 3]
      ∧ (get_cot_flags (three_matches (bytes "hell") { menu := true })).menuone = false
      ∧ menu_candidates ascii_ops (three_matches (bytes "hell") { menu := true }) [0, 1, 2, 3]
          = [1]
      ∧ (ins_compl_show_pum ascii_ops (three_matches (bytes "hell") { menu := true })).map
          (fun s => (s.pum_display_calls, s.pum_displayed.map fun d =>
            d.1.map fun it => it.pum_text_of)) = some (1, some [1]) := by
  decide

/-- **C10, amended.**  On a well-formed candidate list `ins_compl_show_pum`
returns, and (1) when no menu array exists and zero candidates are eligible
under the current leader it displays no menu; (2) when the list holds at most
one candidate other than the original text, eligible or not, and 'completeopt'
does not contain "menuone", it displays no menu and changes nothing. -/
theorem ins_compl_show_pum_no_menu (E : Ext) (st : State) (first : Nat) (rest : List Nat)
    (shown : Nat)
    (hwf : WellFormed st (first :: rest)) (hshown : st.compl_shown_match = some shown)
    (hmn : ∀ p ∈ first :: rest, (deref st.heap p).cp_match_next = none)
    (hvalid : SourcesValid st (first :: rest)) :
    ∃ st1, ins_compl_show_pum E st = some st1
      ∧ (st.compl_match_array = none → menu_candidates E st (first :: rest) = [] →
          st1.pum_display_calls = st.pum_display_calls ∧ st1.pum_displayed = st.pum_displayed)
      ∧ (((first :: rest).filter fun p =>
            !match_at_original_text (deref st.heap p)).length ≤ 1 →
          (get_cot_flags st).menuone = false → st1 = st) := by
  unfold ins_compl_show_pum
  rw [pum_enough_matches_spec st first rest hwf]
  simp only []
  have h3 : ((first :: rest).filter fun p =>
        !match_at_original_text (deref st.heap p)).length ≤ 1 →
      (get_cot_flags st).menuone = false →
      (!pum_wanted st || !(if (get_cot_flags st).menuone then
          decide (1 ≤ ((first :: rest).filter fun p =>
            !match_at_original_text (deref st.heap p)).length)
        else decide (2 ≤ ((first :: rest).filter fun p =>
            !match_at_original_text (deref st.heap p)).length))) = true := by
    intro hc hm
    rw [hm]
    simp only [Bool.false_eq_true, if_false, Bool.or_eq_true, Bool.not_eq_true',
      decide_eq_false_iff_not]
    right
    omega
  generalize (if (get_cot_flags st).menuone then
          decide (1 ≤ ((first :: rest).filter fun p =>
            !match_at_original_text (deref st.heap p)).length)
        else decide (2 ≤ ((first :: rest).filter fun p =>
            !match_at_original_text (deref st.heap p)).length)) = enough at h3 ⊢
  by_cases hgo : (!pum_wanted st || !enough) = true
  · rw [if_pos hgo]
    exact ⟨st, rfl, fun _ _ => ⟨rfl, rfl⟩, fun _ _ => rfl⟩
  · rw [if_neg hgo]
    cases harr : st.compl_match_array with
    | none =>
      obtain ⟨cur, st1, b1, -, b3, b4⟩ := build_pum_menu E st first rest shown hwf hshown hmn hvalid
      simp only [b1]
      by_cases hm : menu_candidates E st (first :: rest) = []
      · obtain ⟨-, henv⟩ := b3 hm
        obtain ⟨-, -, -, e4, e5, e6⟩ := sameEnv_more henv
        obtain ⟨-, -, -, -, -, t6, t7, t8⟩ := pum_test_state_fields st
        have hnone : st1.compl_match_array = none := by rw [e4, t6, harr]
        rw [hnone]
        exact ⟨st1, rfl, fun _ _ => ⟨by rw [e5, t7], by rw [e6, t8]⟩,
          fun hc hmo => absurd (h3 hc hmo) hgo⟩
      · rw [b4 hm]
        simp only []
        split
        · exact ⟨_, rfl, fun _ h => absurd h hm, fun hc hmo => absurd (h3 hc hmo) hgo⟩
        · exact ⟨_, rfl, fun _ h => absurd h hm, fun hc hmo => absurd (h3 hc hmo) hgo⟩
    | some items =>
      simp only [hshown, harr]
      split
      · exact ⟨_, rfl, (fun h => by cases h), fun hc hmo => absurd (h3 hc hmo) hgo⟩
      · exact ⟨_, rfl, (fun h => by cases h), fun hc hmo => absurd (h3 hc hmo) hgo⟩

/-- With the leader "hex" no candidate of "hello", "help", "held" is eligible:
`ins_compl_show_pum` returns without a call of `pum_display`. -/
theorem ins_compl_show_pum_no_menu_witness :
    menu_candidates ascii_ops (three_matches (bytes "hex") { menu := true }) [0, 1, 2, 3] = []
      ∧ ∃ st1, ins_compl_show_pum ascii_ops (three_matches (bytes "hex") { menu := true })
          = some st1
        ∧ ((three_matches (bytes "hex") { menu := true }).compl_match_array = none →
            menu_candidates ascii_ops (three_matches (bytes "hex") { menu := true })
              (0 :: [1, 2, 3]) = [] →
            st1.pum_display_calls
                = (three_matches (bytes "hex") { menu := true }).pum_display_calls
              ∧ st1.pum_displayed = (three_matches (bytes "hex") { menu := true }).pum_displayed)
        ∧ (((0 :: [1, 2, 3]).filter fun p =>
              !match_at_original_text
                (deref (three_matches (bytes "hex") { menu := true }).heap p)).length ≤ 1 →
            (get_cot_flags (three_matches (bytes "hex") { menu := true })).menuone = false →
            st1 = three_matches (bytes "hex") { menu := true }) :=
  ⟨by decide, ins_compl_show_pum_no_menu ascii_ops (three_matches (bytes "hex") { menu := true })
    0 [1, 2, 3] 0 (by decide) rfl (by decide) (by decide)⟩

/-- `strncmp` over the length of a string without NUL is 0 exactly when that
string is a prefix. -/
theorem prefix_iff_strncmp_zero : ∀ (c s : List Nat), NoNul s →
    (strncmp c s s.length = 0 ↔ s <+: c)
  | _, [], _ => by simp [strncmp]
  | [], b :: bs, hs => by
    have := (noNul_cons hs).1
    simp [strncmp, this]
  | a :: as, b :: bs, hs => by
    have hb := (noNul_cons hs).1
    have ih := prefix_iff_strncmp_zero as bs (noNul_cons hs).2
    simp only [List.length_cons, strncmp]
    by_cases hab : a = b
    · subst hab
      simp only [if_true, hb, if_false, ih]
      simp [List.prefix_cons_inj]
    · simp only [hab, if_false]
      have : ¬ (b :: bs <+: a :: as) := by
        intro h
        rw [List.cons_prefix_cons] at h
        exact hab h.1.symm
      simp only [this, iff_false]
      split <;> decide

/-- `strncmp` over the length of a longer leader being 0, it is 0 over the
length of every prefix of that leader. -/
theorem strncmp_prefix_mono : ∀ (s s1 c : List Nat), s <+: s1 →
    strncmp c s1 s1.length = 0 → strncmp c s s.length = 0
  | [], _, _, _, _ => by simp [strncmp]
  | b :: t, [], _, h, _ => by simp at h
  | b :: t, b1 :: t1, [], h, h0 => by
    rw [List.cons_prefix_cons] at h
    obtain ⟨rfl, -⟩ := h
    simp only [List.length_cons, strncmp] at h0 ⊢
    exact h0
  | b :: t, b1 :: t1, a :: as, h, h0 => by
    rw [List.cons_prefix_cons] at h
    obtain ⟨rfl, ht⟩ := h
    simp only [List.length_cons, strncmp] at h0 ⊢
    by_cases hab : a = b
    · subst hab
      simp only [if_true] at h0 ⊢
      by_cases ha : a = 0
      · simp [ha]
      · simp only [ha, if_false] at h0 ⊢
        exact strncmp_prefix_mono t t1 as ht h0
    · simp only [hab, if_false] at h0
      split at h0 <;> simp at h0

theorem first_n_nocap (cap : Int → Int) (src : Nat → Int) :
    ∀ (l seen : List Nat), (∀ x ∈ l, ¬ 0 < cap (src x)) →
      first_n_per_source cap src seen l = l
  | [], _, _ => rfl
  | x :: xs, seen, h => by
    unfold first_n_per_source
    have hx := h x (by simp)
    rw [if_neg (fun hc => hx hc.1),
      first_n_nocap cap src xs (seen ++ [x]) (fun y hy => h y (List.mem_cons_of_mem _ hy))]

theorem clear_icase_of_zero (c : compl_T) (h : c.cp_flags &&& CP_ICASE = 0) :
    clear_icase c = c := by
  unfold clear_icase clear_flag
  rw [h]
  simp

theorem pum_entry_matches_plain (E : Ext) (c : compl_T) (l : List Nat)
    (heq : c.cp_flags &&& CP_EQUAL = 0) (hic : c.cp_flags &&& CP_ICASE = 0) :
    pum_entry_matches E false c (some l)
      = (!match_at_original_text c && strncmp c.cp_str l l.length == 0) := by
  unfold pum_entry_matches ins_compl_equal
  simp [heq, hic]

/-- The leader test without fuzzy filtering, on a candidate without CP_EQUAL
and CP_ICASE. -/
theorem passes_plain (E : Ext) (st : State) (p : Nat)
    (hfz : (get_cot_flags st).fuzzy = false)
    (heq : (deref st.heap p).cp_flags &&& CP_EQUAL = 0)
    (hic : (deref st.heap p).cp_flags &&& CP_ICASE = 0) :
    passes_leader_test E st p
      = (!match_at_original_text (deref st.heap p)
          && (match leader_for (pum_test_state st) p with
              | none => true
              | some l => strncmp (deref st.heap p).cp_str l l.length == 0)) := by
  obtain ⟨t1, t2, -⟩ := pum_test_state_fields st
  unfold passes_leader_test
  simp only []
  rw [t1, t2, hfz]
  have hc : (if smartcase_applies E (pum_test_state st) = true then
      clear_icase (deref st.heap p) else deref st.heap p) = deref st.heap p := by
    split
    · exact clear_icase_of_zero _ hic
    · rfl
  rw [hc]
  cases leader_for (pum_test_state st) p with
  | none => rfl
  | some l =>
    simp only []
    unfold ins_compl_equal
    simp [heq, hic]

theorem source_cap_le (st : State) (x : Int) (h : configured_cap st x = 0) :
    ¬ 0 < source_cap st x := by
  unfold source_cap
  unfold configured_cap at h
  by_cases hx : (x != -1) = true
  · rw [if_pos hx] at h
    simp only [hx, Bool.and_true]
    split
    · rw [h]; decide
    · decide
  · simp only [hx, Bool.and_false, Bool.false_eq_true, if_false]
    decide

theorem menu_nocap (E : Ext) (st : State) (ns : List Nat)
    (hcap : ∀ p ∈ ns, configured_cap st (deref st.heap p).cp_cpt_source_idx = 0) :
    menu_candidates E st ns = ns.filter (passes_leader_test E st) := by
  unfold menu_candidates
  apply first_n_nocap
  intro x hx
  exact source_cap_le st _ (hcap x (List.mem_of_mem_filter hx))

/-- The leader that a candidate is tested against, for two leaders of the
same session: either it is the leader, both times, or the same text of the
cursor line is put before the leader, both times. -/
theorem leader_for_two (st : State) (L L1 : List Nat) (p : Nat) :
    ∃ pre, leader_for { st with compl_leader := some L } p = some (pre ++ L)
      ∧ leader_for { st with compl_leader := some L1 } p = some (pre ++ L1) := by
  rcases leader_for_cases { st with compl_leader := some L } p with
    ⟨g1, g2⟩ | ⟨arr, leader, s, ha, hl, hc, hs, hs0, hs1, g⟩
  · rcases leader_for_cases { st with compl_leader := some L1 } p with
      ⟨k1, -⟩ | ⟨arr, leader, s, ha, hl, hc, hs, hs0, hs1, -⟩
    · exact ⟨[], by rw [g1]; rfl, by rw [k1]; rfl⟩
    · exfalso
      exact g2 arr L ha rfl hc (hs ▸ ⟨hs0, hs1⟩)
  · rcases leader_for_cases { st with compl_leader := some L1 } p with
      ⟨-, k2⟩ | ⟨arr1, leader1, s1, ha1, hl1, hc1, hs1', hs01, hs11, k⟩
    · exfalso
      exact k2 arr L1 ha rfl hc (hs ▸ ⟨hs0, hs1⟩)
    · have harr : arr1 = arr := by
        have : some arr1 = some arr := ha1.symm.trans ha
        exact Option.some.inj this
      subst harr
      have hss : s1 = s := by rw [hs1', hs]
      subst hss
      have e1 : leader = L := (Option.some.inj hl).symm
      have e2 : leader1 = L1 := (Option.some.inj hl1).symm
      subst e1 e2
      exact ⟨(List.range (st.compl_col - s1).toNat).map fun i =>
          byteAt st.cursor_line (s1.toNat + i), by rw [g]; rfl, by rw [k]; rfl⟩

theorem pum_test_state_leader (st : State) (L : List Nat) :
    (ins_compl_need_restart st = true
        ∧ pum_test_state { st with compl_leader := some L } = { st with compl_leader := none })
      ∨ (ins_compl_need_restart st = false
        ∧ pum_test_state { st with compl_leader := some L } = { st with compl_leader := some L }) := by
  unfold pum_test_state
  by_cases h : ins_compl_need_restart st = true
  · left
    have h1 : ins_compl_need_restart { st with compl_leader := some L } = true := h
    exact ⟨h, by rw [if_pos h1]⟩
  · right
    have h1 : ¬ ins_compl_need_restart { st with compl_leader := some L } = true := h
    exact ⟨by simpa using h, by rw [if_neg h1]⟩

/-- The leader test is monotone in the leader, on candidates without CP_EQUAL
and CP_ICASE when fuzzy filtering is off. -/
theorem passes_mono (E : Ext) (st : State) (L L1 : List Nat) (p : Nat)
    (hfz : (get_cot_flags st).fuzzy = false)
    (heq : (deref st.heap p).cp_flags &&& CP_EQUAL = 0)
    (hic : (deref st.heap p).cp_flags &&& CP_ICASE = 0)
    (hpre : L <+: L1)
    (h : passes_leader_test E { st with compl_leader := some L1 } p = true) :
    passes_leader_test E { st with compl_leader := some L } p = true := by
  have e0 := passes_plain E { st with compl_leader := some L } p hfz heq hic
  have e1 := passes_plain E { st with compl_leader := some L1 } p hfz heq hic
  rw [e1] at h
  rw [e0]
  simp only [Bool.and_eq_true] at h ⊢
  refine ⟨h.1, ?_⟩
  have h2 := h.2
  rcases pum_test_state_leader st L with ⟨hr, e⟩ | ⟨hr, e⟩
  · rcases pum_test_state_leader st L1 with ⟨-, e1⟩ | ⟨hr1, -⟩
    · rw [e]; rw [e1] at h2; exact h2
    · rw [hr] at hr1; cases hr1
  · rcases pum_test_state_leader st L1 with ⟨hr1, -⟩ | ⟨-, e1⟩
    · rw [hr] at hr1; cases hr1
    · rw [e]; rw [e1] at h2
      obtain ⟨pre, q1, q2⟩ := leader_for_two st L L1 p
      rw [q1]; rw [q2] at h2
      simp only [beq_iff_eq] at h2 ⊢
      exact strncmp_prefix_mono (pre ++ L) (pre ++ L1) _
        ((List.prefix_append_right_inj pre).mpr hpre) h2

theorem not_skips_of_original (E : Ext) (fz : Bool) (c : compl_T) (l : Option (List Nat))
    (h : match_at_original_text c = true) : skips_match E fz c l = false := by
  unfold skips_match
  simp [h]

theorem not_skips_of_matches (E : Ext) (fz : Bool) (c : compl_T) (l : Option (List Nat))
    (h : pum_entry_matches E fz c l = true) : skips_match E fz c l = false := by
  unfold pum_entry_matches at h
  unfold skips_match
  cases l with
  | none => simp
  | some l =>
    simp only [Bool.and_eq_true, Bool.or_eq_true] at h
    rcases h.2 with h2 | h2
    · simp [h2]
    · have : (fz && decide (0 < c.cp_score)) = true := by simpa using h2
      simp [this]

/-- **One single-step call of `find_next_completion_match`** on a closed ring
without a menu array, going forward: when the entry after the shown one is
usable, it becomes the shown match. -/
theorem find_next_single_step (X : State → Int × State) (E : Ext) (allow advance : Bool)
    (s : State) (m nxt : Nat) (nm : Int) (fuel : Nat) (hfuel : 2 ≤ fuel)
    (hshown : s.compl_shown_match = some m)
    (hnext : (deref s.heap m).cp_next = some nxt)
    (hfwd : compl_shows_dir_forward s = true)
    (harr : s.compl_match_array = none)
    (huse : match_at_original_text (deref s.heap nxt) = true
      ∨ pum_entry_matches E (get_cot_flags s).fuzzy (deref s.heap nxt) (leader_for s nxt)
          = true) :
    ∃ a, find_next_completion_match X E s allow 1 advance nm fuel
      = some (OK, nm, { s with compl_shown_match := some nxt, adjusted_leader := a }) := by
  obtain ⟨f, rfl⟩ : ∃ f, fuel = f + 2 := ⟨fuel - 2, by omega⟩
  obtain ⟨a, ha⟩ := get_leader_state { s with compl_shown_match := some nxt } (some nxt) false
  have hl : (get_leader_for_startcol { s with compl_shown_match := some nxt } (some nxt) false).1
      = leader_for s nxt :=
    (leader_for_env (a := { s with compl_shown_match := some nxt }) (b := s) rfl
      (fun _ => rfl) nxt)
  have hskip : skips_match E (get_cot_flags s).fuzzy (deref s.heap nxt) (leader_for s nxt)
      = false := by
    rcases huse with h | h
    · exact not_skips_of_original E _ _ _ h
    · exact not_skips_of_matches E _ _ _ h
  refine ⟨a, ?_⟩
  unfold find_next_completion_match
  rw [find_next_loop]
  simp only [sub_self, lt_self_iff_false, if_false, hshown]
  have hmove : find_next_move X allow advance (get_cot_flags s).noselect s m 0 nm
      = some (.ok ({ s with compl_shown_match := some nxt },
          s.compl_first_match.isSome
            && ((deref s.heap nxt).cp_next == s.compl_first_match
              || is_first_match { s with compl_shown_match := some nxt } nxt), nm)) := by
    unfold find_next_move
    simp only [hfwd, hnext, Option.isSome_some, Bool.and_self, if_true, harr,
      Option.isSome_none, Bool.false_eq_true, if_false]
  have h10 : (1 : Int) - 1 = 0 := rfl
  simp only [hmove]
  generalize (s.compl_first_match.isSome
            && ((deref s.heap nxt).cp_next == s.compl_first_match
              || is_first_match { s with compl_shown_match := some nxt } nxt)) = fe
  generalize hg : get_leader_for_startcol { s with compl_shown_match := some nxt } (some nxt)
    false = g at ha hl
  obtain ⟨lead, s2⟩ := g
  simp only at ha hl
  subst ha hl
  simp only [hskip, Bool.false_eq_true, if_false]
  cases fe with
  | true => simp only [if_true]
  | false =>
    simp only [Bool.false_eq_true, if_false]
    rw [find_next_loop]
    simp only [zero_sub, Int.reduceNeg, Left.neg_neg_iff, zero_lt_one, if_true]

theorem getD_mem_of_lt (l : List Nat) (i : Nat) (hi : i < l.length) : l.getD i 0 ∈ l := by
  rw [List.getD_eq_getElem _ _ hi]
  exact List.getElem_mem hi

/-- Successive single-step calls on a closed ring: after `j` calls the shown
match is entry `j` modulo the size of the ring, and only the shown match and
the cached leader have changed. -/
theorem successive_calls_ring (X : State → Int × State) (E : Ext) (allow advance : Bool)
    (st0 : State) (anchor : Nat) (cs : List Nat) (fuel : Nat) (hfuel : 2 ≤ fuel)
    (hc : IsCyclic st0.heap anchor cs)
    (hshown : st0.compl_shown_match = some anchor)
    (hfwd : compl_shows_dir_forward st0 = true)
    (harr : st0.compl_match_array = none)
    (horig : match_at_original_text (deref st0.heap anchor) = true)
    (hpass : ∀ c ∈ cs, pum_entry_matches E (get_cot_flags st0).fuzzy (deref st0.heap c)
      (leader_for st0 c) = true) :
    ∀ j, ∃ a, successive_calls X E allow advance fuel j st0
      = some { st0 with
          compl_shown_match := some ((anchor :: cs).getD (j % (cs.length + 1)) 0)
          adjusted_leader := a }
  | 0 => by
    refine ⟨st0.adjusted_leader, ?_⟩
    simp only [successive_calls, Nat.zero_mod, List.getD_cons_zero]
    rw [← hshown]
  | j + 1 => by
    obtain ⟨a, ih⟩ := successive_calls_ring X E allow advance st0 anchor cs fuel hfuel hc hshown
      hfwd harr horig hpass j
    have hlt : j % (cs.length + 1) < cs.length + 1 := Nat.mod_lt _ (by omega)
    have hadj := (cyclic_step hc (j % (cs.length + 1)) hlt).1
    rw [Nat.mod_add_mod] at hadj
    have hlt1 : (j + 1) % (cs.length + 1) < (anchor :: cs).length := by
      simp only [List.length_cons]
      exact Nat.mod_lt _ (by omega)
    have huse : match_at_original_text
          (deref st0.heap ((anchor :: cs).getD ((j + 1) % (cs.length + 1)) 0)) = true
        ∨ pum_entry_matches E (get_cot_flags st0).fuzzy
            (deref st0.heap ((anchor :: cs).getD ((j + 1) % (cs.length + 1)) 0))
            (leader_for st0 ((anchor :: cs).getD ((j + 1) % (cs.length + 1)) 0)) = true := by
      have hmem := getD_mem_of_lt (anchor :: cs) _ hlt1
      rcases List.mem_cons.mp hmem with h | h
      · left; rw [h]; exact horig
      · right; exact hpass _ h
    obtain ⟨a1, h1⟩ := find_next_single_step X E allow advance
      { st0 with
        compl_shown_match := some ((anchor :: cs).getD (j % (cs.length + 1)) 0)
        adjusted_leader := a }
      ((anchor :: cs).getD (j % (cs.length + 1)) 0)
      ((anchor :: cs).getD ((j + 1) % (cs.length + 1)) 0) 0 fuel hfuel rfl hadj hfwd harr
      (by
        rw [leader_for_env (a := { st0 with
          compl_shown_match := some ((anchor :: cs).getD (j % (cs.length + 1)) 0)
          adjusted_leader := a }) (b := st0) rfl (fun _ => rfl)]
        exact huse)
    refine ⟨a1, ?_⟩
    rw [successive_calls, ih]
    simp only [h1]
    rfl

/-- **C7.** On a closed ring `anchor :: cs` without a popup menu array, in
forward direction, the anchor being the original text and every entry of `cs`
passing the leader test, starting with the shown match at the anchor: for
every `j` the `j`-th successive single-step call of
`find_next_completion_match` returns OK (whatever `ins_compl_get_exp` does, and
with fuel for two rounds of the loop) and leaves the shown match at entry
`j mod (k + 1)` of the ring, `k` being the number of entries of `cs`: at the
`j`-th entry of `cs` for 1 ≤ j ≤ k, and at the anchor again for j = k + 1. -/
theorem find_next_completion_match_walks_ring (X : State → Int × State) (E : Ext)
    (allow advance : Bool) (st0 : State) (anchor : Nat) (cs : List Nat) (fuel : Nat)
    (hfuel : 2 ≤ fuel)
    (hc : IsCyclic st0.heap anchor cs)
    (hshown : st0.compl_shown_match = some anchor)
    (hfwd : compl_shows_dir_forward st0 = true)
    (harr : st0.compl_match_array = none)
    (horig : match_at_original_text (deref st0.heap anchor) = true)
    (hpass : ∀ c ∈ cs, pum_entry_matches E (get_cot_flags st0).fuzzy (deref st0.heap c)
      (leader_for st0 c) = true) (j : Nat) :
    ∃ s, successive_calls X E allow advance fuel j st0 = some s
      ∧ s.compl_shown_match = some ((anchor :: cs).getD (j % (cs.length + 1)) 0) := by
  obtain ⟨a, h⟩ := successive_calls_ring X E allow advance st0 anchor cs fuel hfuel hc hshown
    hfwd harr horig hpass j
  exact ⟨_, h, rfl⟩

/-- The anchor "he" with "hello", "help", "held" (entries 1, 2, 3): the calls
show "hello", then "help", then "held", and the fourth wraps to the anchor. -/
theorem find_next_completion_match_walks_ring_witness :
    (∃ s, successive_calls (fun s => (0, s)) ascii_ops true true 2 1
          (three_matches (bytes "he") {}) = some s ∧ s.compl_shown_match = some 1)
      ∧ (∃ s, successive_calls (fun s => (0, s)) ascii_ops true true 2 2
          (three_matches (bytes "he") {}) = some s ∧ s.compl_shown_match = some 2)
      ∧ (∃ s, successive_calls (fun s => (0, s)) ascii_ops true true 2 3
          (three_matches (bytes "he") {}) = some s ∧ s.compl_shown_match = some 3)
      ∧ (∃ s, successive_calls (fun s => (0, s)) ascii_ops true true 2 4
          (three_matches (bytes "he") {}) = some s ∧ s.compl_shown_match = some 0) :=
  ⟨find_next_completion_match_walks_ring (fun s => (0, s)) ascii_ops true true
      (three_matches (bytes "he") {}) 0 [1, 2, 3] 2 (by decide) (by decide) rfl rfl rfl
      (by decide) (by decide) 1,
    find_next_completion_match_walks_ring (fun s => (0, s)) ascii_ops true true
      (three_matches (bytes "he") {}) 0 [1, 2, 3] 2 (by decide) (by decide) rfl rfl rfl
      (by decide) (by decide) 2,
    find_next_completion_match_walks_ring (fun s => (0, s)) ascii_ops true true
      (three_matches (bytes "he") {}) 0 [1, 2, 3] 2 (by decide) (by decide) rfl rfl rfl
      (by decide) (by decide) 3,
    find_next_completion_match_walks_ring (fun s => (0, s)) ascii_ops true true
      (three_matches (bytes "he") {}) 0 [1, 2, 3] 2 (by decide) (by decide) rfl rfl rfl
      (by decide) (by decide) 4⟩

theorem wca_fill_length (E : Ext) : ∀ (n : Nat) (p : List Nat), (wca_fill E n p).length = n
  | 0, _ => rfl
  | n + 1, p => by simp [wca_fill, wca_fill_length E n]

theorem convert_from_length (f : Nat → Nat) (k : Nat) (wca : List Nat) :
    (convert_from f k wca).length = wca.length := by
  unfold convert_from
  simp only [List.length_append, List.length_take, List.length_map, List.length_drop]
  omega

theorem convert_from_drop (f : Nat → Nat) (k : Nat) (wca : List Nat) :
    (convert_from f k wca).drop k = (wca.drop k).map f := by
  unfold convert_from
  by_cases hk : k ≤ wca.length
  · rw [List.drop_append_of_le_length (by simp [hk])]
    have : (List.take k wca).length = k := by simp [hk]
    rw [List.drop_eq_nil_of_le (by omega)]
    simp
  · have h1 : wca.drop k = [] := List.drop_eq_nil_of_le (by omega)
    have h2 : wca.take k = wca := List.take_of_length_le (by omega)
    rw [h1, h2]
    simp only [List.map_nil, List.append_nil]
    exact List.drop_eq_nil_of_le (by omega)

theorem convert_from_getD (f : Nat → Nat) (k : Nat) (wca : List Nat) (j : Nat) (hj : j < k) :
    (convert_from f k wca).getD j 0 = wca.getD j 0 := by
  unfold convert_from
  simp only [List.getD_eq_getElem?_getD]
  by_cases hl : j < wca.length
  · rw [List.getElem?_append_left (by simp; omega), List.getElem?_take_of_lt hj]
  · rw [List.getElem?_eq_none (by simp; omega), List.getElem?_eq_none (by omega)]

theorem drop_cons_getD (wca : List Nat) (i : Nat) (hi : i < wca.length) :
    wca.drop i = wca.getD i 0 :: wca.drop (i + 1) := by
  rw [List.getD_eq_getElem _ _ hi]
  exact List.drop_eq_getElem_cons hi

theorem lower_faces_upper_cons (E : Ext) (c w : Nat) (typed rest : List Nat) :
    lower_faces_upper E (c :: typed) (w :: rest)
      = (E.mb_islower c && E.mb_isupper w || lower_faces_upper E typed rest) := by
  simp [lower_faces_upper]

/-- Rule 1 on the typed characters: `has_lower` says whether one of them is
lower-case, and the rest of the candidate is lower-cased exactly when a typed
lower-case character faces an upper-case candidate character. -/
theorem infer_rule1_spec (E : Ext) (k : Nat) :
    ∀ (typed : List Nat) (i : Nat) (wca : List Nat), i + typed.length ≤ wca.length →
      infer_rule1 E k i typed wca
        = (typed.any E.mb_islower,
            if lower_faces_upper E typed (wca.drop i) then convert_from E.mb_tolower k wca
            else wca)
  | [], _, _, _ => by simp [infer_rule1, lower_faces_upper]
  | c :: typed, i, wca, h => by
    simp only [List.length_cons] at h
    have ih := infer_rule1_spec E k typed (i + 1) wca (by omega)
    rw [drop_cons_getD wca i (by omega), lower_faces_upper_cons, List.any_cons]
    unfold infer_rule1
    rw [ih]
    by_cases hc : E.mb_islower c = true
    · by_cases hw : E.mb_isupper (wca.getD i 0) = true
      · simp only [hc, hw, if_true, Bool.true_and, Bool.true_or]
      · simp only [Bool.not_eq_true] at hw
        simp only [hc, hw, if_true, Bool.false_eq_true, if_false, Bool.and_false,
          Bool.false_or, Bool.true_or]
    · simp only [Bool.not_eq_true] at hc
      simp only [hc, Bool.false_eq_true, if_false, Bool.false_and, Bool.false_or]

/-- Rule 2 on the typed characters: the rest of the candidate is upper-cased
exactly when a typed upper-case character after a typed letter faces a
lower-case candidate character. -/
theorem infer_rule2_spec (E : Ext) (k : Nat) :
    ∀ (typed : List Nat) (i : Nat) (wl : Bool) (wca : List Nat),
      i + typed.length ≤ wca.length →
      infer_rule2 E k i wl typed wca
        = if upper_after_letter_faces_lower E wl typed (wca.drop i) then
            convert_from E.mb_toupper k wca
          else wca
  | [], _, _, _, _ => by simp [infer_rule2, upper_after_letter_faces_lower]
  | c :: typed, i, wl, wca, h => by
    simp only [List.length_cons] at h
    have ih := infer_rule2_spec E k typed (i + 1) (E.mb_islower c || E.mb_isupper c) wca
      (by omega)
    rw [drop_cons_getD wca i (by omega)]
    unfold infer_rule2
    rw [ih]
    have e : upper_after_letter_faces_lower E wl (c :: typed)
          (wca.getD i 0 :: List.drop (i + 1) wca)
        = ((wl && E.mb_isupper c && E.mb_islower (wca.getD i 0))
          || upper_after_letter_faces_lower E (E.mb_islower c || E.mb_isupper c) typed
              (List.drop (i + 1) wca)) := rfl
    rw [e]
    by_cases hc : (wl && E.mb_isupper c && E.mb_islower (wca.getD i 0)) = true
    · simp only [hc, if_true, Bool.true_or]
    · simp only [Bool.not_eq_true] at hc
      simp only [hc, Bool.false_eq_true, if_false, Bool.false_or]

/-- The loop that copies the case of the typed characters: it changes the
entries `i` to `i + typed.length - 1` only, each to the case of the typed
character. -/
theorem copy_case_spec (E : Ext) :
    ∀ (typed : List Nat) (i : Nat) (wca : List Nat), i + typed.length ≤ wca.length →
      (copy_case E i typed wca).length = wca.length
        ∧ (∀ j, j < i ∨ i + typed.length ≤ j →
            (copy_case E i typed wca).getD j 0 = wca.getD j 0)
        ∧ (∀ j, j < typed.length →
            (copy_case E i typed wca).getD (i + j) 0
              = copy_case_char E (typed.getD j 0) (wca.getD (i + j) 0))
  | [], _, _, _ => by simp [copy_case]
  | c :: typed, i, wca, h => by
    simp only [List.length_cons] at h
    obtain ⟨h1, h2, h3⟩ := copy_case_spec E typed (i + 1)
      (wca.set i (copy_case_char E c (wca.getD i 0))) (by simp; omega)
    have hne : ∀ j, j ≠ i →
        (wca.set i (copy_case_char E c (wca.getD i 0))).getD j 0 = wca.getD j 0 := by
      intro j hj
      simp only [List.getD_eq_getElem?_getD]
      rw [List.getElem?_set_ne (Ne.symm hj)]
    have heq : (wca.set i (copy_case_char E c (wca.getD i 0))).getD i 0
        = copy_case_char E c (wca.getD i 0) := by
      simp only [List.getD_eq_getElem?_getD]
      rw [List.getElem?_set_self (by omega)]
      rfl
    unfold copy_case
    refine ⟨by rw [h1]; simp, ?_, ?_⟩
    · intro j hj
      simp only [List.length_cons] at hj
      rw [h2 j (by omega), hne j (by omega)]
    · intro j hj
      cases j with
      | zero =>
        have := h2 i (Or.inl (by omega))
        simp only [Nat.add_zero, List.getD_cons_zero]
        rw [this, heq]
      | succ j =>
        simp only [List.length_cons] at hj
        have := h3 j (by omega)
        rw [show i + (j + 1) = i + 1 + j by omega, this, hne _ (by omega)]
        rfl

theorem drop_congr_getD (l1 l2 : List Nat) (k : Nat) (hlen : l1.length = l2.length)
    (h : ∀ j, k ≤ j → l1.getD j 0 = l2.getD j 0) : l1.drop k = l2.drop k := by
  apply List.ext_getElem?
  intro n
  rw [List.getElem?_drop, List.getElem?_drop]
  have := h (k + n) (by omega)
  simp only [List.getD_eq_getElem?_getD] at this
  by_cases hl : k + n < l1.length
  · have hl2 : k + n < l2.length := by omega
    rw [List.getElem?_eq_getElem hl, List.getElem?_eq_getElem hl2] at this ⊢
    simpa using this
  · rw [List.getElem?_eq_none (by omega), List.getElem?_eq_none (by omega)]

/-- **The wide character array of `ins_compl_infercase_gettext`.**  Its length
is kept; the entries that face typed characters take the case of the typed
character; the entries from `compl_char_len` on are converted by rule 1 or
rule 2, or left alone. -/
theorem infercase_wca_spec (E : Ext) (typed : List Nat) (k : Nat) (wca : List Nat)
    (hk : typed.length ≤ k) (hlen : typed.length ≤ wca.length) :
    (infercase_wca E typed k wca).length = wca.length
      ∧ (∀ j, j < typed.length →
          (infercase_wca E typed k wca).getD j 0
            = copy_case_char E (typed.getD j 0) (wca.getD j 0))
      ∧ (infercase_wca E typed k wca).drop k
          = (if lower_faces_upper E typed wca then (wca.drop k).map E.mb_tolower
            else if !typed.any E.mb_islower && upper_after_letter_faces_lower E false typed wca
              then (wca.drop k).map E.mb_toupper
            else wca.drop k) := by
  unfold infercase_wca
  simp only []
  rw [infer_rule1_spec E k typed 0 wca (by omega)]
  simp only [List.drop_zero]
  -- the array after rules 1 and 2
  have key : ∀ w2 : List Nat, w2.length = wca.length →
      (∀ j, j < k → w2.getD j 0 = wca.getD j 0) →
      (copy_case E 0 typed w2).length = wca.length
        ∧ (∀ j, j < typed.length →
            (copy_case E 0 typed w2).getD j 0
              = copy_case_char E (typed.getD j 0) (wca.getD j 0))
        ∧ (copy_case E 0 typed w2).drop k = w2.drop k := by
    intro w2 hl hpre
    obtain ⟨c1, c2, c3⟩ := copy_case_spec E typed 0 w2 (by omega)
    refine ⟨c1.trans hl, ?_, ?_⟩
    · intro j hj
      have := c3 j hj
      rw [Nat.zero_add] at this
      rw [this, hpre j (by omega)]
    · exact drop_congr_getD _ _ k c1 (fun j hj => c2 j (Or.inr (by omega)))
  by_cases h1 : lower_faces_upper E typed wca = true
  · have hany : typed.any E.mb_islower = true := by
      unfold lower_faces_upper at h1
      rw [List.any_eq_true] at h1 ⊢
      obtain ⟨x, hx, hx2⟩ := h1
      simp only [Bool.and_eq_true] at hx2
      exact ⟨x.1, (List.of_mem_zip hx).1, hx2.1⟩
    simp only [h1, if_true, hany, Bool.not_true, Bool.false_eq_true, if_false]
    obtain ⟨k1, k2, k3⟩ := key (convert_from E.mb_tolower k wca) (convert_from_length _ _ _)
      (fun j hj => convert_from_getD _ _ _ j hj)
    exact ⟨k1, k2, by rw [k3, convert_from_drop]⟩
  · simp only [Bool.not_eq_true] at h1
    simp only [h1, Bool.false_eq_true, if_false]
    by_cases h2 : typed.any E.mb_islower = true
    · simp only [h2, Bool.not_true, Bool.false_eq_true, if_false, Bool.false_and]
      exact key wca rfl (fun _ _ => rfl)
    · simp only [Bool.not_eq_true] at h2
      simp only [h2, Bool.not_false, if_true, Bool.true_and]
      rw [infer_rule2_spec E k typed 0 false wca (by omega)]
      simp only [List.drop_zero]
      by_cases h3 : upper_after_letter_faces_lower E false typed wca = true
      · simp only [h3, if_true]
        obtain ⟨k1, k2, k3⟩ := key (convert_from E.mb_toupper k wca)
          (convert_from_length _ _ _) (fun j hj => convert_from_getD _ _ _ j hj)
        exact ⟨k1, k2, by rw [k3, convert_from_drop]⟩
      · simp only [h3, if_false]
        exact key wca rfl (fun _ _ => rfl)

theorem infercase_gettext_eq (E : Ext) (st : State) (str orig : List Nat)
    (char_len compl_char_len min_len : Nat) (horig : st.compl_orig_text = some orig) :
    ins_compl_infercase_gettext E st str char_len compl_char_len min_len
      = some ((infercase_wca E (wca_fill E min_len orig) compl_char_len
          (wca_fill E char_len str)).flatMap E.utf_char2bytes) := by
  unfold ins_compl_infercase_gettext
  rw [horig]

theorem copy_case_char_cases (E : Ext) (o c : Nat) :
    (E.mb_islower o = true → copy_case_char E o c = E.mb_tolower c)
      ∧ (E.mb_islower o = false → E.mb_isupper o = true → copy_case_char E o c = E.mb_toupper c)
      ∧ (E.mb_islower o = false → E.mb_isupper o = false → copy_case_char E o c = c) := by
  unfold copy_case_char
  refine ⟨fun h => by rw [if_pos h], fun h1 h2 => ?_, fun h1 h2 => ?_⟩
  · rw [if_neg (by simp [h1]), if_pos h2]
  · rw [if_neg (by simp [h1]), if_neg (by simp [h2])]

/-- **C8.** Under 'ignorecase' with 'infercase' and `len` > 0, the original
text having `compl_char_len` characters and the candidate `char_len`, the text
that `ins_compl_add_infercase` hands to `ins_compl_add` is the encoding of an
array of `char_len` characters whose part from index `compl_char_len` on is:
the candidate's, lower-cased, if some typed character is lower-case while the
candidate character at the same index is upper-case; otherwise the
candidate's, upper-cased, if no typed character is lower-case and some typed
upper-case character that directly follows a typed letter faces a lower-case
candidate character; otherwise the candidate's, unchanged.  The typed and
candidate characters compared are the first min(`char_len`, `compl_char_len`). -/
theorem ins_compl_add_infercase_remainder (E : Ext) (st : State) (str orig : List Nat)
    (len : Int) (char_len compl_char_len : Nat) (icase : Bool) (fname : Option (List Nat))
    (dir : Direction) (cont_s_ipos : Bool) (score : Int)
    (hic : st.p_ic = true) (hinf : st.b_p_inf = true) (hlen : 0 < len)
    (horig : st.compl_orig_text = some orig)
    (hcl : count_chars E (str.length + 1) str = some char_len)
    (hol : count_chars E (orig.length + 1) orig = some compl_char_len) :
    ∃ (wca : List Nat) (flags : Nat), infercase_text E st str len = some (wca.flatMap E.utf_char2bytes)
      ∧ ins_compl_add_infercase E st str len icase fname dir cont_s_ipos score
          = ins_compl_add E st (wca.flatMap E.utf_char2bytes) len fname none none dir flags
              false none score
      ∧ wca.length = char_len
      ∧ wca.drop compl_char_len
          = (if lower_faces_upper E (wca_fill E (min char_len compl_char_len) orig)
                (wca_fill E char_len str) then
              ((wca_fill E char_len str).drop compl_char_len).map E.mb_tolower
            else if !(wca_fill E (min char_len compl_char_len) orig).any E.mb_islower
                && upper_after_letter_faces_lower E false
                    (wca_fill E (min char_len compl_char_len) orig) (wca_fill E char_len str) then
              ((wca_fill E char_len str).drop compl_char_len).map E.mb_toupper
            else (wca_fill E char_len str).drop compl_char_len) := by
  have htext : infercase_text E st str len
      = some ((infercase_wca E (wca_fill E (min char_len compl_char_len) orig) compl_char_len
          (wca_fill E char_len str)).flatMap E.utf_char2bytes) := by
    unfold infercase_text
    simp only [hic, hinf, hlen, decide_True, Bool.and_self, if_true, hcl, horig, hol]
    exact infercase_gettext_eq E st str orig _ _ _ horig
  obtain ⟨w1, -, w3⟩ := infercase_wca_spec E (wca_fill E (min char_len compl_char_len) orig)
    compl_char_len (wca_fill E char_len str)
    (by rw [wca_fill_length]; exact Nat.min_le_right _ _)
    (by rw [wca_fill_length, wca_fill_length]; exact Nat.min_le_left _ _)
  refine ⟨_, (if icase then (if cont_s_ipos then 0 ||| CP_CONT_S_IPOS else 0) ||| CP_ICASE
    else (if cont_s_ipos then 0 ||| CP_CONT_S_IPOS else 0)), htext, ?_,
    by rw [w1, wca_fill_length], w3⟩
  unfold ins_compl_add_infercase
  rw [htext]

/-- The typed text "Pr" with the candidate "print" gives "Print", and "HTTP"
with "httpserver" gives "HTTPSERVER". -/
theorem ins_compl_add_infercase_remainder_witness :
    infercase_text ascii_ops (infercase_session (bytes "Pr")) (bytes "print") 5
        = some (bytes "Print")
      ∧ infercase_text ascii_ops (infercase_session (bytes "HTTP")) (bytes "httpserver") 10
        = some (bytes "HTTPSERVER")
      ∧ ∃ (wca : List Nat) (flags : Nat),
        infercase_text ascii_ops (infercase_session (bytes "HTTP")) (bytes "httpserver") 10
            = some (wca.flatMap ascii_ops.utf_char2bytes)
          ∧ ins_compl_add_infercase ascii_ops (infercase_session (bytes "HTTP"))
                (bytes "httpserver") 10 false none FORWARD false 0
              = ins_compl_add ascii_ops (infercase_session (bytes "HTTP"))
                  (wca.flatMap ascii_ops.utf_char2bytes) 10 none none none FORWARD flags
                  false none 0
          ∧ wca.length = 10
          ∧ wca.drop 4
              = (if lower_faces_upper ascii_ops (wca_fill ascii_ops (min 10 4) (bytes "HTTP"))
                    (wca_fill ascii_ops 10 (bytes "httpserver")) then
                  ((wca_fill ascii_ops 10 (bytes "httpserver")).drop 4).map ascii_ops.mb_tolower
                else if !(wca_fill ascii_ops (min 10 4) (bytes "HTTP")).any ascii_ops.mb_islower
                    && upper_after_letter_faces_lower ascii_ops false
                        (wca_fill ascii_ops (min 10 4) (bytes "HTTP"))
                        (wca_fill ascii_ops 10 (bytes "httpserver")) then
                  ((wca_fill ascii_ops 10 (bytes "httpserver")).drop 4).map ascii_ops.mb_toupper
                else (wca_fill ascii_ops 10 (bytes "httpserver")).drop 4) :=
  ⟨by decide, by decide,
    ins_compl_add_infercase_remainder ascii_ops (infercase_session (bytes "HTTP"))
      (bytes "httpserver") (bytes "HTTP") 10 10 4 false none FORWARD false 0 rfl rfl
      (by decide) rfl (by decide) (by decide)⟩

/-- **C9.** For every original text and candidate, `min_len` being the smaller
of their numbers of characters, the text returned by
`ins_compl_infercase_gettext` is the encoding of an array with as many
characters as the candidate (`char_len`), and for every index `i < min_len`
its `i`-th character is the lower-case form of the candidate's `i`-th
character when the typed `i`-th character is lower-case, the upper-case form
when it is upper-case (and not lower-case), and the candidate's character
unchanged when it is neither. -/
theorem ins_compl_infercase_gettext_copies_case (E : Ext) (st : State) (str orig : List Nat)
    (char_len compl_char_len min_len : Nat)
    (horig : st.compl_orig_text = some orig)
    (hmin : min_len = min char_len compl_char_len) :
    ∃ wca : List Nat, ins_compl_infercase_gettext E st str char_len compl_char_len min_len
        = some (wca.flatMap E.utf_char2bytes)
      ∧ wca.length = char_len
      ∧ ∀ i, i < min_len →
          (E.mb_islower ((wca_fill E min_len orig).getD i 0) = true →
            wca.getD i 0 = E.mb_tolower ((wca_fill E char_len str).getD i 0))
          ∧ (E.mb_islower ((wca_fill E min_len orig).getD i 0) = false →
              E.mb_isupper ((wca_fill E min_len orig).getD i 0) = true →
              wca.getD i 0 = E.mb_toupper ((wca_fill E char_len str).getD i 0))
          ∧ (E.mb_islower ((wca_fill E min_len orig).getD i 0) = false →
              E.mb_isupper ((wca_fill E min_len orig).getD i 0) = false →
              wca.getD i 0 = (wca_fill E char_len str).getD i 0) := by
  obtain ⟨w1, w2, -⟩ := infercase_wca_spec E (wca_fill E min_len orig) compl_char_len
    (wca_fill E char_len str)
    (by rw [wca_fill_length, hmin]; exact Nat.min_le_right _ _)
    (by rw [wca_fill_length, wca_fill_length, hmin]; exact Nat.min_le_left _ _)
  refine ⟨_, infercase_gettext_eq E st str orig _ _ _ horig, by rw [w1, wca_fill_length], ?_⟩
  intro i hi
  rw [w2 i (by rw [wca_fill_length]; exact hi)]
  exact copy_case_char_cases E _ _

/-- The typed text "Pr" with the candidate "print": the text returned is
"Print". -/
theorem ins_compl_infercase_gettext_copies_case_witness :
    ins_compl_infercase_gettext ascii_ops (infercase_session (bytes "Pr")) (bytes "print") 5 2 2
        = some (bytes "Print")
      ∧ ∃ wca : List Nat, ins_compl_infercase_gettext ascii_ops (infercase_session (bytes "Pr"))
            (bytes "print") 5 2 2 = some (wca.flatMap ascii_ops.utf_char2bytes)
        ∧ wca.length = 5
        ∧ ∀ i, i < 2 →
            (ascii_ops.mb_islower ((wca_fill ascii_ops 2 (bytes "Pr")).getD i 0) = true →
              wca.getD i 0
                = ascii_ops.mb_tolower ((wca_fill ascii_ops 5 (bytes "print")).getD i 0))
            ∧ (ascii_ops.mb_islower ((wca_fill ascii_ops 2 (bytes "Pr")).getD i 0) = false →
                ascii_ops.mb_isupper ((wca_fill ascii_ops 2 (bytes "Pr")).getD i 0) = true →
                wca.getD i 0
                  = ascii_ops.mb_toupper ((wca_fill ascii_ops 5 (bytes "print")).getD i 0))
            ∧ (ascii_ops.mb_islower ((wca_fill ascii_ops 2 (bytes "Pr")).getD i 0) = false →
                ascii_ops.mb_isupper ((wca_fill ascii_ops 2 (bytes "Pr")).getD i 0) = false →
                wca.getD i 0 = (wca_fill ascii_ops 5 (bytes "print")).getD i 0) :=
  ⟨by decide, ins_compl_infercase_gettext_copies_case ascii_ops (infercase_session (bytes "Pr"))
    (bytes "print") (bytes "Pr") 5 2 2 rfl (by decide)⟩

/-- **C17.** `check_compl_option(true)` returns false exactly when the
buffer-local and the global 'dictionary' are both empty and 'spell' is off in
the window; `check_compl_option(false)` returns false exactly when the
buffer-local and global 'thesaurus' and 'thesaurusfunc' are all empty.  When it
returns false, `ctrl_x_mode` is CTRL_X_NORMAL and `edit_submode` is cleared
(nothing else changes); when it returns true, the state is unchanged. -/
theorem check_compl_option_spec (st : State) :
    ((check_compl_option st true).1 = false
        ↔ (st.b_p_dict = [] ∧ st.p_dict = [] ∧ st.w_p_spell = false))
      ∧ ((check_compl_option st false).1 = false
        ↔ (st.b_p_tsr = [] ∧ st.p_tsr = [] ∧ st.b_p_tsrfu = [] ∧ st.p_tsrfu = []))
      ∧ ∀ dict_opt,
          ((check_compl_option st dict_opt).1 = false →
            (check_compl_option st dict_opt).2
              = { st with ctrl_x_mode := CTRL_X_NORMAL, edit_submode := none })
          ∧ ((check_compl_option st dict_opt).1 = true →
            (check_compl_option st dict_opt).2 = st) := by
  refine ⟨?_, ?_, ?_⟩
  · by_cases h : st.b_p_dict = [] ∧ st.p_dict = [] ∧ st.w_p_spell = false
    · simp [check_compl_option, h]
    · simp [check_compl_option, h]
  · by_cases h : st.b_p_tsr = [] ∧ st.p_tsr = [] ∧ st.b_p_tsrfu = [] ∧ st.p_tsrfu = []
    · simp [check_compl_option, h]
    · simp [check_compl_option, h]
  · intro dict_opt
    cases dict_opt with
    | true =>
      by_cases h : st.b_p_dict = [] ∧ st.p_dict = [] ∧ st.w_p_spell = false
      · simp [check_compl_option, h]
      · simp [check_compl_option, h]
    | false =>
      by_cases h : st.b_p_tsr = [] ∧ st.p_tsr = [] ∧ st.b_p_tsrfu = [] ∧ st.p_tsrfu = []
      · simp [check_compl_option, h]
      · simp [check_compl_option, h]

/-- A special key (a negative code) is no key of the `switch` of
`vim_is_ctrl_x_key`. -/
theorem ctrl_x_key_table_special (mode : Nat) (c : Int) (hc : c < 0) :
    (match ctrl_x_key_table mode c with
      | some r => r
      | none => false) = false := by
  have hk : ∀ k : Int, 0 ≤ k → (c == k) = false := fun k hk => by
    simp only [beq_eq_false_iff_ne, ne_eq]
    omega
  have e : ∀ b : Bool, ctrl_x_key_table mode c = some b → b = false := by
    intro b
    unfold ctrl_x_key_table
    rw [hk Ctrl_D (by decide), hk Ctrl_E (by decide), hk Ctrl_F (by decide),
      hk Ctrl_I (by decide), hk Ctrl_K (by decide), hk Ctrl_L (by decide),
      hk Ctrl_N (by decide), hk Ctrl_O (by decide), hk Ctrl_P (by decide),
      hk Ctrl_Q (by decide), hk Ctrl_R (by decide), hk Ctrl_S (by decide),
      hk Ctrl_T (by decide), hk Ctrl_U (by decide), hk Ctrl_V (by decide),
      hk Ctrl_X (by decide), hk Ctrl_Y (by decide), hk Ctrl_Z (by decide),
      hk Ctrl_RSB (by decide), hk 115 (by decide)]
    intro h
    by_cases h0 : mode = 0
    · rw [if_pos h0] at h; cases h; rfl
    rw [if_neg h0] at h
    by_cases h1 : mode = CTRL_X_NOT_DEFINED_YET ∨ mode = CTRL_X_CMDLINE_CTRL_X
    · rw [if_pos h1] at h; cases h; rfl
    rw [if_neg h1] at h
    by_cases h2 : mode = CTRL_X_SCROLL
    · rw [if_pos h2] at h; cases h; rfl
    rw [if_neg h2] at h
    by_cases h3 : mode = CTRL_X_WHOLE_LINE
    · rw [if_pos h3] at h; cases h; rfl
    rw [if_neg h3] at h
    by_cases h4 : mode = CTRL_X_FILES
    · rw [if_pos h4] at h; cases h; rfl
    rw [if_neg h4] at h
    by_cases h5 : mode = CTRL_X_DICTIONARY
    · rw [if_pos h5] at h; cases h; rfl
    rw [if_neg h5] at h
    by_cases h6 : mode = CTRL_X_THESAURUS
    · rw [if_pos h6] at h; cases h; rfl
    rw [if_neg h6] at h
    by_cases h7 : mode = CTRL_X_TAGS
    · rw [if_pos h7] at h; cases h; rfl
    rw [if_neg h7] at h
    by_cases h8 : mode = CTRL_X_PATH_PATTERNS
    · rw [if_pos h8] at h; cases h; rfl
    rw [if_neg h8] at h
    by_cases h9 : mode = CTRL_X_PATH_DEFINES
    · rw [if_pos h9] at h; cases h; rfl
    rw [if_neg h9] at h
    by_cases h10 : mode = CTRL_X_CMDLINE
    · rw [if_pos h10] at h; cases h; rfl
    rw [if_neg h10] at h
    by_cases h11 : mode = CTRL_X_FUNCTION
    · rw [if_pos h11] at h; cases h; rfl
    rw [if_neg h11] at h
    by_cases h12 : mode = CTRL_X_OMNI
    · rw [if_pos h12] at h; cases h; rfl
    rw [if_neg h12] at h
    by_cases h13 : mode = CTRL_X_SPELL
    · rw [if_pos h13] at h; cases h; rfl
    rw [if_neg h13] at h
    by_cases h14 : mode = CTRL_X_EVAL
    · rw [if_pos h14] at h; cases h; rfl
    rw [if_neg h14] at h
    by_cases h15 : mode = CTRL_X_BUFNAMES
    · rw [if_pos h15] at h; cases h; rfl
    rw [if_neg h15] at h
    by_cases h16 : mode = CTRL_X_REGISTER
    · rw [if_pos h16] at h; cases h; rfl
    rw [if_neg h16] at h
    cases h
  cases h : ctrl_x_key_table mode c with
  | none => rfl
  | some b => exact e b h

theorem ins_compl_pum_key_eq (K : KeyCodes) (st : State) (c : Int) :
    ins_compl_pum_key K st c = (pum_visible st && decide (c ∈ pum_keys K)) := by
  unfold ins_compl_pum_key pum_keys
  cases pum_visible st
  · rfl
  · simp only [Bool.true_and, List.mem_cons, List.mem_singleton, List.not_mem_nil, or_false]
    by_cases h1 : c = K.K_PAGEUP <;> by_cases h2 : c = K.K_KPAGEUP <;>
      by_cases h3 : c = K.K_S_UP <;> by_cases h4 : c = K.K_PAGEDOWN <;>
      by_cases h5 : c = K.K_KPAGEDOWN <;> by_cases h6 : c = K.K_S_DOWN <;>
      by_cases h7 : c = K.K_UP <;> by_cases h8 : c = K.K_DOWN <;>
      simp [h1, h2, h3, h4, h5, h6, h7, h8]

/-- **C13, as stated, fails.**  Two states with the same `ctrl_x_mode`, one
without and one with the popup menu visible: for the key `K_PAGEUP`
`vim_is_ctrl_x_key` returns false in the first and true in the second. -/
theorem vim_is_ctrl_x_key_reads_pum_visible :
    ({} : State).ctrl_x_mode = ({ pum_displayed := some ([], -1) } : State).ctrl_x_mode
      ∧ vim_is_ctrl_x_key sample_keys {} sample_keys.K_PAGEUP = false
      ∧ vim_is_ctrl_x_key sample_keys { pum_displayed := some ([], -1) }
          sample_keys.K_PAGEUP = true := by
  decide

/-- **C13, amended.**  The result of `vim_is_ctrl_x_key` is determined by
`ctrl_x_mode`, the key and whether the popup menu is visible: two states with
the same `ctrl_x_mode` give the same value for the same key when the popup
menu is visible in both or in neither, and, whatever the popup menu, when the
key is none of the eight keys of `ins_compl_pum_key`. -/
theorem vim_is_ctrl_x_key_determined (K : KeyCodes) (st1 st2 : State) (c : Int)
    (hmode : st1.ctrl_x_mode = st2.ctrl_x_mode)
    (hpum : pum_visible st1 = pum_visible st2 ∨ c ∉ pum_keys K) :
    vim_is_ctrl_x_key K st1 c = vim_is_ctrl_x_key K st2 c := by
  have hp : ins_compl_pum_key K st1 c = ins_compl_pum_key K st2 c := by
    rw [ins_compl_pum_key_eq, ins_compl_pum_key_eq]
    rcases hpum with h | h
    · rw [h]
    · simp [h]
  unfold vim_is_ctrl_x_key
  rw [hmode, hp]

/-- Two states in whole-line mode, one with the popup menu visible: CTRL-L is
accepted in both, and so is `K_PAGEUP` judged alike when the menu is visible in
both. -/
theorem vim_is_ctrl_x_key_determined_witness :
    vim_is_ctrl_x_key sample_keys { ctrl_x_mode := CTRL_X_WHOLE_LINE } Ctrl_L
      = vim_is_ctrl_x_key sample_keys
          { ctrl_x_mode := CTRL_X_WHOLE_LINE, pum_displayed := some ([], -1) } Ctrl_L :=
  vim_is_ctrl_x_key_determined sample_keys { ctrl_x_mode := CTRL_X_WHOLE_LINE }
    { ctrl_x_mode := CTRL_X_WHOLE_LINE, pum_displayed := some ([], -1) } Ctrl_L rfl
    (Or.inr (by decide))

theorem vim_is_ctrl_x_key_special (K : KeyCodes) (st : State) (c : Int) (hc : c < 0)
    (hp : c ∉ pum_keys K) : vim_is_ctrl_x_key K st c = false := by
  unfold vim_is_ctrl_x_key
  have h1 : (c == Ctrl_R) = false := by
    simp only [beq_eq_false_iff_ne, ne_eq, Ctrl_R]
    omega
  have h2 : ins_compl_pum_key K st c = false := by
    rw [ins_compl_pum_key_eq]
    simp [hp]
  rw [h1, h2]
  simp only [Bool.false_and, Bool.false_eq_true, if_false]
  exact ctrl_x_key_table_special _ c hc

theorem ignored_key_facts (K : KeyCodes) (hK : K.Sane) (c : Int) (hc : c ∈ ignored_keys K) :
    c < 0 ∧ c ∉ pum_keys K := by
  obtain ⟨hneg, hnd⟩ := hK
  refine ⟨hneg c (by simp [hc]), ?_⟩
  intro hp
  rw [List.append_assoc] at hnd
  have := (List.nodup_append.mp hnd).2.2 hc (List.mem_append_left _ hp)
  exact this

/-- **C14.** For every key among K_SELECT, K_MOUSEDOWN, K_MOUSEUP,
K_MOUSELEFT, K_MOUSERIGHT, K_MOUSEMOVE, K_EVENT, K_COMMAND and K_LUA (special
keys by keycodes.h: negative codes, different from the popup menu keys) and
for every state, in whatever submode, `ins_compl_prep` returns false and
leaves the whole state unchanged: `ctrl_x_mode`, `compl_started`,
`compl_cont_status`, `compl_cont_mode`, `edit_submode_extra` and the candidate
list with it. -/
theorem ins_compl_prep_ignores_key (K : KeyCodes) (hK : K.Sane) (vpeekc : Int)
    (line_after : List Nat) (st : State) (c : Int) (hc : c ∈ ignored_keys K) :
    ins_compl_prep K vpeekc line_after st c = some (false, st) := by
  obtain ⟨hneg, hp⟩ := ignored_key_facts K hK c hc
  have hv := vim_is_ctrl_x_key_special K st c hneg hp
  have hig : (c == K.K_SELECT || c == K.K_MOUSEDOWN || c == K.K_MOUSEUP
        || c == K.K_MOUSELEFT || c == K.K_MOUSERIGHT || c == K.K_MOUSEMOVE
        || c == K.K_EVENT || c == K.K_COMMAND || c == K.K_LUA) = true := by
    simp only [ignored_keys, List.mem_cons, List.mem_singleton, List.not_mem_nil,
      or_false] at hc
    simp only [Bool.or_eq_true, beq_iff_eq]
    tauto
  unfold ins_compl_prep
  rw [ins_compl_prep_rounds]
  simp only [hv, Bool.and_false, Bool.false_eq_true, if_false, hig, if_true]

theorem ins_compl_prep_ignores_key_witness :
    ins_compl_prep sample_keys 0 [] (three_matches (bytes "he") {}) sample_keys.K_MOUSEMOVE
      = some (false, three_matches (bytes "he") {}) :=
  ins_compl_prep_ignores_key sample_keys (by decide) 0 [] (three_matches (bytes "he") {})
    sample_keys.K_MOUSEMOVE (by decide)

/-- The keys of the dispatch table of `set_ctrl_x_mode`. -/
theorem set_ctrl_x_mode_default (K : KeyCodes) (vpeekc : Int) (st : State) (c : Int)
    (hc : c ∉ [Ctrl_E, Ctrl_Y, Ctrl_L, Ctrl_F, Ctrl_K, Ctrl_T, Ctrl_U, Ctrl_O, Ctrl_S, 115,
      Ctrl_RSB, Ctrl_I, K.K_S_TAB, Ctrl_D, Ctrl_V, Ctrl_Q, Ctrl_R]) :
    (set_ctrl_x_mode K vpeekc st c).2.ctrl_x_mode = CTRL_X_NORMAL
      ∧ ((set_ctrl_x_mode K vpeekc st c).1 = true ↔ c = Ctrl_Z) := by
  simp only [List.mem_cons, List.mem_singleton, List.not_mem_nil, or_false, not_or] at hc
  obtain ⟨hE, hY, hL, hF, hK, hT, hU, hO, hS, h115, hRSB, hI, hTAB, hD, hV, hQ, hR⟩ := hc
  unfold set_ctrl_x_mode
  rw [if_neg (fun h => h.elim hE hY), if_neg hL, if_neg hF, if_neg hK, if_neg hR, if_neg hT,
    if_neg hU, if_neg hO, if_neg (fun h => h.elim h115 hS), if_neg hRSB,
    if_neg (fun h => h.elim hI hTAB), if_neg hD, if_neg (fun h => h.elim hV hQ)]
  by_cases hz : c = Ctrl_Z
  · rw [if_pos hz]
    exact ⟨rfl, ⟨fun _ => hz, fun _ => rfl⟩⟩
  · rw [if_neg hz]
    exact ⟨rfl, ⟨fun h => absurd h Bool.false_ne_true, fun h => absurd h hz⟩⟩

theorem set_ctrl_x_mode_of_key (K : KeyCodes) (hS : K.K_S_TAB < 0) (vpeekc : Int) (st : State)
    (c : Int) :
    ((c = Ctrl_E ∨ c = Ctrl_Y) → set_ctrl_x_mode K vpeekc st c
        = (false, { st with
            ctrl_x_mode := CTRL_X_SCROLL
            edit_submode :=
              if !st.replace_flag then some (bytes " (insert) Scroll (^E/^Y)")
              else some (bytes " (replace) Scroll (^E/^Y)")
            edit_submode_pre := none
            redraw_mode := true }))
      ∧ (c = Ctrl_L → set_ctrl_x_mode K vpeekc st c
          = (false, { st with ctrl_x_mode := CTRL_X_WHOLE_LINE }))
      ∧ (c = Ctrl_F → set_ctrl_x_mode K vpeekc st c
          = (false, { st with ctrl_x_mode := CTRL_X_FILES }))
      ∧ (c = Ctrl_K → set_ctrl_x_mode K vpeekc st c
          = (false, { st with ctrl_x_mode := CTRL_X_DICTIONARY }))
      ∧ (c = Ctrl_R → set_ctrl_x_mode K vpeekc st c
          = (false, if vpeekc = 61 then st else { st with ctrl_x_mode := CTRL_X_REGISTER }))
      ∧ (c = Ctrl_T → set_ctrl_x_mode K vpeekc st c
          = (false, { st with ctrl_x_mode := CTRL_X_THESAURUS }))
      ∧ (c = Ctrl_U → set_ctrl_x_mode K vpeekc st c
          = (false, { st with ctrl_x_mode := CTRL_X_FUNCTION }))
      ∧ (c = Ctrl_O → set_ctrl_x_mode K vpeekc st c
          = (false, { st with ctrl_x_mode := CTRL_X_OMNI }))
      ∧ ((c = 115 ∨ c = Ctrl_S) → set_ctrl_x_mode K vpeekc st c
          = (false, { st with ctrl_x_mode := CTRL_X_SPELL }))
      ∧ (c = Ctrl_RSB → set_ctrl_x_mode K vpeekc st c
          = (false, { st with ctrl_x_mode := CTRL_X_TAGS }))
      ∧ ((c = Ctrl_I ∨ c = K.K_S_TAB) → set_ctrl_x_mode K vpeekc st c
          = (false, { st with ctrl_x_mode := CTRL_X_PATH_PATTERNS }))
      ∧ (c = Ctrl_D → set_ctrl_x_mode K vpeekc st c
          = (false, { st with ctrl_x_mode := CTRL_X_PATH_DEFINES }))
      ∧ ((c = Ctrl_V ∨ c = Ctrl_Q) → set_ctrl_x_mode K vpeekc st c
          = (false, { st with ctrl_x_mode := CTRL_X_CMDLINE })) := by
  have hne : ∀ k : Int, 0 ≤ k → ¬ k = K.K_S_TAB := fun k hk e => by omega
  have hne2 : ∀ k : Int, 0 ≤ k → ¬ K.K_S_TAB = k := fun k hk e => by omega
  refine ⟨?_, ?_, ?_, ?_, ?_, ?_, ?_, ?_, ?_, ?_, ?_, ?_, ?_⟩
  · intro h
    unfold set_ctrl_x_mode
    rw [if_pos h]
  · rintro rfl
    unfold set_ctrl_x_mode
    rw [if_neg (by decide), if_pos rfl]
  · rintro rfl
    unfold set_ctrl_x_mode
    rw [if_neg (by decide), if_neg (by decide), if_pos rfl]
  · rintro rfl
    unfold set_ctrl_x_mode
    rw [if_neg (by decide), if_neg (by decide), if_neg (by decide), if_pos rfl]
  · rintro rfl
    unfold set_ctrl_x_mode
    rw [if_neg (by decide), if_neg (by decide), if_neg (by decide), if_neg (by decide),
      if_pos rfl]
    by_cases hv : vpeekc = 61
    · rw [if_pos hv, if_pos hv]
    · rw [if_neg hv, if_neg hv]
  · rintro rfl
    unfold set_ctrl_x_mode
    rw [if_neg (by decide), if_neg (by decide), if_neg (by decide), if_neg (by decide),
      if_neg (by decide), if_pos rfl]
  · rintro rfl
    unfold set_ctrl_x_mode
    rw [if_neg (by decide), if_neg (by decide), if_neg (by decide), if_neg (by decide),
      if_neg (by decide), if_neg (by decide), if_pos rfl]
  · rintro rfl
    unfold set_ctrl_x_mode
    rw [if_neg (by decide), if_neg (by decide), if_neg (by decide), if_neg (by decide),
      if_neg (by decide), if_neg (by decide), if_neg (by decide), if_pos rfl]
  · intro h
    have h' : ¬ (c = Ctrl_E ∨ c = Ctrl_Y) ∧ c ≠ Ctrl_L ∧ c ≠ Ctrl_F ∧ c ≠ Ctrl_K ∧ c ≠ Ctrl_R
        ∧ c ≠ Ctrl_T ∧ c ≠ Ctrl_U ∧ c ≠ Ctrl_O := by
      rcases h with rfl | rfl <;> decide
    obtain ⟨g1, g2, g3, g4, g5, g6, g7, g8⟩ := h'
    unfold set_ctrl_x_mode
    rw [if_neg g1, if_neg g2, if_neg g3, if_neg g4, if_neg g5, if_neg g6, if_neg g7, if_neg g8,
      if_pos h]
  · rintro rfl
    unfold set_ctrl_x_mode
    rw [if_neg (by decide), if_neg (by decide), if_neg (by decide), if_neg (by decide),
      if_neg (by decide), if_neg (by decide), if_neg (by decide), if_neg (by decide),
      if_neg (by decide), if_pos rfl]
  · intro h
    have h' : ¬ (c = Ctrl_E ∨ c = Ctrl_Y) ∧ c ≠ Ctrl_L ∧ c ≠ Ctrl_F ∧ c ≠ Ctrl_K ∧ c ≠ Ctrl_R
        ∧ c ≠ Ctrl_T ∧ c ≠ Ctrl_U ∧ c ≠ Ctrl_O ∧ ¬ (c = 115 ∨ c = Ctrl_S) ∧ c ≠ Ctrl_RSB := by
      rcases h with rfl | rfl
      · decide
      · simp only [Ctrl_E, Ctrl_Y, Ctrl_L, Ctrl_F, Ctrl_K, Ctrl_R, Ctrl_T, Ctrl_U, Ctrl_O,
          Ctrl_S, Ctrl_RSB, ne_eq, not_or]
        omega
    obtain ⟨g1, g2, g3, g4, g5, g6, g7, g8, g9, g10⟩ := h'
    unfold set_ctrl_x_mode
    rw [if_neg g1, if_neg g2, if_neg g3, if_neg g4, if_neg g5, if_neg g6, if_neg g7, if_neg g8,
      if_neg g9, if_neg g10, if_pos h]
  · rintro rfl
    unfold set_ctrl_x_mode
    rw [if_neg (by decide), if_neg (by decide), if_neg (by decide), if_neg (by decide),
      if_neg (by decide), if_neg (by decide), if_neg (by decide), if_neg (by decide),
      if_neg (by decide), if_neg (by decide),
      if_neg (by rintro (h | h); exact absurd h (by decide); exact hne _ (by decide) h),
      if_pos rfl]
  · intro h
    have h' : ¬ (c = Ctrl_E ∨ c = Ctrl_Y) ∧ c ≠ Ctrl_L ∧ c ≠ Ctrl_F ∧ c ≠ Ctrl_K ∧ c ≠ Ctrl_R
        ∧ c ≠ Ctrl_T ∧ c ≠ Ctrl_U ∧ c ≠ Ctrl_O ∧ ¬ (c = 115 ∨ c = Ctrl_S) ∧ c ≠ Ctrl_RSB
        ∧ ¬ (c = Ctrl_I ∨ c = K.K_S_TAB) ∧ c ≠ Ctrl_D := by
      rcases h with rfl | rfl
      · refine ⟨by decide, by decide, by decide, by decide, by decide, by decide, by decide,
          by decide, by decide, by decide, ?_, by decide⟩
        rintro (h | h)
        · exact absurd h (by decide)
        · exact hne _ (by decide) h
      · refine ⟨by decide, by decide, by decide, by decide, by decide, by decide, by decide,
          by decide, by decide, by decide, ?_, by decide⟩
        rintro (h | h)
        · exact absurd h (by decide)
        · exact hne _ (by decide) h
    obtain ⟨g1, g2, g3, g4, g5, g6, g7, g8, g9, g10, g11, g12⟩ := h'
    unfold set_ctrl_x_mode
    rw [if_neg g1, if_neg g2, if_neg g3, if_neg g4, if_neg g5, if_neg g6, if_neg g7, if_neg g8,
      if_neg g9, if_neg g10, if_neg g11, if_neg g12, if_pos h]

/-- The modes that `set_ctrl_x_mode` can leave when called in
`CTRL_X_NOT_DEFINED_YET`. -/
theorem ctrl_x_key_table_handles (mode : Nat)
    (hm : mode ∈ [CTRL_X_NORMAL, CTRL_X_NOT_DEFINED_YET, CTRL_X_SCROLL, CTRL_X_WHOLE_LINE,
      CTRL_X_FILES, CTRL_X_DICTIONARY, CTRL_X_REGISTER, CTRL_X_THESAURUS, CTRL_X_FUNCTION,
      CTRL_X_OMNI, CTRL_X_SPELL, CTRL_X_TAGS, CTRL_X_PATH_PATTERNS, CTRL_X_PATH_DEFINES,
      CTRL_X_CMDLINE]) (key : Int) :
    ctrl_x_key_table mode key ≠ none := by
  simp only [List.mem_cons, List.mem_singleton, List.not_mem_nil, or_false] at hm
  rcases hm with rfl | rfl | rfl | rfl | rfl | rfl | rfl | rfl | rfl | rfl | rfl | rfl | rfl
    | rfl | rfl <;>
  simp [ctrl_x_key_table, CTRL_X_NORMAL, CTRL_X_NOT_DEFINED_YET, CTRL_X_SCROLL,
    CTRL_X_WHOLE_LINE, CTRL_X_FILES, CTRL_X_DICTIONARY, CTRL_X_REGISTER, CTRL_X_THESAURUS,
    CTRL_X_FUNCTION, CTRL_X_OMNI, CTRL_X_SPELL, CTRL_X_TAGS, CTRL_X_PATH_PATTERNS,
    CTRL_X_PATH_DEFINES, CTRL_X_CMDLINE, CTRL_X_CMDLINE_CTRL_X, CTRL_X_WANT_IDENT,
    CTRL_X_EVAL, CTRL_X_BUFNAMES]

/-- **C15.** Called in `CTRL_X_NOT_DEFINED_YET` (with `K_S_TAB` a special key, so
different from every control character), `set_ctrl_x_mode` maps the key to the
mode by a fixed table: CTRL-E and CTRL-Y to scroll, CTRL-L to whole line,
CTRL-F to files, CTRL-K to dictionary, CTRL-T to thesaurus, CTRL-U to user
function, CTRL-O to omni, CTRL-S and `s` to spell, CTRL-] to tags, CTRL-I and
`K_S_TAB` to path patterns, CTRL-D to path defines, CTRL-V and CTRL-Q to
command line, CTRL-R to register unless the next pending character is `=`
(mode then unchanged); every other key gives `CTRL_X_NORMAL`; the result is
true for CTRL-Z and false for every other key; and the `switch` of
`vim_is_ctrl_x_key` has a case for the mode left, for every key. -/
theorem set_ctrl_x_mode_dispatch (K : KeyCodes) (hS : K.K_S_TAB < 0) (vpeekc : Int)
    (st : State) (hst : st.ctrl_x_mode = CTRL_X_NOT_DEFINED_YET) (c : Int) :
    ((c = Ctrl_E ∨ c = Ctrl_Y) →
        (set_ctrl_x_mode K vpeekc st c).2.ctrl_x_mode = CTRL_X_SCROLL)
      ∧ (c = Ctrl_L → (set_ctrl_x_mode K vpeekc st c).2.ctrl_x_mode = CTRL_X_WHOLE_LINE)
      ∧ (c = Ctrl_F → (set_ctrl_x_mode K vpeekc st c).2.ctrl_x_mode = CTRL_X_FILES)
      ∧ (c = Ctrl_K → (set_ctrl_x_mode K vpeekc st c).2.ctrl_x_mode = CTRL_X_DICTIONARY)
      ∧ (c = Ctrl_T → (set_ctrl_x_mode K vpeekc st c).2.ctrl_x_mode = CTRL_X_THESAURUS)
      ∧ (c = Ctrl_U → (set_ctrl_x_mode K vpeekc st c).2.ctrl_x_mode = CTRL_X_FUNCTION)
      ∧ (c = Ctrl_O → (set_ctrl_x_mode K vpeekc st c).2.ctrl_x_mode = CTRL_X_OMNI)
      ∧ ((c = Ctrl_S ∨ c = 115) →
          (set_ctrl_x_mode K vpeekc st c).2.ctrl_x_mode = CTRL_X_SPELL)
      ∧ (c = Ctrl_RSB → (set_ctrl_x_mode K vpeekc st c).2.ctrl_x_mode = CTRL_X_TAGS)
      ∧ ((c = Ctrl_I ∨ c = K.K_S_TAB) →
          (set_ctrl_x_mode K vpeekc st c).2.ctrl_x_mode = CTRL_X_PATH_PATTERNS)
      ∧ (c = Ctrl_D → (set_ctrl_x_mode K vpeekc st c).2.ctrl_x_mode = CTRL_X_PATH_DEFINES)
      ∧ ((c = Ctrl_V ∨ c = Ctrl_Q) →
          (set_ctrl_x_mode K vpeekc st c).2.ctrl_x_mode = CTRL_X_CMDLINE)
      ∧ (c = Ctrl_R → (set_ctrl_x_mode K vpeekc st c).2.ctrl_x_mode
          = if vpeekc = 61 then CTRL_X_NOT_DEFINED_YET else CTRL_X_REGISTER)
      ∧ (c ∉ [Ctrl_E, Ctrl_Y, Ctrl_L, Ctrl_F, Ctrl_K, Ctrl_T, Ctrl_U, Ctrl_O, Ctrl_S, 115,
            Ctrl_RSB, Ctrl_I, K.K_S_TAB, Ctrl_D, Ctrl_V, Ctrl_Q, Ctrl_R] →
          (set_ctrl_x_mode K vpeekc st c).2.ctrl_x_mode = CTRL_X_NORMAL)
      ∧ ((set_ctrl_x_mode K vpeekc st c).1 = true ↔ c = Ctrl_Z)
      ∧ ∀ key, ctrl_x_key_table (set_ctrl_x_mode K vpeekc st c).2.ctrl_x_mode key ≠ none := by
  obtain ⟨k1, k2, k3, k4, k5, k6, k7, k8, k9, k10, k11, k12, k13⟩ :=
    set_ctrl_x_mode_of_key K hS vpeekc st c
  have hdef : c ∉ [Ctrl_E, Ctrl_Y, Ctrl_L, Ctrl_F, Ctrl_K, Ctrl_T, Ctrl_U, Ctrl_O, Ctrl_S, 115,
        Ctrl_RSB, Ctrl_I, K.K_S_TAB, Ctrl_D, Ctrl_V, Ctrl_Q, Ctrl_R] →
      (set_ctrl_x_mode K vpeekc st c).2.ctrl_x_mode = CTRL_X_NORMAL
        ∧ ((set_ctrl_x_mode K vpeekc st c).1 = true ↔ c = Ctrl_Z) := by
    exact set_ctrl_x_mode_default K vpeekc st c
  have hR : c = Ctrl_R → (set_ctrl_x_mode K vpeekc st c).2.ctrl_x_mode
      = if vpeekc = 61 then CTRL_X_NOT_DEFINED_YET else CTRL_X_REGISTER := by
    intro h
    rw [k5 h]
    by_cases hv : vpeekc = 61
    · rw [if_pos hv, if_pos hv]; exact hst
    · rw [if_neg hv, if_neg hv]
  have hz : ∀ k : Int, 0 ≤ k → k ≠ K.K_S_TAB := fun k hk e => by omega
  have hfalse : c ∈ [Ctrl_E, Ctrl_Y, Ctrl_L, Ctrl_F, Ctrl_K, Ctrl_T, Ctrl_U, Ctrl_O, Ctrl_S, 115,
        Ctrl_RSB, Ctrl_I, K.K_S_TAB, Ctrl_D, Ctrl_V, Ctrl_Q, Ctrl_R] →
      (set_ctrl_x_mode K vpeekc st c).1 = false ∧ c ≠ Ctrl_Z
        ∧ (set_ctrl_x_mode K vpeekc st c).2.ctrl_x_mode ∈ [CTRL_X_NORMAL,
          CTRL_X_NOT_DEFINED_YET, CTRL_X_SCROLL, CTRL_X_WHOLE_LINE,
          CTRL_X_FILES, CTRL_X_DICTIONARY, CTRL_X_REGISTER, CTRL_X_THESAURUS, CTRL_X_FUNCTION,
          CTRL_X_OMNI, CTRL_X_SPELL, CTRL_X_TAGS, CTRL_X_PATH_PATTERNS, CTRL_X_PATH_DEFINES,
          CTRL_X_CMDLINE] := by
    intro hc
    simp only [List.mem_cons, List.mem_singleton, List.not_mem_nil, or_false] at hc
    have hZ : c ≠ Ctrl_Z := by
      rcases hc with h | h | h | h | h | h | h | h | h | h | h | h | h | h | h | h | h
      · rw [h]; decide
      · rw [h]; decide
      · rw [h]; decide
      · rw [h]; decide
      · rw [h]; decide
      · rw [h]; decide
      · rw [h]; decide
      · rw [h]; decide
      · rw [h]; decide
      · rw [h]; decide
      · rw [h]; decide
      · rw [h]; decide
      · rw [h]; exact fun e => hz _ (by decide) e.symm
      · rw [h]; decide
      · rw [h]; decide
      · rw [h]; decide
      · rw [h]; decide
    refine ⟨?_, hZ, ?_⟩
    · rcases hc with h | h | h | h | h | h | h | h | h | h | h | h | h | h | h | h | h
      · rw [k1 (Or.inl h)]
      · rw [k1 (Or.inr h)]
      · rw [k2 h]
      · rw [k3 h]
      · rw [k4 h]
      · rw [k6 h]
      · rw [k7 h]
      · rw [k8 h]
      · rw [k9 (Or.inr h)]
      · rw [k9 (Or.inl h)]
      · rw [k10 h]
      · rw [k11 (Or.inl h)]
      · rw [k11 (Or.inr h)]
      · rw [k12 h]
      · rw [k13 (Or.inl h)]
      · rw [k13 (Or.inr h)]
      · rw [k5 h]
    · rcases hc with h | h | h | h | h | h | h | h | h | h | h | h | h | h | h | h | h
      · rw [k1 (Or.inl h)]; simp
      · rw [k1 (Or.inr h)]; simp
      · rw [k2 h]; simp
      · rw [k3 h]; simp
      · rw [k4 h]; simp
      · rw [k6 h]; simp
      · rw [k7 h]; simp
      · rw [k8 h]; simp
      · rw [k9 (Or.inr h)]; simp
      · rw [k9 (Or.inl h)]; simp
      · rw [k10 h]; simp
      · rw [k11 (Or.inl h)]; simp
      · rw [k11 (Or.inr h)]; simp
      · rw [k12 h]; simp
      · rw [k13 (Or.inl h)]; simp
      · rw [k13 (Or.inr h)]; simp
      · rw [hR h]
        by_cases hv : vpeekc = 61
        · rw [if_pos hv]; simp
        · rw [if_neg hv]; simp
  refine ⟨fun h => by rw [k1 h], fun h => by rw [k2 h], fun h => by rw [k3 h],
    fun h => by rw [k4 h], fun h => by rw [k6 h], fun h => by rw [k7 h], fun h => by rw [k8 h],
    fun h => by rw [k9 h.symm], fun h => by rw [k10 h], fun h => by rw [k11 h],
    fun h => by rw [k12 h], fun h => by rw [k13 h], hR, fun h => (hdef h).1, ?_, ?_⟩
  · by_cases hc : c ∈ [Ctrl_E, Ctrl_Y, Ctrl_L, Ctrl_F, Ctrl_K, Ctrl_T, Ctrl_U, Ctrl_O, Ctrl_S,
        115, Ctrl_RSB, Ctrl_I, K.K_S_TAB, Ctrl_D, Ctrl_V, Ctrl_Q, Ctrl_R]
    · obtain ⟨h1, h2, _⟩ := hfalse hc
      rw [h1]
      exact ⟨fun h => absurd h Bool.false_ne_true, fun h => absurd h h2⟩
    · exact (hdef hc).2
  · intro key
    apply ctrl_x_key_table_handles
    by_cases hc : c ∈ [Ctrl_E, Ctrl_Y, Ctrl_L, Ctrl_F, Ctrl_K, Ctrl_T, Ctrl_U, Ctrl_O, Ctrl_S,
        115, Ctrl_RSB, Ctrl_I, K.K_S_TAB, Ctrl_D, Ctrl_V, Ctrl_Q, Ctrl_R]
    · exact (hfalse hc).2.2
    · rw [(hdef hc).1]; simp

theorem set_ctrl_x_mode_dispatch_witness :
    sample_keys.K_S_TAB < 0
      ∧ ({ two_sources with ctrl_x_mode := CTRL_X_NOT_DEFINED_YET } : State).ctrl_x_mode
          = CTRL_X_NOT_DEFINED_YET
      ∧ (set_ctrl_x_mode sample_keys 0
          { two_sources with ctrl_x_mode := CTRL_X_NOT_DEFINED_YET } Ctrl_K).2.ctrl_x_mode
          = CTRL_X_DICTIONARY :=
  ⟨by decide, rfl,
    (set_ctrl_x_mode_dispatch sample_keys (by decide) 0
      { two_sources with ctrl_x_mode := CTRL_X_NOT_DEFINED_YET } rfl Ctrl_K).2.2.2.1 rfl⟩

theorem free_matches_walk (h : List compl_T) (first : Nat) :
    ∀ (post : List Nat) (m fuel : Nat), WalkFrom h first m post → post.length < fuel →
      free_matches h first fuel m = some ()
  | [], m, fuel + 1, hw, _ => by
    rcases hw with hw | hw <;> simp [free_matches, hw]
  | b :: post, m, fuel + 1, hw, hf => by
    obtain ⟨hn, hb, hw⟩ := hw
    have ih := free_matches_walk h first post b fuel hw (by simpa using hf)
    simp only [free_matches, hn, hb, if_false, ih]

theorem del_pum_leader (st : State) :
    (ins_compl_del_pum st).compl_leader = st.compl_leader := by
  unfold ins_compl_del_pum
  cases st.compl_match_array <;> rfl

theorem del_pum_pattern (st : State) :
    (ins_compl_del_pum st).compl_pattern = st.compl_pattern := by
  unfold ins_compl_del_pum
  cases st.compl_match_array <;> rfl

theorem del_pum_submode (st : State) :
    (ins_compl_del_pum st).edit_submode = st.edit_submode := by
  unfold ins_compl_del_pum
  cases st.compl_match_array <;> rfl

/-- What `ins_compl_free` leaves on a well-formed list: it returns, and the
list pointers, the leader and the pattern are NULL. -/
theorem ins_compl_free_spec (st : State) (ns : List Nat) (hwf : WellFormed st ns)
    (hempty : ns = [] → st.compl_curr_match = none ∧ st.compl_shown_match = none
      ∧ st.compl_old_match = none) :
    ∃ st1, ins_compl_free st = some st1
      ∧ st1.compl_first_match = none ∧ st1.compl_curr_match = none
      ∧ st1.compl_shown_match = none ∧ st1.compl_old_match = none
      ∧ st1.compl_leader = none ∧ st1.compl_pattern = none
      ∧ st1.edit_submode = st.edit_submode := by
  cases ns with
  | nil =>
    have hf : st.compl_first_match = none := hwf
    obtain ⟨h1, h2, h3⟩ := hempty rfl
    refine ⟨{ st with compl_pattern := none, compl_leader := none }, ?_, hf, h1, h2, h3,
      rfl, rfl, rfl⟩
    unfold ins_compl_free
    simp only [hf]
  | cons first rest =>
    have hf : st.compl_first_match = some first := hwf.1
    have hwalk := wf_walk hwf
    have hlen : rest.length < st.heap.length + 1 := by
      have := segment_length_le (wf_segment hwf)
      simp only [List.length_cons] at this
      omega
    have hfree := free_matches_walk st.heap first rest first _ hwalk hlen
    refine ⟨{ ins_compl_del_pum { st with compl_pattern := none, compl_leader := none } with
        compl_first_match := none, compl_curr_match := none
        compl_shown_match := none, compl_old_match := none }, ?_, rfl, rfl, rfl, rfl,
        del_pum_leader _, del_pum_pattern _, del_pum_submode _⟩
    unfold ins_compl_free
    simp only [hf, del_pum_heap, hfree]

/-- **C16.** For every key, every previous mode and every well-formed candidate
list (an empty one having all its pointers NULL, and the shown match being set
while the popup menu is displayed), `ins_compl_stop` returns, and afterwards
`compl_first_match`, `compl_curr_match`, `compl_shown_match` and
`compl_old_match` are NULL, the leader and the pattern are cleared,
`compl_started` is false, `compl_matches` is 0, `compl_enter_selects` is false
and `ctrl_x_mode` is `CTRL_X_NORMAL`. -/
theorem ins_compl_stop_releases (K : KeyCodes) (line_after : List Nat) (st : State)
    (ns : List Nat) (c : Int) (prev_mode : Nat) (retval : Bool)
    (hwf : WellFormed st ns)
    (hempty : ns = [] → st.compl_curr_match = none ∧ st.compl_shown_match = none
      ∧ st.compl_old_match = none)
    (hshown : pum_visible st = true → st.compl_shown_match ≠ none) :
    ∃ r st1, ins_compl_stop K line_after st c prev_mode retval = some (r, st1)
      ∧ st1.compl_first_match = none ∧ st1.compl_curr_match = none
      ∧ st1.compl_shown_match = none ∧ st1.compl_old_match = none
      ∧ st1.compl_leader = none ∧ st1.compl_pattern = none
      ∧ st1.compl_started = false ∧ st1.compl_matches = 0
      ∧ st1.compl_enter_selects = false ∧ st1.ctrl_x_mode = CTRL_X_NORMAL := by
  have hwf2 : WellFormed { st with cursor_line := line_after, ctrl_x_mode := prev_mode } ns :=
    wf_congr hwf rfl (fun _ => ⟨rfl, rfl⟩) rfl rfl
  obtain ⟨s1, hs1, f1, f2, f3, f4, f5, f6, f7⟩ :=
    ins_compl_free_spec { st with cursor_line := line_after, ctrl_x_mode := prev_mode } ns hwf2
      hempty
  have hacc : ¬ (((c == Ctrl_Y || (st.compl_enter_selects
      && (c == CAR || c == K.K_KENTER || c == NL))) && pum_visible st)
      && st.compl_shown_match.isNone) = true := by
    intro h
    simp only [Bool.and_eq_true] at h
    exact hshown h.1.2 (Option.isNone_iff_eq_none.mp h.2)
  unfold ins_compl_stop
  simp only []
  rw [if_neg hacc]
  simp only [hs1]
  by_cases he : s1.edit_submode.isSome = true
  · simp only [he, if_true]
    exact ⟨_, _, rfl, f1, f2, f3, f4, f5, f6, rfl, rfl, rfl, rfl⟩
  · simp only [he]
    exact ⟨_, _, rfl, f1, f2, f3, f4, f5, f6, rfl, rfl, rfl, rfl⟩

theorem ins_compl_stop_releases_witness :
    WellFormed two_sources [0, 1, 2, 3]
      ∧ ∃ r st1, ins_compl_stop sample_keys [] two_sources Ctrl_E CTRL_X_NORMAL false
          = some (r, st1)
        ∧ st1.compl_first_match = none ∧ st1.compl_curr_match = none
        ∧ st1.compl_shown_match = none ∧ st1.compl_old_match = none
        ∧ st1.compl_leader = none ∧ st1.compl_pattern = none
        ∧ st1.compl_started = false ∧ st1.compl_matches = 0
        ∧ st1.compl_enter_selects = false ∧ st1.ctrl_x_mode = CTRL_X_NORMAL :=
  ⟨by decide, ins_compl_stop_releases sample_keys [] two_sources [0, 1, 2, 3] Ctrl_E
    CTRL_X_NORMAL false (by decide) (by decide) (by decide)⟩

/-! ## The shown match in the loop of `ins_compl_build_pum` -/

theorem track_included_ok (b : BuildPum) (comp : Nat) (hok : b.shown_match_ok = true) :
    pum_track_included false b comp = { b with i := b.i + 1 } := by
  unfold pum_track_included
  simp [hok]

theorem track_included_hit (b : BuildPum) (comp : Nat) (hok : b.shown_match_ok = false)
    (h : b.st.compl_shown_match = some comp ∨ b.did_find_shown_match = true) :
    pum_track_included false b comp
      = { b with
          st := { b.st with compl_shown_match := some comp }
          did_find_shown_match := true
          shown_match_ok := true
          cur := b.i
          i := b.i + 1 } := by
  unfold pum_track_included
  have h1 : (decide (b.st.compl_shown_match = some comp) || b.did_find_shown_match) = true := by
    rcases h with h | h
    · simp [h]
    · simp [h]
  simp only [hok, Bool.not_false, Bool.and_self, if_true, h1]

theorem track_included_miss (b : BuildPum) (comp : Nat) (hok : b.shown_match_ok = false)
    (h1 : b.st.compl_shown_match ≠ some comp) (h2 : b.did_find_shown_match = false) :
    pum_track_included false b comp
      = { b with shown_compl := some comp, cur := b.i, i := b.i + 1 } := by
  unfold pum_track_included
  have h3 : ¬ (decide (b.st.compl_shown_match = some comp) || b.did_find_shown_match) = true := by
    simp [h1, h2]
  simp only [hok, Bool.not_false, Bool.and_self, if_true, h3, Bool.false_eq_true, if_false]

theorem track_shown_ne (b : BuildPum) (comp : Nat) (h : b.st.compl_shown_match ≠ some comp) :
    pum_track_shown false b comp = b := by
  unfold pum_track_shown
  simp [h]

theorem track_shown_ok (b : BuildPum) (comp : Nat) (hok : b.shown_match_ok = true) :
    (pum_track_shown false b comp).shown_match_ok = true
      ∧ (pum_track_shown false b comp).st = b.st
      ∧ (pum_track_shown false b comp).cur = b.cur
      ∧ (pum_track_shown false b comp).i = b.i
      ∧ (b.did_find_shown_match = true →
          (pum_track_shown false b comp).did_find_shown_match = true) := by
  unfold pum_track_shown
  by_cases h : b.st.compl_shown_match = some comp
  · by_cases ho : match_at_original_text (deref b.st.heap comp) = true
    · simp [h, ho, hok]
    · simp [h, ho, hok]
  · simp [h, hok]

theorem track_shown_hit (b : BuildPum) (comp : Nat) (h : b.st.compl_shown_match = some comp)
    (hok : b.shown_match_ok = false)
    (ho : match_at_original_text (deref b.st.heap comp) = false) :
    (pum_track_shown false b comp).did_find_shown_match = true
      ∧ (pum_track_shown false b comp).cur = b.cur
      ∧ (pum_track_shown false b comp).i = b.i
      ∧ (b.shown_compl = none → (pum_track_shown false b comp).shown_match_ok = false
          ∧ (pum_track_shown false b comp).st.compl_shown_match = some comp)
      ∧ (∀ x, b.shown_compl = some x → (pum_track_shown false b comp).shown_match_ok = true
          ∧ (pum_track_shown false b comp).st.compl_shown_match = some x) := by
  unfold pum_track_shown
  cases hs : b.shown_compl with
  | none => simp [h, ho, hok, hs]
  | some x => simp [h, ho, hok, hs]

theorem include_cursor (b : BuildPum) (comp : Nat) :
    (pum_include b comp).shown_match_ok = b.shown_match_ok
      ∧ (pum_include b comp).did_find_shown_match = b.did_find_shown_match
      ∧ (pum_include b comp).st.compl_shown_match = b.st.compl_shown_match
      ∧ (pum_include b comp).shown_compl = b.shown_compl
      ∧ (pum_include b comp).cur = b.cur
      ∧ (pum_include b comp).i = b.i :=
  ⟨rfl, rfl, rfl, rfl, rfl, rfl⟩

/-- The flag CP_ORIGINAL_TEXT is not touched when CP_ICASE is cleared. -/
theorem original_text_clear_icase (c : compl_T) :
    match_at_original_text (clear_icase c) = match_at_original_text c := by
  unfold match_at_original_text clear_icase clear_flag
  simp only []
  have : (c.cp_flags ^^^ (c.cp_flags &&& CP_ICASE)) &&& CP_ORIGINAL_TEXT
      = c.cp_flags &&& CP_ORIGINAL_TEXT := by
    rw [Nat.and_xor_distrib_right, Nat.and_assoc]
    have : CP_ICASE &&& CP_ORIGINAL_TEXT = 0 := by decide
    rw [this]
    simp
  rw [this]

/-- One round of the loop of `ins_compl_build_pum` either puts the entry into
the menu or not; in both cases the entry is reset first. -/
theorem build_pum_step_cases (E : Ext) (ff fwd cpt : Bool) (b : BuildPum) (comp : Nat) :
    ∃ (x : Option (List Nat)) (mc : List Int),
      build_pum_step E ff fwd cpt b comp
          = pum_track_shown ff (pum_track_included ff (pum_include
              { b with
                st := { b.st with
                  heap := pum_reset_entry E ff b.st comp, adjusted_leader := x }
                match_count := mc } comp) comp) comp
        ∨ build_pum_step E ff fwd cpt b comp
          = pum_track_shown ff
              { b with
                st := { b.st with
                  heap := pum_reset_entry E ff b.st comp, adjusted_leader := x }
                match_count := mc } comp := by
  rw [build_pum_step_eq]
  obtain ⟨x, hx⟩ := get_leader_state { b.st with heap := pum_reset_entry E ff b.st comp }
    (some comp) true
  generalize get_leader_for_startcol { b.st with heap := pum_reset_entry E ff b.st comp }
    (some comp) true = g at hx ⊢
  obtain ⟨lead, st1⟩ := g
  simp only at hx ⊢
  subst hx
  by_cases h1 : pum_entry_matches E ff
      (deref (pum_reset_entry E ff b.st comp) comp) lead = true
  · by_cases h2 : (!(pum_count_source fwd cpt
        { b.st with heap := pum_reset_entry E ff b.st comp, adjusted_leader := x }
        b.match_count (deref (pum_reset_entry E ff b.st comp) comp)).2) = true
    · rw [if_pos h1, if_pos h2]
      exact ⟨x, _, Or.inl rfl⟩
    · rw [if_pos h1, if_neg h2]
      exact ⟨x, _, Or.inr rfl⟩
  · rw [if_neg h1]
    exact ⟨x, b.match_count, Or.inr rfl⟩

theorem reset_keeps_original (E : Ext) (ff : Bool) (st : State) (comp : Nat)
    (hlt : comp < st.heap.length) :
    match_at_original_text (deref (pum_reset_entry E ff st comp) comp)
      = match_at_original_text (deref st.heap comp) := by
  obtain ⟨-, -, -, -, r5⟩ := pum_reset_entry_spec E ff st comp hlt
  have h := original_text_clear_icase (deref st.heap comp)
  unfold match_at_original_text clear_icase at h
  simp only [] at h
  unfold match_at_original_text
  rw [r5]
  by_cases hs : pum_smartcase E ff st = true
  · rw [if_pos hs]; exact h
  · rw [if_neg hs]

/-- Where the loop stands in a list without repetition that is cut at the
entry `S`. -/
theorem split_position {done rest pre post : List Nat} {comp S : Nat}
    (h : done ++ comp :: rest = pre ++ S :: post) (hnd : (pre ++ S :: post).Nodup) :
    comp ∉ done ∧ (comp = S → done = pre) ∧ (S ∈ done → comp ∉ pre) := by
  have hnd1 : (done ++ comp :: rest).Nodup := by rw [h]; exact hnd
  have hcd : comp ∉ done := fun hc => (List.nodup_append.mp hnd1).2.2 hc (by simp)
  have hSpre : S ∉ pre := fun hc => (List.nodup_append.mp hnd).2.2 hc (by simp)
  have hSpost : S ∉ post := (List.nodup_cons.mp (List.nodup_append.mp hnd).2.1).1
  refine ⟨hcd, ?_, ?_⟩
  · rintro rfl
    rcases List.append_eq_append_iff.mp h with ⟨a, h1, h2⟩ | ⟨c, h1, h2⟩
    · cases a with
      | nil => simpa using h1.symm
      | cons y a =>
        simp only [List.cons_append, List.cons.injEq] at h2
        exact absurd (by rw [h1, ← h2.1]; simp) hSpre
    · cases c with
      | nil => simpa using h1
      | cons y c =>
        simp only [List.cons_append, List.cons.injEq] at h2
        exact absurd (by rw [h2.2]; simp) hSpost
  · intro hS hc
    rcases List.append_eq_append_iff.mp h with ⟨a, h1, h2⟩ | ⟨c, h1, h2⟩
    · exact hSpre (by rw [h1]; exact List.mem_append_left _ hS)
    · have hmem : comp ∈ S :: post := by rw [h2]; simp
      exact (List.nodup_append.mp hnd).2.2 hc hmem

theorem filter_mem_append_not (pre inc : List Nat) (comp : Nat) (h : comp ∉ pre) :
    (inc ++ [comp]).filter (fun p => decide (p ∈ pre))
      = inc.filter (fun p => decide (p ∈ pre)) := by
  rw [List.filter_append]
  simp [h]

theorem filter_mem_all (pre inc : List Nat) (h : ∀ p ∈ inc, p ∈ pre) :
    inc.filter (fun p => decide (p ∈ pre)) = inc := by
  rw [List.filter_eq_self]
  intro p hp
  simpa using h p hp

/-- One round of the loop of `ins_compl_build_pum` keeps the facts about the
shown match. -/
theorem shown_step (E : Ext) (fwd cpt : Bool) {st0 : State} {passes : Nat → Bool}
    {S comp : Nat} {pre post done rest inc : List Nat} {b : BuildPum}
    (hall : done ++ comp :: rest = pre ++ S :: post) (hnd : (pre ++ S :: post).Nodup)
    (hS : match_at_original_text (deref st0.heap S) = false)
    (hlt : comp < st0.heap.length)
    (hinv : PumInv st0 passes (fwd && cpt) done inc b)
    (hinv1 : PumInv st0 passes (fwd && cpt) (done ++ [comp])
      (inc ++ if pum_takes st0 passes done comp then [comp] else [])
      (build_pum_step E false fwd cpt b comp))
    (hT : ShownInv S pre done inc b) :
    ShownInv S pre (done ++ [comp])
      (inc ++ if pum_takes st0 passes done comp then [comp] else [])
      (build_pum_step E false fwd cpt b comp) := by
  obtain ⟨hcd, hF1, hF2⟩ := split_position hall hnd
  obtain ⟨x, mc, hcase⟩ := build_pum_step_cases E false fwd cpt b comp
  have hidx := hinv1.idx
  have hbi := hinv.idx
  have hlt1 : comp < b.st.heap.length := by rw [hinv.len]; exact hlt
  generalize build_pum_step E false fwd cpt b comp = bs at hcase hidx hinv1 ⊢
  generalize hb1 : ({ b with
      st := { b.st with heap := pum_reset_entry E false b.st comp, adjusted_leader := x }
      match_count := mc } : BuildPum) = b1 at hcase
  have c1 : b1.shown_match_ok = b.shown_match_ok := by rw [← hb1]
  have c2 : b1.did_find_shown_match = b.did_find_shown_match := by rw [← hb1]
  have c3 : b1.st.compl_shown_match = b.st.compl_shown_match := by rw [← hb1]
  have c4 : b1.shown_compl = b.shown_compl := by rw [← hb1]
  have c5 : b1.cur = b.cur := by rw [← hb1]
  have c6 : b1.i = b.i := by rw [← hb1]
  have c7 : b1.st.heap = pum_reset_entry E false b.st comp := by rw [← hb1]
  obtain ⟨d1, d2, d3, d4, d5, d6⟩ := include_cursor b1 comp
  rw [c1] at d1; rw [c2] at d2; rw [c3] at d3; rw [c4] at d4; rw [c5] at d5; rw [c6] at d6
  by_cases ht : pum_takes st0 passes done comp
  · -- the entry goes into the menu
    rw [if_pos ht] at hidx ⊢
    have hbs : bs = pum_track_shown false
        (pum_track_included false (pum_include b1 comp) comp) comp := by
      rcases hcase with h | h
      · exact h
      · exfalso
        have := (pum_track_shown_frame false b1 comp).2.2.2.2
        rw [← h, c6, hidx, hbi] at this
        simp at this
    by_cases hSd : S ∈ done
    · -- the shown match was met before
      refine ⟨fun hn => absurd (List.mem_append_left _ hSd) hn, fun _ => ?_⟩
      rcases hT.2 hSd with hin | ⟨hB1, hB2⟩
      · exact Or.inl (List.mem_append_left _ hin)
      · right
        rw [filter_mem_append_not pre inc comp (hF2 hSd)]
        by_cases hB : (inc.filter fun p => decide (p ∈ pre)) = []
        · obtain ⟨e1, e2, e3⟩ := hB2 hB
          refine ⟨fun h => absurd hB h, fun _ => ?_⟩
          by_cases hi : inc = []
          · obtain ⟨f1, f2, f3⟩ := e2 hi
            have hX := track_included_hit (pum_include b1 comp) comp (d1.trans f1)
              (Or.inr (d2.trans e1))
            obtain ⟨g1, g2, g3, g4, g5⟩ := track_shown_ok
              (pum_track_included false (pum_include b1 comp) comp) comp (by rw [hX])
            rw [← hbs] at g1 g2 g3 g4 g5
            refine ⟨g5 (by rw [hX]), fun h => absurd h (by simp), fun _ => ⟨g1, ?_, ?_⟩⟩
            · rw [g2, hX, hi]; rfl
            · rw [g3, hX]
              show (pum_include b1 comp).i = 0
              rw [d6, hbi, hi]; rfl
          · obtain ⟨f1, f2, f3⟩ := e3 hi
            have hX := track_included_ok (pum_include b1 comp) comp (d1.trans f1)
            obtain ⟨g1, g2, g3, g4, g5⟩ := track_shown_ok
              (pum_track_included false (pum_include b1 comp) comp) comp (by rw [hX]; exact d1.trans f1)
            rw [← hbs] at g1 g2 g3 g4 g5
            refine ⟨g5 (by rw [hX]; exact d2.trans e1), fun h => absurd h (by simp),
              fun _ => ⟨g1, ?_, ?_⟩⟩
            · rw [g2, hX]
              show (pum_include b1 comp).st.compl_shown_match = _
              rw [d3, f2, List.head?_append_of_ne_nil _ hi]
            · rw [g3, hX]
              show (pum_include b1 comp).cur = 0
              rw [d5, f3]
        · obtain ⟨f1, f2, f3⟩ := hB1 hB
          have hX := track_included_ok (pum_include b1 comp) comp (d1.trans f1)
          obtain ⟨g1, g2, g3, g4, g5⟩ := track_shown_ok
            (pum_track_included false (pum_include b1 comp) comp) comp (by rw [hX]; exact d1.trans f1)
          rw [← hbs] at g1 g2 g3 g4 g5
          refine ⟨fun _ => ⟨g1, ?_, ?_⟩, fun h => absurd h hB⟩
          · rw [g2, hX]
            show (pum_include b1 comp).st.compl_shown_match = _
            rw [d3, f2]
          · rw [g3, hX]
            show (pum_include b1 comp).cur = _
            rw [d5, f3]
    · -- the shown match was not met before
      obtain ⟨a1, a2, a3, a4, a5⟩ := hT.1 hSd
      by_cases hc : comp = S
      · subst hc
        exact ⟨fun hn => absurd (by simp) hn, fun _ => Or.inl (by simp)⟩
      · have hne : (pum_include b1 comp).st.compl_shown_match ≠ some comp := by
          rw [d3, a3]
          intro e
          exact hc (Option.some.inj e).symm
        have hX := track_included_miss (pum_include b1 comp) comp (d1.trans a1) hne
          (d2.trans a2)
        have hY := track_shown_ne (pum_track_included false (pum_include b1 comp) comp) comp
          (by rw [hX]; exact hne)
        rw [← hbs, hX] at hY
        refine ⟨fun _ => ?_, fun hin => ?_⟩
        · rw [hY]
          refine ⟨d1.trans a1, d2.trans a2, d3.trans a3, ?_, ?_⟩
          · show some comp = _
            simp
          · show (pum_include b1 comp).i = _
            rw [d6, hbi]
            simp
        · exfalso
          rcases List.mem_append.mp hin with h | h
          · exact hSd h
          · simp only [List.mem_singleton] at h
            exact hc h.symm
  · -- the entry stays out of the menu
    rw [if_neg ht, List.append_nil] at hidx ⊢
    have hbs : bs = pum_track_shown false b1 comp := by
      rcases hcase with h | h
      · exfalso
        have h1 := (pum_track_shown_frame false
          (pum_track_included false (pum_include b1 comp) comp) comp).2.2.2.2
        have h2 := (pum_track_included_frame false (pum_include b1 comp) comp).2.2.2.2
        rw [← h, h2, d6, hidx, hbi] at h1
        simp at h1
      · exact h
    by_cases hSd : S ∈ done
    · refine ⟨fun hn => absurd (List.mem_append_left _ hSd) hn, fun _ => ?_⟩
      have hcS : comp ≠ S := fun e => hcd (e ▸ hSd)
      rcases hT.2 hSd with hin | ⟨hB1, hB2⟩
      · exact Or.inl hin
      · right
        by_cases hok : b.shown_match_ok = true
        · obtain ⟨g1, g2, g3, g4, g5⟩ := track_shown_ok b1 comp (c1.trans hok)
          rw [← hbs] at g1 g2 g3 g4 g5
          refine ⟨fun hB => ?_, fun hB => ?_⟩
          · obtain ⟨f1, f2, f3⟩ := hB1 hB
            exact ⟨g1, by rw [g2, c3, f2], by rw [g3, c5, f3]⟩
          · obtain ⟨e1, e2, e3⟩ := hB2 hB
            refine ⟨g5 (c2.trans e1), fun hi => ?_, fun hi => ?_⟩
            · rw [(e2 hi).1] at hok
              exact absurd hok (by simp)
            · obtain ⟨f1, f2, f3⟩ := e3 hi
              exact ⟨g1, by rw [g2, c3, f2], by rw [g3, c5, f3]⟩
        · have hB : (inc.filter fun p => decide (p ∈ pre)) = [] := by
            by_contra hB
            exact hok (hB1 hB).1
          obtain ⟨e1, e2, e3⟩ := hB2 hB
          have hi : inc = [] := by
            by_contra hi
            exact hok (e3 hi).1
          obtain ⟨f1, f2, f3⟩ := e2 hi
          have hY := track_shown_ne b1 comp (by
            rw [c3, f2]
            intro e
            exact hcS (Option.some.inj e).symm)
          rw [← hbs] at hY
          rw [hY]
          refine ⟨fun h => absurd hB h, fun _ => ⟨c2.trans e1, fun _ => ⟨c1.trans f1,
            c3.trans f2, c5.trans f3⟩, fun h => absurd hi h⟩⟩
    · obtain ⟨a1, a2, a3, a4, a5⟩ := hT.1 hSd
      by_cases hc : comp = S
      · subst hc
        have hpre := hF1 rfl
        have horig : match_at_original_text (deref b1.st.heap comp) = false := by
          rw [c7, reset_keeps_original E false b.st comp hlt1]
          unfold match_at_original_text
          rw [hinv.flags comp hcd]
          exact hS
        obtain ⟨g1, g2, g3, g4, g5⟩ := track_shown_hit b1 comp (c3.trans a3) (c1.trans a1) horig
        rw [← hbs] at g1 g2 g3 g4 g5
        refine ⟨fun hn => absurd (by simp) hn, fun _ => Or.inr ?_⟩
        have hfil : (inc.filter fun p => decide (p ∈ pre)) = inc :=
          filter_mem_all pre inc (fun p hp => hpre ▸ hinv.sub p hp)
        rw [hfil]
        refine ⟨fun hi => ?_, fun hi => ⟨g1, fun _ => ?_, fun h => absurd hi h⟩⟩
        · obtain ⟨y, hy⟩ : ∃ y, inc.getLast? = some y := by
            cases hl : inc.getLast? with
            | none => exact absurd (List.getLast?_eq_none_iff.mp hl) hi
            | some y => exact ⟨y, rfl⟩
          obtain ⟨k1, k2⟩ := g5 y (by rw [c4, a4, hy])
          exact ⟨k1, by rw [k2, hy], by rw [g2, c5, a5]⟩
        · obtain ⟨k1, k2⟩ := g4 (by rw [c4, a4, hi]; rfl)
          exact ⟨k1, k2, by rw [g2, c5, a5, hi]; rfl⟩
      · have hY := track_shown_ne b1 comp (by
          rw [c3, a3]
          intro e
          exact hc (Option.some.inj e).symm)
        rw [← hbs] at hY
        rw [hY]
        refine ⟨fun _ => ⟨c1.trans a1, c2.trans a2, c3.trans a3, c4.trans a4, c5.trans a5⟩,
          fun hin => ?_⟩
        exfalso
        rcases List.mem_append.mp hin with h | h
        · exact hSd h
        · simp only [List.mem_singleton] at h
          exact hc h.symm

/-- The loop of `ins_compl_build_pum` with a further fact `Q` that each round
keeps: the loop ends, and the loop facts and `Q` hold at its end. -/
theorem build_pum_loop_with (E : Ext) (ff fwd cpt : Bool) {st0 : State} {passes : Nat → Bool}
    (first : Nat) (all : List Nat) (Q : List Nat → List Nat → BuildPum → Prop)
    (hfwd : fwd = compl_shows_dir_forward st0) (hcpt : cpt = st0.cpt_sources_array.isSome)
    (hpass : ∀ comp, passes comp = pum_entry_matches E ff
      (if pum_smartcase E ff st0 then clear_icase (deref st0.heap comp)
        else deref st0.heap comp) (leader_for st0 comp))
    (hQ : ∀ (done rest inc : List Nat) (comp : Nat) (b : BuildPum),
      done ++ comp :: rest = all → comp < st0.heap.length →
      PumInv st0 passes (fwd && cpt) done inc b →
      PumInv st0 passes (fwd && cpt) (done ++ [comp])
        (inc ++ if pum_takes st0 passes done comp then [comp] else [])
        (build_pum_step E ff fwd cpt b comp) →
      Q done inc b →
      Q (done ++ [comp]) (inc ++ if pum_takes st0 passes done comp then [comp] else [])
        (build_pum_step E ff fwd cpt b comp)) :
    ∀ (rest : List Nat) (comp : Nat) (done inc : List Nat) (b : BuildPum) (fuel : Nat),
      done ++ comp :: rest = all →
      WalkFrom st0.heap first comp rest → (done ++ comp :: rest).Nodup →
      (∀ p ∈ comp :: rest, p < st0.heap.length) →
      (∀ p ∈ comp :: rest, (deref st0.heap p).cp_match_next = none) →
      (∀ p ∈ comp :: rest, (deref st0.heap p).cp_cpt_source_idx = -1
        ∨ (0 ≤ (deref st0.heap p).cp_cpt_source_idx
          ∧ (deref st0.heap p).cp_cpt_source_idx < st0.cpt_sources_count)) →
      PumInv st0 passes (fwd && cpt) done inc b → Q done inc b → rest.length < fuel →
      ∃ b1, build_pum_loop E ff fwd cpt first fuel b comp = some b1
        ∧ PumInv st0 passes (fwd && cpt) (done ++ comp :: rest)
            (inc ++ first_n_per_source (source_cap st0)
              (fun p => (deref st0.heap p).cp_cpt_source_idx) (done.filter passes)
              ((comp :: rest).filter passes)) b1
        ∧ Q (done ++ comp :: rest)
            (inc ++ first_n_per_source (source_cap st0)
              (fun p => (deref st0.heap p).cp_cpt_source_idx) (done.filter passes)
              ((comp :: rest).filter passes)) b1
  | [], comp, done, inc, b, fuel + 1, hall, hw, hnd, hlt, hmn, hv, hinv, hq, _ => by
    have hcomp : comp ∉ done := by
      intro h
      exact (List.nodup_append.mp hnd).2.2 h (by simp)
    have hstep := build_pum_step_inv E ff fwd cpt comp hinv hfwd hcpt (hpass comp) hcomp
      (hlt comp (by simp)) (hmn comp (by simp)) (fun _ => hv comp (by simp))
    have hqs := hQ done [] inc comp b hall (hlt comp (by simp)) hinv hstep hq
    have hnext := (frozen_fields (hstep.froz comp)).2.2.2.1
    refine ⟨build_pum_step E ff fwd cpt b comp, ?_, ?_⟩
    · simp only [build_pum_loop, WalkFrom] at hw ⊢
      rw [hnext]
      rcases hw with hw | hw
      · rw [hw]
      · rw [hw]; simp
    · have := first_n_step (source_cap st0) (fun p => (deref st0.heap p).cp_cpt_source_idx)
        passes done [] comp
      simp only [List.filter_nil, first_n_per_source, List.append_nil] at this
      rw [← this]
      exact ⟨hstep, hqs⟩
  | nxt :: rest, comp, done, inc, b, fuel + 1, hall, hw, hnd, hlt, hmn, hv, hinv, hq, hf => by
    have hcomp : comp ∉ done := by
      intro h
      exact (List.nodup_append.mp hnd).2.2 h (by simp)
    have hstep := build_pum_step_inv E ff fwd cpt comp hinv hfwd hcpt (hpass comp) hcomp
      (hlt comp (by simp)) (hmn comp (by simp)) (fun _ => hv comp (by simp))
    have hqs := hQ done (nxt :: rest) inc comp b hall (hlt comp (by simp)) hinv hstep hq
    have hnext := (frozen_fields (hstep.froz comp)).2.2.2.1
    obtain ⟨hw1, hw2, hw3⟩ := hw
    obtain ⟨b1, hb1, hinv1, hq1⟩ := build_pum_loop_with E ff fwd cpt first all Q hfwd hcpt hpass
      hQ rest nxt (done ++ [comp]) _ _ fuel (by rw [← hall]; simp) hw3 (by simpa using hnd)
      (fun p hp => hlt p (List.mem_cons_of_mem _ hp))
      (fun p hp => hmn p (List.mem_cons_of_mem _ hp))
      (fun p hp => hv p (List.mem_cons_of_mem _ hp)) hstep hqs
      (by simp only [List.length_cons] at hf; omega)
    refine ⟨b1, ?_, ?_⟩
    · simp only [build_pum_loop]
      rw [hnext, hw1]
      simp only [hw2, if_false]
      exact hb1
    · have e := first_n_step (source_cap st0) (fun p => (deref st0.heap p).cp_cpt_source_idx)
        passes done (nxt :: rest) comp
      have hd : done ++ comp :: nxt :: rest = (done ++ [comp]) ++ nxt :: rest := by simp
      rw [hd, ← e, ← List.append_assoc]
      exact ⟨hinv1, hq1⟩

/-- The start of `ins_compl_build_pum` when the shown match is not moved before
the loop. -/
theorem build_pum_body_plain (E : Ext) (s : State) (shown first : Nat)
    (hshown : s.compl_shown_match = some shown) (hfirst : s.compl_first_match = some first)
    (hc : ¬ (s.compl_leader == s.compl_orig_text
      && !match_at_original_text (deref s.heap shown)) = true) :
    build_pum_body E s
      = (match build_pum_loop E (get_cot_flags s).fuzzy (compl_shows_dir_forward s)
            s.cpt_sources_array.isSome first (s.heap.length + 1)
            { st := (get_leader_for_startcol s none true).2
              match_count :=
                if s.cpt_sources_array.isSome then
                  List.replicate s.cpt_sources_count.toNat 0
                else []
              shown_match_ok := match_at_original_text (deref s.heap shown) } first with
        | none => none
        | some b => pum_finish (get_cot_flags s).fuzzy (get_cot_flags s).noselect b) := by
  unfold build_pum_body
  simp only []
  rw [hshown, hfirst]
  simp only []
  rw [if_neg hc]
  rfl

/-- What the end of `ins_compl_build_pum` does about the shown match without
fuzzy filtering: it is left alone, and the index found in the loop is
returned. -/
theorem pum_finish_cursor (nosel : Bool) (b : BuildPum) (cur : Int) (st1 : State)
    (h : pum_finish false nosel b = some (cur, st1)) :
    st1.compl_shown_match = b.st.compl_shown_match
      ∧ (b.st.compl_match_arraysize = 0 → cur = -1)
      ∧ (b.st.compl_match_arraysize ≠ 0 → cur = if !b.shown_match_ok then -1 else b.cur) := by
  unfold pum_finish at h
  by_cases h0 : b.st.compl_match_arraysize = 0
  · simp only [h0, if_true, Option.some.injEq, Prod.mk.injEq] at h
    exact ⟨by rw [← h.2], fun _ => h.1.symm, fun hn => absurd h0 hn⟩
  · simp only [h0, if_false, Bool.false_and, Bool.false_eq_true] at h
    cases hf : fill_match_array (b.st.heap.length + 1) b.st.heap b.match_head with
    | none => rw [hf] at h; cases h
    | some r =>
      obtain ⟨h1, items⟩ := r
      rw [hf] at h
      simp only [Option.some.injEq, Prod.mk.injEq] at h
      exact ⟨by rw [← h.2], fun hz => absurd hz h0, fun _ => h.1.symm⟩

theorem first_n_sublist (cap : Int → Int) (src : Nat → Int) :
    ∀ (l seen : List Nat), (first_n_per_source cap src seen l).Sublist l
  | [], _ => by simp [first_n_per_source]
  | x :: xs, seen => by
    unfold first_n_per_source
    split
    · exact (first_n_sublist cap src xs _).trans (List.sublist_cons_self x xs)
    · exact (first_n_sublist cap src xs _).cons₂ x

theorem menu_candidates_sublist (E : Ext) (st : State) (ns : List Nat) :
    (menu_candidates E st ns).Sublist ns :=
  (first_n_sublist _ _ _ _).trans (List.filter_sublist _)

/-- In a list cut at an entry, the entries of a sublist that come before the
cut are at its start. -/
theorem filter_before_cut (M pre : List Nat) (S : Nat) (post : List Nat)
    (hsub : M.Sublist (pre ++ S :: post)) (hnd : (pre ++ S :: post).Nodup) :
    ∃ C, M = M.filter (fun p => decide (p ∈ pre)) ++ C := by
  obtain ⟨M1, M2, hM, h1, h2⟩ := List.sublist_append_iff.mp hsub
  refine ⟨M2, ?_⟩
  have hdisj := (List.nodup_append.mp hnd).2.2
  have e1 : M1.filter (fun p => decide (p ∈ pre)) = M1 :=
    filter_mem_all pre M1 (fun p hp => h1.subset hp)
  have e2 : M2.filter (fun p => decide (p ∈ pre)) = [] := by
    rw [List.filter_eq_nil_iff]
    intro p hp
    have : p ∉ pre := fun hpre => hdisj hpre (h2.subset hp)
    simpa using this
  rw [hM, List.filter_append, e1, e2, List.append_nil]

theorem sameEnv_orig_text {a b : State} (h : SameEnv a b) :
    a.compl_orig_text = b.compl_orig_text := by
  have h1 := congrArg State.compl_orig_text h
  exact h1

theorem pum_test_state_orig_text (st : State) :
    (pum_test_state st).compl_orig_text = st.compl_orig_text := by
  unfold pum_test_state
  split <;> rfl

/-- **C11, amended.**  Without fuzzy filtering, when the shown match is
a candidate other than the original text (the leader not being the original
text, so that the shown match is not moved before the loop) that the leader
test or a source cap keeps out of the menu, `ins_compl_build_pum` returns, and
`compl_shown_match` is afterwards the last menu entry that comes before it in
the list when there is one, else the first menu entry (which comes after it);
the index returned is the menu index of that entry.  With an empty menu the
shown match is left alone and -1 is returned. -/
theorem ins_compl_build_pum_shown_filtered (E : Ext) (st : State) (first : Nat)
    (rest pre post : List Nat) (shown : Nat)
    (hwf : WellFormed st (first :: rest)) (hsplit : first :: rest = pre ++ shown :: post)
    (hshown : st.compl_shown_match = some shown)
    (hmn : ∀ p ∈ first :: rest, (deref st.heap p).cp_match_next = none)
    (hvalid : SourcesValid st (first :: rest))
    (hfuzzy : (get_cot_flags st).fuzzy = false)
    (horig : match_at_original_text (deref st.heap shown) = false)
    (hleader : (pum_test_state st).compl_leader ≠ st.compl_orig_text)
    (hout : shown ∉ menu_candidates E st (first :: rest)) :
    ∃ cur st1, ins_compl_build_pum E st = some (cur, st1)
      ∧ (menu_candidates E st (first :: rest) = [] →
          cur = -1 ∧ st1.compl_shown_match = some shown)
      ∧ (menu_before E st (first :: rest) pre ≠ [] →
          st1.compl_shown_match = (menu_before E st (first :: rest) pre).getLast?
            ∧ cur = ((menu_before E st (first :: rest) pre).length : Int) - 1)
      ∧ (menu_before E st (first :: rest) pre = [] →
          menu_candidates E st (first :: rest) ≠ [] →
          st1.compl_shown_match = (menu_candidates E st (first :: rest)).head? ∧ cur = 0)
      ∧ (menu_candidates E st (first :: rest) ≠ [] →
          0 ≤ cur
            ∧ (menu_candidates E st (first :: rest)).get? cur.toNat = st1.compl_shown_match
            ∧ st1.compl_match_array
              = some ((menu_candidates E st (first :: rest)).map fun p =>
                  pum_item (deref st.heap p) p)) := by
  obtain ⟨s, hs, henv_s, hheap_s, hsize_s, hshown_s⟩ := ins_compl_build_pum_eq E st
  have hfirst_s : s.compl_first_match = some first := by
    rw [(sameEnv_fields henv_s).2.2.2.2.2.2, pum_test_state_first]; exact hwf.1
  have hc : ¬ (s.compl_leader == s.compl_orig_text
      && !match_at_original_text (deref s.heap shown)) = true := by
    have : s.compl_leader ≠ s.compl_orig_text := by
      rw [(sameEnv_fields henv_s).1, sameEnv_orig_text henv_s, pum_test_state_orig_text]
      exact hleader
    simp [this]
  have hb := build_pum_body_plain E s shown first (hshown_s.trans hshown) hfirst_s hc
  obtain ⟨xadj, hxadj⟩ := get_leader_state s none true
  have hadj_none : (get_leader_for_startcol s none true).2.adjusted_leader = none := rfl
  generalize hst0 : (get_leader_for_startcol s none true).2 = st0 at hb hxadj hadj_none
  have henv0 : SameEnv st0 s := by rw [hxadj]; rfl
  have hheap0 : st0.heap = s.heap := by rw [hxadj]
  have hsize0 : st0.compl_match_arraysize = s.compl_match_arraysize := by rw [hxadj]
  have hshown0 : st0.compl_shown_match = some shown := by
    rw [hxadj]; exact hshown_s.trans hshown
  have henv : SameEnv st0 (pum_test_state st) := sameEnv_trans henv0 henv_s
  have hheap : st0.heap = st.heap := hheap0.trans hheap_s
  obtain ⟨t1, t2, t3, t4, t5, -⟩ := pum_test_state_fields st
  obtain ⟨m1, m2, m3, -⟩ := sameEnv_more henv
  obtain ⟨n1, n2, n3, -⟩ := sameEnv_more henv0
  have harr0 : st0.cpt_sources_array = s.cpt_sources_array := (sameEnv_fields henv0).2.1
  have harr : st0.cpt_sources_array = st.cpt_sources_array :=
    ((sameEnv_fields henv).2.1).trans t4
  have hff : (get_cot_flags s).fuzzy = false := by rw [← n1, m1, t2]; exact hfuzzy
  rw [hff] at hb
  have hpass : ∀ comp, passes_leader_test E st comp
      = pum_entry_matches E false
          (if pum_smartcase E false st0 then clear_icase (deref st0.heap comp)
            else deref st0.heap comp) (leader_for st0 comp) := by
    intro comp
    have := passes_link E st st0 henv hheap comp
    rw [hfuzzy] at this
    exact this
  have hseg : Segment st.heap (first :: rest) := wf_segment hwf
  have hlen : rest.length < s.heap.length + 1 := by
    have := segment_length_le hseg
    rw [hheap_s]
    simp only [List.length_cons] at this
    omega
  have hinit := pumInv_init st0 (passes_leader_test E st)
    (compl_shows_dir_forward s && s.cpt_sources_array.isSome)
    (match_at_original_text (deref s.heap shown))
    (if s.cpt_sources_array.isSome then List.replicate s.cpt_sources_count.toNat 0 else [])
    hadj_none (hsize0.trans hsize_s) (by
      intro h
      simp only [Bool.and_eq_true] at h
      rw [if_pos h.2, n3])
  have hnd : (pre ++ shown :: post).Nodup := by rw [← hsplit]; exact hseg.1
  have hS0 : match_at_original_text (deref st0.heap shown) = false := by
    rw [hheap]; exact horig
  have hsok : match_at_original_text (deref s.heap shown) = false := by
    rw [hheap_s]; exact horig
  have hTinit : ShownInv shown pre [] []
      ({ st := st0
         match_count :=
           if s.cpt_sources_array.isSome then List.replicate s.cpt_sources_count.toNat 0
           else []
         shown_match_ok := match_at_original_text (deref s.heap shown) } : BuildPum) :=
    ⟨fun _ => ⟨hsok, rfl, hshown0, rfl, rfl⟩, fun h => absurd h (List.not_mem_nil _)⟩
  obtain ⟨b1, hloop, hinv, hT⟩ := build_pum_loop_with E false
    (compl_shows_dir_forward s) s.cpt_sources_array.isSome first (pre ++ shown :: post)
    (ShownInv shown pre) n2.symm (by rw [harr0]) hpass
    (fun done rest1 inc comp b hall hlt hi hi1 hq =>
      shown_step E (compl_shows_dir_forward s) s.cpt_sources_array.isSome hall hnd hS0 hlt
        hi hi1 hq)
    rest first [] [] _ (s.heap.length + 1) (by simpa using hsplit)
    (by rw [hheap]; exact wf_walk hwf) (by simpa using hseg.1)
    (fun p hp => by rw [hheap]; exact hseg.2.1 p hp)
    (fun p hp => by rw [hheap]; exact hmn p hp)
    (fun p hp => by
      rw [hheap, m3, t5]
      exact hvalid p hp) hinit hTinit hlen
  have hcap : source_cap st0 = source_cap st := by
    funext x
    unfold source_cap
    rw [harr, m2, t3]
  have hinc : ([] : List Nat) ++ first_n_per_source (source_cap st0)
      (fun p => (deref st0.heap p).cp_cpt_source_idx) (List.filter (passes_leader_test E st) [])
      (List.filter (passes_leader_test E st) (first :: rest))
      = menu_candidates E st (first :: rest) := by
    rw [hcap, hheap]
    rfl
  rw [hinc] at hinv hT
  simp only [List.nil_append] at hT
  obtain ⟨cur, st1, f1, f2, f3, f4⟩ := pum_finish_spec false (get_cot_flags s).noselect hinv
  obtain ⟨q1, q2, q3⟩ := pum_finish_cursor (get_cot_flags s).noselect b1 cur st1 f1
  have hSin : shown ∈ first :: rest := by rw [hsplit]; simp
  have hB : (menu_candidates E st (first :: rest)).filter (fun p => decide (p ∈ pre))
      = menu_before E st (first :: rest) pre := rfl
  rcases hT.2 hSin with hin | ⟨hB1, hB2⟩
  · exact absurd hin hout
  rw [hB] at hB1 hB2
  have hsz : menu_candidates E st (first :: rest) ≠ [] → b1.st.compl_match_arraysize ≠ 0 := by
    intro hne
    rw [hinv.size]
    have : (menu_candidates E st (first :: rest)).length ≠ 0 :=
      fun h => hne (List.length_eq_zero.mp h)
    exact_mod_cast this
  have hBM : menu_before E st (first :: rest) pre ≠ [] →
      menu_candidates E st (first :: rest) ≠ [] := by
    intro h hM
    apply h
    unfold menu_before
    rw [hM]
    rfl
  have hBnil : menu_candidates E st (first :: rest) = [] →
      menu_before E st (first :: rest) pre = [] := by
    intro hM
    by_contra h
    exact hBM h hM
  have r2 : menu_before E st (first :: rest) pre ≠ [] →
      st1.compl_shown_match = (menu_before E st (first :: rest) pre).getLast?
        ∧ cur = ((menu_before E st (first :: rest) pre).length : Int) - 1 := by
    intro hne
    obtain ⟨k1, k2, k3⟩ := hB1 hne
    refine ⟨q1.trans k2, ?_⟩
    rw [q3 (hsz (hBM hne)), k1, k3]
    rfl
  have r3 : menu_before E st (first :: rest) pre = [] →
      menu_candidates E st (first :: rest) ≠ [] →
      st1.compl_shown_match = (menu_candidates E st (first :: rest)).head? ∧ cur = 0 := by
    intro hnil hne
    obtain ⟨k1, k2, k3⟩ := (hB2 hnil).2.2 hne
    refine ⟨q1.trans k2, ?_⟩
    rw [q3 (hsz hne), k1, k3]
    rfl
  refine ⟨cur, st1, ?_, ?_, r2, r3, ?_⟩
  · rw [hs, hb, hloop]
    exact f1
  · intro hM
    obtain ⟨k1, k2, k3⟩ := (hB2 (hBnil hM)).2.1 hM
    exact ⟨(f3 hM).1, q1.trans k2⟩
  · intro hne
    have harrf : st1.compl_match_array
        = some ((menu_candidates E st (first :: rest)).map fun p =>
            pum_item (deref st.heap p) p) := by
      rw [f4 hne, hheap]
    by_cases hbn : menu_before E st (first :: rest) pre = []
    · obtain ⟨k1, k2⟩ := r3 hbn hne
      refine ⟨by rw [k2], ?_, harrf⟩
      rw [k1, k2]
      cases menu_candidates E st (first :: rest) with
      | nil => rfl
      | cons a l => rfl
    · obtain ⟨k1, k2⟩ := r2 hbn
      obtain ⟨C, hC⟩ := filter_before_cut (menu_candidates E st (first :: rest)) pre shown post
        (by rw [← hsplit]; exact menu_candidates_sublist E st (first :: rest)) hnd
      rw [hB] at hC
      have hpos : 0 < (menu_before E st (first :: rest) pre).length :=
        List.length_pos.mpr hbn
      refine ⟨by rw [k2]; omega, ?_, harrf⟩
      have hidx : cur.toNat = (menu_before E st (first :: rest) pre).length - 1 := by
        rw [k2]; omega
      rw [k1, hidx, List.get?_eq_getElem?]
      conv_lhs => rw [hC]
      rw [List.getElem?_append_left (by omega), List.getLast?_eq_getElem?]

/-- **C11, as stated, fails.**  In the session `two_sources_shown_capped` the shown
match "alpha2" (entry 2) is over the cap of its source; the menu is "alpha1",
"beta1", and the first menu entry at or after the shown match is "beta1"
(entry 3, menu index 1), but `ins_compl_build_pum` makes "alpha1" (entry 1),
the menu entry before it, the shown match and returns its index 0. -/
theorem ins_compl_build_pum_shown_moves_back :
    (get_cot_flags two_sources_shown_capped).fuzzy = false
      ∧ two_sources_shown_capped.compl_shown_match = some 2
      ∧ match_at_original_text (deref two_sources_shown_capped.heap 2) = false
      ∧ menu_candidates ascii_ops two_sources_shown_capped [0, 1, 2, 3] = [1, 3]
      ∧ first_at_or_after [1, 3] [0, 1, 2, 3] 2 = some 3
      ∧ (ins_compl_build_pum ascii_ops two_sources_shown_capped).map
          (fun r => (r.1, r.2.compl_shown_match)) = some (0, some 1) := by
  decide

theorem ins_compl_build_pum_shown_filtered_witness :
    WellFormed two_sources_shown_capped [0, 1, 2, 3]
      ∧ 2 ∉ menu_candidates ascii_ops two_sources_shown_capped [0, 1, 2, 3]
      ∧ ∃ cur st1, ins_compl_build_pum ascii_ops two_sources_shown_capped = some (cur, st1)
      ∧ (menu_candidates ascii_ops two_sources_shown_capped [0, 1, 2, 3] = [] →
          cur = -1 ∧ st1.compl_shown_match = some 2)
      ∧ (menu_before ascii_ops two_sources_shown_capped [0, 1, 2, 3] [0, 1] ≠ [] →
          st1.compl_shown_match = (menu_before ascii_ops two_sources_shown_capped [0, 1, 2, 3] [0, 1]).getLast?
            ∧ cur = ((menu_before ascii_ops two_sources_shown_capped [0, 1, 2, 3] [0, 1]).length : Int) - 1)
      ∧ (menu_before ascii_ops two_sources_shown_capped [0, 1, 2, 3] [0, 1] = [] →
          menu_candidates ascii_ops two_sources_shown_capped [0, 1, 2, 3] ≠ [] →
          st1.compl_shown_match = (menu_candidates ascii_ops two_sources_shown_capped [0, 1, 2, 3]).head? ∧ cur = 0)
      ∧ (menu_candidates ascii_ops two_sources_shown_capped [0, 1, 2, 3] ≠ [] →
          0 ≤ cur
            ∧ (menu_candidates ascii_ops two_sources_shown_capped [0, 1, 2, 3]).get? cur.toNat = st1.compl_shown_match
            ∧ st1.compl_match_array
              = some ((menu_candidates ascii_ops two_sources_shown_capped [0, 1, 2, 3]).map fun p =>
                  pum_item (deref two_sources_shown_capped.heap p) p)) :=
  ⟨by decide, by decide,
    ins_compl_build_pum_shown_filtered ascii_ops two_sources_shown_capped 0 [1, 2, 3] [0, 1] [3]
      2 (by decide) rfl rfl (by decide) (by decide) (by decide) (by decide) (by decide)
      (by decide)⟩

/-! ## What `ins_compl_build_pum` leaves of the candidates -/

/-- The second loop of `ins_compl_build_pum` resets `cp_match_next` of the
entries that are in the menu and touches nothing else. -/
theorem fill_match_array_reset :
    ∀ (inc : List Nat) (h : List compl_T) (fuel : Nat) (h1 : List compl_T)
      (items : List pumitem_T), MatchChain h inc → inc.Nodup →
      fill_match_array fuel h inc.head? = some (h1, items) →
      ∀ p, deref h1 p = if p ∈ inc then set_match_next none (deref h p) else deref h p
  | _, _, 0, _, _, _, _, hf => by simp [fill_match_array] at hf
  | [], h, fuel + 1, h1, items, _, _, hf => by
    simp only [List.head?_nil, fill_match_array, Option.some.injEq, Prod.mk.injEq] at hf
    intro p
    rw [← hf.1]
    simp
  | [a], h, fuel + 1, h1, items, hc, _, hf => by
    simp only [MatchChain] at hc
    simp only [List.head?_cons, fill_match_array, hc] at hf
    cases fuel with
    | zero => simp [fill_match_array] at hf
    | succ n =>
      simp only [fill_match_array, Option.some.injEq, Prod.mk.injEq] at hf
      intro p
      rw [← hf.1, deref_assign]
      by_cases hp : p = a
      · subst hp
        by_cases hlt : p < h.length
        · simp [hlt]
        · have hd : deref h p = default := deref_out_of_range h p (by omega)
          simp only [hlt, and_false, if_false, List.mem_singleton, if_true, hd]
          rfl
      · simp [hp]
  | a :: c :: t, h, fuel + 1, h1, items, hc, hnd, hf => by
    obtain ⟨hc1, hc2⟩ := hc
    have hna : a ∉ c :: t := (List.nodup_cons.mp hnd).1
    have hchain : MatchChain (assign h a (set_match_next none)) (c :: t) :=
      matchChain_congr _ _ (c :: t) (fun p hp => by
        rw [deref_assign_ne]
        rintro rfl; exact hna hp) hc2
    simp only [List.head?_cons, fill_match_array, hc1] at hf
    cases hr : fill_match_array fuel (assign h a (set_match_next none)) (some c) with
    | none => rw [hr] at hf; cases hf
    | some r =>
      obtain ⟨h2, items2⟩ := r
      rw [hr] at hf
      simp only [Option.some.injEq, Prod.mk.injEq] at hf
      have ih := fill_match_array_reset (c :: t) (assign h a (set_match_next none)) fuel h2
        items2 hchain (List.nodup_cons.mp hnd).2 hr
      intro p
      rw [← hf.1, ih p]
      by_cases hp : p = a
      · subst hp
        rw [if_neg hna, if_pos (by simp), deref_assign]
        by_cases hlt : p < h.length
        · simp [hlt]
        · have hd : deref h p = default := deref_out_of_range h p (by omega)
          simp only [hlt, and_false, if_false, hd]
          rfl
      · rw [deref_assign_ne _ _ _ _ hp]
        by_cases hm : p ∈ c :: t
        · rw [if_pos hm, if_pos (List.mem_cons_of_mem _ hm)]
        · rw [if_neg hm, if_neg (by simp only [List.mem_cons, not_or] at hm ⊢; exact ⟨hp, hm⟩)]

theorem fill_match_array_length :
    ∀ (fuel : Nat) (h : List compl_T) (m : Option Nat) (h1 : List compl_T)
      (items : List pumitem_T), fill_match_array fuel h m = some (h1, items) →
      h1.length = h.length
  | 0, _, _, _, _, hf => by simp [fill_match_array] at hf
  | fuel + 1, h, none, h1, items, hf => by
    simp only [fill_match_array, Option.some.injEq, Prod.mk.injEq] at hf
    rw [← hf.1]
  | fuel + 1, h, some comp, h1, items, hf => by
    simp only [fill_match_array] at hf
    cases hr : fill_match_array fuel (assign h comp (set_match_next none))
        (deref h comp).cp_match_next with
    | none => rw [hr] at hf; cases hf
    | some r =>
      obtain ⟨h2, items2⟩ := r
      rw [hr] at hf
      simp only [Option.some.injEq, Prod.mk.injEq] at hf
      rw [← hf.1, fill_match_array_length fuel _ _ h2 items2 hr, length_assign]

theorem pum_finish_length (ff nosel : Bool) (b : BuildPum) (cur : Int) (st1 : State)
    (h : pum_finish ff nosel b = some (cur, st1)) :
    st1.heap.length = b.st.heap.length := by
  unfold pum_finish at h
  by_cases h0 : b.st.compl_match_arraysize = 0
  · simp only [h0, if_true, Option.some.injEq, Prod.mk.injEq] at h
    rw [← h.2]
  · simp only [h0, if_false] at h
    by_cases hfz : (ff && !nosel && !b.shown_match_ok) = true
    · rw [if_pos hfz] at h
      simp only [] at h
      cases hr : fill_match_array (b.st.heap.length + 1) b.st.heap b.match_head with
      | none => rw [hr] at h; cases h
      | some r =>
        obtain ⟨h2, items2⟩ := r
        rw [hr] at h
        simp only [Option.some.injEq, Prod.mk.injEq] at h
        rw [← h.2]
        exact fill_match_array_length _ _ _ h2 items2 hr
    · rw [if_neg hfz] at h
      cases hr : fill_match_array (b.st.heap.length + 1) b.st.heap b.match_head with
      | none => rw [hr] at h; cases h
      | some r =>
        obtain ⟨h2, items2⟩ := r
        rw [hr] at h
        simp only [Option.some.injEq, Prod.mk.injEq] at h
        rw [← h.2]
        exact fill_match_array_length _ _ _ h2 items2 hr

/-- Two records that agree on the part that `ins_compl_build_pum` leaves alone
and on `cp_match_next` differ in their flags and visibility mark only. -/
theorem eq_of_frozen {a b : compl_T} (h : frozen a = frozen b)
    (hn : a.cp_match_next = b.cp_match_next) :
    a = { b with cp_flags := a.cp_flags, cp_in_match_array := a.cp_in_match_array } := by
  cases a
  cases b
  simp only [frozen, compl_T.mk.injEq] at h hn ⊢
  simp only [hn, true_and]
  tauto

/-- The end of `ins_compl_build_pum` leaves the records alone but for
`cp_match_next`, which is NULL afterwards in the entries of the menu. -/
theorem pum_finish_heap {st0 : State} {passes : Nat → Bool} {limited : Bool}
    {done inc : List Nat} {b : BuildPum} (ff nosel : Bool)
    (hinv : PumInv st0 passes limited done inc b) (cur : Int) (st1 : State)
    (h : pum_finish ff nosel b = some (cur, st1)) :
    ∀ p, deref st1.heap p
      = if p ∈ inc then set_match_next none (deref b.st.heap p) else deref b.st.heap p := by
  unfold pum_finish at h
  by_cases h0 : b.st.compl_match_arraysize = 0
  · have hi : inc = [] := by
      have := hinv.size
      rw [h0] at this
      exact List.length_eq_zero.mp (by exact_mod_cast this.symm)
    simp only [h0, if_true, Option.some.injEq, Prod.mk.injEq] at h
    intro p
    rw [← h.2, hi]
    simp
  · simp only [h0, if_false] at h
    by_cases hfz : (ff && !nosel && !b.shown_match_ok) = true
    · rw [if_pos hfz] at h
      simp only [] at h
      cases hr : fill_match_array (b.st.heap.length + 1) b.st.heap b.match_head with
      | none => rw [hr] at h; cases h
      | some r =>
        obtain ⟨h2, items2⟩ := r
        rw [hr] at h
        simp only [Option.some.injEq, Prod.mk.injEq] at h
        rw [hinv.head] at hr
        have := fill_match_array_reset inc b.st.heap _ h2 items2 hinv.chain hinv.nodup hr
        intro p
        rw [← h.2]
        exact this p
    · rw [if_neg hfz] at h
      cases hr : fill_match_array (b.st.heap.length + 1) b.st.heap b.match_head with
      | none => rw [hr] at h; cases h
      | some r =>
        obtain ⟨h2, items2⟩ := r
        rw [hr] at h
        simp only [Option.some.injEq, Prod.mk.injEq] at h
        rw [hinv.head] at hr
        have := fill_match_array_reset inc b.st.heap _ h2 items2 hinv.chain hinv.nodup hr
        intro p
        rw [← h.2]
        exact this p

/-- One round of the loop of `ins_compl_build_pum` leaves the flags of the
entries handled before alone, and clears CP_ICASE of its entry when the
'smartcase' behavior applies. -/
theorem flags_step (E : Ext) (ff fwd cpt : Bool) {st0 : State} {passes : Nat → Bool}
    {comp : Nat} {done inc : List Nat} {b : BuildPum}
    (hlt : comp < st0.heap.length) (hcd : comp ∉ done)
    (hinv : PumInv st0 passes (fwd && cpt) done inc b)
    (hq : ∀ p ∈ done, (deref b.st.heap p).cp_flags
      = if pum_smartcase E ff st0 = true then clear_flag (deref st0.heap p).cp_flags CP_ICASE
        else (deref st0.heap p).cp_flags) :
    ∀ p ∈ done ++ [comp], (deref (build_pum_step E ff fwd cpt b comp).st.heap p).cp_flags
      = if pum_smartcase E ff st0 = true then clear_flag (deref st0.heap p).cp_flags CP_ICASE
        else (deref st0.heap p).cp_flags := by
  have hlt1 : comp < b.st.heap.length := by rw [hinv.len]; exact hlt
  obtain ⟨r1, r2, r3, r4, r5⟩ := pum_reset_entry_spec E ff b.st comp hlt1
  rw [pum_smartcase_env E ff hinv.env, hinv.flags comp hcd] at r5
  have hreset : ∀ p ∈ done ++ [comp], (deref (pum_reset_entry E ff b.st comp) p).cp_flags
      = if pum_smartcase E ff st0 = true then clear_flag (deref st0.heap p).cp_flags CP_ICASE
        else (deref st0.heap p).cp_flags := by
    intro p hp
    by_cases hpc : p = comp
    · subst hpc; exact r5
    · rw [r4 p hpc]
      rcases List.mem_append.mp hp with h | h
      · exact hq p h
      · simp only [List.mem_singleton] at h
        exact absurd h hpc
  obtain ⟨x, mc, hcase⟩ := build_pum_step_cases E ff fwd cpt b comp
  generalize build_pum_step E ff fwd cpt b comp = bs at hcase ⊢
  generalize hb1 : ({ b with
      st := { b.st with heap := pum_reset_entry E ff b.st comp, adjusted_leader := x }
      match_count := mc } : BuildPum) = b1 at hcase
  have c7 : b1.st.heap = pum_reset_entry E ff b.st comp := by rw [← hb1]
  have c8 : b1.match_head = b.match_head := by rw [← hb1]
  have c9 : b1.match_tail = b.match_tail := by rw [← hb1]
  intro p hp
  rcases hcase with hbs | hbs
  · obtain ⟨⟨y, hy⟩, -⟩ := pum_track_shown_frame ff
      (pum_track_included ff (pum_include b1 comp) comp) comp
    obtain ⟨⟨z, hz⟩, -⟩ := pum_track_included_frame ff (pum_include b1 comp) comp
    obtain ⟨-, -, -, -, -, -, i7, -⟩ := pum_include_spec b1 comp inc (c8.trans hinv.head)
      (c9.trans hinv.tail) (fun q hq1 => by rw [c7, r1, hinv.len]; exact hinv.lt q hq1)
    rw [hbs, hy, hz]
    show (deref (pum_include b1 comp).st.heap p).cp_flags = _
    rw [i7 p, c7]
    exact hreset p hp
  · obtain ⟨⟨y, hy⟩, -⟩ := pum_track_shown_frame ff b1 comp
    rw [hbs, hy]
    show (deref b1.st.heap p).cp_flags = _
    rw [c7]
    exact hreset p hp

/-- **C12, amended.**  For every well-formed candidate list (with
`cp_match_next` NULL on entry, as a previous build leaves it) and every leader,
`ins_compl_build_pum` returns and leaves every record as it was but for two
fields: the visibility mark `cp_in_match_array`, and the flag set, in which
CP_ICASE is cleared in every candidate of the list when the 'smartcase'
behavior applies (normal mode, 'infercase' off, a leader with `ignorecase()`
false, no fuzzy filtering) and nothing else is changed.  The text, the score,
the source index and the list links are as they were. -/
theorem ins_compl_build_pum_keeps_candidates (E : Ext) (st : State) (first : Nat)
    (rest : List Nat) (shown : Nat)
    (hwf : WellFormed st (first :: rest)) (hshown : st.compl_shown_match = some shown)
    (hmn : ∀ p ∈ first :: rest, (deref st.heap p).cp_match_next = none)
    (hvalid : SourcesValid st (first :: rest)) :
    ∃ cur st1, ins_compl_build_pum E st = some (cur, st1)
      ∧ st1.heap.length = st.heap.length
      ∧ ∀ p, deref st1.heap p
          = { deref st.heap p with
              cp_flags :=
                if p ∈ first :: rest ∧ smartcase_applies E (pum_test_state st) = true then
                  clear_flag (deref st.heap p).cp_flags CP_ICASE
                else (deref st.heap p).cp_flags
              cp_in_match_array := (deref st1.heap p).cp_in_match_array } := by
  obtain ⟨s, hs, henv_s, hheap_s, hsize_s, hshown_s⟩ := ins_compl_build_pum_eq E st
  have hfirst_s : s.compl_first_match = some first := by
    rw [(sameEnv_fields henv_s).2.2.2.2.2.2, pum_test_state_first]; exact hwf.1
  obtain ⟨st0, sok, hb, henv0, hheap0, hadj0, hsize0⟩ :=
    build_pum_body_eq E s shown first (hshown_s.trans hshown) hfirst_s
  have henv : SameEnv st0 (pum_test_state st) := sameEnv_trans henv0 henv_s
  have hheap : st0.heap = st.heap := hheap0.trans hheap_s
  obtain ⟨t1, t2, t3, t4, t5, -⟩ := pum_test_state_fields st
  obtain ⟨m1, m2, m3, -⟩ := sameEnv_more henv
  obtain ⟨n1, n2, n3, -⟩ := sameEnv_more henv0
  have harr0 : st0.cpt_sources_array = s.cpt_sources_array := (sameEnv_fields henv0).2.1
  have hff : (get_cot_flags s).fuzzy = (get_cot_flags st).fuzzy := by rw [← n1, m1, t2]
  have hpass : ∀ comp, passes_leader_test E st comp
      = pum_entry_matches E (get_cot_flags s).fuzzy
          (if pum_smartcase E (get_cot_flags s).fuzzy st0 then clear_icase (deref st0.heap comp)
            else deref st0.heap comp) (leader_for st0 comp) := by
    intro comp
    rw [hff]
    exact passes_link E st st0 henv hheap comp
  have hseg : Segment st.heap (first :: rest) := wf_segment hwf
  have hlen : rest.length < s.heap.length + 1 := by
    have := segment_length_le hseg
    rw [hheap_s]
    simp only [List.length_cons] at this
    omega
  have hinit := pumInv_init st0 (passes_leader_test E st)
    (compl_shows_dir_forward s && s.cpt_sources_array.isSome) sok
    (if s.cpt_sources_array.isSome then List.replicate s.cpt_sources_count.toNat 0 else [])
    hadj0 (hsize0.trans hsize_s) (by
      intro h
      simp only [Bool.and_eq_true] at h
      rw [if_pos h.2, n3])
  have hnd : (first :: rest).Nodup := hseg.1
  obtain ⟨b1, hloop, hinv, hQ⟩ := build_pum_loop_with E (get_cot_flags s).fuzzy
    (compl_shows_dir_forward s) s.cpt_sources_array.isSome first (first :: rest)
    (fun done _ b => ∀ p ∈ done, (deref b.st.heap p).cp_flags
      = if pum_smartcase E (get_cot_flags s).fuzzy st0 = true then
          clear_flag (deref st0.heap p).cp_flags CP_ICASE
        else (deref st0.heap p).cp_flags)
    n2.symm (by rw [harr0]) hpass
    (fun done rest1 inc comp b hall hlt hi _ hq =>
      flags_step E (get_cot_flags s).fuzzy (compl_shows_dir_forward s)
        s.cpt_sources_array.isSome hlt
        (fun hc => (List.nodup_append.mp (hall ▸ hnd)).2.2 hc (by simp)) hi hq)
    rest first [] [] _ (s.heap.length + 1) rfl
    (by rw [hheap]; exact wf_walk hwf) (by simpa using hseg.1)
    (fun p hp => by rw [hheap]; exact hseg.2.1 p hp)
    (fun p hp => by rw [hheap]; exact hmn p hp)
    (fun p hp => by
      rw [hheap, m3, t5]
      exact hvalid p hp) hinit (fun p hp => absurd hp (List.not_mem_nil _)) hlen
  simp only [List.nil_append] at hinv hQ
  obtain ⟨cur, st1, f1, f2, f3, f4⟩ := pum_finish_spec (get_cot_flags s).fuzzy
    (get_cot_flags s).noselect hinv
  have hfin := pum_finish_heap (get_cot_flags s).fuzzy (get_cot_flags s).noselect hinv cur st1 f1
  have hsc : pum_smartcase E (get_cot_flags s).fuzzy st0
      = smartcase_applies E (pum_test_state st) := by
    unfold smartcase_applies
    rw [pum_smartcase_env E _ henv, t2, hff]
  have hflen : st1.heap.length = st.heap.length := by
    rw [pum_finish_length _ _ b1 cur st1 f1, hinv.len, hheap]
  refine ⟨cur, st1, ?_, hflen, ?_⟩
  · rw [hs, hb, hloop]
    exact f1
  · intro p
    have hfro : frozen (deref st1.heap p) = frozen (deref st.heap p) := by
      rw [hfin p, ← hheap, ← hinv.froz p]
      split <;> rfl
    have hnext : (deref st1.heap p).cp_match_next = (deref st.heap p).cp_match_next := by
      rw [hfin p]
      by_cases hp : p ∈ first_n_per_source (source_cap st0)
          (fun p => (deref st0.heap p).cp_cpt_source_idx)
          (List.filter (passes_leader_test E st) [])
          (List.filter (passes_leader_test E st) (first :: rest))
      · rw [if_pos hp]
        have hpn : p ∈ first :: rest :=
          (List.filter_sublist _).subset ((first_n_sublist _ _ _ _).subset hp)
        rw [hmn p hpn]
        rfl
      · rw [if_neg hp, hinv.rest p hp, hheap]
    have hflags : (deref st1.heap p).cp_flags
        = if p ∈ first :: rest ∧ smartcase_applies E (pum_test_state st) = true then
            clear_flag (deref st.heap p).cp_flags CP_ICASE
          else (deref st.heap p).cp_flags := by
      have e1 : (deref st1.heap p).cp_flags = (deref b1.st.heap p).cp_flags := by
        rw [hfin p]
        split <;> rfl
      rw [e1]
      by_cases hp : p ∈ first :: rest
      · rw [hQ p hp, hsc, hheap]
        by_cases hsm : smartcase_applies E (pum_test_state st) = true
        · rw [if_pos hsm, if_pos ⟨hp, hsm⟩]
        · rw [if_neg hsm, if_neg (fun h => hsm h.2)]
      · rw [hinv.flags p hp, hheap, if_neg (fun h => hp h.1)]
    have := eq_of_frozen hfro hnext
    rw [hflags] at this
    exact this

/-- **C12, as stated, fails.**  In the session `icase_session` (normal mode, leader
"he") the candidate "Hello" carries CP_ICASE before `ins_compl_build_pum` and
no flag after it. -/
theorem ins_compl_build_pum_clears_icase :
    (deref icase_session.heap 1).cp_flags = CP_ICASE
      ∧ (ins_compl_build_pum ascii_ops icase_session).map
          (fun r => (deref r.2.heap 1).cp_flags) = some 0 := by
  decide

theorem ins_compl_build_pum_keeps_candidates_witness :
    WellFormed icase_session [0, 1]
      ∧ ∃ cur st1, ins_compl_build_pum ascii_ops icase_session = some (cur, st1)
      ∧ st1.heap.length = icase_session.heap.length
      ∧ ∀ p, deref st1.heap p
          = { deref icase_session.heap p with
              cp_flags :=
                if p ∈ [0, 1] ∧ smartcase_applies ascii_ops (pum_test_state icase_session) = true then
                  clear_flag (deref icase_session.heap p).cp_flags CP_ICASE
                else (deref icase_session.heap p).cp_flags
              cp_in_match_array := (deref st1.heap p).cp_in_match_array } :=
  ⟨by decide,
    ins_compl_build_pum_keeps_candidates ascii_ops icase_session 0 [1] 0 (by decide) rfl
      (by decide) (by decide)⟩

/-! ## The shape of the list after the store operations -/

/-- After `ins_compl_free` on a well-formed list the list is empty. -/
theorem ins_compl_free_empties (st : State) (ns : List Nat) (hwf : WellFormed st ns) :
    ∃ st1, ins_compl_free st = some st1 ∧ st1.compl_first_match = none := by
  cases ns with
  | nil =>
    have hf : st.compl_first_match = none := hwf
    refine ⟨{ st with compl_pattern := none, compl_leader := none }, ?_, hf⟩
    unfold ins_compl_free
    simp only [hf]
  | cons first rest =>
    obtain ⟨st1, h1, h2, -⟩ := ins_compl_free_spec st (first :: rest) hwf
      (fun h => absurd h (List.cons_ne_nil _ _))
    exact ⟨st1, h1, h2⟩

/-- **C18, amended.**  The candidate list is empty, NULL-terminated or a
closed ring after every store operation.  On a well-formed list, each
`ins_compl_add` that returns OK leaves a well-formed list (NULL-terminated or
closed) of the old entries and the new one; `ins_compl_free` returns and
leaves the empty list; and `ins_compl_make_cyclic`, which `ins_compl_get_exp`
calls when a search ends, returns and leaves a closed ring, in which following
`cp_next` from any entry comes back to that entry. -/
theorem store_operations_keep_shape (E : Ext) (st : State) (ns : List Nat)
    (hwf : WellFormed st ns) :
    (∀ (str : List Nat) (len : Int) (fname : Option (List Nat)) (cptext : Option CpText)
        (user_data : Option Nat) (cdir : Direction) (flags_arg : Nat) (adup : Bool)
        (user_hl : Option (Int × Int)) (score : Int) (st1 : State),
        ins_compl_add E st str len fname cptext user_data cdir flags_arg adup user_hl score
          = some (OK, st1) →
        ∃ ns1, WellFormed st1 ns1 ∧ ns1.Perm (st.heap.length :: ns))
      ∧ (∃ st1, ins_compl_free st = some st1 ∧ WellFormed st1 [])
      ∧ (∀ first rest, ns = first :: rest →
          ∃ st1, ins_compl_make_cyclic st = some ((rest.length : Int), st1)
            ∧ IsCyclic st1.heap first rest
            ∧ ∀ p ∈ first :: rest,
                follow_next st1.heap (rest.length + 1) (some p) = some p) := by
  refine ⟨?_, ?_, ?_⟩
  · intro str len fname cptext user_data cdir flags_arg adup user_hl score st1 hok
    obtain ⟨-, h1, hl, e1, e2, e3⟩ := ins_compl_add_ok_inv hok
    obtain ⟨h2, ns1, N, P, hl2, -, hwf2, hperm⟩ := link_new_match_wf st ns hwf
      (new_match st str (if len < 0 then str.length else len.toNat) fname cptext
        user_data flags_arg user_hl score)
      (new_match_links st str _ fname cptext user_data flags_arg user_hl score)
      (if cdir = Direction.kDirectionNotSet then st.compl_direction else cdir) score
    rw [hl] at hl2
    have hh : h1 = h2 := Option.some.inj hl2
    subst hh
    refine ⟨ns1, wf_congr hwf2 ?_ ?_ ?_ ?_, hperm⟩
    · rw [e1]
    · intro p; rw [e1]; exact ⟨rfl, rfl⟩
    · rw [e3]
    · rw [e2]
  · obtain ⟨st1, h1, h2⟩ := ins_compl_free_empties st ns hwf
    exact ⟨st1, h1, h2⟩
  · rintro first rest rfl
    refine ⟨_, ins_compl_make_cyclic_eq hwf, close_ring hwf.2.1, ?_⟩
    intro p hp
    exact (ring_closure (close_ring hwf.2.1) p hp).1

/-- **C18, as stated, fails.**  The first insertion, of the original text into the
empty store, returns OK and leaves one entry whose `cp_next` is NULL, so that
following `cp_next` from it never comes back to it. -/
theorem ins_compl_add_first_is_open :
    WellFormed ({} : State) []
      ∧ (ins_compl_add ascii_ops {} (bytes "he") (-1) none none none Direction.FORWARD
          CP_ORIGINAL_TEXT false none 0).map
          (fun r => (r.1, r.2.compl_first_match, (deref r.2.heap 0).cp_next,
            follow_next r.2.heap 1 (some 0), follow_next r.2.heap 2 (some 0)))
        = some (OK, some 0, none, none, none) := by
  decide

theorem store_operations_keep_shape_witness :
    WellFormed anchor_hello [0, 1]
      ∧ ∃ st1, ins_compl_make_cyclic anchor_hello = some (1, st1)
          ∧ IsCyclic st1.heap 0 [1]
          ∧ ∀ p ∈ [0, 1], follow_next st1.heap 2 (some p) = some p :=
  ⟨by decide,
    (store_operations_keep_shape ascii_ops anchor_hello [0, 1] (by decide)).2.2 0 [1] rfl⟩

/-! ## Sequence numbers -/

theorem length_number_entries : ∀ (l : List Nat) (h : List compl_T) (n : Int),
    (number_entries h l n).length = h.length
  | [], _, _ => rfl
  | b :: t, h, n => by
    rw [number_entries, length_number_entries t, length_assign]

theorem deref_set_number (h : List compl_T) (b p : Nat) (n : Int) :
    deref (assign h b (set_number n)) p = deref h p
      ∨ (p = b ∧ b < h.length ∧ deref (assign h b (set_number n)) p = set_number n (deref h p)) := by
  rw [deref_assign]
  by_cases hc : p = b ∧ b < h.length
  · rw [if_pos hc]
    right
    exact ⟨hc.1, hc.2, by rw [hc.1]⟩
  · rw [if_neg hc]
    left
    rfl

/-- Numbering changes nothing but `cp_number`. -/
theorem number_entries_frame : ∀ (l : List Nat) (h : List compl_T) (n : Int) (p : Nat),
    ({ deref (number_entries h l n) p with cp_number := 0 } : compl_T)
      = { deref h p with cp_number := 0 }
  | [], _, _, _ => rfl
  | b :: t, h, n, p => by
    rw [number_entries, number_entries_frame t]
    rcases deref_set_number h b p (n + 1) with e | ⟨-, -, e⟩
    · rw [e]
    · rw [e]; rfl

theorem number_entries_not_mem : ∀ (l : List Nat) (h : List compl_T) (n : Int) (p : Nat),
    p ∉ l → deref (number_entries h l n) p = deref h p
  | [], _, _, _, _ => rfl
  | b :: t, h, n, p, hp => by
    simp only [List.mem_cons, not_or] at hp
    rw [number_entries, number_entries_not_mem t _ _ p hp.2, deref_assign_ne _ _ _ _ hp.1]

/-- The entries numbered get the numbers that follow `n`, in their order. -/
theorem number_entries_get : ∀ (l : List Nat) (h : List compl_T) (n : Int) (i : Nat),
    l.Nodup → (∀ p ∈ l, p < h.length) → i < l.length →
    (deref (number_entries h l n) (l.getD i 0)).cp_number = n + i + 1
  | [], _, _, _, _, _, hi => by simp at hi
  | b :: t, h, n, 0, hnd, hlt, _ => by
    simp only [List.getD_cons_zero]
    rw [number_entries, number_entries_not_mem t _ _ b (List.nodup_cons.mp hnd).1,
      deref_assign_same _ _ _ (hlt b (by simp))]
    simp [set_number]
  | b :: t, h, n, i + 1, hnd, hlt, hi => by
    simp only [List.getD_cons_succ]
    rw [number_entries, number_entries_get t _ (n + 1) i (List.nodup_cons.mp hnd).2
      (fun p hp => by rw [length_assign]; exact hlt p (List.mem_cons_of_mem _ hp))
      (by simpa using hi)]
    push_cast
    ring

/-- The second loop of `ins_compl_update_sequence_numbers` going forward: along
a walk over entries without a number that ends at NULL or at the first match,
which has a number, it numbers these entries. -/
theorem assign_numbers_up_spec (first : Nat) :
    ∀ (B : List Nat) (h : List compl_T) (m : Nat) (n : Int) (fuel : Nat),
      WalkFrom h first m B → B.Nodup → (∀ p ∈ B, p < h.length) →
      (∀ p ∈ B, (deref h p).cp_number = -1) → (deref h first).cp_number ≠ -1 →
      B.length < fuel →
      assign_numbers_up fuel h (deref h m).cp_next n = some (number_entries h B n)
  | [], h, m, n, fuel + 1, hw, _, _, _, hf, _ => by
    rcases hw with hw | hw
    · rw [hw]; rfl
    · rw [hw]
      simp only [assign_numbers_up, hf, if_false, number_entries]
  | b :: B, h, m, n, fuel + 1, hw, hnd, hlt, hun, hf, hfuel => by
    obtain ⟨hn, hb, hw⟩ := hw
    have hbB : b ∉ B := (List.nodup_cons.mp hnd).1
    have hnext : ∀ p, (deref (assign h b (set_number (n + 1))) p).cp_next = (deref h p).cp_next := by
      intro p
      rcases deref_set_number h b p (n + 1) with e | ⟨-, -, e⟩
      · rw [e]
      · rw [e]; rfl
    have ih := assign_numbers_up_spec first B (assign h b (set_number (n + 1))) b (n + 1) fuel
      (walkFrom_congr h _ first B b (fun p _ => hnext p) hw) (List.nodup_cons.mp hnd).2
      (fun p hp => by rw [length_assign]; exact hlt p (List.mem_cons_of_mem _ hp))
      (fun p hp => by
        rw [deref_assign_ne _ _ _ _ (fun e : p = b => hbB (e ▸ hp))]
        exact hun p (List.mem_cons_of_mem _ hp))
      (by rw [deref_assign_ne _ _ _ _ (fun e : first = b => hb e.symm)]; exact hf)
      (by simpa using hfuel)
    rw [hn]
    simp only [assign_numbers_up, hun b (by simp), if_true, number_entries]
    exact ih

/-- The first loop of `ins_compl_update_sequence_numbers` going forward: back
over entries without a number it stops at the entry before them, which is the
first match or has a number. -/
theorem seek_number_back_spec (st : State) (first x : Nat)
    (hfirst : st.compl_first_match = some first)
    (hx : x = first ∨ (deref st.heap x).cp_number ≠ -1) :
    ∀ (U : List Nat) (fuel : Nat), List.Chain' (Adjacent st.heap) (x :: U) →
      (∀ p ∈ U, p ≠ first ∧ (deref st.heap p).cp_number = -1) → U.length < fuel →
      seek_number_back st fuel (some (lastOf x U))
        = some (some x, if x = first then 0 else (deref st.heap x).cp_number) := by
  intro U
  induction U using List.reverseRecOn with
  | nil =>
    intro fuel _ _ hf
    cases fuel with
    | zero => simp at hf
    | succ f =>
      simp only [lastOf, seek_number_back, is_first_match, hfirst]
      by_cases hxf : x = first
      · simp [hxf]
      · have hnum : (deref st.heap x).cp_number ≠ -1 := hx.resolve_left hxf
        have : ¬ first = x := fun e => hxf e.symm
        simp [hxf, this, hnum]
  | append_singleton l a ih =>
    intro fuel hch hU hf
    cases fuel with
    | zero => simp at hf
    | succ f =>
      have hch2 : List.Chain' (Adjacent st.heap) ((x :: l) ++ [a]) := by simpa using hch
      rw [List.chain'_append] at hch2
      obtain ⟨c1, -, c3⟩ := hch2
      have hadj : Adjacent st.heap (lastOf x l) a :=
        c3 (lastOf x l) (by rw [lastOf_getLast?]; rfl) a (by simp)
      obtain ⟨ha1, ha2⟩ := hU a (by simp)
      have ih2 := ih f c1 (fun p hp => hU p (List.mem_append_left _ hp))
        (by simp only [List.length_append, List.length_singleton] at hf; omega)
      rw [lastOf_concat]
      have hne : ¬ first = a := fun e => ha1 e.symm
      simp only [seek_number_back, is_first_match, hfirst, Option.some.injEq, beq_iff_eq, hne,
        if_false, ha2, ne_eq, not_true_eq_false, hadj.2]
      exact ih2

theorem chain_from_last (R : Nat → Nat → Prop) : ∀ (A : List Nat) (first : Nat) (B : List Nat),
    List.Chain' R (first :: (A ++ B)) → List.Chain' R (lastOf first A :: B)
  | [], _, _, h => h
  | a :: A, first, B, h => by
    have h2 : List.Chain' R (a :: (A ++ B)) := (List.chain'_cons.mp h).2
    exact chain_from_last R A a B h2

theorem lastOf_append : ∀ (A : List Nat) (first : Nat) (B : List Nat),
    lastOf first (A ++ B) = lastOf (lastOf first A) B
  | [], _, _ => rfl
  | a :: A, _, B => lastOf_append A a B

/-- The last of the numbered entries, or the first match when there is none,
is the first match or has a number; that number is the count of numbered
entries. -/
theorem last_numbered (h : List compl_T) (first : Nat) (A : List Nat)
    (hnot : first ∉ A)
    (hA : ∀ i, i < A.length → (deref h (A.getD i 0)).cp_number = (i : Int) + 1) :
    (lastOf first A = first ∨ (deref h (lastOf first A)).cp_number ≠ -1)
      ∧ (if lastOf first A = first then 0 else (deref h (lastOf first A)).cp_number)
        = (A.length : Int) := by
  by_cases hnil : A = []
  · subst hnil
    simp [lastOf]
  · obtain ⟨A1, a, rfl⟩ := exists_concat_of_ne_nil A hnil
    rw [lastOf_concat]
    have hne : a ≠ first := fun e => hnot (by rw [← e]; simp)
    have hnum := hA A1.length (by simp)
    have hget : (A1 ++ [a]).getD A1.length 0 = a := by simp [List.getD_eq_getElem?_getD]
    rw [hget] at hnum
    refine ⟨Or.inr ?_, ?_⟩
    · rw [hnum]; omega
    · rw [if_neg hne, hnum]
      simp

/-- **C19, amended.**  Going forward, on a closed ring whose first entry
has the number 0 and whose other entries are numbered 1..j for a prefix `A`
and are without a number (-1) after it (`B`), when the current match is the
first entry or one of the entries without a number,
`ins_compl_update_sequence_numbers` returns and leaves the i-th entry after
the first with `cp_number` = i for every i; it changes no record that had a
number, and nothing but `cp_number`. -/
theorem ins_compl_update_sequence_numbers_forward (st : State) (first : Nat)
    (A B : List Nat) (curr : Nat)
    (hc : IsCyclic st.heap first (A ++ B))
    (hfirst : st.compl_first_match = some first)
    (hdir : compl_dir_forward st = true)
    (h0 : (deref st.heap first).cp_number = 0)
    (hA : ∀ i, i < A.length → (deref st.heap (A.getD i 0)).cp_number = (i : Int) + 1)
    (hB : ∀ p ∈ B, (deref st.heap p).cp_number = -1)
    (hcurr : st.compl_curr_match = some curr)
    (hpos : curr = first ∨ curr ∈ B) :
    ∃ st1, ins_compl_update_sequence_numbers st = some st1
      ∧ (∀ i : Nat, i < (A ++ B).length →
          (deref st1.heap ((A ++ B).getD i 0)).cp_number = (i : Int) + 1)
      ∧ (deref st1.heap first).cp_number = 0
      ∧ (∀ p, (deref st.heap p).cp_number ≠ -1 → deref st1.heap p = deref st.heap p)
      ∧ (∀ p, ({ deref st1.heap p with cp_number := 0 } : compl_T)
          = { deref st.heap p with cp_number := 0 })
      ∧ st1 = { st with heap := st1.heap } := by
  obtain ⟨hseg, hprev, hnext⟩ := hc
  have hch := segment_chain hseg
  obtain ⟨hnd, hlt, -⟩ := hseg
  have hfn : first ∉ A ++ B := (List.nodup_cons.mp hnd).1
  have hfA : first ∉ A := fun h => hfn (List.mem_append_left _ h)
  have hfB : first ∉ B := fun h => hfn (List.mem_append_right _ h)
  have hndAB : (A ++ B).Nodup := (List.nodup_cons.mp hnd).2
  have hndB : B.Nodup := (List.nodup_append.mp hndAB).2.1
  have hdisj := (List.nodup_append.mp hndAB).2.2
  obtain ⟨hx, hnum⟩ := last_numbered st.heap first A hfA hA
  have hchx : List.Chain' (Adjacent st.heap) (lastOf first A :: B) :=
    chain_from_last _ A first B hch
  have hlast : lastOf first (A ++ B) = lastOf (lastOf first A) B := lastOf_append A first B
  have hwalk : WalkFrom st.heap first (lastOf first A) B :=
    walkFrom_of_chain st.heap first B (lastOf first A) hchx hfB
      (Or.inr (by rw [← hlast]; exact hnext))
  have hlen : B.length < st.heap.length + 1 := by
    have h1 : (first :: (A ++ B)).length ≤ st.heap.length :=
      segment_length_le ⟨hnd, hlt, (linked_iff_chain _ _).mpr hch⟩
    simp only [List.length_cons, List.length_append] at h1
    omega
  have hassign := assign_numbers_up_spec first B st.heap (lastOf first A) (A.length : Int)
    (st.heap.length + 1) hwalk hndB
    (fun p hp => hlt p (List.mem_cons_of_mem _ (List.mem_append_right _ hp))) hB
    (by rw [h0]; decide) hlen
  have hseek : seek_number_back st (st.heap.length + 1) (deref st.heap curr).cp_prev
      = some (some (lastOf first A), (A.length : Int)) := by
    rw [← hnum]
    rcases hpos with hp | hp
    · rw [hp, hprev, hlast]
      exact seek_number_back_spec st first _ hfirst hx B _ hchx
        (fun p hp => ⟨fun e => hfB (e ▸ hp), hB p hp⟩) hlen
    · obtain ⟨B1, B2, rfl⟩ := List.append_of_mem hp
      have hch2 : List.Chain' (Adjacent st.heap) ((lastOf first A :: B1) ++ (curr :: B2)) := by
        simpa using hchx
      rw [List.chain'_append] at hch2
      obtain ⟨c1, -, c3⟩ := hch2
      have hadj : Adjacent st.heap (lastOf (lastOf first A) B1) curr :=
        c3 _ (by rw [lastOf_getLast?]; rfl) curr (by simp)
      rw [hadj.2]
      exact seek_number_back_spec st first _ hfirst hx B1 _ c1
        (fun p hp1 => ⟨fun e => hfB (e ▸ List.mem_append_left _ hp1),
          hB p (List.mem_append_left _ hp1)⟩)
        (by simp only [List.length_append, List.length_cons] at hlen; omega)
  refine ⟨{ st with heap := number_entries st.heap B (A.length : Int) }, ?_, ?_, ?_, ?_, ?_, rfl⟩
  · unfold ins_compl_update_sequence_numbers
    simp only [hcurr, hdir, if_true, hseek, hassign]
  · intro i hi
    show (deref (number_entries st.heap B (A.length : Int)) ((A ++ B).getD i 0)).cp_number = _
    by_cases hiA : i < A.length
    · have hget : (A ++ B).getD i 0 = A.getD i 0 := by
        simp [List.getD_eq_getElem?_getD, List.getElem?_append_left hiA]
      have hmem : A.getD i 0 ∈ A := by
        rw [List.getD_eq_getElem _ _ hiA]
        exact List.getElem_mem _
      rw [hget, number_entries_not_mem _ _ _ _ (fun hb => hdisj hmem hb)]
      exact hA i hiA
    · have hiB : i - A.length < B.length := by
        simp only [List.length_append] at hi
        omega
      have hget : (A ++ B).getD i 0 = B.getD (i - A.length) 0 := by
        simp [List.getD_eq_getElem?_getD, List.getElem?_append_right (not_lt.mp hiA)]
      rw [hget, number_entries_get B st.heap _ _ hndB
        (fun p hp => hlt p (List.mem_cons_of_mem _ (List.mem_append_right _ hp))) hiB]
      have : ((i - A.length : Nat) : Int) = (i : Int) - (A.length : Int) := by omega
      rw [this]
      ring
  · show (deref (number_entries st.heap B (A.length : Int)) first).cp_number = 0
    rw [number_entries_not_mem _ _ _ _ hfB]
    exact h0
  · intro p hp
    show deref (number_entries st.heap B (A.length : Int)) p = _
    exact number_entries_not_mem _ _ _ _ (fun hb => hp (hB p hb))
  · intro p
    exact number_entries_frame B st.heap _ p

/-- **C19, as stated, fails.**  In the ring `numbered_ring 1` (the original text with
number 0, "one" with number 1, "two" without a number) the current match is
"one", which has a number; `ins_compl_update_sequence_numbers` then stops at
once and "two" stays without a number. -/
theorem ins_compl_update_sequence_numbers_skips :
    IsCyclic (numbered_ring 1).heap 0 [1, 2]
      ∧ compl_dir_forward (numbered_ring 1) = true
      ∧ (numbered_ring 1).heap.map (fun c => c.cp_number) = [0, 1, -1]
      ∧ (ins_compl_update_sequence_numbers (numbered_ring 1)).map
          (fun s => s.heap.map fun c => c.cp_number) = some [0, 1, -1] := by
  decide

theorem ins_compl_update_sequence_numbers_forward_witness :
    IsCyclic (numbered_ring 2).heap 0 ([1] ++ [2])
      ∧ ∃ st1, ins_compl_update_sequence_numbers (numbered_ring 2) = some st1
      ∧ (∀ i : Nat, i < ([1] ++ [2]).length →
          (deref st1.heap (([1] ++ [2]).getD i 0)).cp_number = (i : Int) + 1)
      ∧ (deref st1.heap 0).cp_number = 0
      ∧ (∀ p, (deref (numbered_ring 2).heap p).cp_number ≠ -1 → deref st1.heap p = deref (numbered_ring 2).heap p)
      ∧ (∀ p, ({ deref st1.heap p with cp_number := 0 } : compl_T)
          = { deref (numbered_ring 2).heap p with cp_number := 0 })
      ∧ st1 = { (numbered_ring 2) with heap := st1.heap } :=
  ⟨by decide,
    ins_compl_update_sequence_numbers_forward (numbered_ring 2) 0 [1] [2] 2 (by decide) rfl
      (by decide) (by decide) (by decide) (by decide) rfl (by decide)⟩

/-! ## Sorting the list -/

/-- Opening a ring at its first entry gives a NULL-terminated list. -/
theorem open_ring {h : List compl_T} {first : Nat} {rest : List Nat}
    (hc : IsCyclic h first rest) :
    IsLinear
      (assign (assign h (lastOf first rest) (set_next none)) first (set_prev none))
      first rest := by
  have hseg : Segment h (first :: rest) := hc.1
  have hch := segment_chain hseg
  obtain ⟨hnd, hlt, -⟩ := hseg
  have hflt : first < h.length := hlt _ (by simp)
  have hllt : lastOf first rest < h.length := hlt _ (lastOf_mem rest first)
  refine ⟨⟨hnd, ?_, ?_⟩, ?_, ?_⟩
  · intro a ha
    rw [length_assign, length_assign]
    exact hlt a ha
  · rw [linked_iff_chain]
    refine chain_transfer h _ _ hch ?_ ?_
    · intro x hx
      rw [next_assign_set_prev, next_assign_set_next]
      have : x ≠ lastOf first rest := fun e =>
        lastOf_not_mem_dropLast rest first hnd (e ▸ hx)
      simp [this]
    · intro y hy
      simp only [List.tail_cons] at hy
      rw [prev_assign_set_prev, prev_assign_set_next]
      have : y ≠ first := fun e => (List.nodup_cons.mp hnd).1 (e ▸ hy)
      simp [this]
  · rw [prev_assign_set_prev, length_assign]
    simp [hflt]
  · rw [next_assign_set_prev, next_assign_set_next]
    simp [hllt]

theorem ins_compl_make_linear_eq {st : State} {first : Nat} {rest : List Nat}
    (hfirst : st.compl_first_match = some first) (hc : IsCyclic st.heap first rest) :
    ins_compl_make_linear st
      = { st with
          heap := (assign (assign st.heap (lastOf first rest) (set_next none)) first
            (set_prev none)) } := by
  unfold ins_compl_make_linear
  simp only [hfirst, hc.2.1]

/-- The walk of `mergesort_list` over a NULL-terminated list meets its
entries. -/
theorem list_nodes_linear (h : List compl_T) :
    ∀ (tl : List Nat) (hd fuel : Nat), List.Chain' (Adjacent h) (hd :: tl) →
      (deref h (lastOf hd tl)).cp_next = none → tl.length + 1 < fuel →
      list_nodes h fuel (some hd) = some (hd :: tl)
  | [], hd, fuel + 2, _, hend, _ => by
    simp only [lastOf] at hend
    simp [list_nodes, hend]
  | b :: tl, hd, fuel + 1, hch, hend, hf => by
    rw [List.chain'_cons] at hch
    have ih := list_nodes_linear h tl b fuel hch.2 (by simpa [lastOf] using hend)
      (by simp only [List.length_cons] at hf; omega)
    simp only [list_nodes, hch.1.1, ih, Option.map_some']

/-- The loop of `sort_compl_match_list` that looks for the tail finds the last
entry of a NULL-terminated list. -/
theorem find_tail_linear (h : List compl_T) :
    ∀ (tl : List Nat) (hd fuel : Nat), List.Chain' (Adjacent h) (hd :: tl) →
      (deref h (lastOf hd tl)).cp_next = none → tl.length < fuel →
      find_tail h fuel hd = some (lastOf hd tl)
  | [], hd, fuel + 1, _, hend, _ => by
    simp only [lastOf] at hend ⊢
    simp [find_tail, hend]
  | b :: tl, hd, fuel + 1, hch, hend, hf => by
    rw [List.chain'_cons] at hch
    have ih := find_tail_linear h tl b fuel hch.2 (by simpa [lastOf] using hend)
      (by simp only [List.length_cons] at hf; omega)
    simp only [find_tail, hch.1.1, ih, lastOf]

theorem length_link_nodes : ∀ (S : List Nat) (h : List compl_T) (prev : Option Nat),
    (link_nodes h prev S).length = h.length
  | [], _, _ => rfl
  | a :: t, h, prev => by
    rw [link_nodes, length_link_nodes t, length_assign]

theorem link_nodes_not_mem : ∀ (S : List Nat) (h : List compl_T) (prev : Option Nat) (p : Nat),
    p ∉ S → deref (link_nodes h prev S) p = deref h p
  | [], _, _, _, _ => rfl
  | a :: t, h, prev, p, hp => by
    simp only [List.mem_cons, not_or] at hp
    rw [link_nodes, link_nodes_not_mem t _ _ p hp.2, deref_assign_ne _ _ _ _ hp.1]

/-- Linking changes nothing but the links. -/
theorem link_nodes_sameData : ∀ (S : List Nat) (h : List compl_T) (prev : Option Nat) (p : Nat),
    SameData (deref (link_nodes h prev S) p) (deref h p)
  | [], _, _, _ => rfl
  | a :: t, h, prev, p => by
    rw [link_nodes]
    refine (link_nodes_sameData t _ (some a) p).trans ?_
    rw [deref_assign]
    split
    · rename_i hc
      rw [hc.1]
    · rfl

/-- The entries that `mergesort_list` has linked form a NULL-terminated list
in the order given. -/
theorem link_nodes_linear : ∀ (tl : List Nat) (hd : Nat) (h : List compl_T) (prev : Option Nat),
    (hd :: tl).Nodup → (∀ p ∈ hd :: tl, p < h.length) →
    List.Chain' (Adjacent (link_nodes h prev (hd :: tl))) (hd :: tl)
      ∧ (deref (link_nodes h prev (hd :: tl)) hd).cp_prev = prev
      ∧ (deref (link_nodes h prev (hd :: tl)) (lastOf hd tl)).cp_next = none
  | [], hd, h, prev, _, hlt => by
    have e : deref (link_nodes h prev [hd]) hd
        = { deref h hd with cp_prev := prev, cp_next := none } := by
      simp only [link_nodes, List.head?_nil]
      rw [deref_assign_same _ _ _ (hlt hd (by simp))]
    refine ⟨List.chain'_singleton _, by rw [e], ?_⟩
    simp only [lastOf]
    rw [e]
  | b :: tl, hd, h, prev, hnd, hlt => by
    have hnot : hd ∉ b :: tl := (List.nodup_cons.mp hnd).1
    obtain ⟨i1, i2, i3⟩ := link_nodes_linear tl b
      (assign h hd fun c => { c with cp_prev := prev, cp_next := (b :: tl).head? }) (some hd)
      (List.nodup_cons.mp hnd).2
      (fun p hp => by rw [length_assign]; exact hlt p (List.mem_cons_of_mem _ hp))
    have e : deref (link_nodes h prev (hd :: b :: tl)) hd
        = { deref h hd with cp_prev := prev, cp_next := some b } := by
      rw [link_nodes, link_nodes_not_mem _ _ _ hd hnot, deref_assign_same _ _ _ (hlt hd (by simp))]
      rfl
    have e2 : link_nodes h prev (hd :: b :: tl)
        = link_nodes (assign h hd fun c => { c with cp_prev := prev, cp_next := (b :: tl).head? })
            (some hd) (b :: tl) := rfl
    refine ⟨?_, by rw [e], ?_⟩
    · rw [List.chain'_cons]
      refine ⟨⟨by rw [e], ?_⟩, ?_⟩
      · rw [e2]; exact i2
      · rw [e2]; exact i1
    · rw [e2]
      exact i3

theorem sort_forward_eq (order : List compl_T → List Nat → List Nat) (st : State)
    (first n1 hd : Nat) (h1 h3 : List compl_T)
    (hfirst : st.compl_first_match = some first)
    (hne : (deref st.heap first).cp_next ≠ some first)
    (hfwd : compl_shows_dir_forward st = true)
    (hml : ins_compl_make_linear st = { st with heap := h1 })
    (hn1 : (deref h1 first).cp_next = some n1)
    (hms : mergesort_list order (assign h1 n1 (set_prev none)) (some n1) = some (h3, some hd)) :
    sort_compl_match_list order st
      = (ins_compl_make_cyclic { st with
          heap := (assign (assign h3 first (set_next (some hd))) hd (set_prev (some first))) }).map
          fun r => r.2 := by
  have hfwd1 : compl_shows_dir_forward { st with heap := h1 } = true := hfwd
  have hn2 : (deref (assign h1 n1 (set_prev none)) first).cp_next = some n1 := by
    rw [next_assign_set_prev]; exact hn1
  unfold sort_compl_match_list
  rw [hfirst]
  simp only []
  rw [if_neg hne]
  simp only [hml, hfwd1, if_true, hn1, hn2, hms]
  rw [hfirst]

theorem sort_backward_eq (order : List compl_T → List Nat → List Nat) (st : State)
    (first comp cprev hd tail : Nat) (h1 h3 : List compl_T)
    (hfirst : st.compl_first_match = some first)
    (hne : (deref st.heap first).cp_next ≠ some first)
    (hbwd : compl_shows_dir_forward st = false)
    (hcomp : (deref st.heap first).cp_prev = some comp)
    (hml : ins_compl_make_linear st = { st with heap := h1 })
    (hcprev : (deref h1 comp).cp_prev = some cprev)
    (hms : mergesort_list order (assign h1 cprev (set_next none)) (some first)
      = some (h3, some hd))
    (htail : find_tail h3 (h3.length + 1) hd = some tail) :
    sort_compl_match_list order st
      = (ins_compl_make_cyclic { st with
          heap := (assign (assign h3 tail (set_next (some comp))) comp (set_prev (some tail)))
          compl_first_match := some hd }).map fun r => r.2 := by
  have hbwd1 : compl_shows_dir_forward { st with heap := h1 } = false := hbwd
  unfold sort_compl_match_list
  rw [hfirst]
  simp only []
  rw [if_neg hne]
  simp only [hml, hbwd1, Bool.false_eq_true, if_false, hcomp, hcprev, hms, htail]

/-- What `mergesort_list` makes of a NULL-terminated list: the NULL-terminated
list of the same entries in the order that `order` gives. -/
theorem mergesort_list_linear (order : List compl_T → List Nat → List Nat)
    (hperm : ∀ h l, (order h l).Perm l) (h : List compl_T) (hd0 : Nat) (tl0 : List Nat)
    (hch : List.Chain' (Adjacent h) (hd0 :: tl0))
    (hend : (deref h (lastOf hd0 tl0)).cp_next = none)
    (hnd : (hd0 :: tl0).Nodup) (hlt : ∀ p ∈ hd0 :: tl0, p < h.length) :
    ∃ hd tl h3, hd :: tl = order h (hd0 :: tl0)
      ∧ mergesort_list order h (some hd0) = some (h3, some hd)
      ∧ h3.length = h.length
      ∧ List.Chain' (Adjacent h3) (hd :: tl)
      ∧ (deref h3 hd).cp_prev = none
      ∧ (deref h3 (lastOf hd tl)).cp_next = none
      ∧ (∀ p, p ∉ hd0 :: tl0 → deref h3 p = deref h p)
      ∧ (∀ p, SameData (deref h3 p) (deref h p))
      ∧ (hd :: tl).Perm (hd0 :: tl0) := by
  have hlen : (hd0 :: tl0).length ≤ h.length :=
    segment_length_le ⟨hnd, hlt, (linked_iff_chain _ _).mpr hch⟩
  have hnodes := list_nodes_linear h tl0 hd0 (h.length + 1) hch hend (by
    simp only [List.length_cons] at hlen; omega)
  have hp := hperm h (hd0 :: tl0)
  cases hS : order h (hd0 :: tl0) with
  | nil =>
    rw [hS] at hp
    exact absurd hp.symm.eq_nil (List.cons_ne_nil _ _)
  | cons hd tl =>
    rw [hS] at hp
    have hnd2 : (hd :: tl).Nodup := hp.nodup_iff.mpr hnd
    have hlt2 : ∀ p ∈ hd :: tl, p < h.length := fun p hp1 => hlt p (hp.subset hp1)
    obtain ⟨l1, l2, l3⟩ := link_nodes_linear tl hd h none hnd2 hlt2
    refine ⟨hd, tl, link_nodes h none (hd :: tl), rfl, ?_, length_link_nodes _ _ _, l1, l2, l3,
      ?_, fun p => link_nodes_sameData _ _ _ p, hp⟩
    · unfold mergesort_list
      simp only [hnodes, hS, List.head?_cons]
    · intro p hpn
      exact link_nodes_not_mem _ _ _ p (fun hm => hpn (hp.subset hm))

theorem sameData_trans {a b c : compl_T} (h1 : SameData a b) (h2 : SameData b c) :
    SameData a c := Eq.trans h1 h2

/-- `sort_compl_match_list` in forward direction: the first match stays where
it is and the entries after it are put in the order of the sort. -/
theorem sort_forward (order : List compl_T → List Nat → List Nat)
    (hperm : ∀ h l, (order h l).Perm l) (st : State) (first n1 : Nat) (rest1 : List Nat)
    (hwf : WellFormed st (first :: n1 :: rest1))
    (hc : IsCyclic st.heap first (n1 :: rest1))
    (hfwd : compl_shows_dir_forward st = true) :
    ∃ st1 h2, sort_compl_match_list order st = some st1
      ∧ (∀ p, SameData (deref h2 p) (deref st.heap p))
      ∧ st1.compl_first_match = some first
      ∧ st1.compl_curr_match = st.compl_curr_match
      ∧ IsCyclic st1.heap first (order h2 (n1 :: rest1))
      ∧ ∀ p, SameData (deref st1.heap p) (deref st.heap p) := by
  have hfirst : st.compl_first_match = some first := hwf.1
  obtain ⟨c, hcm, hcurr⟩ := hwf.2.2
  have hlin := open_ring hc
  have hml := ins_compl_make_linear_eq hfirst hc
  generalize hh1 : assign (assign st.heap (lastOf first (n1 :: rest1)) (set_next none)) first
    (set_prev none) = h1 at hlin hml
  have hlen1 : h1.length = st.heap.length := by rw [← hh1, length_assign, length_assign]
  have hsd1 : ∀ p, SameData (deref h1 p) (deref st.heap p) := by
    intro p
    rw [← hh1, sameData_assign_set_prev, sameData_assign_set_next]
    rfl
  obtain ⟨⟨hnd, hlt, hlk⟩, hp1, hn1e⟩ := hlin
  have hch1 : List.Chain' (Adjacent h1) (first :: n1 :: rest1) := (linked_iff_chain _ _).mp hlk
  have hadj : Adjacent h1 first n1 := (List.chain'_cons.mp hch1).1
  have hfn : first ∉ n1 :: rest1 := (List.nodup_cons.mp hnd).1
  have hnd1 : (n1 :: rest1).Nodup := (List.nodup_cons.mp hnd).2
  have hn1f : n1 ≠ first := fun e => hfn (by rw [← e]; simp)
  have hne : (deref st.heap first).cp_next ≠ some first := by
    have := (List.chain'_cons.mp (segment_chain hc.1)).1.1
    rw [this]
    intro e
    exact hn1f (Option.some.inj e)
  -- the list after the first match, cut off
  have hch2 : List.Chain' (Adjacent (assign h1 n1 (set_prev none))) (n1 :: rest1) := by
    refine chain_transfer h1 _ _ (List.chain'_cons.mp hch1).2 ?_ ?_
    · intro x _
      rw [next_assign_set_prev]
    · intro y hy
      simp only [List.tail_cons] at hy
      rw [prev_assign_set_prev]
      have : y ≠ n1 := fun e => (List.nodup_cons.mp hnd1).1 (e ▸ hy)
      simp [this]
  have hend2 : (deref (assign h1 n1 (set_prev none)) (lastOf n1 rest1)).cp_next = none := by
    rw [next_assign_set_prev]
    exact hn1e
  obtain ⟨hd, tl, h3, hS, hms, hlen3, hch3, hprev3, hend3, hsame3, hsd3, hperm3⟩ :=
    mergesort_list_linear order hperm (assign h1 n1 (set_prev none)) n1 rest1 hch2 hend2 hnd1
      (fun p hp => by rw [length_assign]; exact hlt p (List.mem_cons_of_mem _ hp))
  have hlen3b : h3.length = h1.length := by rw [hlen3, length_assign]
  have hfS : first ∉ hd :: tl := fun hm => hfn (hperm3.subset hm)
  have hndS : (hd :: tl).Nodup := hperm3.nodup_iff.mpr hnd1
  have hhdf : hd ≠ first := fun e => hfS (by rw [← e]; simp)
  have hf3 : deref h3 first = deref h1 first := by
    rw [hsame3 first hfn, deref_assign_ne _ _ _ _ (fun e => hn1f e.symm)]
  have hflt : first < h3.length := by rw [hlen3b]; exact hlt first (by simp)
  have hhdlt : hd < h3.length := by
    rw [hlen3b]; exact hlt hd (List.mem_cons_of_mem _ (hperm3.subset (by simp)))
  generalize hh5 : assign (assign h3 first (set_next (some hd))) hd (set_prev (some first)) = h5
  have hlen5 : h5.length = h1.length := by rw [← hh5, length_assign, length_assign, hlen3b]
  have hlin5 : IsLinear h5 first (hd :: tl) := by
    refine ⟨⟨List.nodup_cons.mpr ⟨hfS, hndS⟩, ?_, ?_⟩, ?_, ?_⟩
    · intro a ha
      rw [hlen5]
      rcases List.mem_cons.mp ha with e | hm
      · rw [e]; exact hlt first (by simp)
      · exact hlt a (List.mem_cons_of_mem _ (hperm3.subset hm))
    · rw [linked_iff_chain, List.chain'_cons]
      refine ⟨⟨?_, ?_⟩, ?_⟩
      · rw [← hh5, next_assign_set_prev, next_assign_set_next]
        simp [hflt]
      · rw [← hh5, prev_assign_set_prev, length_assign]
        simp [hhdlt]
      · refine chain_transfer h3 _ _ hch3 ?_ ?_
        · intro x hx
          rw [← hh5, next_assign_set_prev, next_assign_set_next]
          have : x ≠ first := fun e => hfS (e ▸ List.mem_of_mem_dropLast hx)
          simp [this]
        · intro y hy
          simp only [List.tail_cons] at hy
          rw [← hh5, prev_assign_set_prev, prev_assign_set_next]
          have : y ≠ hd := fun e => (List.nodup_cons.mp hndS).1 (e ▸ hy)
          simp [this]
    · rw [← hh5, prev_assign_set_prev, prev_assign_set_next]
      have : ¬ first = hd := fun e => hhdf e.symm
      simp only [this, false_and, if_false]
      rw [hf3]
      exact hp1
    · show (deref h5 (lastOf hd tl)).cp_next = none
      rw [← hh5, next_assign_set_prev, next_assign_set_next]
      have : lastOf hd tl ≠ first := fun e => hfS (e ▸ lastOf_mem tl hd)
      simp only [this, false_and, if_false]
      exact hend3
  have hwf5 : WellFormed { st with heap := h5 } (first :: hd :: tl) := by
    refine ⟨hfirst, Or.inl hlin5, c, ?_, hcurr⟩
    rcases List.mem_cons.mp hcm with e | hm
    · rw [e]; simp
    · exact List.mem_cons_of_mem _ (hperm3.symm.subset hm)
  have hcyc := ins_compl_make_cyclic_eq hwf5
  have hring := close_ring (Or.inl hlin5 : IsLinear h5 first (hd :: tl) ∨ IsCyclic h5 first (hd :: tl))
  have hsort := sort_forward_eq order st first n1 hd h1 h3 hfirst hne hfwd hml hadj.1 hms
  rw [hh5, hcyc] at hsort
  refine ⟨_, assign h1 n1 (set_prev none), hsort, ?_, hfirst, rfl, ?_, ?_⟩
  · intro p
    rw [sameData_assign_set_prev]
    exact hsd1 p
  · rw [← hS]
    exact hring
  · intro p
    show SameData (deref (assign (assign h5 (lastOf first (hd :: tl)) (set_next (some first)))
      first (set_prev (some (lastOf first (hd :: tl))))) p) (deref st.heap p)
    rw [sameData_assign_set_prev, sameData_assign_set_next, ← hh5, sameData_assign_set_prev,
      sameData_assign_set_next]
    refine sameData_trans (hsd3 p) ?_
    rw [sameData_assign_set_prev]
    exact hsd1 p

/-- `sort_compl_match_list` in backward direction: the last entry stays where
it is, the entries before it are put in the order of the sort, and the first
of them becomes the first match. -/
theorem sort_backward (order : List compl_T → List Nat → List Nat)
    (hperm : ∀ h l, (order h l).Perm l) (st : State) (first : Nat) (rest : List Nat)
    (hrest : rest ≠ [])
    (hwf : WellFormed st (first :: rest))
    (hc : IsCyclic st.heap first rest)
    (hbwd : compl_shows_dir_forward st = false) :
    ∃ st1 h2 hd tl, sort_compl_match_list order st = some st1
      ∧ (∀ p, SameData (deref h2 p) (deref st.heap p))
      ∧ hd :: tl = order h2 (first :: rest.dropLast)
      ∧ st1.compl_first_match = some hd
      ∧ st1.compl_curr_match = st.compl_curr_match
      ∧ IsCyclic st1.heap hd (tl ++ [lastOf first rest])
      ∧ ∀ p, SameData (deref st1.heap p) (deref st.heap p) := by
  obtain ⟨init, comp, rfl⟩ := exists_concat_of_ne_nil rest hrest
  have hfirst : st.compl_first_match = some first := hwf.1
  obtain ⟨c, hcm, hcurr⟩ := hwf.2.2
  have hlin := open_ring hc
  have hml := ins_compl_make_linear_eq hfirst hc
  have hlast : lastOf first (init ++ [comp]) = comp := lastOf_concat init first comp
  have hcomp : (deref st.heap first).cp_prev = some comp := by rw [hc.2.1, hlast]
  generalize hh1 : assign (assign st.heap (lastOf first (init ++ [comp])) (set_next none)) first
    (set_prev none) = h1 at hlin hml
  have hlen1 : h1.length = st.heap.length := by rw [← hh1, length_assign, length_assign]
  have hsd1 : ∀ p, SameData (deref h1 p) (deref st.heap p) := by
    intro p
    rw [← hh1, sameData_assign_set_prev, sameData_assign_set_next]
    rfl
  obtain ⟨⟨hnd, hlt, hlk⟩, hp1, hn1e⟩ := hlin
  rw [hlast] at hn1e
  have hch1 : List.Chain' (Adjacent h1) ((first :: init) ++ [comp]) := by
    have := (linked_iff_chain _ _).mp hlk
    simpa using this
  have hnd0 : ((first :: init) ++ [comp]).Nodup := by simpa using hnd
  have hndI : (first :: init).Nodup := (List.nodup_append.mp hnd0).1
  have hcI : comp ∉ first :: init := fun hm =>
    (List.nodup_append.mp hnd0).2.2 hm (by simp)
  rw [List.chain'_append] at hch1
  obtain ⟨hchI, -, hlink⟩ := hch1
  have hadj : Adjacent h1 (lastOf first init) comp :=
    hlink _ (by rw [lastOf_getLast?]; rfl) comp (by simp)
  have hne : (deref st.heap first).cp_next ≠ some first := by
    have hch0 := segment_chain hc.1
    cases init with
    | nil =>
      have := (List.chain'_cons.mp hch0).1.1
      rw [this]
      intro e
      exact hcI (by rw [Option.some.inj e]; simp)
    | cons a init1 =>
      have := (List.chain'_cons.mp hch0).1.1
      rw [this]
      intro e
      have hn := (List.nodup_cons.mp hndI).1
      exact hn (by rw [Option.some.inj e]; simp)
  have hcplt : lastOf first init < h1.length := by
    rw [hlen1]
    exact hc.1.2.1 _ (by
      have := lastOf_mem init first
      rcases List.mem_cons.mp this with e | hm
      · rw [e]; simp
      · exact List.mem_cons_of_mem _ (List.mem_append_left _ hm))
  have hch2 : List.Chain' (Adjacent (assign h1 (lastOf first init) (set_next none)))
      (first :: init) := by
    refine chain_transfer h1 _ _ hchI ?_ ?_
    · intro x hx
      rw [next_assign_set_next]
      have : x ≠ lastOf first init := fun e =>
        lastOf_not_mem_dropLast init first hndI (e ▸ hx)
      simp [this]
    · intro y _
      rw [prev_assign_set_next]
  have hend2 : (deref (assign h1 (lastOf first init) (set_next none))
      (lastOf first init)).cp_next = none := by
    rw [next_assign_set_next]
    simp [hcplt]
  obtain ⟨hd, tl, h3, hS, hms, hlen3, hch3, hprev3, hend3, hsame3, hsd3, hperm3⟩ :=
    mergesort_list_linear order hperm (assign h1 (lastOf first init) (set_next none)) first init
      hch2 hend2 hndI
      (fun p hp => by
        rw [length_assign]
        exact hlt p (by
          rcases List.mem_cons.mp hp with e | hm
          · rw [e]; simp
          · exact List.mem_cons_of_mem _ (List.mem_append_left _ hm)))
  have hlen3b : h3.length = h1.length := by rw [hlen3, length_assign]
  have hcS : comp ∉ hd :: tl := fun hm => hcI (hperm3.subset hm)
  have hndS : (hd :: tl).Nodup := hperm3.nodup_iff.mpr hndI
  have hcne : comp ≠ lastOf first init := fun e => hcI (e ▸ lastOf_mem init first)
  have hc3 : deref h3 comp = deref h1 comp := by
    rw [hsame3 comp hcI, deref_assign_ne _ _ _ _ hcne]
  have hcomplt : comp < h3.length := by
    rw [hlen3b]; exact hlt comp (by simp)
  have hSlt : ∀ p ∈ hd :: tl, p < h3.length := by
    intro p hp
    rw [hlen3b]
    have := hperm3.subset hp
    exact hlt p (by
      rcases List.mem_cons.mp this with e | hm
      · rw [e]; simp
      · exact List.mem_cons_of_mem _ (List.mem_append_left _ hm))
  have htlt : lastOf hd tl < h3.length := hSlt _ (lastOf_mem tl hd)
  have htne : lastOf hd tl ≠ comp := fun e => hcS (e ▸ lastOf_mem tl hd)
  have hSlen : (hd :: tl).length ≤ h3.length :=
    segment_length_le ⟨hndS, hSlt, (linked_iff_chain _ _).mpr hch3⟩
  have htail := find_tail_linear h3 tl hd (h3.length + 1) hch3 hend3 (by
    simp only [List.length_cons] at hSlen; omega)
  generalize hh5 : assign (assign h3 (lastOf hd tl) (set_next (some comp))) comp
    (set_prev (some (lastOf hd tl))) = h5
  have hlen5 : h5.length = h3.length := by rw [← hh5, length_assign, length_assign]
  have hlin5 : IsLinear h5 hd (tl ++ [comp]) := by
    have hnd5 : ((hd :: tl) ++ [comp]).Nodup :=
      List.Nodup.append hndS (List.nodup_singleton _) (by
        intro a ha ha2
        simp only [List.mem_singleton] at ha2
        exact hcS (ha2 ▸ ha))
    refine ⟨⟨by simpa using hnd5, ?_, ?_⟩, ?_, ?_⟩
    · intro a ha
      rw [hlen5]
      have ha2 : a ∈ (hd :: tl) ++ [comp] := by simpa using ha
      rcases List.mem_append.mp ha2 with hm | hm
      · exact hSlt a hm
      · simp only [List.mem_singleton] at hm
        rw [hm]; exact hcomplt
    · rw [linked_iff_chain]
      have : List.Chain' (Adjacent h5) ((hd :: tl) ++ [comp]) := by
        rw [List.chain'_append]
        refine ⟨?_, List.chain'_singleton _, ?_⟩
        · refine chain_transfer h3 _ _ hch3 ?_ ?_
          · intro x hx
            rw [← hh5, next_assign_set_prev, next_assign_set_next]
            have : x ≠ lastOf hd tl := fun e => lastOf_not_mem_dropLast tl hd hndS (e ▸ hx)
            simp [this]
          · intro y hy
            simp only [List.tail_cons] at hy
            rw [← hh5, prev_assign_set_prev, prev_assign_set_next]
            have : y ≠ comp := fun e => hcS (e ▸ List.mem_cons_of_mem _ hy)
            simp [this]
        · intro x hx y hy
          rw [lastOf_getLast?] at hx
          simp only [Option.mem_def, Option.some.injEq, List.head?_cons] at hx hy
          subst hx
          subst hy
          refine ⟨?_, ?_⟩
          · rw [← hh5, next_assign_set_prev, next_assign_set_next]
            simp [htlt]
          · rw [← hh5, prev_assign_set_prev, length_assign]
            simp [hcomplt]
      simpa using this
    · rw [← hh5, prev_assign_set_prev, prev_assign_set_next]
      have : hd ≠ comp := fun e => hcS (by rw [← e]; simp)
      simp only [this, false_and, if_false]
      exact hprev3
    · rw [lastOf_concat, ← hh5, next_assign_set_prev, next_assign_set_next]
      have : ¬ comp = lastOf hd tl := fun e => htne e.symm
      simp only [this, false_and, if_false]
      rw [hc3]
      exact hn1e
  have hwf5 : WellFormed { st with heap := h5, compl_first_match := some hd }
      (hd :: (tl ++ [comp])) := by
    refine ⟨rfl, Or.inl hlin5, c, ?_, hcurr⟩
    have hcm2 : c ∈ (first :: init) ++ [comp] := by simpa using hcm
    have : c ∈ (hd :: tl) ++ [comp] := by
      rcases List.mem_append.mp hcm2 with hm | hm
      · exact List.mem_append_left _ (hperm3.symm.subset hm)
      · exact List.mem_append_right _ hm
    simpa using this
  have hcyc := ins_compl_make_cyclic_eq hwf5
  have hring := close_ring
    (Or.inl hlin5 : IsLinear h5 hd (tl ++ [comp]) ∨ IsCyclic h5 hd (tl ++ [comp]))
  have hsort := sort_backward_eq order st first comp (lastOf first init) hd (lastOf hd tl) h1 h3
    hfirst hne hbwd hcomp hml hadj.2 hms htail
  rw [hh5, hcyc] at hsort
  refine ⟨_, assign h1 (lastOf first init) (set_next none), hd, tl, hsort, ?_, ?_, rfl, rfl,
    ?_, ?_⟩
  · intro p
    rw [sameData_assign_set_next]
    exact hsd1 p
  · rw [List.dropLast_concat]
    exact hS
  · rw [hlast]
    exact hring
  · intro p
    show SameData (deref (assign (assign h5 (lastOf hd (tl ++ [comp])) (set_next (some hd)))
      hd (set_prev (some (lastOf hd (tl ++ [comp]))))) p) (deref st.heap p)
    rw [sameData_assign_set_prev, sameData_assign_set_next, ← hh5, sameData_assign_set_prev,
      sameData_assign_set_next]
    refine sameData_trans (hsd3 p) ?_
    rw [sameData_assign_set_next]
    exact hsd1 p

/-- **C20, amended.**  For every closed ring with at least two entries
and every order that `mergesort_list` may give (a permutation of the entries
it is given), `sort_compl_match_list` returns and leaves a closed ring of the
same entries, their data untouched.  The entry that is kept out of the sort
keeps its place: shown forward it is the first match, which stays first, the
entries after it being sorted; shown backward it is the last entry
(`compl_first_match->cp_prev`), which stays last, the entries before it being
sorted and the first of them becoming the first match.  `compl_curr_match`
is not changed and its entry is sorted with the others. -/
theorem sort_compl_match_list_pins_anchor (order : List compl_T → List Nat → List Nat)
    (hperm : ∀ h l, (order h l).Perm l) (st : State) (first : Nat) (rest : List Nat)
    (hrest : rest ≠ [])
    (hwf : WellFormed st (first :: rest))
    (hc : IsCyclic st.heap first rest) :
    (compl_shows_dir_forward st = true →
        ∃ st1 h2, sort_compl_match_list order st = some st1
          ∧ (∀ p, SameData (deref h2 p) (deref st.heap p))
          ∧ st1.compl_first_match = some first
          ∧ st1.compl_curr_match = st.compl_curr_match
          ∧ IsCyclic st1.heap first (order h2 rest)
          ∧ (order h2 rest).Perm rest
          ∧ ∀ p, SameData (deref st1.heap p) (deref st.heap p))
      ∧ (compl_shows_dir_forward st = false →
        ∃ st1 h2 hd tl, sort_compl_match_list order st = some st1
          ∧ (∀ p, SameData (deref h2 p) (deref st.heap p))
          ∧ hd :: tl = order h2 (first :: rest.dropLast)
          ∧ st1.compl_first_match = some hd
          ∧ st1.compl_curr_match = st.compl_curr_match
          ∧ IsCyclic st1.heap hd (tl ++ [lastOf first rest])
          ∧ (hd :: tl).Perm (first :: rest.dropLast)
          ∧ ∀ p, SameData (deref st1.heap p) (deref st.heap p)) := by
  refine ⟨fun hfwd => ?_, fun hbwd => ?_⟩
  · cases rest with
    | nil => exact absurd rfl hrest
    | cons n1 rest1 =>
      obtain ⟨st1, h2, e1, e2, e3, e4, e5, e6⟩ :=
        sort_forward order hperm st first n1 rest1 hwf hc hfwd
      exact ⟨st1, h2, e1, e2, e3, e4, e5, hperm _ _, e6⟩
  · obtain ⟨st1, h2, hd, tl, e1, e2, e3, e4, e5, e6, e7⟩ :=
      sort_backward order hperm st first rest hrest hwf hc hbwd
    exact ⟨st1, h2, hd, tl, e1, e2, e3, e4, e5, e6, by rw [e3]; exact hperm _ _, e7⟩

/-- **C20, as stated, fails.**  In the ring `scored_ring`, shown forward, the current
match "lo" is the entry after the first match; after `sort_compl_match_list`
by descending score the entry after the first match is "hi" and "lo", still
the current match, is the second entry after it. -/
theorem sort_compl_match_list_moves_current :
    IsCyclic scored_ring.heap 0 [1, 2]
      ∧ compl_shows_dir_forward scored_ring = true
      ∧ scored_ring.compl_curr_match = some 1
      ∧ follow_next scored_ring.heap 1 scored_ring.compl_first_match = some 1
      ∧ (sort_compl_match_list by_score scored_ring).map
          (fun s => (s.compl_first_match, s.compl_curr_match,
            follow_next s.heap 1 s.compl_first_match,
            follow_next s.heap 2 s.compl_first_match))
        = some (some 0, some 1, some 2, some 1) := by
  decide

theorem sort_compl_match_list_pins_anchor_witness :
    WellFormed scored_ring [0, 1, 2] ∧ IsCyclic scored_ring.heap 0 [1, 2]
      ∧ (∃ st1 h2, sort_compl_match_list by_score scored_ring = some st1
          ∧ (∀ p, SameData (deref h2 p) (deref scored_ring.heap p))
          ∧ st1.compl_first_match = some 0
          ∧ st1.compl_curr_match = scored_ring.compl_curr_match
          ∧ IsCyclic st1.heap 0 (by_score h2 [1, 2])
          ∧ (by_score h2 [1, 2]).Perm [1, 2]
          ∧ ∀ p, SameData (deref st1.heap p) (deref scored_ring.heap p)) :=
  ⟨by decide, by decide,
    (sort_compl_match_list_pins_anchor by_score (fun _ l => List.perm_insertionSort _ l)
      scored_ring 0 [1, 2] (by decide) (by decide) (by decide)).1 (by decide)⟩

theorem src_bytes_add (src : List Nat) (pos a b : Nat) :
    src_bytes src pos (a + b) = src_bytes src pos a ++ src_bytes src (pos + a) b := by
  unfold src_bytes
  rw [List.range_add, List.map_append, List.map_map]
  congr 1
  apply List.map_congr_left
  intro i _
  simp [Nat.add_assoc]

theorem src_bytes_one (src : List Nat) (pos : Nat) :
    src_bytes src pos 1 = [byteAt src pos] := by
  simp [src_bytes, List.range_succ]

theorem takeWhile_nul_length (A : List Nat) :
    ((A ++ [0]).takeWhile (· ≠ 0)).length ≤ A.length := by
  induction A with
  | nil => simp
  | cons a A ih =>
    by_cases ha : a = 0
    · simp [List.takeWhile_cons, ha]
    · simp only [List.cons_append, List.takeWhile_cons, ne_eq, ha, not_false_eq_true,
        decide_True, if_true, List.length_cons]
      simp only [ne_eq] at ih
      omega

/-- The loop of `quote_meta` writes the same bytes whether or not it counts
only: while the counter cannot wrap, it returns `m + q` and writes the `len`
source bytes with `q` backslashes put in between. -/
theorem quote_meta_loop_spec (E : Ext) (st : State) (magic : Bool) (src : List Nat) :
    ∀ (fuel pos : Nat) (len : Int) (m : Nat) (d : List Nat),
      0 ≤ len → len < fuel → m + len < 2 ^ 32 →
      ∃ (q : Nat) (w : List Nat),
        quote_meta_loop E st magic src fuel pos len m (some d) = some (m + q, some (d ++ w))
          ∧ quote_meta_loop E st magic src fuel pos len m none = some (m + q, none)
          ∧ (w.length : Int) = len + q ∧ (q : Int) ≤ len
          ∧ (src_bytes src pos len.toNat).Sublist w
          ∧ w.count 92 = q + (src_bytes src pos len.toNat).count 92 := by
  intro fuel
  induction fuel with
  | zero => intro pos len m d h0 h1; exact absurd h1 (by simp; omega)
  | succ fuel ih =>
    intro pos len m d h0 h1 hm
    unfold quote_meta_loop
    simp only []
    by_cases hl : len - 1 < 0
    · have hz : len = 0 := by omega
      subst hz
      refine ⟨0, [], ?_, ?_, by simp, by simp, by simp [src_bytes], by simp [src_bytes]⟩
      · rw [if_pos hl]; simp
      · rw [if_pos hl]; simp
    · rw [if_neg hl, if_neg hl]
      have hlen : len.toNat = 1 + (len - 1).toNat := by omega
      by_cases hmb : 0 < (E.utfc_ptr2len (src.drop pos) : Int) - 1
          ∧ (E.utfc_ptr2len (src.drop pos) : Int) - 1 ≤ len - 1
      · rw [if_pos hmb, if_pos hmb]
        obtain ⟨k, hk⟩ : ∃ k : Nat, (E.utfc_ptr2len (src.drop pos) : Int) - 1 = k :=
          ⟨((E.utfc_ptr2len (src.drop pos) : Int) - 1).toNat, by omega⟩
        rw [hk] at hmb ⊢
        have hsplit : len.toNat = 1 + (k + (len - 1 - k).toNat) := by omega
        by_cases hq : quote_meta_quotes st magic (byteAt src pos) = true
        · simp only [hq, if_true, Option.map_some', Option.map_none', Int.toNat_ofNat]
          have hm1 : (m + 1) % 2 ^ 32 = m + 1 := Nat.mod_eq_of_lt (by omega)
          rw [hm1]
          obtain ⟨q, w, e1, e2, e3, e4, e5, e6⟩ := ih (pos + k + 1) (len - 1 - k) (m + 1)
            (d ++ [92] ++ [byteAt src pos]
              ++ List.map (fun i => byteAt src (pos + 1 + i)) (List.range k))
            (by omega) (by omega) (by omega)
          refine ⟨1 + q, [92] ++ [byteAt src pos] ++ src_bytes src (pos + 1) k ++ w, ?_, ?_, ?_, ?_,
            ?_, ?_⟩
          · rw [e1]; simp [src_bytes, Nat.add_assoc]
          · rw [e2]; simp [Nat.add_assoc]
          · simp [src_bytes]; omega
          · omega
          · rw [hsplit, src_bytes_add, src_bytes_add, src_bytes_one]
            have : pos + 1 + k = pos + k + 1 := by omega
            rw [this]
            simp only [List.append_assoc, List.singleton_append, List.cons_append,
              List.nil_append]
            exact ((((List.Sublist.refl _).append e5).cons₂ _).cons _)
          · rw [hsplit, src_bytes_add, src_bytes_add, src_bytes_one]
            have : pos + 1 + k = pos + k + 1 := by omega
            rw [this]
            simp only [List.count_append, e6, List.count_cons, List.count_nil]
            simp
            omega
        · simp only [hq, Bool.false_eq_true, if_false, Option.map_some', Option.map_none',
            Int.toNat_ofNat]
          obtain ⟨q, w, e1, e2, e3, e4, e5, e6⟩ := ih (pos + k + 1) (len - 1 - k) m
            (d ++ [byteAt src pos]
              ++ List.map (fun i => byteAt src (pos + 1 + i)) (List.range k))
            (by omega) (by omega) (by omega)
          refine ⟨q, [byteAt src pos] ++ src_bytes src (pos + 1) k ++ w, ?_, ?_, ?_, ?_,
            ?_, ?_⟩
          · rw [e1]; simp [src_bytes, Nat.add_assoc]
          · rw [e2]
          · simp [src_bytes]; omega
          · omega
          · rw [hsplit, src_bytes_add, src_bytes_add, src_bytes_one]
            have : pos + 1 + k = pos + k + 1 := by omega
            rw [this]
            simp only [List.append_assoc, List.singleton_append, List.cons_append,
              List.nil_append]
            exact (((List.Sublist.refl _).append e5).cons₂ _)
          · rw [hsplit, src_bytes_add, src_bytes_add, src_bytes_one]
            have : pos + 1 + k = pos + k + 1 := by omega
            rw [this]
            simp only [List.count_append, e6]
            omega
      · rw [if_neg hmb, if_neg hmb]
        by_cases hq : quote_meta_quotes st magic (byteAt src pos) = true
        · simp only [hq, if_true, Option.map_some', Option.map_none']
          have hm1 : (m + 1) % 2 ^ 32 = m + 1 := Nat.mod_eq_of_lt (by omega)
          rw [hm1]
          obtain ⟨q, w, e1, e2, e3, e4, e5, e6⟩ := ih (pos + 1) (len - 1) (m + 1)
            (d ++ [92] ++ [byteAt src pos]) (by omega) (by omega) (by omega)
          refine ⟨1 + q, [92] ++ [byteAt src pos] ++ w, ?_, ?_, ?_, ?_, ?_, ?_⟩
          · rw [e1]; simp [Nat.add_assoc]
          · rw [e2]; simp [Nat.add_assoc]
          · simp; omega
          · omega
          · rw [hlen, src_bytes_add, src_bytes_one]
            simp only [List.append_assoc, List.singleton_append, List.cons_append,
              List.nil_append]
            exact ((e5.cons₂ _).cons _)
          · rw [hlen, src_bytes_add, src_bytes_one]
            simp only [List.count_append, e6, List.count_cons, List.count_nil]
            simp
            omega
        · simp only [hq, Bool.false_eq_true, if_false, Option.map_some', Option.map_none']
          obtain ⟨q, w, e1, e2, e3, e4, e5, e6⟩ := ih (pos + 1) (len - 1) m
            (d ++ [byteAt src pos]) (by omega) (by omega) (by omega)
          refine ⟨q, [byteAt src pos] ++ w, ?_, ?_, ?_, ?_, ?_, ?_⟩
          · rw [e1]; simp
          · rw [e2]
          · simp; omega
          · omega
          · rw [hlen, src_bytes_add, src_bytes_one]
            simp only [List.append_assoc, List.singleton_append, List.cons_append,
              List.nil_append]
            exact (e5.cons₂ _)
          · rw [hlen, src_bytes_add, src_bytes_one]
            simp only [List.count_append, e6]
            omega

/-- **C29.** For every source text, every length `0 ≤ len < 2^31` and fixed
mode and 'magic' settings, `quote_meta` returns the same value `len + 1 + q`
with `dest` NULL and with `dest` given (the unsigned counter does not wrap);
with `dest` given the bytes written, the closing NUL counted, are as many as
that value: they are the `len` source bytes with `q ≤ len` backslashes put in
between.  For `len = 1` at most 3 bytes are written, and the one-character
pattern of `get_normal_compl_info` never holds more than 7 bytes. -/
theorem quote_meta_length (E : Ext) (st : State) (magic : Bool) (src : List Nat) (len : Int)
    (h0 : 0 ≤ len) (h1 : len < 2 ^ 31) :
    ∃ (q : Nat) (w : List Nat),
      quote_meta E st magic false src len = some (len.toNat + 1 + q, none)
        ∧ quote_meta E st magic true src len = some (len.toNat + 1 + q, some (w ++ [0]))
        ∧ (w ++ [0]).length = len.toNat + 1 + q
        ∧ q ≤ len.toNat
        ∧ (src_bytes src 0 len.toNat).Sublist w
        ∧ w.count 92 = q + (src_bytes src 0 len.toNat).count 92
        ∧ len.toNat + 1 + q < 2 ^ 32
        ∧ (len = 1 → (w ++ [0]).length ≤ 3
            ∧ ∀ (line : List Nat) (col : Nat), src = line.drop col →
                ∃ a b, one_char_pattern E st magic line col = some (a, b)
                  ∧ a.length ≤ 7 ∧ b.length ≤ 7) := by
  have hm : ((len + 1) % 2 ^ 32).toNat = len.toNat + 1 := by
    rw [Int.emod_eq_of_lt (by omega) (by omega)]; omega
  obtain ⟨q, w, e1, e2, e3, e4, e5, e6⟩ := quote_meta_loop_spec E st magic src
    (len.toNat + 1) 0 len (len.toNat + 1) [] h0 (by push_cast; omega) (by push_cast; omega)
  have hq : q ≤ len.toNat := by omega
  have hw : w.length = len.toNat + q := by omega
  have htrue : quote_meta E st magic true src len = some (len.toNat + 1 + q, some (w ++ [0])) := by
    unfold quote_meta
    rw [hm]
    simp only [if_true]
    rw [e1]
    simp
  refine ⟨q, w, ?_, htrue, ?_, hq, e5, e6, ?_, ?_⟩
  · unfold quote_meta
    rw [hm]
    simp only [Bool.false_eq_true, if_false]
    rw [e2]
    simp
  · simp [hw]; omega
  · have : len.toNat < 2 ^ 31 := by omega
    omega
  · intro hl
    subst hl
    have hw3 : (w ++ [0]).length ≤ 3 := by
      simp [hw]
      have : (1 : Int).toNat = 1 := rfl
      omega
    refine ⟨hw3, ?_⟩
    intro line col hsrc
    subst hsrc
    unfold one_char_pattern
    rw [htrue]
    refine ⟨_, _, rfl, ?_, ?_⟩
    · simp only [List.length_append] at hw3 ⊢
      simp at hw3 ⊢
      omega
    · unfold strcat
      have h2 := takeWhile_nul_length ([92, 60] ++ w)
      rw [List.append_assoc] at h2
      generalize ([92, 60] ++ (w ++ [0]) : List Nat).takeWhile (· ≠ 0) = L at h2 ⊢
      simp only [List.length_append, List.length_cons, List.length_nil] at hw3 h2 ⊢
      omega

/-- **C29: an instance.** One dot, in ASCII with 'magic' set. -/
theorem quote_meta_length_witness :
    (0 : Int) ≤ 1 ∧ (1 : Int) < 2 ^ 31 ∧
    ∃ (q : Nat) (w : List Nat),
      quote_meta ascii_ops {} true false (bytes ".") 1 = some ((1 : Int).toNat + 1 + q, none)
        ∧ quote_meta ascii_ops {} true true (bytes ".") 1
            = some ((1 : Int).toNat + 1 + q, some (w ++ [0]))
        ∧ (w ++ [0]).length = (1 : Int).toNat + 1 + q
        ∧ q ≤ (1 : Int).toNat
        ∧ (src_bytes (bytes ".") 0 (1 : Int).toNat).Sublist w
        ∧ w.count 92 = q + (src_bytes (bytes ".") 0 (1 : Int).toNat).count 92
        ∧ (1 : Int).toNat + 1 + q < 2 ^ 32
        ∧ ((1 : Int) = 1 → (w ++ [0]).length ≤ 3
            ∧ ∀ (line : List Nat) (col : Nat), bytes "." = line.drop col →
                ∃ a b, one_char_pattern ascii_ops {} true line col = some (a, b)
                  ∧ a.length ≤ 7 ∧ b.length ≤ 7) :=
  ⟨by decide, by decide, quote_meta_length ascii_ops {} true (bytes ".") 1 (by decide) (by decide)⟩

/-- **C30, as stated, fails.** A candidate without a score compares equal to
every candidate, so the order is not transitive: with scores 5, 0 and 3 the
first is not after the second and the second is not after the third, but the
first is after the third. -/
theorem cp_compare_nearest_zero_breaks_chain :
    cp_compare_nearest { cp_score := 5 } { cp_score := 0 } ≤ 0
      ∧ cp_compare_nearest { cp_score := 0 } { cp_score := 3 } ≤ 0
      ∧ ¬ cp_compare_nearest { cp_score := 5 } { cp_score := 3 } ≤ 0 := by
  decide

/-- **C30, amended.** For all candidates `a`, `b`, `c`,
`cp_compare_nearest a b = -cp_compare_nearest b a`; and when the middle
candidate `b` has a score other than zero, `cp_compare_nearest a b ≤ 0` and
`cp_compare_nearest b c ≤ 0` give `cp_compare_nearest a c ≤ 0`. -/
theorem cp_compare_nearest_order (a b c : compl_T) :
    cp_compare_nearest a b = -cp_compare_nearest b a
      ∧ (b.cp_score ≠ 0 → cp_compare_nearest a b ≤ 0 → cp_compare_nearest b c ≤ 0 →
          cp_compare_nearest a c ≤ 0) := by
  unfold cp_compare_nearest
  simp only []
  constructor
  · split_ifs <;> first | rfl | omega
  · intro hb
    split_ifs <;> intros <;> omega

/-- **C30, amended: an instance.** Scores 2, 3 and 0. -/
theorem cp_compare_nearest_order_witness :
    cp_compare_nearest { cp_score := 2 } { cp_score := 3 }
        = -cp_compare_nearest { cp_score := 3 } { cp_score := 2 }
      ∧ (((3 : Int) ≠ 0) → cp_compare_nearest { cp_score := 2 } { cp_score := 3 } ≤ 0 →
          cp_compare_nearest { cp_score := 3 } { cp_score := 0 } ≤ 0 →
          cp_compare_nearest { cp_score := 2 } { cp_score := 0 } ≤ 0) :=
  cp_compare_nearest_order { cp_score := 2 } { cp_score := 3 } { cp_score := 0 }

theorem src_bytes_eq_take_drop (l : List Nat) (pos n : Nat) (h : pos + n ≤ l.length) :
    src_bytes l pos n = (l.drop pos).take n := by
  apply List.ext_getElem
  · simp [src_bytes]; omega
  · intro i h1 h2
    simp only [src_bytes, List.length_map, List.length_range] at h1
    simp [src_bytes, byteAt, List.getD_eq_getElem?_getD, List.getElem?_eq_getElem (show pos + i < l.length by omega)]

theorem prepend_startcol_text_eq (st : State) (src : List Nat) (s : Int) :
    prepend_startcol_text st src s
      = src_bytes st.cursor_line s.toNat (st.compl_col - s).toNat ++ src := rfl

theorem leader_for_eq_spec (st : State) (comp : Nat) :
    leader_for st comp = adjusted_leader_spec st comp := by
  unfold adjusted_leader_spec
  rcases leader_for_cases st comp with ⟨h1, h2⟩ | ⟨arr, leader, s, ha, hl, hc, hs, hs0, hs1, h⟩
  · rw [h1]
    rcases harr : st.cpt_sources_array with _ | arr
    · rfl
    rcases hlead : st.compl_leader with _ | leader
    · rfl
    simp only []
    rw [if_neg]
    intro ⟨c1, c2, c3, c4⟩
    exact h2 arr leader harr hlead (by omega) ⟨c3, c4⟩
  · rw [h, ha, hl]
    simp only []
    rw [if_pos ⟨by omega, by omega, hs ▸ hs0, hs ▸ hs1⟩, ← hs]
    rfl

/-- **C25.** With a cache that is empty or was filled from the present leader,
`compl_col` and cursor line, `get_leader_for_startcol` returns for every
candidate and either value of `cached` the bytes of the cursor line from the
start column `s` of the candidate's source up to `compl_col` followed by
`compl_leader` when `0 ≤ s < compl_col` (a leader being set, `compl_col` > 0
and the source index >= 0), and `compl_leader` itself in every other case.
The cached and the uncached call return equal strings, the cache stays such a
cache, and nothing else of the state changes. -/
theorem get_leader_for_startcol_adjusted (st : State) (comp : Nat) (cached : Bool)
    (hadj : AdjOK st st.adjusted_leader) :
    (get_leader_for_startcol st (some comp) cached).1 = adjusted_leader_spec st comp
      ∧ (get_leader_for_startcol st (some comp) true).1
          = (get_leader_for_startcol st (some comp) false).1
      ∧ AdjOK st (get_leader_for_startcol st (some comp) cached).2.adjusted_leader
      ∧ (∃ x, (get_leader_for_startcol st (some comp) cached).2 = { st with adjusted_leader := x })
      ∧ (∀ s n : Nat, s + n ≤ st.cursor_line.length →
          src_bytes st.cursor_line s n = (st.cursor_line.drop s).take n) := by
  have hc := get_leader_cached (show SameEnv st st from rfl) comp rfl hadj
  have hu : (get_leader_for_startcol st (some comp) false).1 = adjusted_leader_spec st comp :=
    leader_for_eq_spec st comp
  refine ⟨?_, ?_, ?_, get_leader_state st (some comp) cached,
    fun s n h => src_bytes_eq_take_drop _ s n h⟩
  · cases cached
    · exact hu
    · rw [hc.1]; exact leader_for_eq_spec st comp
  · rw [hc.1]; rfl
  · cases cached
    · rcases get_leader_cases st comp false with ⟨h1, -⟩ |
        ⟨arr, leader, s, ha, hl, hc, hs, hs0, hs1, h⟩
      · rw [h1]; exact hadj
      · rcases h with h | ⟨hcach, -⟩
        · rw [h]
          exact Or.inr ⟨leader, s, hl, hs0, hs1, rfl⟩
        · cases hcach
    · exact hc.2

/-- **C25: an instance.** The candidate "alpha1" of source 0, which starts at
column 1, with the leader "al" at column 3 and an empty cache. -/
theorem get_leader_for_startcol_adjusted_witness :
    AdjOK startcol_session startcol_session.adjusted_leader
      ∧ (get_leader_for_startcol startcol_session (some 1) true).1
          = adjusted_leader_spec startcol_session 1
      ∧ (get_leader_for_startcol startcol_session (some 1) true).1
          = (get_leader_for_startcol startcol_session (some 1) false).1
      ∧ AdjOK startcol_session
          (get_leader_for_startcol startcol_session (some 1) true).2.adjusted_leader
      ∧ (∃ x, (get_leader_for_startcol startcol_session (some 1) true).2
          = { startcol_session with adjusted_leader := x })
      ∧ (∀ s n : Nat, s + n ≤ startcol_session.cursor_line.length →
          src_bytes startcol_session.cursor_line s n
            = (startcol_session.cursor_line.drop s).take n) :=
  ⟨Or.inl rfl, get_leader_for_startcol_adjusted startcol_session 1 true (Or.inl rfl)⟩

theorem sameData_score {a b : compl_T} (h : SameData a b) : a.cp_score = b.cp_score := by
  have h1 := congrArg compl_T.cp_score h
  exact h1

/-- The score of an entry of the old arena after a new record was spliced
in. -/
theorem spliced_score_old {h0 h1 : List compl_T} {node : compl_T} {N P : Option Nat}
    (hsp : Spliced h0 node N P h1) {p : Nat} (hp : p < h0.length) :
    (deref h1 p).cp_score = (deref h0 p).cp_score := by
  rw [sameData_score (hsp.2.2.2 p), deref_append_lt _ _ _ hp]

/-- The score of the record spliced in. -/
theorem spliced_score_new {h0 h1 : List compl_T} {node : compl_T} {N P : Option Nat}
    (hsp : Spliced h0 node N P h1) :
    (deref h1 h0.length).cp_score = node.cp_score := by
  rw [sameData_score (hsp.2.2.2 h0.length), deref_append_new]

/-- Linking by score: the new record goes in after the first entry and after
the stretch of entries whose score is not lower than its own, in front of the
first entry with a lower score. -/
theorem link_new_match_scored (st : State) (first : Nat) (rest : List Nat)
    (hwf : WellFormed st (first :: rest))
    (node : compl_T) (hnode : node.cp_next = none ∧ node.cp_prev = none)
    (dir : Direction) (score : Int)
    (hbr : cfc_has_mode st = true ∧ 0 < score ∧ st.compl_get_longest = true) :
    ∃ h1 l1 l2 N P, link_new_match st (st.heap ++ [node]) st.heap.length dir score = some h1
      ∧ Spliced st.heap node N P h1
      ∧ rest = l1 ++ l2
      ∧ (∀ x ∈ l1, ¬ (deref st.heap x).cp_score < score)
      ∧ (∀ c l2', l2 = c :: l2' → (deref st.heap c).cp_score < score)
      ∧ WellFormed { st with
          heap := h1
          compl_first_match :=
            if (deref h1 st.heap.length).cp_prev = none then some st.heap.length
            else st.compl_first_match
          compl_curr_match := some st.heap.length } (first :: (l1 ++ st.heap.length :: l2)) := by
  have hseg := wf_segment hwf
  obtain ⟨hfirst, hshape, c, hc, hcurr⟩ := hwf
  have hwf : WellFormed st (first :: rest) := ⟨hfirst, hshape, c, hc, hcurr⟩
  have hflt : first < st.heap.length := hseg.2.1 first (by simp)
  have hlastlt : lastOf first rest < st.heap.length := hseg.2.1 _ (lastOf_mem rest first)
  have hb := cfc_branch_true hbr
  have hwalk0 : WalkFrom st.heap first first rest := by
    rcases hshape with h | h
    · exact walkFrom_of_linear h
    · exact walkFrom_of_cyclic h
  have hwalk : WalkFrom (st.heap ++ [node]) first first rest := by
    refine walkFrom_congr st.heap _ first rest first ?_ hwalk0
    intro p hp
    have := hseg.2.1 p hp
    rw [next_append _ _ hnode.1]
    simp [Nat.ne_of_lt this]
  have hlen := segment_length_le hseg
  have hsc : ∀ x ∈ rest, (deref (st.heap ++ [node]) x).cp_score = (deref st.heap x).cp_score := by
    intro x hx
    rw [deref_append_lt _ _ _ (hseg.2.1 x (List.mem_cons_of_mem _ hx))]
  obtain ⟨r, hr, hcase⟩ := find_score_position_spec (st.heap ++ [node]) first score rest first
    ((st.heap ++ [node]).length + 1) hwalk (by simp at hlen ⊢; omega)
  rcases hcase with ⟨l1, cu, l2, he, hr1, hlow, hhigh⟩ | ⟨hr2, hhigh⟩
  · obtain ⟨pre, a, hpre⟩ := exists_concat_of_ne_nil (first :: l1) (by simp)
    have heq : first :: rest = pre ++ a :: cu :: l2 := by
      rw [he, ← List.cons_append, hpre]; simp
    have hadj := segment_adjacent (heq ▸ hseg)
    have hcu : cu < st.heap.length := hseg.2.1 cu (by rw [heq]; simp)
    have ha : a < st.heap.length := hseg.2.1 a (by rw [heq]; simp)
    have hsp := spliced_before st.heap node cu a hnode hcu ha hadj.2 _ rfl
    obtain ⟨r1, r2⟩ := r
    simp only at hr1
    subst hr1
    have hlist : pre ++ a :: st.heap.length :: cu :: l2
        = first :: (l1 ++ st.heap.length :: cu :: l2) := by
      have : pre ++ a :: st.heap.length :: cu :: l2
          = (pre ++ [a]) ++ st.heap.length :: cu :: l2 := by simp
      rw [this, ← hpre]; rfl
    refine ⟨_, l1, cu :: l2, some cu, some a, ?_, hsp, he, ?_, ?_, ?_⟩
    · simp only [link_new_match, hfirst, hb, if_true, hr]
    · intro x hx
      rw [← hsc x (by rw [he]; simp [hx])]
      exact hhigh x hx
    · intro c' l2' hc'
      have hcc : cu = c' := (List.cons.inj hc').1
      rw [← hcc, ← hsc cu (by rw [he]; simp)]
      exact hlow
    · rw [← hlist]
      exact wf_splice_middle hwf heq hsp
  · have hsp := spliced_after st.heap node first (lastOf first rest) hnode hflt hlastlt _ rfl
    subst hr2
    refine ⟨_, rest, [], some first, some (lastOf first rest), ?_, hsp, by simp, ?_, ?_, ?_⟩
    · simp only [link_new_match, hfirst, hb, if_true, hr]
    · intro x hx
      rw [← hsc x hx]
      exact hhigh x hx
    · intro c' l2' hc'
      cases hc'
    · exact wf_splice_close hwf hsp

/-- **C27.** In the fuzzy-collect-with-longest branch of `ins_compl_add`
(`cfc_has_mode()` true, score > 0, `compl_get_longest` set), on a well-formed
list whose candidates after the first node are in non-increasing `cp_score`
order, a call that returns OK, whatever direction it was given, leaves a
well-formed list with the same first node, in which the new candidate stands
after the first node and after every candidate whose score is greater than or
equal to its own, in front of those with a lower score; the candidates after
the first node are again in non-increasing `cp_score` order, and no score or
position of another candidate changes. -/
theorem ins_compl_add_by_score (E : Ext) (st st1 : State) (first : Nat) (rest : List Nat)
    (str : List Nat) (len : Int) (fname : Option (List Nat)) (cptext : Option CpText)
    (user_data : Option Nat) (cdir : Direction) (flags_arg : Nat) (adup : Bool)
    (user_hl : Option (Int × Int)) (score : Int)
    (hwf : WellFormed st (first :: rest))
    (hbranch : cfc_has_mode st = true ∧ 0 < score ∧ st.compl_get_longest = true)
    (hsorted : rest.Pairwise
      (fun a b => (deref st.heap b).cp_score ≤ (deref st.heap a).cp_score))
    (hok : ins_compl_add E st str len fname cptext user_data cdir flags_arg adup user_hl score
      = some (OK, st1)) :
    ∃ l1 l2, rest = l1 ++ l2
      ∧ WellFormed st1 (first :: (l1 ++ st.heap.length :: l2))
      ∧ st1.compl_first_match = some first
      ∧ (l1 ++ st.heap.length :: l2).Pairwise
          (fun a b => (deref st1.heap b).cp_score ≤ (deref st1.heap a).cp_score)
      ∧ (deref st1.heap st.heap.length).cp_score = score
      ∧ (∀ x ∈ l1, score ≤ (deref st.heap x).cp_score)
      ∧ (∀ x ∈ l2, (deref st.heap x).cp_score < score)
      ∧ (∀ p ∈ first :: rest, (deref st1.heap p).cp_score = (deref st.heap p).cp_score) := by
  obtain ⟨-, h1, hl, hheap, hcurr1, hfirst1⟩ := ins_compl_add_ok_inv hok
  have hseg := wf_segment hwf
  obtain ⟨h1', l1, l2, N, P, hl', hsp, he, hhigh, hlow, hwf1⟩ := link_new_match_scored st first
    rest hwf _ (new_match_links st str (if len < 0 then str.length else len.toNat) fname cptext
      user_data flags_arg user_hl score)
    (if cdir = kDirectionNotSet then st.compl_direction else cdir) score hbranch
  rw [hl] at hl'
  cases hl'
  have hold : ∀ p ∈ first :: rest, (deref st1.heap p).cp_score = (deref st.heap p).cp_score := by
    intro p hp
    rw [hheap]
    exact spliced_score_old hsp (hseg.2.1 p hp)
  have hnew : (deref st1.heap st.heap.length).cp_score = score := by
    rw [hheap, spliced_score_new hsp]; rfl
  have hl2 : ∀ x ∈ l2, (deref st.heap x).cp_score < score := by
    intro x hx
    cases l2 with
    | nil => cases hx
    | cons c l2' =>
      have hc := hlow c l2' rfl
      rcases List.mem_cons.mp hx with rfl | hx
      · exact hc
      · have hp := (List.pairwise_append.mp (he ▸ hsorted)).2.1
        have := (List.pairwise_cons.mp hp).1 x hx
        omega
  have hwf2 : WellFormed st1 (first :: (l1 ++ st.heap.length :: l2)) := by
    refine wf_congr hwf1 (by rw [hheap]) (fun p => by rw [hheap]; exact ⟨rfl, rfl⟩) ?_ ?_
    · rw [hfirst1]
    · rw [hcurr1]
  refine ⟨l1, l2, he, hwf2, ?_, ?_, hnew, ?_, hl2, hold⟩
  · exact hwf2.1
  · have hs1 := List.pairwise_append.mp (he ▸ hsorted)
    have hmem1 : ∀ x ∈ l1, x ∈ first :: rest := fun x hx => by rw [he]; simp [hx]
    have hmem2 : ∀ x ∈ l2, x ∈ first :: rest := fun x hx => by rw [he]; simp [hx]
    rw [List.pairwise_append]
    refine ⟨?_, ?_, ?_⟩
    · exact hs1.1.imp_of_mem fun {a b} ha hb hab => by
        rw [hold a (hmem1 a ha), hold b (hmem1 b hb)]; exact hab
    · rw [List.pairwise_cons]
      refine ⟨?_, ?_⟩
      · intro x hx
        rw [hnew, hold x (hmem2 x hx)]
        exact le_of_lt (hl2 x hx)
      · exact hs1.2.1.imp_of_mem fun {a b} ha hb hab => by
          rw [hold a (hmem2 a ha), hold b (hmem2 b hb)]; exact hab
    · intro a ha b hb
      rcases List.mem_cons.mp hb with rfl | hb
      · rw [hnew, hold a (hmem1 a ha)]
        have := hhigh a ha
        omega
      · rw [hold a (hmem1 a ha), hold b (hmem2 b hb)]
        exact hs1.2.2 a ha b hb
  · intro x hx
    have := hhigh x hx
    omega

/-- **C27: an instance.** "mid" with score 3 goes in between "hi" (5) and
"lo" (1), though it was added going backward from the current match "lo". -/
theorem ins_compl_add_by_score_witness :
    WellFormed fuzzy_ring [0, 1, 2]
      ∧ ins_compl_add ascii_ops fuzzy_ring (bytes "mid") (-1) none none none BACKWARD 0
          false none 3 = some (OK, fuzzy_ring_mid)
      ∧ ∃ l1 l2, [1, 2] = l1 ++ l2
        ∧ WellFormed fuzzy_ring_mid (0 :: (l1 ++ 3 :: l2))
        ∧ (∀ x ∈ l1, (3 : Int) ≤ (deref fuzzy_ring.heap x).cp_score)
        ∧ (∀ x ∈ l2, (deref fuzzy_ring.heap x).cp_score < 3) := by
  refine ⟨by decide, by decide, ?_⟩
  obtain ⟨l1, l2, h1, h2, -, -, -, h3, h4, -⟩ := ins_compl_add_by_score ascii_ops fuzzy_ring
    fuzzy_ring_mid 0 [1, 2] (bytes "mid") (-1) none none none BACKWARD 0 false none 3
    (by decide) (by decide) (by decide) (by decide)
  exact ⟨l1, l2, h1, h2, h3, h4⟩

/-- One round of the loop of `find_next_completion_match` that moves the shown
match along the list, without a menu array. -/
theorem find_next_round (X : State → Int × State) (E : Ext) (allow adv ns fz : Bool)
    (fwd : Bool) (st : State) (cur w : Nat) (todo : Int) (fc : Option Nat) (nm : Int)
    (fuel : Nat)
    (hshown : st.compl_shown_match = some cur) (harr : st.compl_match_array = none)
    (htodo : 1 ≤ todo)
    (hdir : st.compl_shows_dir = if fwd then FORWARD else BACKWARD)
    (hlink : (if fwd then (deref st.heap cur).cp_next else (deref st.heap cur).cp_prev)
      = some w) :
    find_next_loop X E allow adv ns fz (fuel + 1) st todo fc nm =
      if round_end fwd st cur w then
        match (if skips_match E fz
            (deref (get_leader_for_startcol { st with compl_shown_match := some w }
              (some w) false).2.heap w)
            (get_leader_for_startcol { st with compl_shown_match := some w } (some w) false).1
          then fc else some w) with
        | some f => some (OK, nm,
            { (get_leader_for_startcol { st with compl_shown_match := some w }
                (some w) false).2 with compl_shown_match := some f })
        | none => find_next_loop X E allow adv ns fz fuel
            (get_leader_for_startcol { st with compl_shown_match := some w } (some w) false).2
            1 none nm
      else find_next_loop X E allow adv ns fz fuel
        (get_leader_for_startcol { st with compl_shown_match := some w } (some w) false).2
        (if skips_match E fz
            (deref (get_leader_for_startcol { st with compl_shown_match := some w }
              (some w) false).2.heap w)
            (get_leader_for_startcol { st with compl_shown_match := some w } (some w) false).1
          then todo else todo - 1)
        (if skips_match E fz
            (deref (get_leader_for_startcol { st with compl_shown_match := some w }
              (some w) false).2.heap w)
            (get_leader_for_startcol { st with compl_shown_match := some w } (some w) false).1
          then fc else some w) nm := by
  have hmove : find_next_move X allow adv ns st cur (todo - 1) nm
      = some (.ok ({ st with compl_shown_match := some w }, round_end fwd st cur w, nm)) := by
    unfold find_next_move round_end compl_shows_dir_forward compl_shows_dir_backward
    cases fwd with
    | true =>
      simp only [if_true] at hdir hlink
      simp only [hdir, hlink, beq_self_eq_true, Option.isSome_some, Bool.and_self, if_true, harr,
        Option.isSome_none, Bool.false_eq_true, if_false]
      rfl
    | false =>
      simp only [Bool.false_eq_true, if_false] at hdir hlink
      have hne : (BACKWARD == FORWARD) = false := by decide
      simp only [hdir, hlink, hne, Bool.false_and, Bool.false_eq_true, if_false,
        beq_self_eq_true, Option.isSome_some, Bool.and_self, if_true, harr, Option.isSome_none]
      rfl
  rw [find_next_loop]
  have hlt : ¬ todo - 1 < 0 := by omega
  simp only [hlt, if_false, hshown, hmove]
  generalize hg : get_leader_for_startcol { st with compl_shown_match := some w } (some w)
    false = g
  obtain ⟨lead, s2⟩ := g
  simp only []
  by_cases hskip : skips_match E fz (deref s2.heap w) lead = true
  · simp only [hskip, if_true, Int.sub_add_cancel]
    cases fc <;> rfl
  · simp only [hskip, Bool.false_eq_true, if_false]

theorem get_leader_no_leader (st : State) (w : Nat) (c : Bool) (h : st.compl_leader = none) :
    get_leader_for_startcol st (some w) c = (none, st) := by
  unfold get_leader_for_startcol
  rw [h]
  cases st.cpt_sources_array <;> rfl

theorem skips_match_none (E : Ext) (fz : Bool) (c : compl_T) : skips_match E fz c none = false := by
  simp [skips_match]

theorem set_shown_same (st : State) (cur : Nat) (h : st.compl_shown_match = some cur) :
    { st with compl_shown_match := some cur } = st := by
  cases st
  simp only at h
  subst h
  rfl

theorem wrap_int_of_range (x : Int) (h0 : -2147483648 ≤ x) (h1 : x ≤ 2147483647) :
    wrap_int x = x := by
  unfold wrap_int
  omega

/-- Going forward along an open list without a leader: the loop walks to the
last entry and asks for what is left of `todo`. -/
theorem find_next_forward_open (X : State → Int × State) (E : Ext) (ns fz : Bool) (first : Nat)
    (nm : Int) :
    ∀ (post : List Nat) (cur : Nat) (st : State) (todo : Int) (fc : Option Nat) (fuel : Nat),
      st.compl_shown_match = some cur → st.compl_match_array = none →
      st.compl_leader = none → st.compl_shows_dir = FORWARD →
      st.compl_first_match = some first →
      WalkFrom st.heap first cur post → (deref st.heap (lastOf cur post)).cp_next = none →
      (post.length : Int) < todo → post.length < fuel →
      find_next_loop X E false true ns fz fuel st todo fc nm
        = some (-1, nm, { st with compl_shown_match := some (lastOf cur post),
                                  compl_pending :=
                                    wrap_int (st.compl_pending + (todo - post.length)) })
  | [], cur, st, todo, fc, fuel + 1, hshown, harr, hlead, hdir, hfirst, hw, hend, htodo, _ => by
    simp only [lastOf] at hend
    simp only [List.length_nil, Nat.cast_zero] at htodo
    have hmove : find_next_move X false true ns st cur (todo - 1) nm
        = some (.error (-1, nm,
            { st with compl_pending := wrap_int (st.compl_pending + (todo - 1 + 1)) })) := by
      unfold find_next_move compl_shows_dir_forward compl_shows_dir_backward
      have hne : (FORWARD == BACKWARD) = false := by decide
      simp only [hdir, hend, Option.isSome_none, Bool.and_false, Bool.false_eq_true, if_false,
        hne, Bool.false_and, Bool.not_false, if_true]
    rw [find_next_loop]
    have hlt : ¬ todo - 1 < 0 := by omega
    simp only [hlt, if_false, hshown, hmove, lastOf, List.length_nil, Nat.cast_zero, sub_zero,
      Int.sub_add_cancel]
  | b :: post, cur, st, todo, fc, fuel + 1, hshown, harr, hlead, hdir, hfirst, hw, hend, htodo,
      hfuel => by
    obtain ⟨hnext, hb, hw⟩ := hw
    simp only [List.length_cons, Nat.cast_add, Nat.cast_one] at htodo
    have hround := find_next_round X E false true ns fz true st cur b todo fc nm fuel hshown harr
      (by omega) (by simpa using hdir) (by simpa using hnext)
    have hbn : (deref st.heap b).cp_next ≠ some first := by
      cases post with
      | nil =>
        simp only [lastOf] at hend
        rw [hend]; simp
      | cons c post' =>
        rw [hw.1]
        intro e
        exact hw.2.1 (Option.some.inj e)
    have hre : round_end true st cur b = false := by
      unfold round_end is_first_match
      simp only [if_true, hfirst, Option.isSome_some, Bool.true_and, Bool.or_eq_false_iff,
        beq_eq_false_iff_ne, ne_eq, Option.some.injEq]
      exact ⟨hbn, fun e => hb e.symm⟩
    rw [hround, hre]
    simp only [Bool.false_eq_true, if_false]
    rw [get_leader_no_leader _ b false (by exact hlead)]
    simp only [skips_match_none, Bool.false_eq_true, if_false]
    rw [find_next_forward_open X E ns fz first nm post b { st with compl_shown_match := some b }
      (todo - 1) (some b) fuel rfl harr hlead hdir hfirst hw (by simpa [lastOf] using hend)
      (by omega) (by simpa using hfuel)]
    simp only [lastOf, List.length_cons, Nat.cast_add, Nat.cast_one]
    have harith : st.compl_pending + (todo - 1 - (post.length : Int))
        = st.compl_pending + (todo - ((post.length : Int) + 1)) := by omega
    rw [harith]

/-- Going backward along an open list without a leader: the loop stops with OK
at the first entry, which ends the list in that direction. -/
theorem find_next_backward_open (X : State → Int × State) (E : Ext) (allow adv ns fz : Bool)
    (first : Nat) (nm : Int) :
    ∀ (mid : List Nat) (cur : Nat) (st : State) (todo : Int) (fc : Option Nat) (fuel : Nat),
      st.compl_shown_match = some cur → st.compl_match_array = none →
      st.compl_leader = none → st.compl_shows_dir = BACKWARD →
      st.compl_first_match = some first →
      List.Chain (fun a b => (deref st.heap a).cp_prev = some b) cur (mid ++ [first]) →
      cur ≠ first → first ∉ mid →
      (mid.length : Int) < todo → mid.length < fuel →
      find_next_loop X E allow adv ns fz fuel st todo fc nm
        = some (OK, nm, { st with compl_shown_match := some first })
  | [], cur, st, todo, fc, fuel + 1, hshown, harr, hlead, hdir, hfirst, hch, hcur, _, htodo, _ => by
    simp only [List.length_nil, Nat.cast_zero] at htodo
    simp only [List.nil_append, List.chain_cons, List.Chain.nil, and_true] at hch
    have hround := find_next_round X E allow adv ns fz false st cur first todo fc nm fuel hshown
      harr (by omega) (by simpa using hdir) (by simpa using hch)
    have hre : round_end false st cur first = true := by
      unfold round_end is_first_match
      simp [hfirst]
    rw [hround, hre]
    simp only [if_true]
    rw [get_leader_no_leader _ first false (by exact hlead)]
    simp only [skips_match_none, Bool.false_eq_true, if_false]
  | b :: mid, cur, st, todo, fc, fuel + 1, hshown, harr, hlead, hdir, hfirst, hch, hcur, hmid,
      htodo, hfuel => by
    simp only [List.length_cons, Nat.cast_add, Nat.cast_one] at htodo
    simp only [List.cons_append, List.chain_cons] at hch
    have hb : b ≠ first := fun e => hmid (by simp [e])
    have hround := find_next_round X E allow adv ns fz false st cur b todo fc nm fuel hshown
      harr (by omega) (by simpa using hdir) (by simpa using hch.1)
    have hre : round_end false st cur b = false := by
      unfold round_end is_first_match
      simp only [Bool.false_eq_true, if_false, hfirst, Bool.or_eq_false_iff,
        beq_eq_false_iff_ne, ne_eq, Option.some.injEq]
      exact ⟨fun e => hcur e.symm, fun e => hb e.symm⟩
    rw [hround, hre]
    simp only [Bool.false_eq_true, if_false]
    rw [get_leader_no_leader _ b false (by exact hlead)]
    simp only [skips_match_none, Bool.false_eq_true, if_false]
    rw [find_next_backward_open X E allow adv ns fz first nm mid b
      { st with compl_shown_match := some b } (todo - 1) (some b) fuel rfl harr hlead hdir hfirst
      hch.2 hb (fun hm => hmid (List.mem_cons_of_mem _ hm)) (by omega) (by simpa using hfuel)]

/-- **C22, as stated, fails.** On the open list of "he" and "hello", with
"hello" shown, the direction backward, no leader, no menu array and further
collection disallowed, a call with count 2 has one candidate left in that
direction; it moves to it and returns OK with `compl_pending` unchanged, not
-1 with `compl_pending` lowered by 1.  And on the same list with "hello" shown,
the direction forward and `compl_pending` 1, a call with count INT_MAX has no
candidate left; it returns -1 with `compl_pending` at INT_MIN, not at
1 + INT_MAX, which an `int` does not hold. -/
theorem find_next_completion_match_backward_stops :
    (IsLinear open_list_backward.heap 0 [1]
      ∧ open_list_backward.compl_first_match = some 0
      ∧ open_list_backward.compl_shown_match = some 1
      ∧ open_list_backward.compl_shows_dir = BACKWARD
      ∧ open_list_backward.compl_leader = none
      ∧ open_list_backward.compl_match_array = none
      ∧ open_list_backward.compl_pending = 0
      ∧ (find_next_completion_match (fun s => (0, s)) ascii_ops open_list_backward false 2 true
          0 5).map (fun r => (r.1, r.2.2.compl_pending, r.2.2.compl_shown_match))
          = some (OK, 0, some 0))
    ∧ (IsLinear last_shown_pending.heap 0 [1]
      ∧ last_shown_pending.compl_first_match = some 0
      ∧ last_shown_pending.compl_shown_match = some 1
      ∧ last_shown_pending.compl_shows_dir = FORWARD
      ∧ last_shown_pending.compl_leader = none
      ∧ last_shown_pending.compl_match_array = none
      ∧ last_shown_pending.compl_pending = 1
      ∧ (find_next_completion_match (fun s => (0, s)) ascii_ops last_shown_pending false
          2147483647 true 0 5).map (fun r => (r.1, r.2.2.compl_pending, r.2.2.compl_shown_match))
          = some (-1, -2147483648, some 1)) := by
  constructor
  · decide
  · decide

/-- **C22, amended.** With further collection disallowed, `advance` true, no
leader and no menu array, on an open list with the entries `pre` before the
shown match and `post` after it: showing forward with fewer than `count`
entries left, the call moves the shown match the `post.length` steps to the
last entry, adds `count - post.length` to `compl_pending` and returns -1;
showing backward from the first entry it subtracts `count` from
`compl_pending` and returns -1; showing backward with entries left, fewer than
`count`, it moves the shown match to the first entry and returns OK with
`compl_pending` unchanged.  Nothing else of the state changes, no candidate
included.  The sum and the difference are those of an `int` (`wrap_int`): they
are the plain ones as long as they lie between INT_MIN and INT_MAX. -/
theorem find_next_completion_match_open_list (X : State → Int × State) (E : Ext) (st : State)
    (first cur : Nat) (rest pre post : List Nat) (count nm : Int) (fuel : Nat)
    (hlin : IsLinear st.heap first rest) (hfirst : st.compl_first_match = some first)
    (hsplit : first :: rest = pre ++ cur :: post)
    (hshown : st.compl_shown_match = some cur)
    (hleader : st.compl_leader = none) (harr : st.compl_match_array = none)
    (hfuel : rest.length + 1 < fuel) :
    (st.compl_shows_dir = FORWARD → (post.length : Int) < count →
      find_next_completion_match X E st false count true nm fuel
        = some (-1, nm, { st with compl_shown_match := some (lastOf cur post),
                                  compl_pending :=
                                    wrap_int (st.compl_pending + (count - post.length)) }))
    ∧ (st.compl_shows_dir = BACKWARD → pre = [] → 0 < count →
      find_next_completion_match X E st false count true nm fuel
        = some (-1, nm, { st with compl_pending := wrap_int (st.compl_pending - count) }))
    ∧ (st.compl_shows_dir = BACKWARD → pre ≠ [] → (pre.length : Int) < count →
      find_next_completion_match X E st false count true nm fuel
        = some (OK, nm, { st with compl_shown_match := some first }))
    ∧ ∀ x : Int, -2147483648 ≤ x → x ≤ 2147483647 → wrap_int x = x := by
  have hnd : (pre ++ cur :: post).Nodup := hsplit ▸ hlin.1.1
  have hch : List.Chain' (Adjacent st.heap) (pre ++ cur :: post) := hsplit ▸ segment_chain hlin.1
  have hlen : (first :: rest).length = (pre ++ cur :: post).length := by rw [hsplit]
  simp only [List.length_cons, List.length_append] at hlen
  refine ⟨?_, ?_, ?_, wrap_int_of_range⟩
  · intro hdir hcount
    have hnot : first ∉ post := by
      cases pre with
      | nil =>
        simp only [List.nil_append, List.cons.injEq] at hsplit
        rw [hsplit.1]
        exact (List.nodup_cons.mp hnd).1
      | cons f t =>
        simp only [List.cons_append, List.cons.injEq] at hsplit
        rw [hsplit.1]
        intro hm
        exact (List.nodup_cons.mp hnd).1 (by simp [hm])
    have hlast : lastOf first rest = lastOf cur post := by
      cases pre with
      | nil =>
        simp only [List.nil_append, List.cons.injEq] at hsplit
        rw [hsplit.1, hsplit.2]
      | cons f t =>
        simp only [List.cons_append, List.cons.injEq] at hsplit
        rw [hsplit.2, lastOf_append_cons]
    have hend : (deref st.heap (lastOf cur post)).cp_next = none := by
      rw [← hlast]; exact hlin.2.2
    have hw : WalkFrom st.heap first cur post :=
      walkFrom_of_chain st.heap first post cur hch.right_of_append hnot (Or.inl hend)
    unfold find_next_completion_match
    exact find_next_forward_open X E _ _ first nm post cur st count none fuel hshown harr hleader
      hdir hfirst hw hend hcount (by omega)
  · intro hdir hpre hcount
    subst hpre
    simp only [List.nil_append, List.cons.injEq] at hsplit
    obtain ⟨f, rfl⟩ : ∃ f, fuel = f + 1 := ⟨fuel - 1, by omega⟩
    have hprev : (deref st.heap cur).cp_prev = none := by rw [← hsplit.1]; exact hlin.2.1
    have hmove : find_next_move X false true (get_cot_flags st).noselect st cur (count - 1) nm
        = some (.error (-1, nm,
            { st with compl_pending := wrap_int (st.compl_pending - (count - 1 + 1)) })) := by
      unfold find_next_move compl_shows_dir_forward compl_shows_dir_backward
      have hne : (BACKWARD == FORWARD) = false := by decide
      simp only [hdir, hprev, Option.isSome_none, Bool.and_false, Bool.false_eq_true, if_false,
        hne, Bool.false_and, Bool.not_false, if_true, beq_self_eq_true]
    unfold find_next_completion_match
    rw [find_next_loop]
    have hlt : ¬ count - 1 < 0 := by omega
    simp only [hlt, if_false, hshown, hmove, Int.sub_add_cancel]
  · intro hdir hpre hcount
    cases pre with
    | nil => exact absurd rfl hpre
    | cons f t =>
      simp only [List.cons_append, List.cons.injEq] at hsplit
      obtain ⟨rfl, hrest⟩ := hsplit
      have hl : List.Chain' (Adjacent st.heap) ((first :: t) ++ [cur]) := by
        have : (first :: t) ++ cur :: post = ((first :: t) ++ [cur]) ++ post := by simp
        rw [this] at hch
        exact hch.left_of_append
      have hrev : List.Chain' (fun a b => (deref st.heap a).cp_prev = some b)
          ((first :: t) ++ [cur]).reverse := by
        rw [List.chain'_reverse]
        exact hl.imp fun {a b} hab => hab.2
      have hrev2 : List.Chain (fun a b => (deref st.heap a).cp_prev = some b) cur
          (t.reverse ++ [first]) := by
        simpa using hrev
      have hcur : cur ≠ first := by
        intro e
        have := (List.nodup_cons.mp hnd).1
        exact this (by simp [e])
      have hmid : first ∉ t.reverse := by
        intro hm
        have := (List.nodup_cons.mp hnd).1
        exact this (by simp [List.mem_reverse.mp hm])
      simp only [List.length_cons, Nat.cast_add, Nat.cast_one] at hcount
      unfold find_next_completion_match
      exact find_next_backward_open X E false true _ _ first nm t.reverse cur st count none fuel
        hshown harr hleader hdir hfirst hrev2 hcur hmid (by simp; omega)
        (by
          have hl2 : rest.length = t.length + (post.length + 1) := by rw [hrest]; simp
          simp only [List.length_reverse]
          omega)

/-- **C22, amended: an instance.** Forward from "he" with "hello" after it and
count 3: one step, two steps left pending, and -1. -/
theorem find_next_completion_match_open_list_witness :
    IsLinear anchor_hello.heap 0 [1]
      ∧ wrap_int (anchor_hello.compl_pending + (3 - ([1] : List Nat).length)) = 2
      ∧ find_next_completion_match (fun s => (0, s)) ascii_ops anchor_hello false 3 true 0 3
        = some (-1, 0, { anchor_hello with
            compl_shown_match := some (lastOf 0 [1])
            compl_pending :=
              wrap_int (anchor_hello.compl_pending + (3 - ([1] : List Nat).length)) }) :=
  ⟨by decide, by decide,
    (find_next_completion_match_open_list (fun s => (0, s)) ascii_ops anchor_hello 0 0 [1] [] [1]
      3 0 3 (by decide) rfl rfl rfl rfl rfl (by decide)).1 rfl (by decide)⟩

/-- The loop on a list ends on a usable entry when the list holds a usable
entry and, at or after it, the first entry of the list of matches. -/
theorem walk_list_usable (U : Nat → Bool) (isEnd : Nat → Nat → Bool) (first : Nat)
    (hend : ∀ c, isEnd c first = true) :
    ∀ (ws : List Nat) (cur : Nat) (todo : Int) (fc : Option Nat),
      0 ≤ todo → (todo = 0 → U cur = true) → (∀ f, fc = some f → U f = true) →
      EndsWithin U first ws fc →
      ∃ p, walk_list U isEnd cur ws todo fc = some p ∧ U p = true
        ∧ (p = cur ∨ p ∈ ws ∨ fc = some p)
  | [], cur, todo, fc, h0, hcur, hfc, hgood => by
    exfalso
    cases fc with
    | some f => simp [EndsWithin] at hgood
    | none =>
      obtain ⟨A, u, B, he, -⟩ := hgood
      simp at he
  | w :: ws, cur, todo, fc, h0, hcur, hfc, hgood => by
    unfold walk_list
    by_cases hlt : todo - 1 < 0
    · rw [if_pos hlt]
      exact ⟨cur, rfl, hcur (by omega), Or.inl rfl⟩
    rw [if_neg hlt]
    by_cases hU : U w = true
    · simp only [hU, if_true]
      by_cases he : isEnd cur w = true
      · rw [if_pos he]
        exact ⟨w, rfl, hU, Or.inr (Or.inl (by simp))⟩
      · rw [if_neg he]
        have hwf : w ≠ first := fun e => he (e ▸ hend cur)
        have hmem : first ∈ ws := by
          cases fc with
          | some f =>
            simp only [EndsWithin] at hgood
            rcases List.mem_cons.mp hgood with e | h
            · exact absurd e.symm hwf
            · exact h
          | none =>
            obtain ⟨A, u, B, heq, -, hm⟩ := hgood
            cases A with
            | nil =>
              simp only [List.nil_append, List.cons.injEq] at heq
              rw [← heq.1] at hm
              rcases List.mem_cons.mp hm with e | h
              · exact absurd e.symm hwf
              · rw [heq.2]; exact h
            | cons a A =>
              simp only [List.cons_append, List.cons.injEq] at heq
              rw [heq.2]
              rcases List.mem_cons.mp hm with e | h
              · simp [e]
              · simp [h]
        obtain ⟨p, hp, hUp, hwhere⟩ := walk_list_usable U isEnd first hend ws w (todo - 1) (some w)
          (by omega) (fun _ => hU) (fun f hf => by cases hf; exact hU) hmem
        refine ⟨p, hp, hUp, ?_⟩
        rcases hwhere with h | h | h
        · exact Or.inr (Or.inl (by simp [h]))
        · exact Or.inr (Or.inl (by simp [h]))
        · cases h; exact Or.inr (Or.inl (by simp))
    · simp only [hU, Bool.false_eq_true, if_false]
      have hgood' : ∀ fc' : Option Nat, fc' = fc → fc = none →
          ∃ A u B, ws = A ++ u :: B ∧ U u = true ∧ first ∈ u :: B := by
        intro fc' _ hn
        subst hn
        obtain ⟨A, u, B, heq, hu, hm⟩ := hgood
        cases A with
        | nil =>
          simp only [List.nil_append, List.cons.injEq] at heq
          rw [← heq.1] at hu
          exact absurd hu hU
        | cons a A =>
          simp only [List.cons_append, List.cons.injEq] at heq
          exact ⟨A, u, B, heq.2, hu, hm⟩
      by_cases he : isEnd cur w = true
      · rw [if_pos he]
        cases fc with
        | some f =>
          exact ⟨f, rfl, hfc f rfl, Or.inr (Or.inr rfl)⟩
        | none =>
          simp only []
          obtain ⟨p, hp, hUp, hwhere⟩ := walk_list_usable U isEnd first hend ws w 1 none
            (by omega) (fun h => by omega) (fun f hf => by cases hf) (hgood' none rfl rfl)
          refine ⟨p, hp, hUp, ?_⟩
          rcases hwhere with h | h | h
          · exact Or.inr (Or.inl (by simp [h]))
          · exact Or.inr (Or.inl (by simp [h]))
          · cases h
      · rw [if_neg he]
        have hwf : w ≠ first := fun e => he (e ▸ hend cur)
        have hg : EndsWithin U first ws fc := by
          cases fc with
          | some f =>
            simp only [EndsWithin] at hgood ⊢
            rcases List.mem_cons.mp hgood with e | h
            · exact absurd e.symm hwf
            · exact h
          | none => exact hgood' none rfl rfl
        obtain ⟨p, hp, hUp, hwhere⟩ := walk_list_usable U isEnd first hend ws w todo fc
          (by omega) (fun h => by omega) hfc hg
        refine ⟨p, hp, hUp, ?_⟩
        rcases hwhere with h | h | h
        · exact Or.inr (Or.inl (by simp [h]))
        · exact Or.inr (Or.inl (by simp [h]))
        · exact Or.inr (Or.inr h)

/-- Entries that are not usable are not counted: when no round along `ws`
sets `found_end`, `ws` ends on a usable entry and holds `todo` usable entries,
the loop ends on the last entry of `ws`. -/
theorem walk_list_counts (U : Nat → Bool) (isEnd : Nat → Nat → Bool) :
    ∀ (ws : List Nat) (cur : Nat) (todo : Int) (fc : Option Nat) (q : Nat),
      List.Chain (fun c w => isEnd c w = false) cur ws →
      ws.getLast? = some q → U q = true → ((ws.filter U).length : Int) = todo →
      walk_list U isEnd cur ws todo fc = some q
  | [], _, _, _, _, _, hq, _, _ => by simp at hq
  | w :: ws, cur, todo, fc, q, hch, hq, hUq, hcount => by
    rw [List.chain_cons] at hch
    have hqmem : q ∈ w :: ws := List.mem_of_mem_getLast? hq
    have hpos : 1 ≤ todo := by
      have : q ∈ (w :: ws).filter U := List.mem_filter.mpr ⟨hqmem, hUq⟩
      have := List.length_pos_of_mem this
      omega
    unfold walk_list
    rw [if_neg (by omega), hch.1]
    simp only [Bool.false_eq_true, if_false]
    cases ws with
    | nil =>
      simp only [List.getLast?_singleton, Option.some.injEq] at hq
      subst hq
      simp only [List.filter_cons, hUq, if_true, List.filter_nil, List.length_singleton,
        Nat.cast_one] at hcount
      simp only [hUq, if_true]
      unfold walk_list
      rw [if_pos (by omega)]
    | cons w2 ws2 =>
      rw [List.getLast?_cons_cons] at hq
      by_cases hU : U w = true
      · simp only [hU, if_true]
        simp only [List.filter_cons, hU, if_true, List.length_cons, Nat.cast_add,
          Nat.cast_one] at hcount
        refine walk_list_counts U isEnd (w2 :: ws2) w (todo - 1) (some w) q hch.2 hq hUq ?_
        simp only [List.filter_cons]
        omega
      · simp only [hU, Bool.false_eq_true, if_false]
        simp only [List.filter_cons, hU, Bool.false_eq_true, if_false] at hcount
        refine walk_list_counts U isEnd (w2 :: ws2) w todo fc q hch.2 hq hUq ?_
        simp only [List.filter_cons]
        exact hcount

/-- The loop of `find_next_completion_match`, on a list without a menu array
along which the shown match can always move, does what `walk_list` does on the
entries met; only the shown match and the cached leader change. -/
theorem find_next_loop_walk (X : State → Int × State) (E : Ext) (allow adv ns : Bool)
    (fwd : Bool) (st0 : State) (nm : Int)
    (harr : st0.compl_match_array = none)
    (hdir : st0.compl_shows_dir = if fwd then FORWARD else BACKWARD) :
    ∀ (ws : List Nat) (cur : Nat) (a : Option (List Nat)) (todo : Int) (fc : Option Nat)
      (fuel : Nat) (p : Nat),
      List.Chain (link_to fwd st0.heap) cur ws → ws.length < fuel →
      walk_list (usable E st0) (round_end fwd st0) cur ws todo fc = some p →
      ∃ a', find_next_loop X E allow adv ns (get_cot_flags st0).fuzzy fuel
          { st0 with compl_shown_match := some cur, adjusted_leader := a } todo fc nm
        = some (OK, nm, { st0 with compl_shown_match := some p, adjusted_leader := a' })
  | [], cur, a, todo, fc, fuel + 1, p, _, _, hwalk => by
    unfold walk_list at hwalk
    by_cases hlt : todo - 1 < 0
    · rw [if_pos hlt] at hwalk
      cases hwalk
      refine ⟨a, ?_⟩
      rw [find_next_loop]
      simp only [hlt, if_true]
    · rw [if_neg hlt] at hwalk
      cases hwalk
  | w :: ws, cur, a, todo, fc, fuel + 1, p, hch, hfuel, hwalk => by
    unfold walk_list at hwalk
    by_cases hlt : todo - 1 < 0
    · rw [if_pos hlt] at hwalk
      cases hwalk
      refine ⟨a, ?_⟩
      rw [find_next_loop]
      simp only [hlt, if_true]
    rw [if_neg hlt] at hwalk
    rw [List.chain_cons] at hch
    have hround := find_next_round X E allow adv ns (get_cot_flags st0).fuzzy fwd
      { st0 with compl_shown_match := some cur, adjusted_leader := a } cur w todo fc nm fuel
      rfl harr (by omega) hdir hch.1
    have hre : round_end fwd { st0 with compl_shown_match := some cur, adjusted_leader := a }
        cur w = round_end fwd st0 cur w := rfl
    obtain ⟨x, hx⟩ := get_leader_state
      { st0 with compl_shown_match := some w, adjusted_leader := a } (some w) false
    have hl : (get_leader_for_startcol
        { st0 with compl_shown_match := some w, adjusted_leader := a } (some w) false).1
        = leader_for st0 w :=
      leader_for_env (a := { st0 with compl_shown_match := some w, adjusted_leader := a })
        (b := st0) rfl (fun _ => rfl) w
    have hgv : get_leader_for_startcol
        { st0 with compl_shown_match := some w, adjusted_leader := a } (some w) false
        = (leader_for st0 w, { st0 with compl_shown_match := some w, adjusted_leader := x }) :=
      Prod.ext hl hx
    have hround' : find_next_loop X E allow adv ns (get_cot_flags st0).fuzzy (fuel + 1)
        { st0 with compl_shown_match := some cur, adjusted_leader := a } todo fc nm
        = (fun g : Option (List Nat) × State =>
          if round_end fwd st0 cur w = true then
            match (if skips_match E (get_cot_flags st0).fuzzy (deref g.2.heap w) g.1 = true
                then fc else some w) with
            | some f => some (OK, nm, ({ g.2 with compl_shown_match := some f } : State))
            | none => find_next_loop X E allow adv ns (get_cot_flags st0).fuzzy fuel g.2 1 none nm
          else find_next_loop X E allow adv ns (get_cot_flags st0).fuzzy fuel g.2
            (if skips_match E (get_cot_flags st0).fuzzy (deref g.2.heap w) g.1 = true
              then todo else todo - 1)
            (if skips_match E (get_cot_flags st0).fuzzy (deref g.2.heap w) g.1 = true
              then fc else some w) nm)
          (get_leader_for_startcol
            { st0 with compl_shown_match := some w, adjusted_leader := a } (some w) false) :=
      hround
    rw [hround', hgv]
    have hskip : skips_match E (get_cot_flags st0).fuzzy (deref st0.heap w) (leader_for st0 w)
        = !usable E st0 w := by
      unfold usable
      simp
    simp only []
    rw [hskip]
    have hf : ws.length < fuel := by simpa using hfuel
    by_cases hU : usable E st0 w = true
    · simp only [hU, if_true, Bool.not_true, Bool.false_eq_true, if_false] at hwalk ⊢
      by_cases he : round_end fwd st0 cur w = true
      · rw [if_pos he] at hwalk ⊢
        cases hwalk
        exact ⟨x, rfl⟩
      · rw [if_neg he] at hwalk ⊢
        exact find_next_loop_walk X E allow adv ns fwd st0 nm harr hdir ws w x (todo - 1)
          (some w) fuel p hch.2 hf hwalk
    · simp only [hU, Bool.false_eq_true, if_false, Bool.not_false, if_true] at hwalk ⊢
      by_cases he : round_end fwd st0 cur w = true
      · rw [if_pos he] at hwalk ⊢
        cases fc with
        | some f =>
          cases hwalk
          exact ⟨x, rfl⟩
        | none =>
          exact find_next_loop_walk X E allow adv ns fwd st0 nm harr hdir ws w x 1 none fuel p
            hch.2 hf hwalk
      · rw [if_neg he] at hwalk ⊢
        exact find_next_loop_walk X E allow adv ns fwd st0 nm harr hdir ws w x todo fc fuel p
          hch.2 hf hwalk

theorem link_to_forward {h : List compl_T} {a b : Nat} (hab : Adjacent h a b) :
    link_to true h a b := by
  unfold link_to
  simpa using hab.1

theorem link_to_backward {h : List compl_T} {a b : Nat} (hab : Adjacent h a b) :
    link_to false h b a := by
  unfold link_to
  simpa using hab.2

/-- From any entry of a closed ring, the shown match can move a full lap, in
either direction, and meets every entry of the ring on it. -/
theorem ring_lap (fwd : Bool) {h : List compl_T} {first : Nat} {rest : List Nat}
    (hc : IsCyclic h first rest) (cur : Nat) (hcur : cur ∈ first :: rest) :
    ∃ lap, lap.length = rest.length + 1 ∧ List.Chain (link_to fwd h) cur lap
      ∧ ∀ x, x ∈ lap ↔ x ∈ first :: rest := by
  obtain ⟨pre, post, hsplit⟩ := List.append_of_mem hcur
  have hch : List.Chain' (Adjacent h) (pre ++ cur :: post) := hsplit ▸ segment_chain hc.1
  have hlen : rest.length + 1 = pre.length + (post.length + 1) := by
    have := congrArg List.length hsplit
    simpa using this
  have hlast : lastOf first rest = lastOf cur post := by
    cases pre with
    | nil =>
      simp only [List.nil_append, List.cons.injEq] at hsplit
      rw [hsplit.1, hsplit.2]
    | cons f t =>
      simp only [List.cons_append, List.cons.injEq] at hsplit
      rw [hsplit.2, lastOf_append_cons]
  have hhead : (pre ++ [cur]).head? = some first := by
    cases pre with
    | nil =>
      simp only [List.nil_append, List.cons.injEq] at hsplit
      simp [hsplit.1]
    | cons f t =>
      simp only [List.cons_append, List.cons.injEq] at hsplit
      simp [hsplit.1]
  cases fwd with
  | true =>
    refine ⟨post ++ (pre ++ [cur]), by simp; omega, ?_, ?_⟩
    · have h1 : List.Chain' (link_to true h) (cur :: post) :=
        hch.right_of_append.imp fun {a b} hab => link_to_forward hab
      have h2 : List.Chain' (link_to true h) (pre ++ [cur]) := by
        have : pre ++ cur :: post = (pre ++ [cur]) ++ post := by simp
        rw [this] at hch
        exact hch.left_of_append.imp fun {a b} hab => link_to_forward hab
      have h3 := List.Chain'.append h1 h2 (by
        intro x hx y hy
        rw [lastOf_getLast?] at hx
        rw [hhead] at hy
        cases hx
        cases hy
        rw [← hlast]
        exact link_to_forward ⟨hc.2.2, hc.2.1⟩)
      exact h3
    · intro x
      rw [hsplit]
      simp only [List.mem_append, List.mem_cons, List.mem_singleton, List.not_mem_nil, or_false]
      tauto
  | false =>
    refine ⟨pre.reverse ++ (post.reverse ++ [cur]), by simp; omega, ?_, ?_⟩
    · have hrev : List.Chain' (link_to false h) (pre ++ cur :: post).reverse := by
        rw [List.chain'_reverse]
        exact hch.imp fun {a b} hab => link_to_backward hab
      have hr1 : (pre ++ cur :: post).reverse = post.reverse ++ cur :: pre.reverse := by simp
      have hr2 : (pre ++ cur :: post).reverse = (post.reverse ++ [cur]) ++ pre.reverse := by simp
      have h1 : List.Chain' (link_to false h) (cur :: pre.reverse) := by
        rw [hr1] at hrev
        exact hrev.right_of_append
      have h2 : List.Chain' (link_to false h) (post.reverse ++ [cur]) := by
        rw [hr2] at hrev
        exact hrev.left_of_append
      have hfirstlast : (cur :: pre.reverse).getLast? = some first := by
        have : cur :: pre.reverse = (pre ++ [cur]).reverse := by simp
        rw [this, List.getLast?_reverse, hhead]
      have hlasthead : (post.reverse ++ [cur]).head? = some (lastOf first rest) := by
        have : post.reverse ++ [cur] = (cur :: post).reverse := by simp
        rw [this, List.head?_reverse, lastOf_getLast?, hlast]
      have h3 := List.Chain'.append h1 h2 (by
        intro x hx y hy
        rw [hfirstlast] at hx
        rw [hlasthead] at hy
        cases hx
        cases hy
        exact link_to_backward ⟨hc.2.2, hc.2.1⟩)
      exact h3
    · intro x
      rw [hsplit]
      simp only [List.mem_append, List.mem_cons, List.mem_singleton, List.mem_reverse,
        List.not_mem_nil, or_false]
      tauto

theorem set_shown_adj_same (st : State) (cur : Nat) (h : st.compl_shown_match = some cur) :
    ({ st with compl_shown_match := some cur, adjusted_leader := st.adjusted_leader } : State)
      = st := by
  cases st
  simp only at h
  subst h
  rfl

theorem usable_cases (E : Ext) (st : State) (p : Nat) (h : usable E st p = true) :
    match_at_original_text (deref st.heap p) = true
      ∨ leader_for st p = none
      ∨ ∃ l, leader_for st p = some l
          ∧ (ins_compl_equal E (deref st.heap p) l l.length = true
            ∨ ((get_cot_flags st).fuzzy = true ∧ 0 < (deref st.heap p).cp_score)) := by
  unfold usable skips_match at h
  by_cases ho : match_at_original_text (deref st.heap p) = true
  · exact Or.inl ho
  right
  cases hl : leader_for st p with
  | none => exact Or.inl rfl
  | some l =>
    right
    refine ⟨l, rfl, ?_⟩
    rw [hl] at h
    simp only [ho, Bool.not_false, Bool.true_and] at h
    by_cases he : ins_compl_equal E (deref st.heap p) l l.length = true
    · exact Or.inl he
    · right
      simp only [he, Bool.not_false, Bool.true_and, Bool.not_not, Bool.and_eq_true,
        decide_eq_true_eq] at h
      exact h

/-- **C28.** On a closed ring that contains the original text, without a menu
array, for every leader, either shown direction and every count >= 1,
`find_next_completion_match` returns OK within two laps and a round; only the
shown match (and the cached leader) changes, and the match shown on return is
an entry of the ring that is the original text or passes the leader test: no
leader for it, `ins_compl_equal`, or a score under fuzzy filtering.  Entries
that fail the test are not counted: when the entries met before a round sets
`found_end` hold `count` entries that pass and end on one, that one is
shown. -/
theorem find_next_completion_match_on_ring (X : State → Int × State) (E : Ext) (st : State)
    (first : Nat) (rest : List Nat) (cur anchor : Nat) (allow adv fwd : Bool) (count nm : Int)
    (fuel : Nat)
    (hc : IsCyclic st.heap first rest) (hfirst : st.compl_first_match = some first)
    (hshown : st.compl_shown_match = some cur) (hcur : cur ∈ first :: rest)
    (hanchor : anchor ∈ first :: rest)
    (horig : match_at_original_text (deref st.heap anchor) = true)
    (hdir : st.compl_shows_dir = if fwd then FORWARD else BACKWARD)
    (harr : st.compl_match_array = none) (hcount : 1 ≤ count)
    (hfuel : 2 * (rest.length + 1) < fuel) :
    ∃ p a, find_next_completion_match X E st allow count adv nm fuel
        = some (OK, nm, { st with compl_shown_match := some p, adjusted_leader := a })
      ∧ p ∈ first :: rest
      ∧ (match_at_original_text (deref st.heap p) = true
        ∨ leader_for st p = none
        ∨ ∃ l, leader_for st p = some l
            ∧ (ins_compl_equal E (deref st.heap p) l l.length = true
              ∨ ((get_cot_flags st).fuzzy = true ∧ 0 < (deref st.heap p).cp_score)))
      ∧ ∀ (ws : List Nat) (q : Nat), List.Chain (link_to fwd st.heap) cur ws →
          List.Chain (fun c w => round_end fwd st c w = false) cur ws →
          ws.getLast? = some q → usable E st q = true →
          ((ws.filter (usable E st)).length : Int) = count → ws.length < fuel → p = q := by
  have hend : ∀ c, round_end fwd st c first = true := by
    intro c
    unfold round_end is_first_match
    cases fwd <;> simp [hfirst]
  have hUa : usable E st anchor = true := by
    unfold usable
    rw [not_skips_of_original E _ _ _ horig]
    rfl
  obtain ⟨lap1, hl1, hch1, hm1⟩ := ring_lap fwd hc cur hcur
  obtain ⟨lap2, hl2, hch2, hm2⟩ := ring_lap fwd hc anchor hanchor
  obtain ⟨A, B1, he1⟩ := List.append_of_mem ((hm1 anchor).mpr hanchor)
  obtain ⟨A2, B2, he2⟩ := List.append_of_mem ((hm2 first).mpr (List.mem_cons_self _ _))
  rw [he1] at hch1
  rw [he2] at hch2
  have hc1 := (List.chain_split.mp hch1).1
  have hc2 := (List.chain_split.mp hch2).1
  have hws : List.Chain (link_to fwd st.heap) cur (A ++ anchor :: (A2 ++ [first])) :=
    List.chain_split.mpr ⟨hc1, hc2⟩
  have hlen : (A ++ anchor :: (A2 ++ [first])).length < fuel := by
    have e1 := congrArg List.length he1
    have e2 := congrArg List.length he2
    simp only [List.length_append, List.length_cons, List.length_nil] at e1 e2 ⊢
    omega
  have hsub : ∀ x ∈ A ++ anchor :: (A2 ++ [first]), x ∈ first :: rest := by
    intro x hx
    simp only [List.mem_append, List.mem_cons, List.mem_singleton, List.not_mem_nil,
      or_false] at hx
    rcases hx with h | h | h | h
    · exact (hm1 x).mp (by rw [he1]; simp [h])
    · rw [h]; exact hanchor
    · exact (hm2 x).mp (by rw [he2]; simp [h])
    · rw [h]; exact List.mem_cons_self _ _
  obtain ⟨p, hp, hUp, hwhere⟩ := walk_list_usable (usable E st) (round_end fwd st) first hend
    (A ++ anchor :: (A2 ++ [first])) cur count none (by omega) (fun h => by omega)
    (fun f hf => by cases hf) ⟨A, anchor, A2 ++ [first], rfl, hUa, by simp⟩
  obtain ⟨a, ha⟩ := find_next_loop_walk X E allow adv (get_cot_flags st).noselect fwd st nm harr
    hdir (A ++ anchor :: (A2 ++ [first])) cur st.adjusted_leader count none fuel p hws hlen hp
  rw [set_shown_adj_same st cur hshown] at ha
  refine ⟨p, a, ha, ?_, usable_cases E st p hUp, ?_⟩
  · rcases hwhere with h | h | h
    · rw [h]; exact hcur
    · exact hsub p h
    · cases h
  · intro ws q hchw hne hq hUq hcnt hf
    have hw := walk_list_counts (usable E st) (round_end fwd st) ws cur count none q hne hq hUq
      hcnt
    obtain ⟨a2, ha2⟩ := find_next_loop_walk X E allow adv (get_cot_flags st).noselect fwd st nm
      harr hdir ws cur st.adjusted_leader count none fuel q hchw hf hw
    rw [set_shown_adj_same st cur hshown] at ha2
    rw [ha2] at ha
    simp only [Option.some.injEq, Prod.mk.injEq, true_and] at ha
    have := congrArg State.compl_shown_match ha
    simp only [Option.some.injEq] at this
    exact this.symm

/-- **C28: an instance.** The ring of "he", "hello", "help" and "held" with
the leader "help", shown forward from the original text, count 1: "hello" is
passed over and "help" is shown. -/
theorem find_next_completion_match_on_ring_witness :
    IsCyclic (three_matches (bytes "help") {}).heap 0 [1, 2, 3]
      ∧ ∃ a, find_next_completion_match (fun s => (0, s)) ascii_ops
          (three_matches (bytes "help") {}) false 1 true 0 9
          = some (OK, 0, { three_matches (bytes "help") {} with
              compl_shown_match := some 2, adjusted_leader := a }) := by
  refine ⟨by decide, ?_⟩
  obtain ⟨p, a, h1, -, -, h3⟩ := find_next_completion_match_on_ring (fun s => (0, s)) ascii_ops
    (three_matches (bytes "help") {}) 0 [1, 2, 3] 0 0 false true true 1 0 9
    (by decide) rfl rfl (by decide) (by decide) (by decide) rfl rfl (by decide) (by decide)
  have hp : p = 2 := h3 [1, 2] 2
    (List.Chain.cons (by decide) (List.Chain.cons (by decide) List.Chain.nil))
    (List.Chain.cons (by decide) (List.Chain.cons (by decide) List.Chain.nil))
    (by decide) (by decide) (by decide) (by decide)
  rw [hp] at h1
  exact ⟨a, h1⟩

/-- **C24, as stated, fails.** In a session outside the CTRL-X modes, a typed
CTRL-X is a key for which `vim_is_ctrl_x_key` is true, and yet a poll sets
`compl_interrupted`; a key "a" that was not typed (it comes from a register
or a mapping) is a key for which `vim_is_ctrl_x_key` is false, and yet a poll
does not set `compl_interrupted`. -/
theorem ins_compl_check_keys_ctrl_x_interrupts :
    (vim_is_ctrl_x_key sample_keys collecting_session Ctrl_X = true
      ∧ collecting_session.compl_interrupted = false
      ∧ (ins_compl_check_keys queue_input sample_keys sample_K_IGNORE (fun _ _ _ s => s) 0 0 1
          false collecting_session 0 { keys := [(Ctrl_X, true)] }).1.compl_interrupted = true)
    ∧ (vim_is_ctrl_x_key sample_keys collecting_session 97 = false
      ∧ (ins_compl_check_keys queue_input sample_keys sample_K_IGNORE (fun _ _ _ s => s) 0 0 1
          false collecting_session 0 { keys := [(97, false)] }).1.compl_interrupted = false) := by
  decide

/-- **C24, amended.** When `ins_compl_check_keys` polls (not reading from a
script unless called from `complete_check()`, the call counter reached) and a
key is pending, `test_disable_char_avail` being off: the key is taken for
navigation when `vim_is_ctrl_x_key` is true for it and it is neither CTRL-X
nor CTRL-R.  A key that is not taken sets `compl_interrupted` exactly when the
key read is not `K_IGNORE`, is not CTRL-R and was typed (`KeyTyped`); unless it
is `K_IGNORE` it is put back with `vungetc`, so that it is the next key read;
and the state is otherwise what it was, the candidates included, up to the
call of `ins_compl_next` that is made when `compl_pending` is not zero.  A key
that is taken is consumed and handed to `ins_compl_next`, and the poll itself
does not set `compl_interrupted`. -/
theorem ins_compl_check_keys_interrupt {I : Type} (G : KeyInput I) (K : KeyCodes)
    (K_IGNORE : Int) (next : Bool → Int → Bool → State → State) (pum_want_item pum_height : Int)
    (frequency : Int) (in_compl_func : Bool) (st : State) (count : Int) (inp : I)
    (hscript : in_compl_func = true ∨ (G.using_script inp = false ∧ G.ex_normal_busy inp = false))
    (hfreq : frequency ≤ count + 1)
    (hkey : G.vpeekc_any inp ≠ NUL) (htest : G.test_disable_char_avail inp = false) :
    ((vim_is_ctrl_x_key K st (G.vpeekc_any inp) && G.vpeekc_any inp != Ctrl_X
          && G.vpeekc_any inp != Ctrl_R) = false →
      ins_compl_check_keys G K K_IGNORE next pum_want_item pum_height frequency in_compl_func st
          count inp
        = (check_keys_pending next
            { st with compl_interrupted := st.compl_interrupted
                || ((G.safe_vgetc inp).1 != K_IGNORE && (G.safe_vgetc inp).1 != Ctrl_R
                    && G.KeyTyped (G.safe_vgetc inp).2) },
          0,
          if (G.safe_vgetc inp).1 = K_IGNORE then (G.safe_vgetc inp).2
          else G.vungetc (G.safe_vgetc inp).1 (G.safe_vgetc inp).2)
      ∧ ((st.compl_pending = 0 ∨ st.got_int = true ∨ st.cot_flags.noinsert = true) →
          (ins_compl_check_keys G K K_IGNORE next pum_want_item pum_height frequency
              in_compl_func st count inp).1
            = { st with compl_interrupted := st.compl_interrupted
                || ((G.safe_vgetc inp).1 != K_IGNORE && (G.safe_vgetc inp).1 != Ctrl_R
                    && G.KeyTyped (G.safe_vgetc inp).2) })
      ∧ ((G.safe_vgetc inp).1 ≠ K_IGNORE → (∀ c i, G.vpeekc_any (G.vungetc c i) = c) →
          G.vpeekc_any (ins_compl_check_keys G K K_IGNORE next pum_want_item pum_height
              frequency in_compl_func st count inp).2.2 = (G.safe_vgetc inp).1))
    ∧ ((vim_is_ctrl_x_key K st (G.vpeekc_any inp) && G.vpeekc_any inp != Ctrl_X
          && G.vpeekc_any inp != Ctrl_R) = true →
      ins_compl_check_keys G K K_IGNORE next pum_want_item pum_height frequency in_compl_func st
          count inp
        = (check_keys_pending next
            (next false
              (ins_compl_key2count K pum_want_item pum_height
                { st with compl_shows_dir :=
                    ins_compl_key2dir K pum_want_item st (G.safe_vgetc inp).1 }
                (G.safe_vgetc inp).1)
              ((G.safe_vgetc inp).1 != K.K_UP && (G.safe_vgetc inp).1 != K.K_DOWN)
              { st with compl_shows_dir :=
                  ins_compl_key2dir K pum_want_item st (G.safe_vgetc inp).1 }),
          0, (G.safe_vgetc inp).2)) := by
  have h1 : (!in_compl_func && (G.using_script inp || G.ex_normal_busy inp)) = false := by
    rcases hscript with h | ⟨h, h'⟩
    · simp [h]
    · simp [h, h']
  have h2 : ¬ count + 1 < frequency := by omega
  have h3 : (G.vpeekc_any inp != NUL && !G.test_disable_char_avail inp) = true := by
    simp [hkey, htest]
  have hfun : ∀ nav : Bool,
      (vim_is_ctrl_x_key K st (G.vpeekc_any inp) && G.vpeekc_any inp != Ctrl_X
          && G.vpeekc_any inp != Ctrl_R) = nav →
      ins_compl_check_keys G K K_IGNORE next pum_want_item pum_height frequency in_compl_func st
          count inp
        = (check_keys_pending next
            (if nav = true then
              (next false
                (ins_compl_key2count K pum_want_item pum_height
                  { st with compl_shows_dir :=
                      ins_compl_key2dir K pum_want_item st (G.safe_vgetc inp).1 }
                  (G.safe_vgetc inp).1)
                ((G.safe_vgetc inp).1 != K.K_UP && (G.safe_vgetc inp).1 != K.K_DOWN)
                { st with compl_shows_dir :=
                    ins_compl_key2dir K pum_want_item st (G.safe_vgetc inp).1 })
            else if ((G.safe_vgetc inp).1 != K_IGNORE) = true then
              (if ((G.safe_vgetc inp).1 != Ctrl_R && G.KeyTyped (G.safe_vgetc inp).2) = true
                then { st with compl_interrupted := true } else st)
            else st),
          0,
          if nav = true then (G.safe_vgetc inp).2
          else if ((G.safe_vgetc inp).1 != K_IGNORE) = true then
            G.vungetc (G.safe_vgetc inp).1 (G.safe_vgetc inp).2
          else (G.safe_vgetc inp).2) := by
    intro nav hnav
    unfold ins_compl_check_keys
    simp only [h1, Bool.false_eq_true, if_false, h2, h3, if_true, hnav]
    cases nav
    · simp only [Bool.false_eq_true, if_false]
      by_cases hk : ((G.safe_vgetc inp).1 != K_IGNORE) = true
      · simp only [hk, if_true]
      · simp only [hk, Bool.false_eq_true, if_false]
    · simp only [if_true]
  refine ⟨fun hnav => ?_, fun hnav => ?_⟩
  · have hst : (if ((G.safe_vgetc inp).1 != K_IGNORE) = true then
          (if ((G.safe_vgetc inp).1 != Ctrl_R && G.KeyTyped (G.safe_vgetc inp).2) = true
            then { st with compl_interrupted := true } else st)
        else st)
        = { st with compl_interrupted := st.compl_interrupted
            || ((G.safe_vgetc inp).1 != K_IGNORE && (G.safe_vgetc inp).1 != Ctrl_R
                && G.KeyTyped (G.safe_vgetc inp).2) } := by
      generalize ((G.safe_vgetc inp).1 != K_IGNORE) = b1
      generalize ((G.safe_vgetc inp).1 != Ctrl_R) = b2
      generalize G.KeyTyped (G.safe_vgetc inp).2 = b3
      cases b1 <;> cases b2 <;> cases b3 <;> simp
    have hmain := hfun false hnav
    simp only [Bool.false_eq_true, if_false] at hmain
    rw [hst] at hmain
    have hin : (if ((G.safe_vgetc inp).1 != K_IGNORE) = true then
          G.vungetc (G.safe_vgetc inp).1 (G.safe_vgetc inp).2
        else (G.safe_vgetc inp).2)
        = (if (G.safe_vgetc inp).1 = K_IGNORE then (G.safe_vgetc inp).2
          else G.vungetc (G.safe_vgetc inp).1 (G.safe_vgetc inp).2) := by
      by_cases hk : (G.safe_vgetc inp).1 = K_IGNORE <;> simp [hk]
    rw [hin] at hmain
    refine ⟨hmain, ?_, ?_⟩
    · intro hp
      rw [hmain]
      unfold check_keys_pending
      rcases hp with h | h | h
      · simp [h]
      · simp [h]
      · simp [h]
    · intro hk hlaw
      rw [hmain]
      simp only [hk, if_false]
      exact hlaw _ _
  · have hmain := hfun true hnav
    simp only [if_true] at hmain
    exact hmain

/-- **C24, amended: an instance.** A typed "a" in a session outside the CTRL-X
modes, polled at every call. -/
theorem ins_compl_check_keys_interrupt_witness :
    (ins_compl_check_keys queue_input sample_keys sample_K_IGNORE (fun _ _ _ s => s) 0 0 1 false
        collecting_session 0 { keys := [(97, true)] }).1
      = { collecting_session with compl_interrupted := true }
    ∧ queue_input.vpeekc_any
        (ins_compl_check_keys queue_input sample_keys sample_K_IGNORE (fun _ _ _ s => s) 0 0 1
          false collecting_session 0 { keys := [(97, true)] }).2.2 = 97 := by
  have h := (ins_compl_check_keys_interrupt queue_input sample_keys sample_K_IGNORE
    (fun _ _ _ s => s) 0 0 1 false collecting_session 0 { keys := [(97, true)] }
    (Or.inr ⟨rfl, rfl⟩) (by decide) (by decide) rfl).1 (by decide)
  exact ⟨h.2.1 (Or.inl rfl), h.2.2 (by decide) (fun _ _ => rfl)⟩

/-- **C23, as stated, fails.** A completion function that leaves the cursor at
the start of the line instead of its end, and that changes the buffer by
adding a line, has its word added all the same: the cursor is put back where
it was, and that position is still valid.  A find-start probe that does the
same returns OK. -/
theorem expand_by_function_restores_cursor :
    (moving_callback .b_cfu_cb (bytes "he") (he_buffer, function_session)).2.1.cursor
        ≠ he_buffer.cursor
      ∧ (moving_callback .b_cfu_cb (bytes "he") (he_buffer, function_session)).2.1.lines
        ≠ he_buffer.lines
      ∧ function_session.heap.length = 1
      ∧ (expand_by_function ascii_ops (buffer_editor moving_callback moving_probe)
          CTRL_X_FUNCTION (some (bytes "he")) none function_session he_buffer).map
          (fun r => (r.1.heap.length, r.2.cursor)) = some (2, he_buffer.cursor)
      ∧ (get_userdefined_compl_info (buffer_editor moving_callback moving_probe) 2 none false
          function_session he_buffer).ret = OK := by
  decide

/-- **C23, amended.** After a user defined completion function was called,
the cursor is put back at the position `pos` it had before the call and
checked.  When the checked cursor is not at `pos` any more (the text it stood
in is gone), `expand_by_function` adds nothing: it returns the file-level
state as the call left it; and a find-start probe (`get_userdefined_compl_info`)
returns FAIL, stores no start column and changes nothing either.  When the
checked cursor is at `pos`, whatever the function did to the cursor or the
buffer, the items returned go to `ins_compl_add_list` or `ins_compl_add_dict`,
and a probe that returns a column other than -2 and -3, without an abort,
returns OK. -/
theorem expand_by_function_discards {W : Type} (E : Ext) (Ed : Editor W) (type : Nat)
    (base : Option (List Nat)) (cb : Option CallbackId) (curs_col : Int) (want : Bool)
    (st : State) (w : W) :
    (∀ c, resolve_callback Ed st w type cb = some c →
      (Ed.w_cursor (Ed.validate_cursor (Ed.check_cursor
          (Ed.set_cursor (Ed.w_cursor w) (Ed.callback_call c (base.getD []) (w, st)).2.1)))
          ≠ Ed.w_cursor w →
        expand_by_function E Ed type base cb st w
          = some ((Ed.callback_call c (base.getD []) (w, st)).2.2,
              Ed.validate_cursor (Ed.check_cursor
                (Ed.set_cursor (Ed.w_cursor w) (Ed.callback_call c (base.getD []) (w, st)).2.1))))
      ∧ (Ed.w_cursor (Ed.validate_cursor (Ed.check_cursor
          (Ed.set_cursor (Ed.w_cursor w) (Ed.callback_call c (base.getD []) (w, st)).2.1)))
          = Ed.w_cursor w →
        ∀ items, (Ed.callback_call c (base.getD []) (w, st)).1 = some (.list items) →
          expand_by_function E Ed type base cb st w
            = (ins_compl_add_list E
                (Ed.did_emsg (Ed.validate_cursor (Ed.check_cursor
                  (Ed.set_cursor (Ed.w_cursor w)
                    (Ed.callback_call c (base.getD []) (w, st)).2.1))))
                (Ed.callback_call c (base.getD []) (w, st)).2.2 items).map
              (·, Ed.validate_cursor (Ed.check_cursor
                (Ed.set_cursor (Ed.w_cursor w)
                  (Ed.callback_call c (base.getD []) (w, st)).2.1)))))
    ∧ (∀ c, resolve_callback Ed st w st.ctrl_x_mode cb = some c →
      (Ed.w_cursor (Ed.validate_cursor (Ed.check_cursor
          (Ed.set_cursor (Ed.w_cursor w) (Ed.callback_call_retnr c (w, st)).2.1)))
          ≠ Ed.w_cursor w →
        (get_userdefined_compl_info Ed curs_col cb want st w).ret = FAIL
          ∧ (get_userdefined_compl_info Ed curs_col cb want st w).startcol = none
          ∧ (get_userdefined_compl_info Ed curs_col cb want st w).st
              = (Ed.callback_call_retnr c (w, st)).2.2)
      ∧ (Ed.w_cursor (Ed.validate_cursor (Ed.check_cursor
          (Ed.set_cursor (Ed.w_cursor w) (Ed.callback_call_retnr c (w, st)).2.1)))
          = Ed.w_cursor w →
        (Ed.callback_call_retnr c (w, st)).1 ≠ -2 → (Ed.callback_call_retnr c (w, st)).1 ≠ -3 →
        Ed.aborting (Ed.validate_cursor (Ed.check_cursor
          (Ed.set_cursor (Ed.w_cursor w) (Ed.callback_call_retnr c (w, st)).2.1))) = false →
        (get_userdefined_compl_info Ed curs_col cb want st w).ret = OK)) := by
  refine ⟨fun c hcb => ?_, fun c hcb => ?_⟩
  · refine ⟨fun hne => ?_, fun heq items hitems => ?_⟩
    · unfold expand_by_function
      simp only [hcb]
      rw [if_pos hne]
    · unfold expand_by_function
      simp only [hcb]
      rw [if_neg (fun h => h heq), hitems]
  · refine ⟨fun hne => ?_, fun heq h2 h3 hab => ?_⟩
    · unfold get_userdefined_compl_info
      simp only [hcb]
      rw [if_pos hne]
      exact ⟨rfl, rfl, rfl⟩
    · unfold get_userdefined_compl_info
      simp only [hcb]
      rw [if_neg (fun h => h heq)]
      simp only [h2, hab, Bool.false_eq_true, or_self, if_false, h3]
      split <;> rfl

/-- **C23, amended: an instance.** A completion function that deletes the
text: the cursor cannot be put back after "he", and nothing is added; the
probe that does so returns FAIL. -/
theorem expand_by_function_discards_witness :
    (expand_by_function ascii_ops (buffer_editor deleting_callback deleting_probe)
        CTRL_X_FUNCTION (some (bytes "he")) none function_session he_buffer).map
        (fun r => r.1) = some function_session
      ∧ (get_userdefined_compl_info (buffer_editor deleting_callback deleting_probe) 2 none
          false function_session he_buffer).ret = FAIL := by
  have h := expand_by_function_discards ascii_ops
    (buffer_editor deleting_callback deleting_probe) CTRL_X_FUNCTION (some (bytes "he")) none 2
    false function_session he_buffer
  refine ⟨?_, ?_⟩
  · rw [(h.1 .b_cfu_cb (by decide)).1 (by decide)]
    rfl
  · exact ((h.2 .b_cfu_cb (by decide)).1 (by decide)).1

theorem common_len_le_left (f : Nat → Nat) : ∀ (x y : List Nat), common_len f x y ≤ x.length
  | [], _ => by simp [common_len]
  | _ :: _, [] => by simp [common_len]
  | a :: as, b :: bs => by
    unfold common_len
    split
    · have := common_len_le_left f as bs
      simp only [List.length_cons]
      omega
    · omega

/-- The common start of `x` and `y` is a prefix of `y` under `f`. -/
theorem common_len_initial (f : Nat → Nat) :
    ∀ (x y : List Nat), (x.take (common_len f x y)).map f <+: y.map f
  | [], _ => by simp [common_len]
  | _ :: _, [] => by simp [common_len]
  | a :: as, b :: bs => by
    unfold common_len
    split
    · rename_i h
      simp only [List.take_succ_cons, List.map_cons, h]
      exact (List.prefix_cons_inj _).mpr (common_len_initial f as bs)
    · simp

/-- A prefix of `x` that is a prefix of `y` under `f` is not longer than the
common start. -/
theorem common_len_max (f : Nat → Nat) :
    ∀ (p x y : List Nat), p <+: x → p.map f <+: y.map f → p.length ≤ common_len f x y
  | [], _, _, _, _ => by simp
  | c :: p, [], _, h, _ => by simp at h
  | c :: p, a :: as, [], _, h => by simp at h
  | c :: p, a :: as, b :: bs, h1, h2 => by
    rw [List.cons_prefix_cons] at h1
    simp only [List.map_cons, List.cons_prefix_cons] at h2
    unfold common_len
    rw [← h1.1, if_pos h2.1]
    have := common_len_max f p as bs h1.2 h2.2
    simp only [List.length_cons]
    omega

theorem map_take_initial (f : Nat → Nat) (p y : List Nat) (n : Nat)
    (h : p.map f <+: y) : (p.take n).map f <+: y := by
  rw [List.map_take]
  exact (List.take_prefix _ _).trans h

theorem noNul_byteAt_zero {s : List Nat} (h : NoNul s) (h0 : byteAt s 0 = 0) : s = [] := by
  cases s with
  | nil => rfl
  | cons a t =>
    exfalso
    have : a = 0 := by simpa [byteAt] using h0
    exact h a (by simp) this

theorem noNul_drop {s : List Nat} (h : NoNul s) (n : Nat) : NoNul (s.drop n) :=
  fun b hb => h b (List.mem_of_mem_drop hb)

theorem length_pos_of_byteAt {s : List Nat} (h : byteAt s 0 ≠ 0) : 1 ≤ s.length := by
  cases s with
  | nil => simp [byteAt] at h
  | cons a t => simp

/-- With enough fuel the characters read do not depend on the fuel. -/
theorem chars_fuel (E : Ext) (hE : WellRead E) :
    ∀ (n m : Nat) (s : List Nat), s.length ≤ n → s.length ≤ m → chars E n s = chars E m s
  | 0, 0, _, _, _ => rfl
  | 0, m + 1, s, h, _ => by
    have : s = [] := List.length_eq_zero.mp (by omega)
    subst this
    simp [chars, byteAt]
  | n + 1, 0, s, _, h => by
    have : s = [] := List.length_eq_zero.mp (by omega)
    subst this
    simp [chars, byteAt]
  | n + 1, m + 1, s, h1, h2 => by
    unfold chars
    by_cases h0 : byteAt s 0 = 0
    · rw [if_pos h0, if_pos h0]
    · rw [if_neg h0, if_neg h0]
      have hl := hE.len_pos s h0
      have : (s.drop (E.utfc_ptr2len s)).length ≤ s.length - 1 := by
        rw [List.length_drop]; omega
      have hs := length_pos_of_byteAt h0
      rw [chars_fuel E hE n m _ (by omega) (by omega)]

theorem text_chars_end (E : Ext) (s : List Nat) (h0 : byteAt s 0 = 0) : text_chars E s = [] := by
  unfold text_chars
  cases hn : s.length with
  | zero => rfl
  | succ n => unfold chars; rw [if_pos h0]

theorem text_chars_cons (E : Ext) (hE : WellRead E) (s : List Nat) (h0 : byteAt s 0 ≠ 0) :
    text_chars E s = E.utf_ptr2char s :: text_chars E (s.drop (E.utfc_ptr2len s)) := by
  unfold text_chars
  have hs := length_pos_of_byteAt h0
  obtain ⟨n, hn⟩ : ∃ n, s.length = n + 1 := ⟨s.length - 1, by omega⟩
  have h1 : chars E (n + 1) s
      = E.utf_ptr2char s :: chars E n (s.drop (E.utfc_ptr2len s)) := by
    conv_lhs => unfold chars
    rw [if_neg h0]
  have hl := hE.len_pos s h0
  rw [hn, h1, chars_fuel E hE n (s.drop (E.utfc_ptr2len s)).length _
    (by rw [List.length_drop]; omega) (le_refl _)]

/-- The characters of a text cut after its first character or later. -/
theorem text_chars_take (E : Ext) (hE : WellRead E) (p : List Nat) (h0 : byteAt p 0 ≠ 0)
    (n : Nat) (hn : E.utfc_ptr2len p ≤ n) :
    text_chars E (p.take n)
      = E.utf_ptr2char p :: text_chars E ((p.drop (E.utfc_ptr2len p)).take (n - E.utfc_ptr2len p)) := by
  have hl := hE.len_pos p h0
  have hb : byteAt (p.take n) 0 ≠ 0 := by
    cases p with
    | nil => simp [byteAt] at h0
    | cons a t =>
      obtain ⟨n', rfl⟩ : ∃ n', n = n' + 1 := ⟨n - 1, by omega⟩
      simpa [byteAt] using h0
  rw [text_chars_cons E hE _ hb, hE.local_char p n hn, hE.local_len p n hn, List.drop_take]

theorem fold_char_eq_zero (E : Ext) (hE : WellRead E) (icase : Bool) (c : Nat) :
    fold_char E icase c = 0 ↔ c = 0 := by
  unfold fold_char
  cases icase
  · simp
  · simpa using hE.tolower_zero c

/-- What the loop of `ins_compl_longest_match` leaves of the leader: it stops
after the characters that the leader and the match have in common at their
start. -/
theorem longest_match_loop_spec (E : Ext) (hE : WellRead E) (icase : Bool) :
    ∀ (fuel : Nat) (p s : List Nat), p.length ≤ fuel → NoNul p → NoNul s →
      ∃ k, k ≤ p.length ∧ longest_match_loop E icase fuel p s = p.drop k
        ∧ text_chars E (p.take k)
            = (text_chars E p).take
                (common_len (fold_char E icase) (text_chars E p) (text_chars E s))
  | 0, p, s, hlen, _, _ => by
    have : p = [] := List.length_eq_zero.mp (by omega)
    subst this
    exact ⟨0, le_refl _, rfl, by simp [text_chars, chars]⟩
  | fuel + 1, p, s, hlen, hp, hs => by
    unfold longest_match_loop
    by_cases h0 : byteAt p 0 = 0
    · rw [if_pos h0]
      have : p = [] := noNul_byteAt_zero hp h0
      subst this
      exact ⟨0, le_refl _, rfl, by simp [text_chars, chars]⟩
    rw [if_neg h0]
    simp only []
    have hcond : (if icase = true then
          E.mb_tolower (E.utf_ptr2char p) ≠ E.mb_tolower (E.utf_ptr2char s)
        else E.utf_ptr2char p ≠ E.utf_ptr2char s)
        ↔ fold_char E icase (E.utf_ptr2char p) ≠ fold_char E icase (E.utf_ptr2char s) := by
      unfold fold_char
      cases icase <;> simp
    by_cases hmis : fold_char E icase (E.utf_ptr2char p) ≠ fold_char E icase (E.utf_ptr2char s)
    · rw [if_pos (hcond.mpr hmis)]
      refine ⟨0, Nat.zero_le _, rfl, ?_⟩
      rw [text_chars_cons E hE p h0]
      by_cases hs0 : byteAt s 0 = 0
      · rw [text_chars_end E s hs0]
        simp [common_len, text_chars, chars]
      · rw [text_chars_cons E hE s hs0]
        unfold common_len
        rw [if_neg hmis]
        simp [text_chars, chars]
    · rw [if_neg (fun h => hmis (hcond.mp h))]
      have heq : fold_char E icase (E.utf_ptr2char p) = fold_char E icase (E.utf_ptr2char s) :=
        not_not.mp hmis
      have hs0 : byteAt s 0 ≠ 0 := by
        intro hs0
        have h2 := hE.char_nul s hs0
        rw [h2] at heq
        have h3 : fold_char E icase 0 = 0 := (fold_char_eq_zero E hE icase 0).mpr rfl
        rw [h3] at heq
        exact hE.char_pos p h0 ((fold_char_eq_zero E hE icase _).mp heq)
      have hl1 := hE.len_pos p h0
      have hl2 := hE.len_le p
      obtain ⟨k, hk, hloop, hch⟩ := longest_match_loop_spec E hE icase fuel
        (p.drop (E.utfc_ptr2len p)) (s.drop (E.utfc_ptr2len s))
        (by rw [List.length_drop]; omega) (noNul_drop hp _) (noNul_drop hs _)
      rw [List.length_drop] at hk
      refine ⟨E.utfc_ptr2len p + k, by omega, ?_, ?_⟩
      · rw [hloop, List.drop_drop]
      · rw [text_chars_take E hE p h0 _ (by omega), Nat.add_sub_cancel_left, hch,
          text_chars_cons E hE p h0, text_chars_cons E hE s hs0]
        conv_rhs => unfold common_len
        rw [if_pos heq, List.take_succ_cons]

/-- One application of `ins_compl_longest_match` with a leader set: the leader
is cut after the characters it has in common with the match. -/
theorem longest_match_step (E : Ext) (hE : WellRead E) (st : State) (m : Nat) (L : List Nat)
    (hlead : st.compl_leader = some L) (hL : NoNul L)
    (hm : NoNul (deref st.heap m).cp_str) :
    ∃ k, k ≤ L.length
      ∧ (ins_compl_longest_match E st m).compl_leader = some (L.take k)
      ∧ (ins_compl_longest_match E st m).heap = st.heap
      ∧ text_chars E (L.take k) = narrow E st.heap (text_chars E L) m := by
  obtain ⟨k, hk, hloop, hch⟩ := longest_match_loop_spec E hE (has_icase (deref st.heap m))
    L.length L (deref st.heap m).cp_str (le_refl _) hL hm
  have hloop' : longest_match_loop E ((deref st.heap m).cp_flags &&& CP_ICASE != 0) L.length L
      (deref st.heap m).cp_str = L.drop k := hloop
  unfold ins_compl_longest_match
  rw [hlead]
  simp only [hloop']
  by_cases h0 : byteAt (L.drop k) 0 ≠ 0
  · rw [if_pos h0]
    refine ⟨k, hk, ?_, rfl, hch⟩
    simp only [List.length_drop]
    have : L.length - (L.length - k) = k := by omega
    rw [this]
  · rw [if_neg h0]
    have hnil : L.drop k = [] := noNul_byteAt_zero (noNul_drop hL k) (not_not.mp h0)
    have hkl : k = L.length := by
      have := congrArg List.length hnil
      simp only [List.length_drop, List.length_nil] at this
      omega
    refine ⟨k, hk, ?_, rfl, hch⟩
    rw [hkl, List.take_length]

/-- Applications of `ins_compl_longest_match` with a leader set: the leader is
cut down by each match in turn. -/
theorem longest_match_fold (E : Ext) (hE : WellRead E) :
    ∀ (rest : List Nat) (st : State) (L : List Nat), st.compl_leader = some L → NoNul L →
      (∀ m ∈ rest, NoNul (deref st.heap m).cp_str) →
      ∃ k, k ≤ L.length
        ∧ (rest.foldl (ins_compl_longest_match E) st).compl_leader = some (L.take k)
        ∧ text_chars E (L.take k) = rest.foldl (narrow E st.heap) (text_chars E L)
  | [], st, L, hlead, _, _ => ⟨L.length, le_refl _, by simpa using hlead, by simp⟩
  | m :: rest, st, L, hlead, hL, htexts => by
    obtain ⟨k1, hk1, hl1, hh1, hc1⟩ := longest_match_step E hE st m L hlead hL
      (htexts m (by simp))
    obtain ⟨k2, hk2, hl2, hc2⟩ := longest_match_fold E hE rest (ins_compl_longest_match E st m)
      (L.take k1) hl1 (noNul_take hL k1)
      (fun x hx => by rw [hh1]; exact htexts x (List.mem_cons_of_mem _ hx))
    have hk2' : k2 ≤ k1 := by
      rw [List.length_take] at hk2
      omega
    have htt : (L.take k1).take k2 = L.take k2 := by
      rw [List.take_take, Nat.min_eq_left hk2']
    refine ⟨k2, by omega, ?_, ?_⟩
    · rw [List.foldl_cons, hl2, htt]
    · rw [List.foldl_cons, ← hc1, ← htt, hc2, hh1]

theorem narrow_fold_initial (E : Ext) (h : List compl_T) :
    ∀ (rest : List Nat) (c : List Nat), rest.foldl (narrow E h) c <+: c
  | [], c => by simp
  | m :: rest, c => by
    rw [List.foldl_cons]
    exact (narrow_fold_initial E h rest _).trans (List.take_prefix _ _)

theorem narrow_fold_agrees (E : Ext) (h : List compl_T) :
    ∀ (rest : List Nat) (c : List Nat), ∀ m ∈ rest,
      (rest.foldl (narrow E h) c).map (fold_char E (has_icase (deref h m)))
        <+: (text_chars E (deref h m).cp_str).map (fold_char E (has_icase (deref h m)))
  | [], _, m, hm => by simp at hm
  | a :: rest, c, m, hm => by
    rw [List.foldl_cons]
    rcases List.mem_cons.mp hm with rfl | hm
    · have h1 := narrow_fold_initial E h rest (narrow E h c m)
      have h2 := common_len_initial (fold_char E (has_icase (deref h m))) c
        (text_chars E (deref h m).cp_str)
      exact (h1.map _).trans h2
    · exact narrow_fold_agrees E h rest _ m hm

theorem narrow_fold_max (E : Ext) (h : List compl_T) :
    ∀ (rest : List Nat) (c c' : List Nat), c' <+: c →
      (∀ m ∈ rest, c'.map (fold_char E (has_icase (deref h m)))
        <+: (text_chars E (deref h m).cp_str).map (fold_char E (has_icase (deref h m)))) →
      c'.length ≤ (rest.foldl (narrow E h) c).length
  | [], c, c', hp, _ => by simpa using hp.length_le
  | a :: rest, c, c', hp, hag => by
    rw [List.foldl_cons]
    have hlen := common_len_max (fold_char E (has_icase (deref h a))) c' c
      (text_chars E (deref h a).cp_str) hp (hag a (by simp))
    have hp' : c' <+: narrow E h c a := by
      unfold narrow
      rw [List.prefix_take_iff]
      exact ⟨hp, hlen⟩
    exact narrow_fold_max E h rest _ c' hp' (fun m hm => hag m (List.mem_cons_of_mem _ hm))

/-- What `ins_compl_longest_match` computes, in the characters that its loop
compares (`text_chars`: the value of `utf_ptr2char` at each step, the composing
characters that `utfc_ptr2len` steps over left out).  Starting with no leader
set, after it has been applied in turn to the candidates `m1` and `rest`,
`compl_leader` is a byte prefix of the text of `m1` whose compared characters
agree with those of every candidate of `rest`, exactly or, for a candidate
that carries CP_ICASE, without regard to case, and no prefix of `m1` that does
so has more of them.  Each application with a leader set leaves a prefix of
the leader it found. -/
theorem ins_compl_longest_match_common_part (E : Ext) (hE : WellRead E) (st : State)
    (m1 : Nat) (rest : List Nat) (hlead : st.compl_leader = none)
    (htexts : ∀ m ∈ m1 :: rest, NoNul (deref st.heap m).cp_str) :
    (∃ L, ((m1 :: rest).foldl (ins_compl_longest_match E) st).compl_leader = some L
      ∧ L <+: (deref st.heap m1).cp_str
      ∧ text_chars E L <+: text_chars E (deref st.heap m1).cp_str
      ∧ (∀ m ∈ rest, agrees_with E (deref st.heap m) L)
      ∧ ∀ L', text_chars E L' <+: text_chars E (deref st.heap m1).cp_str →
          (∀ m ∈ rest, agrees_with E (deref st.heap m) L') →
          (text_chars E L').length ≤ (text_chars E L).length)
    ∧ ∀ (st0 : State) (m : Nat) (L0 : List Nat), st0.compl_leader = some L0 →
        ∃ L1, (ins_compl_longest_match E st0 m).compl_leader = some L1 ∧ L1 <+: L0 := by
  constructor
  · have hfirst : (ins_compl_longest_match E st m1).compl_leader
        = some (deref st.heap m1).cp_str := by
      unfold ins_compl_longest_match
      rw [hlead]
    have hheap := longest_match_heap E st m1
    obtain ⟨k, -, hl, hc⟩ := longest_match_fold E hE rest (ins_compl_longest_match E st m1)
      (deref st.heap m1).cp_str hfirst (htexts m1 (by simp))
      (fun x hx => by rw [hheap]; exact htexts x (List.mem_cons_of_mem _ hx))
    rw [hheap] at hc
    refine ⟨_, by rw [List.foldl_cons]; exact hl, List.take_prefix _ _, ?_, ?_, ?_⟩
    · rw [hc]; exact narrow_fold_initial E st.heap rest _
    · intro m hm
      unfold agrees_with
      rw [hc]
      exact narrow_fold_agrees E st.heap rest _ m hm
    · intro L' hp hag
      rw [hc]
      exact narrow_fold_max E st.heap rest _ _ hp hag
  · intro st0 m L0 h0
    unfold ins_compl_longest_match
    rw [h0]
    simp only []
    split
    · exact ⟨_, rfl, List.take_prefix _ _⟩
    · exact ⟨L0, rfl, List.prefix_refl _⟩

theorem wellRead_ascii : WellRead ascii_ops where
  char_nul := fun s h => h
  char_pos := fun s h => h
  len_pos := fun s h => by
    cases s with
    | nil => simp [byteAt] at h
    | cons a t => simp [ascii_ops]
  len_le := fun s => by
    cases s with
    | nil => simp [ascii_ops]
    | cons a t => simp [ascii_ops]
  local_char := fun s n h => by
    cases s with
    | nil => simp
    | cons a t =>
      have : 1 ≤ n := by simpa [ascii_ops] using h
      obtain ⟨n', rfl⟩ : ∃ n', n = n' + 1 := ⟨n - 1, by omega⟩
      simp [ascii_ops, byteAt]
  local_len := fun s n h => by
    cases s with
    | nil => simp
    | cons a t =>
      have : 1 ≤ n := by simpa [ascii_ops] using h
      obtain ⟨n', rfl⟩ : ∃ n', n = n' + 1 := ⟨n - 1, by omega⟩
      simp [ascii_ops]
  tolower_zero := fun c => by
    simp only [ascii_ops]
    split <;> omega

/-- In ASCII, where every character is compared whole: "hello", "help" and
"held" leave the leader "hel". -/
theorem ins_compl_longest_match_common_part_witness :
    ([1, 2, 3].foldl (ins_compl_longest_match ascii_ops) no_leader_session).compl_leader
        = some (bytes "hel")
      ∧ ∃ L, ([1, 2, 3].foldl (ins_compl_longest_match ascii_ops) no_leader_session).compl_leader
          = some L
        ∧ L <+: (deref no_leader_session.heap 1).cp_str
        ∧ ∀ m ∈ [2, 3], agrees_with ascii_ops (deref no_leader_session.heap m) L := by
  refine ⟨by decide, ?_⟩
  obtain ⟨L, h1, h2, -, h3, -⟩ := (ins_compl_longest_match_common_part ascii_ops wellRead_ascii
    no_leader_session 1 [2, 3] rfl (by decide)).1
  exact ⟨L, h1, h2, h3⟩

/-- On an open list the first loop of `remove_old_matches` does what
`scan_list` does on its entries. -/
theorem remove_scan_eq (st : State) (forward : Bool) :
    ∀ (todo : List Nat) (c : Nat) (s : Scan) (fuel : Nat),
      List.Chain' (Adjacent st.heap) (c :: todo) →
      (deref st.heap (lastOf c todo)).cp_next = none → todo.length + 1 < fuel →
      remove_scan st forward fuel (some c) s = some (scan_list st forward (c :: todo) s)
  | [], c, s, fuel + 2, _, hend, _ => by
    simp only [lastOf] at hend
    unfold remove_scan scan_list
    simp only [hend]
    split
    · rfl
    · rfl
  | b :: todo, c, s, fuel + 1, hch, hend, hfuel => by
    rw [List.chain'_cons] at hch
    simp only [lastOf] at hend
    unfold remove_scan
    conv_rhs => unfold scan_list
    simp only [hch.1.1]
    split
    · rfl
    · exact remove_scan_eq st forward todo b _ fuel hch.2 hend (by simpa using hfuel)

theorem scan_step_lt_forward (st : State) (c : Nat) (s : Scan)
    (h : (deref st.heap c).cp_cpt_source_idx < st.cpt_sources_index) :
    remove_scan_step st true c s = { s with insert_at := some c } := by
  unfold remove_scan_step
  have hne : (deref st.heap c).cp_cpt_source_idx ≠ st.cpt_sources_index := by omega
  simp [h, hne]

theorem scan_step_lt_backward (st : State) (c : Nat) (s : Scan)
    (h : (deref st.heap c).cp_cpt_source_idx < st.cpt_sources_index)
    (hs : s.insert_at = none) :
    remove_scan_step st false c s = { s with insert_at := some c } := by
  unfold remove_scan_step
  have hne : (deref st.heap c).cp_cpt_source_idx ≠ st.cpt_sources_index := by omega
  simp [h, hne, hs]

theorem scan_step_gt (st : State) (forward : Bool) (c : Nat) (s : Scan)
    (h : st.cpt_sources_index < (deref st.heap c).cp_cpt_source_idx) :
    remove_scan_step st forward c s = s := by
  unfold remove_scan_step
  have hne : (deref st.heap c).cp_cpt_source_idx ≠ st.cpt_sources_index := by omega
  have hlt : ¬ (deref st.heap c).cp_cpt_source_idx < st.cpt_sources_index := by omega
  simp [hlt, hne]

theorem scan_step_eq (st : State) (forward : Bool) (c : Nat) (s : Scan)
    (h : (deref st.heap c).cp_cpt_source_idx = st.cpt_sources_index) :
    ∃ b, remove_scan_step st forward c s
      = { s with sublist_start := if s.sublist_start = none then some c else s.sublist_start
                 sublist_end := some c
                 compl_shown_removed := b } := by
  unfold remove_scan_step
  have hlt : ¬ (deref st.heap c).cp_cpt_source_idx < st.cpt_sources_index := by omega
  have hinner : (if (deref st.heap c).cp_cpt_source_idx < st.cpt_sources_index
        ∧ (forward = true ∨ (forward = false ∧ s.insert_at = none)) then
        ({ s with insert_at := some c } : Scan) else s) = s := if_neg (fun hh => hlt hh.1)
  simp only []
  rw [if_pos h, hinner]
  exact ⟨_, rfl⟩

/-- Going forward over entries of sources before the current one: the last of
them is the one to insert after. -/
theorem scan_list_lower_forward (st : State) :
    ∀ (seg : List Nat) (a : Nat) (rest : List Nat) (s : Scan),
      (∀ x ∈ a :: seg, (deref st.heap x).cp_cpt_source_idx < st.cpt_sources_index) →
      scan_list st true ((a :: seg) ++ rest) s
        = scan_list st true rest { s with insert_at := some (lastOf a seg) }
  | [], a, rest, s, h => by
    have ha := h a (by simp)
    simp only [List.singleton_append, lastOf]
    conv_lhs => unfold scan_list
    rw [if_neg (by simp; omega), scan_step_lt_forward st a s ha]
  | b :: seg, a, rest, s, h => by
    have ha := h a (by simp)
    simp only [List.cons_append, lastOf]
    conv_lhs => unfold scan_list
    rw [if_neg (by simp; omega), scan_step_lt_forward st a s ha]
    have := scan_list_lower_forward st seg b rest { s with insert_at := some a }
      (fun x hx => h x (List.mem_cons_of_mem _ hx))
    simp only [List.cons_append] at this
    rw [this]

/-- Going over entries of the current source: the first and the last of them
bound the sublist to remove. -/
theorem scan_list_current (st : State) (forward : Bool) :
    ∀ (km : List Nat) (c : Nat) (rest : List Nat) (s : Scan),
      (∀ x ∈ c :: km, (deref st.heap x).cp_cpt_source_idx = st.cpt_sources_index) →
      (forward = true ∨ s.insert_at = none) →
      ∃ b, scan_list st forward ((c :: km) ++ rest) s
        = scan_list st forward rest
            { s with sublist_start := if s.sublist_start = none then some c else s.sublist_start
                     sublist_end := some (lastOf c km)
                     compl_shown_removed := b }
  | [], c, rest, s, h, hs => by
    have hc := h c (by simp)
    obtain ⟨b, hb⟩ := scan_step_eq st forward c s hc
    refine ⟨b, ?_⟩
    simp only [List.singleton_append, lastOf]
    conv_lhs => unfold scan_list
    rw [hb, if_neg]
    rcases hs with hs | hs
    · simp [hs, hc]
    · simp [hs, hc]
  | d :: km, c, rest, s, h, hs => by
    have hc := h c (by simp)
    obtain ⟨b, hb⟩ := scan_step_eq st forward c s hc
    obtain ⟨b2, hb2⟩ := scan_list_current st forward km d rest
      { s with sublist_start := if s.sublist_start = none then some c else s.sublist_start
               sublist_end := some c
               compl_shown_removed := b }
      (fun x hx => h x (List.mem_cons_of_mem _ hx)) hs
    refine ⟨b2, ?_⟩
    simp only [List.cons_append, lastOf] at hb2 ⊢
    conv_lhs => unfold scan_list
    rw [hb, if_neg, hb2]
    · congr 1
      cases hss : s.sublist_start <;> simp
    · rcases hs with hs | hs
      · simp [hs, hc]
      · simp [hs, hc]

/-- Going backward over entries of sources after the current one changes
nothing. -/
theorem scan_list_higher_backward (st : State) :
    ∀ (seg rest : List Nat) (s : Scan),
      (∀ x ∈ seg, st.cpt_sources_index < (deref st.heap x).cp_cpt_source_idx) →
      s.insert_at = none →
      scan_list st false (seg ++ rest) s = scan_list st false rest s
  | [], _, _, _, _ => rfl
  | a :: seg, rest, s, h, hs => by
    simp only [List.cons_append]
    conv_lhs => unfold scan_list
    rw [scan_step_gt st false a s (h a (by simp)), if_neg (by simp [hs])]
    exact scan_list_higher_backward st seg rest s (fun x hx => h x (List.mem_cons_of_mem _ hx)) hs

/-- The loop stops at the first entry of a source after the current one going
forward, and at the first entry of a source before it going backward, which is
then the one to insert at. -/
theorem scan_list_stop (st : State) (forward : Bool) (d : Nat) (rest : List Nat) (s : Scan) :
    (forward = true → st.cpt_sources_index < (deref st.heap d).cp_cpt_source_idx →
      scan_list st forward (d :: rest) s = s)
    ∧ (forward = false → (deref st.heap d).cp_cpt_source_idx < st.cpt_sources_index →
      s.insert_at = none →
      scan_list st forward (d :: rest) s = { s with insert_at := some d }) := by
  refine ⟨fun hf hd => ?_, fun hf hd hs => ?_⟩
  · subst hf
    unfold scan_list
    rw [scan_step_gt st true d s hd, if_pos (Or.inl ⟨rfl, hd⟩)]
  · subst hf
    unfold scan_list
    rw [scan_step_lt_backward st d s hd hs, if_pos (Or.inr ⟨rfl, by simp⟩)]

theorem getLast?_not_mem_dropLast {l : List Nat} (hnd : l.Nodup) {x : Nat}
    (hx : l.getLast? = some x) : x ∉ l.dropLast := by
  cases l with
  | nil => simp at hx
  | cons a t =>
    rw [lastOf_getLast?] at hx
    cases hx
    exact lastOf_not_mem_dropLast t a hnd

theorem head?_not_mem_tail {l : List Nat} (hnd : l.Nodup) {y : Nat}
    (hy : l.head? = some y) : y ∉ l.tail := by
  cases l with
  | nil => simp at hy
  | cons a t =>
    simp only [List.head?_cons, Option.some.injEq] at hy
    subst hy
    exact (List.nodup_cons.mp hnd).1

/-- Taking the stretch `start :: km` out of an open list: the entry before it
and the entry after it are linked to each other, and what is left is an open
list again. -/
theorem unlink_sublist (h : List compl_T) (first : Nat) (rest pre km post : List Nat)
    (start : Nat) (hlin : IsLinear h first rest)
    (hsplit : first :: rest = pre ++ (start :: km) ++ post) (hne : pre ++ post ≠ []) :
    (deref h start).cp_prev = pre.getLast?
      ∧ (deref h (lastOf start km)).cp_next = post.head?
      ∧ ∃ f1 r1, f1 :: r1 = pre ++ post
        ∧ IsLinear
            (assign (assignOpt (assignOpt h pre.getLast? (set_next post.head?)) post.head?
              (set_prev pre.getLast?)) (lastOf start km) (set_next none)) f1 r1
        ∧ (if pre.getLast? = none then post.head? else some first) = some f1 := by
  have hseg : Segment h (pre ++ (start :: km) ++ post) := hsplit ▸ hlin.1
  have hnd := hseg.1
  have hch : List.Chain' (Adjacent h) (pre ++ (start :: km) ++ post) := segment_chain hseg
  have hlt : ∀ x ∈ pre ++ (start :: km) ++ post, x < h.length := hseg.2.1
  have hemem : lastOf start km ∈ start :: km := lastOf_mem km start
  -- the three parts are disjoint
  have hnd1 : (pre ++ (start :: km)).Nodup := (List.nodup_append.mp hnd).1
  have hpreK : ∀ x ∈ pre, x ∉ start :: km := fun x hx hk =>
    (List.nodup_append.mp hnd1).2.2 hx hk
  have hKpost : ∀ x ∈ start :: km, x ∉ post := fun x hx hp =>
    (List.nodup_append.mp hnd).2.2 (List.mem_append_right _ hx) hp
  have hprepost : ∀ x ∈ pre, x ∉ post := fun x hx hp =>
    (List.nodup_append.mp hnd).2.2 (List.mem_append_left _ hx) hp
  have hndpre : pre.Nodup := (List.nodup_append.mp hnd1).1
  have hndpost : post.Nodup := (List.nodup_append.mp hnd).2.1
  have hchpre : List.Chain' (Adjacent h) pre := by
    have : pre ++ (start :: km) ++ post = pre ++ ((start :: km) ++ post) := by simp
    rw [this] at hch
    exact hch.left_of_append
  have hchpost : List.Chain' (Adjacent h) post := hch.right_of_append
  have hlast0 : lastOf first rest = lastOf start (km ++ post) := by
    cases pre with
    | nil =>
      simp only [List.nil_append, List.cons_append, List.cons.injEq] at hsplit
      rw [hsplit.1, hsplit.2]
    | cons f t =>
      simp only [List.cons_append, List.append_assoc, List.cons.injEq] at hsplit
      rw [hsplit.2, lastOf_append_cons]
  have hlast_nil : post = [] → lastOf first rest = lastOf start km := by
    intro hp
    rw [hlast0, hp, List.append_nil]
  have hlast_cons : ∀ y pt, post = y :: pt → lastOf first rest = lastOf y pt := by
    intro y pt hp
    rw [hlast0, hp, lastOf_append_cons]
  have hpS : (deref h start).cp_prev = pre.getLast? := by
    by_cases hp : pre = []
    · subst hp
      simp only [List.nil_append, List.cons_append, List.cons.injEq] at hsplit
      rw [← hsplit.1]
      simpa using hlin.2.1
    · obtain ⟨l, a, hp⟩ := exists_concat_of_ne_nil pre hp
      have hadj : Adjacent h a start := by
        have : pre ++ (start :: km) ++ post = l ++ a :: start :: (km ++ post) := by
          rw [hp]; simp
        rw [this] at hseg
        exact segment_adjacent hseg
      rw [hadj.2, hp]
      simp
  have hnE : (deref h (lastOf start km)).cp_next = post.head? := by
    cases post with
    | nil =>
      rw [← hlast_nil rfl]
      simpa using hlin.2.2
    | cons y pt =>
      have h1 : List.Chain' (Adjacent h) (start :: (km ++ y :: pt)) := by
        have : pre ++ (start :: km) ++ y :: pt = pre ++ (start :: (km ++ y :: pt)) := by simp
        rw [this] at hch
        exact hch.right_of_append
      have h2 := chain_from_last (Adjacent h) km start (y :: pt) h1
      rw [(List.chain'_cons.mp h2).1.1]
      simp
  refine ⟨hpS, hnE, ?_⟩
  generalize hH : assign (assignOpt (assignOpt h pre.getLast? (set_next post.head?)) post.head?
    (set_prev pre.getLast?)) (lastOf start km) (set_next none) = H
  have hlenH : H.length = h.length := by
    rw [← hH, length_assign, length_assignOpt, length_assignOpt]
  have next3 : ∀ x, x ≠ lastOf start km → x < h.length →
      (deref H x).cp_next = if pre.getLast? = some x then post.head? else (deref h x).cp_next := by
    intro x hx hxl
    rw [← hH, next_assign_set_next, if_neg (fun hh => hx hh.1), next_assignOpt_set_prev,
      next_assignOpt_set_next]
    simp [hxl]
  have prev3 : ∀ x, x < h.length →
      (deref H x).cp_prev = if post.head? = some x then pre.getLast? else (deref h x).cp_prev := by
    intro x hxl
    rw [← hH, prev_assign_set_next, prev_assignOpt_set_prev, length_assignOpt,
      prev_assignOpt_set_next]
    simp [hxl]
  have hmpre : ∀ x ∈ pre, x ∈ pre ++ (start :: km) ++ post := fun x hx => by simp [hx]
  have hmpost : ∀ x ∈ post, x ∈ pre ++ (start :: km) ++ post := fun x hx => by simp [hx]
  have hne_pre : ∀ x ∈ pre, x ≠ lastOf start km := fun x hx e => hpreK x hx (e ▸ hemem)
  have hne_post : ∀ x ∈ post, x ≠ lastOf start km := fun x hx e => hKpost _ hemem (e ▸ hx)
  have hcpre : List.Chain' (Adjacent H) pre := by
    refine chain_transfer h H pre hchpre ?_ ?_
    · intro x hx
      have hxm : x ∈ pre := List.mem_of_mem_dropLast hx
      rw [next3 x (hne_pre x hxm) (hlt x (hmpre x hxm)), if_neg]
      intro hh
      exact getLast?_not_mem_dropLast hndpre hh hx
    · intro y hy
      have hym : y ∈ pre := List.mem_of_mem_tail hy
      rw [prev3 y (hlt y (hmpre y hym)), if_neg]
      intro hh
      exact hprepost y hym (List.mem_of_mem_head? hh)
  have hcpost : List.Chain' (Adjacent H) post := by
    refine chain_transfer h H post hchpost ?_ ?_
    · intro x hx
      have hxm : x ∈ post := List.mem_of_mem_dropLast hx
      rw [next3 x (hne_post x hxm) (hlt x (hmpost x hxm)), if_neg]
      intro hh
      exact hprepost x (List.mem_of_mem_getLast? hh) hxm
    · intro y hy
      have hym : y ∈ post := List.mem_of_mem_tail hy
      rw [prev3 y (hlt y (hmpost y hym)), if_neg]
      intro hh
      exact head?_not_mem_tail hndpost hh hy
  have hjoin : List.Chain' (Adjacent H) (pre ++ post) := by
    refine List.Chain'.append hcpre hcpost ?_
    intro x hx y hy
    have hxm : x ∈ pre := List.mem_of_mem_getLast? hx
    have hym : y ∈ post := List.mem_of_mem_head? hy
    have hx' : pre.getLast? = some x := hx
    have hy' : post.head? = some y := hy
    refine ⟨?_, ?_⟩
    · rw [next3 x (hne_pre x hxm) (hlt x (hmpre x hxm)), if_pos hx', hy']
    · rw [prev3 y (hlt y (hmpost y hym)), if_pos hy', hx']
  have hsub : (pre ++ post).Sublist (pre ++ (start :: km) ++ post) := by
    have : pre ++ (start :: km) ++ post = pre ++ ((start :: km) ++ post) := by simp
    rw [this]
    exact (List.Sublist.refl pre).append (List.sublist_append_right _ _)
  have hsegH : Segment H (pre ++ post) := by
    refine ⟨hnd.sublist hsub, ?_, (linked_iff_chain H _).mpr hjoin⟩
    intro a ha
    rw [hlenH]
    exact hlt a (hsub.subset ha)
  obtain ⟨f1, r1, hfr⟩ : ∃ f1 r1, f1 :: r1 = pre ++ post := by
    cases hpp : pre ++ post with
    | nil => exact absurd hpp hne
    | cons a t => exact ⟨a, t, rfl⟩
  refine ⟨f1, r1, hfr, ⟨hfr ▸ hsegH, ?_, ?_⟩, ?_⟩
  · -- the first entry has nothing before it
    cases pre with
    | nil =>
      simp only [List.nil_append] at hfr
      have hy : post.head? = some f1 := by rw [← hfr]; rfl
      have hm : f1 ∈ post := by rw [← hfr]; simp
      rw [prev3 f1 (hlt f1 (hmpost f1 hm)), if_pos hy]
      rfl
    | cons p0 pt =>
      simp only [List.cons_append, List.cons.injEq] at hfr
      have hm : f1 ∈ p0 :: pt := by rw [hfr.1]; simp
      rw [prev3 f1 (hlt f1 (hmpre f1 hm)), if_neg]
      · simp only [List.cons_append, List.append_assoc, List.cons.injEq] at hsplit
        rw [hfr.1, ← hsplit.1]
        exact hlin.2.1
      · intro hh
        exact hprepost f1 hm (List.mem_of_mem_head? hh)
  · -- the last entry has nothing after it
    cases post with
    | nil =>
      cases pre with
      | nil => exact absurd rfl hne
      | cons a t =>
        simp only [List.append_nil, List.cons.injEq] at hfr
        have hm : lastOf a t ∈ a :: t := lastOf_mem t a
        rw [hfr.1, hfr.2, next3 _ (hne_pre _ hm) (hlt _ (hmpre _ hm)),
          if_pos (lastOf_getLast? t a)]
        rfl
    | cons y pt =>
      have hl : lastOf f1 r1 = lastOf y pt := by
        cases pre with
        | nil =>
          simp only [List.nil_append, List.cons.injEq] at hfr
          rw [hfr.1, hfr.2]
        | cons a t =>
          simp only [List.cons_append, List.cons.injEq] at hfr
          rw [hfr.2, lastOf_append_cons]
      have hm : lastOf y pt ∈ y :: pt := lastOf_mem pt y
      rw [hl, next3 _ (hne_post _ hm) (hlt _ (hmpost _ hm)), if_neg]
      · rw [← hlast_cons y pt rfl]
        exact hlin.2.2
      · intro hh
        exact hprepost _ (List.mem_of_mem_getLast? hh) hm
  · cases pre with
    | nil =>
      simp only [List.nil_append] at hfr
      simp only [List.getLast?_nil, if_true]
      rw [← hfr]
      rfl
    | cons p0 pt =>
      simp only [List.cons_append, List.cons.injEq] at hfr
      simp only [List.cons_append, List.append_assoc, List.cons.injEq] at hsplit
      rw [lastOf_getLast?, if_neg (by simp), hsplit.1, hfr.1]

theorem remove_scan_env (st st1 : State) (hh : st1.heap = st.heap)
    (hk : st1.cpt_sources_index = st.cpt_sources_index)
    (hshown : st1.compl_shown_match = st.compl_shown_match) (forward : Bool) :
    ∀ (fuel : Nat) (c : Option Nat) (s : Scan),
      remove_scan st1 forward fuel c s = remove_scan st forward fuel c s
  | 0, _, _ => rfl
  | _ + 1, none, _ => rfl
  | fuel + 1, some current, s => by
    unfold remove_scan
    have hstep : remove_scan_step st1 forward current s = remove_scan_step st forward current s := by
      unfold remove_scan_step
      rw [hh, hk, hshown]
    simp only [hstep, hh, hk]
    split
    · rfl
    · exact remove_scan_env st st1 hh hk hshown forward fuel _ _

theorem walk_to_last_eq (h : List compl_T) :
    ∀ (todo : List Nat) (c fuel : Nat), List.Chain' (Adjacent h) (c :: todo) →
      (deref h (lastOf c todo)).cp_next = none → todo.length < fuel →
      walk_to_last h fuel c = some (lastOf c todo)
  | [], c, fuel + 1, _, hend, _ => by
    simp only [lastOf] at hend
    unfold walk_to_last
    rw [hend]
    rfl
  | b :: todo, c, fuel + 1, hch, hend, hfuel => by
    rw [List.chain'_cons] at hch
    simp only [lastOf] at hend ⊢
    unfold walk_to_last
    rw [hch.1.1]
    exact walk_to_last_eq h todo b fuel hch.2 hend (by simpa using hfuel)

/-- What `remove_old_matches` does once its first loop has found the stretch
`Kl` of the list as the sublist to remove. -/
theorem remove_old_matches_of_scan (st : State) (first : Nat) (rest pre Kl post : List Nat)
    (hfirst : st.compl_first_match = some first) (hlin : IsLinear st.heap first rest)
    (hsplit : first :: rest = pre ++ Kl ++ post) (hne : pre ++ post ≠ []) (s : Scan)
    (hscan : remove_scan st (decide ((deref st.heap first).cp_cpt_source_idx < 0))
      (st.heap.length + 1) (some first) {} = some s)
    (hs : (Kl = [] ∧ s.sublist_start = none)
      ∨ ∃ start km, Kl = start :: km ∧ s.sublist_start = some start
          ∧ s.sublist_end = some (lastOf start km)) :
    ∃ st1 f1 r1, remove_old_matches st = some (s.insert_at, st1)
      ∧ f1 :: r1 = pre ++ post
      ∧ st1.compl_first_match = some f1
      ∧ IsLinear st1.heap f1 r1
      ∧ st1.heap.length = st.heap.length
      ∧ ∀ p, SameData (deref st1.heap p) (deref st.heap p) := by
  have hwl : walk_to_last st.heap (st.heap.length + 1) first = some (lastOf first rest) :=
    walk_to_last_eq st.heap rest first _ (segment_chain hlin.1) hlin.2.2 (by
      have := segment_length_le hlin.1
      simp only [List.length_cons] at this
      omega)
  obtain ⟨sh, hsh⟩ : ∃ sh, (if s.compl_shown_removed = true then
        if (decide ((deref st.heap first).cp_cpt_source_idx < 0)) = true then
          some st.compl_first_match
        else (walk_to_last st.heap (st.heap.length + 1) first).map some
      else some st.compl_shown_match) = some sh := by
    rw [hwl]
    by_cases h1 : s.compl_shown_removed = true
    · rw [if_pos h1]
      by_cases h2 : (decide ((deref st.heap first).cp_cpt_source_idx < 0)) = true
      · rw [if_pos h2]; exact ⟨_, rfl⟩
      · rw [if_neg h2]; exact ⟨_, rfl⟩
    · rw [if_neg h1]; exact ⟨_, rfl⟩
  unfold remove_old_matches
  simp only [hfirst]
  have key : ∀ st1 : State, st1.heap = st.heap → st1.cpt_sources_index = st.cpt_sources_index →
      st1.compl_shown_match = st.compl_shown_match →
      remove_scan st1 (decide ((deref st.heap first).cp_cpt_source_idx < 0))
        (st.heap.length + 1) (some first) {} = some s :=
    fun st1 a b c => (remove_scan_env st st1 a b c _ _ _ _).trans hscan
  rw [key]
  rotate_left
  · rfl
  · rfl
  · rfl
  simp only []
  have hsh' : (if s.compl_shown_removed = true then
        if (decide ((deref st.heap first).cp_cpt_source_idx < 0)) = true then some (some first)
        else (walk_to_last st.heap (st.heap.length + 1) first).map some
      else some st.compl_shown_match) = some sh := by
    rw [← hfirst]; exact hsh
  rw [hsh']
  simp only []
  rcases hs with ⟨hK, hstart⟩ | ⟨start, km, hK, hstart, hend⟩
  · rw [hstart]
    subst hK
    simp only [List.append_nil] at hsplit
    refine ⟨_, first, rest, rfl, hsplit, rfl, hlin, rfl, fun p => rfl⟩
  · rw [hstart, hend]
    subst hK
    obtain ⟨hpS, hnE, f1, r1, hfr, hl, hf1⟩ := unlink_sublist st.heap first rest pre km post
      start hlin hsplit hne
    have e1 : (deref (assignOpt st.heap (deref st.heap start).cp_prev
        (set_next (deref st.heap (lastOf start km)).cp_next)) (lastOf start km)).cp_next
        = post.head? := by
      rw [next_assignOpt_set_next, if_neg, hnE]
      intro hh
      rw [hpS] at hh
      have hm1 : lastOf start km ∈ pre := List.mem_of_mem_getLast? hh.1
      have hnd : (pre ++ (start :: km) ++ post).Nodup := hsplit ▸ hlin.1.1
      exact (List.nodup_append.mp (List.nodup_append.mp hnd).1).2.2 hm1 (lastOf_mem km start)
    have e2 : (deref (assignOpt st.heap (deref st.heap start).cp_prev
        (set_next (deref st.heap (lastOf start km)).cp_next)) start).cp_prev
        = pre.getLast? := by
      rw [prev_assignOpt_set_next, hpS]
    refine ⟨_, f1, r1, rfl, hfr, ?_, ?_, ?_, ?_⟩
    · show (if (deref st.heap start).cp_prev = none then (deref st.heap (lastOf start km)).cp_next
        else some first) = some f1
      rw [hpS, hnE]
      exact hf1
    · show IsLinear (assign (assignOpt (assignOpt st.heap (deref st.heap start).cp_prev
          (set_next (deref st.heap (lastOf start km)).cp_next))
          (deref (assignOpt st.heap (deref st.heap start).cp_prev
            (set_next (deref st.heap (lastOf start km)).cp_next)) (lastOf start km)).cp_next
          (set_prev (deref (assignOpt st.heap (deref st.heap start).cp_prev
            (set_next (deref st.heap (lastOf start km)).cp_next)) start).cp_prev))
          (lastOf start km) (set_next none)) f1 r1
      rw [e1, e2, hpS, hnE]
      exact hl
    · show (assign (assignOpt (assignOpt st.heap (deref st.heap start).cp_prev
          (set_next (deref st.heap (lastOf start km)).cp_next))
          (deref (assignOpt st.heap (deref st.heap start).cp_prev
            (set_next (deref st.heap (lastOf start km)).cp_next)) (lastOf start km)).cp_next
          (set_prev (deref (assignOpt st.heap (deref st.heap start).cp_prev
            (set_next (deref st.heap (lastOf start km)).cp_next)) start).cp_prev))
          (lastOf start km) (set_next none)).length = st.heap.length
      rw [length_assign, length_assignOpt, length_assignOpt]
    · intro p
      show SameData (deref (assign (assignOpt (assignOpt st.heap (deref st.heap start).cp_prev
          (set_next (deref st.heap (lastOf start km)).cp_next))
          (deref (assignOpt st.heap (deref st.heap start).cp_prev
            (set_next (deref st.heap (lastOf start km)).cp_next)) (lastOf start km)).cp_next
          (set_prev (deref (assignOpt st.heap (deref st.heap start).cp_prev
            (set_next (deref st.heap (lastOf start km)).cp_next)) start).cp_prev))
          (lastOf start km) (set_next none)) p) (deref st.heap p)
      rw [sameData_assign_set_next, sameData_assignOpt_set_prev, sameData_assignOpt_set_next]
      exact rfl

/-- The first loop of `remove_old_matches` on a forward list grouped around the
current source. -/
theorem scan_grouped_forward (st : State) (a : Nat) (seg Kl post : List Nat)
    (hpre : ∀ x ∈ a :: seg, (deref st.heap x).cp_cpt_source_idx < st.cpt_sources_index)
    (hK : ∀ x ∈ Kl, (deref st.heap x).cp_cpt_source_idx = st.cpt_sources_index)
    (hpost : ∀ x ∈ post, st.cpt_sources_index < (deref st.heap x).cp_cpt_source_idx) :
    ∃ s, scan_list st true ((a :: seg) ++ Kl ++ post) {} = s
      ∧ s.insert_at = some (lastOf a seg)
      ∧ ((Kl = [] ∧ s.sublist_start = none)
        ∨ ∃ start km, Kl = start :: km ∧ s.sublist_start = some start
            ∧ s.sublist_end = some (lastOf start km)) := by
  have htail : ∀ s : Scan, scan_list st true post s = s := by
    intro s
    cases post with
    | nil => rfl
    | cons d post => exact (scan_list_stop st true d post s).1 rfl (hpost d (by simp))
  rw [List.append_assoc, scan_list_lower_forward st seg a (Kl ++ post) {} hpre]
  cases Kl with
  | nil =>
    rw [List.nil_append, htail]
    exact ⟨_, rfl, rfl, Or.inl ⟨rfl, rfl⟩⟩
  | cons start km =>
    obtain ⟨b, hb⟩ := scan_list_current st true km start post
      { insert_at := some (lastOf a seg) } hK (Or.inl rfl)
    rw [hb, htail]
    exact ⟨_, rfl, rfl, Or.inr ⟨start, km, rfl, rfl, rfl⟩⟩

/-- The first loop of `remove_old_matches` on a backward list grouped around
the current source. -/
theorem scan_grouped_backward (st : State) (a : Nat) (seg Kl pre : List Nat)
    (hpre : ∀ x ∈ pre, st.cpt_sources_index < (deref st.heap x).cp_cpt_source_idx)
    (hK : ∀ x ∈ Kl, (deref st.heap x).cp_cpt_source_idx = st.cpt_sources_index)
    (hpost : ∀ x ∈ a :: seg, (deref st.heap x).cp_cpt_source_idx < st.cpt_sources_index) :
    ∃ s, scan_list st false (pre ++ Kl ++ (a :: seg)) {} = s
      ∧ s.insert_at = some a
      ∧ ((Kl = [] ∧ s.sublist_start = none)
        ∨ ∃ start km, Kl = start :: km ∧ s.sublist_start = some start
            ∧ s.sublist_end = some (lastOf start km)) := by
  have htail : ∀ s : Scan, s.insert_at = none →
      scan_list st false (a :: seg) s = { s with insert_at := some a } := fun s hs =>
    (scan_list_stop st false a seg s).2 rfl (hpost a (by simp)) hs
  rw [List.append_assoc, scan_list_higher_backward st pre (Kl ++ (a :: seg)) {} hpre rfl]
  cases Kl with
  | nil =>
    rw [List.nil_append, htail _ rfl]
    exact ⟨_, rfl, rfl, Or.inl ⟨rfl, rfl⟩⟩
  | cons start km =>
    obtain ⟨b, hb⟩ := scan_list_current st false km start (a :: seg) {} hK (Or.inr rfl)
    rw [hb, htail _ rfl]
    exact ⟨_, rfl, rfl, Or.inr ⟨start, km, rfl, rfl, rfl⟩⟩

theorem filter_grouped (f : Nat → Int) (k : Int) (pre Kl post : List Nat)
    (hpre : ∀ x ∈ pre, f x ≠ k) (hK : ∀ x ∈ Kl, f x = k) (hpost : ∀ x ∈ post, f x ≠ k) :
    (pre ++ Kl ++ post).filter (fun x => decide (f x ≠ k)) = pre ++ post := by
  have h1 : pre.filter (fun x => decide (f x ≠ k)) = pre :=
    List.filter_eq_self.mpr (fun x hx => by simpa using hpre x hx)
  have h2 : Kl.filter (fun x => decide (f x ≠ k)) = [] :=
    List.filter_eq_nil_iff.mpr (fun x hx => by simp [hK x hx])
  have h3 : post.filter (fun x => decide (f x ≠ k)) = post :=
    List.filter_eq_self.mpr (fun x hx => by simpa using hpost x hx)
  rw [List.filter_append, List.filter_append, h1, h2, h3, List.append_nil]

/-- **C21 fails on the code.** In `mixed_sources` the list is the original
text, "a1" of source 1, "b" of source 0 and "a2" of source 1, and source 1 is
the current one.  `remove_old_matches` returns "b" (entry 2) as the place to
insert at and leaves a list that holds the original text only: "b", which is
not of the current source, is removed (and freed) with the others, and the
place returned is not in the list any more. -/
theorem remove_old_matches_mixed_sources :
    mixed_sources.compl_first_match = some 0
      ∧ IsLinear mixed_sources.heap 0 [1, 2, 3]
      ∧ mixed_sources.cpt_sources_index = 1
      ∧ (deref mixed_sources.heap 2).cp_cpt_source_idx = 0
      ∧ (remove_old_matches mixed_sources).map
          (fun r => (r.1, list_from r.2.heap 9 r.2.compl_first_match))
        = some (some 2, [0]) := by
  refine ⟨rfl, by decide, rfl, by decide, by decide⟩

/-- What `remove_old_matches` does on a list that is grouped by source.  Take
an open list from `compl_first_match` in which the
entries of the current source `cpt_sources_index` (`Kl`) stand together, after
the entries of lower source index (`pre`) and before those of higher index
(`post`) when the list is a forward one (its first entry has a negative source
index), and the other way round when it is a backward one that holds an entry
of negative index.  Then `remove_old_matches` returns; the list it leaves is
`pre ++ post`, which is the old list without the entries of the current source,
in the old order, open and starting at the new `compl_first_match`; the place
to insert at that it returns is an entry of that list with a lower source
index, the one next to where `Kl` was; and no entry of the arena changes
otherwise than in its links. -/
theorem remove_old_matches_grouped (st : State) (first : Nat) (rest pre Kl post : List Nat)
    (hfirst : st.compl_first_match = some first) (hlin : IsLinear st.heap first rest)
    (hsplit : first :: rest = pre ++ Kl ++ post) (hk : 0 ≤ st.cpt_sources_index)
    (hanchor : ∃ x ∈ first :: rest, (deref st.heap x).cp_cpt_source_idx < 0)
    (hK : ∀ x ∈ Kl, (deref st.heap x).cp_cpt_source_idx = st.cpt_sources_index)
    (hgroup : ((deref st.heap first).cp_cpt_source_idx < 0
        ∧ (∀ x ∈ pre, (deref st.heap x).cp_cpt_source_idx < st.cpt_sources_index)
        ∧ ∀ x ∈ post, st.cpt_sources_index < (deref st.heap x).cp_cpt_source_idx)
      ∨ (0 ≤ (deref st.heap first).cp_cpt_source_idx
        ∧ (∀ x ∈ pre, st.cpt_sources_index < (deref st.heap x).cp_cpt_source_idx)
        ∧ ∀ x ∈ post, (deref st.heap x).cp_cpt_source_idx < st.cpt_sources_index)) :
    ∃ ins st1 f1 r1, remove_old_matches st = some (some ins, st1)
      ∧ f1 :: r1 = pre ++ post
      ∧ pre ++ post = (first :: rest).filter
          (fun x => decide ((deref st.heap x).cp_cpt_source_idx ≠ st.cpt_sources_index))
      ∧ st1.compl_first_match = some f1
      ∧ IsLinear st1.heap f1 r1
      ∧ ins ∈ pre ++ post
      ∧ (deref st.heap ins).cp_cpt_source_idx < st.cpt_sources_index
      ∧ (if (deref st.heap first).cp_cpt_source_idx < 0 then pre.getLast? = some ins
          else post.head? = some ins)
      ∧ st1.heap.length = st.heap.length
      ∧ ∀ p, SameData (deref st1.heap p) (deref st.heap p) := by
  have hfuel : rest.length + 1 < st.heap.length + 1 := by
    have := segment_length_le hlin.1
    simp only [List.length_cons] at this
    omega
  have hscan := fun forward => remove_scan_eq st forward rest first {} (st.heap.length + 1)
    (segment_chain hlin.1) hlin.2.2 hfuel
  rcases hgroup with ⟨hneg, hpre, hpost⟩ | ⟨hpos, hpre, hpost⟩
  · -- a forward list: the original text is in `pre`
    have hmem : first ∈ pre := by
      have h1 : first ∈ pre ++ Kl ++ post := hsplit ▸ List.mem_cons_self _ _
      rcases List.mem_append.mp h1 with h1 | h1
      · rcases List.mem_append.mp h1 with h1 | h1
        · exact h1
        · have := hK first h1; omega
      · have := hpost first h1; omega
    obtain ⟨a, seg, rfl⟩ := List.exists_cons_of_ne_nil (List.ne_nil_of_mem hmem)
    obtain ⟨s, hs, hins, hsub⟩ := scan_grouped_forward st a seg Kl post hpre hK hpost
    have hdec : decide ((deref st.heap first).cp_cpt_source_idx < 0) = true := decide_eq_true hneg
    have hsc : remove_scan st (decide ((deref st.heap first).cp_cpt_source_idx < 0))
        (st.heap.length + 1) (some first) {} = some s := by
      rw [hdec, hscan true, hsplit, hs]
    obtain ⟨st1, f1, r1, hrun, hfr, hf1, hl1, hlen, hsame⟩ :=
      remove_old_matches_of_scan st first rest (a :: seg) Kl post hfirst hlin hsplit (by simp)
        s hsc hsub
    rw [hins] at hrun
    refine ⟨lastOf a seg, st1, f1, r1, hrun, hfr, ?_, hf1, hl1,
      List.mem_append_left _ (lastOf_mem seg a), hpre _ (lastOf_mem seg a), ?_, hlen, hsame⟩
    · rw [hsplit]
      exact (filter_grouped _ _ _ _ _ (fun x hx => ne_of_lt (hpre x hx)) hK
        (fun x hx => ne_of_gt (hpost x hx))).symm
    · rw [if_pos hneg, lastOf_getLast?]
  · -- a backward list: the original text is in `post`
    obtain ⟨x, hx, hxneg⟩ := hanchor
    have hmem : x ∈ post := by
      have h1 : x ∈ pre ++ Kl ++ post := hsplit ▸ hx
      rcases List.mem_append.mp h1 with h1 | h1
      · rcases List.mem_append.mp h1 with h1 | h1
        · have := hpre x h1; omega
        · have := hK x h1; omega
      · exact h1
    obtain ⟨a, seg, rfl⟩ := List.exists_cons_of_ne_nil (List.ne_nil_of_mem hmem)
    obtain ⟨s, hs, hins, hsub⟩ := scan_grouped_backward st a seg Kl pre hpre hK hpost
    have hdec : decide ((deref st.heap first).cp_cpt_source_idx < 0) = false :=
      decide_eq_false (by omega)
    have hsc : remove_scan st (decide ((deref st.heap first).cp_cpt_source_idx < 0))
        (st.heap.length + 1) (some first) {} = some s := by
      rw [hdec, hscan false, hsplit, hs]
    obtain ⟨st1, f1, r1, hrun, hfr, hf1, hl1, hlen, hsame⟩ :=
      remove_old_matches_of_scan st first rest pre Kl (a :: seg) hfirst hlin hsplit (by simp)
        s hsc hsub
    rw [hins] at hrun
    refine ⟨a, st1, f1, r1, hrun, hfr, ?_, hf1, hl1,
      List.mem_append_right _ (List.mem_cons_self _ _), hpost _ (List.mem_cons_self _ _), ?_,
      hlen, hsame⟩
    · rw [hsplit]
      exact (filter_grouped _ _ _ _ _ (fun x hx => ne_of_gt (hpre x hx)) hK
        (fun x hx => ne_of_lt (hpost x hx))).symm
    · rw [if_neg (by omega)]
      rfl

/-- Two lists grouped by source.  In `ordered_sources` the list is the
original text, "b" of source 0, then "a1" and "a2" of the current source 1: the
two are removed, the original text and "b" stay, and "b" is the place to
insert at.  In `ordered_sources_backward` the list is "a2" and "a1" of source
1, "b" of the current source 0 and the original text: "b" is removed and the
original text is the place to insert at. -/
theorem remove_old_matches_grouped_witness :
    (∃ st1, remove_old_matches ordered_sources = some (some 1, st1)
        ∧ st1.compl_first_match = some 0 ∧ IsLinear st1.heap 0 [1])
      ∧ (∃ st1, remove_old_matches ordered_sources_backward = some (some 3, st1)
        ∧ st1.compl_first_match = some 0 ∧ IsLinear st1.heap 0 [1, 3]) := by
  constructor
  · obtain ⟨ins, st1, f1, r1, h1, h2, -, h4, h5, -, -, h8, -, -⟩ :=
      remove_old_matches_grouped ordered_sources 0 [1, 2, 3] [0, 1] [2, 3] [] rfl (by decide) rfl
        (by decide) ⟨0, by decide, by decide⟩ (by decide)
        (Or.inl ⟨by decide, by decide, by decide⟩)
    rw [if_pos (by decide)] at h8
    obtain rfl : 1 = ins := Option.some.inj h8
    obtain ⟨rfl, rfl⟩ := List.cons.inj h2
    exact ⟨st1, h1, h4, h5⟩
  · obtain ⟨ins, st1, f1, r1, h1, h2, -, h4, h5, -, -, h8, -, -⟩ :=
      remove_old_matches_grouped ordered_sources_backward 0 [1, 2, 3] [0, 1] [2] [3] rfl
        (by decide) rfl (by decide) ⟨3, by decide, by decide⟩ (by decide)
        (Or.inr ⟨by decide, by decide, by decide⟩)
    rw [if_neg (by decide)] at h8
    obtain rfl : 3 = ins := Option.some.inj h8
    obtain ⟨rfl, rfl⟩ := List.cons.inj h2
    exact ⟨st1, h1, h4, h5⟩

theorem leader_for_plain (st : State) (comp : Nat) (h : source_starts_before st comp = false) :
    leader_for st comp = st.compl_leader := by
  rcases leader_for_cases st comp with ⟨g1, -⟩ | ⟨arr, leader, s, ha, -, hc, hs, hs0, hs1, -⟩
  · exact g1
  · exfalso
    unfold source_starts_before at h
    rw [ha] at h
    simp only [decide_eq_false_iff_not] at h
    exact h ⟨hc, hs ▸ hs0, hs ▸ hs1⟩

/-- **C6, as stated, fails.** In `interrupted_session` the leader is "hell",
there are no caps and no fuzzy filtering, and no entry carries CP_EQUAL or
CP_ICASE; the search was interrupted, so a restart is needed and
`ins_compl_build_pum` drops the leader: "help" and "held" are in the menu
although "hell" is not a prefix of either. -/
theorem menu_ignores_leader_on_restart :
    interrupted_session.compl_leader = some (bytes "hell")
      ∧ (get_cot_flags interrupted_session).fuzzy = false
      ∧ (∀ p ∈ [0, 1, 2, 3],
          configured_cap interrupted_session (deref interrupted_session.heap p).cp_cpt_source_idx = 0
            ∧ (deref interrupted_session.heap p).cp_flags &&& CP_EQUAL = 0
            ∧ (deref interrupted_session.heap p).cp_flags &&& CP_ICASE = 0)
      ∧ ins_compl_need_restart interrupted_session = true
      ∧ (deref interrupted_session.heap 2).cp_str = bytes "help"
      ∧ ¬ (bytes "hell" <+: bytes "help")
      ∧ menu_candidates ascii_ops interrupted_session [0, 1, 2, 3] = [1, 2, 3]
      ∧ (ins_compl_build_pum ascii_ops interrupted_session).map
          (fun r => (menu_of r.2).map fun it => it.pum_text)
        = some [some (bytes "hello"), some (bytes "help"), some (bytes "held")] := by
  decide

/-- **C6, amended.** With no per-source caps, no fuzzy filtering and entries
carrying neither CP_EQUAL nor CP_ICASE: (1) when no restart is needed and the
source of a candidate (an entry that is not the original text) has no start
column of its own before `compl_col`, the candidate is in the menu under the
leader L, a string without NUL, exactly when L is a byte prefix of its text;
(2) when a restart is needed every candidate is in the menu, whatever L is;
(3) in all cases a candidate is in the menu exactly when the leader that
`ins_compl_build_pum` tests it against (L with the text of the line from the
start column of its source before it) is a byte prefix of its text;
(4) whenever L is a prefix of L1, every candidate in the menu under L1 is in
the menu under L. -/
theorem menu_narrows_with_leader (E : Ext) (st : State) (ns : List Nat) (L L1 : List Nat)
    (hfz : (get_cot_flags st).fuzzy = false)
    (hcap : ∀ p ∈ ns, configured_cap st (deref st.heap p).cp_cpt_source_idx = 0)
    (hfl : ∀ p ∈ ns, (deref st.heap p).cp_flags &&& CP_EQUAL = 0
      ∧ (deref st.heap p).cp_flags &&& CP_ICASE = 0) :
    (ins_compl_need_restart st = false → NoNul L → ∀ p ∈ ns,
        (deref st.heap p).cp_flags &&& CP_ORIGINAL_TEXT = 0 →
        source_starts_before st p = false →
        (p ∈ menu_candidates E { st with compl_leader := some L } ns
          ↔ L <+: (deref st.heap p).cp_str))
      ∧ (ins_compl_need_restart st = true → ∀ p ∈ ns,
        (deref st.heap p).cp_flags &&& CP_ORIGINAL_TEXT = 0 →
        p ∈ menu_candidates E { st with compl_leader := some L } ns)
      ∧ (∀ p ∈ ns, (deref st.heap p).cp_flags &&& CP_ORIGINAL_TEXT = 0 → ∀ Lp,
        leader_for (pum_test_state { st with compl_leader := some L }) p = some Lp → NoNul Lp →
        (p ∈ menu_candidates E { st with compl_leader := some L } ns
          ↔ Lp <+: (deref st.heap p).cp_str))
      ∧ (L <+: L1 → ∀ p, p ∈ menu_candidates E { st with compl_leader := some L1 } ns →
          p ∈ menu_candidates E { st with compl_leader := some L } ns) := by
  have m0 := menu_nocap E { st with compl_leader := some L } ns hcap
  have m1 := menu_nocap E { st with compl_leader := some L1 } ns hcap
  have horig : ∀ p, (deref st.heap p).cp_flags &&& CP_ORIGINAL_TEXT = 0 →
      match_at_original_text (deref st.heap p) = false := by
    intro p h
    unfold match_at_original_text
    rw [h]
    rfl
  have hgen : ∀ p ∈ ns, (deref st.heap p).cp_flags &&& CP_ORIGINAL_TEXT = 0 → ∀ Lp,
      leader_for (pum_test_state { st with compl_leader := some L }) p = some Lp → NoNul Lp →
      (p ∈ menu_candidates E { st with compl_leader := some L } ns
        ↔ Lp <+: (deref st.heap p).cp_str) := by
    intro p hp ho Lp hLp hnn
    rw [m0, List.mem_filter]
    have e0 := passes_plain E { st with compl_leader := some L } p hfz (hfl p hp).1 (hfl p hp).2
    rw [e0, hLp]
    simp only [horig p ho, Bool.not_false, Bool.true_and, beq_iff_eq]
    rw [prefix_iff_strncmp_zero _ _ hnn]
    exact ⟨fun h => h.2, fun h => ⟨hp, h⟩⟩
  refine ⟨?_, ?_, hgen, ?_⟩
  · intro hr hnn p hp ho hsrc
    refine hgen p hp ho L ?_ hnn
    rcases pum_test_state_leader st L with ⟨hr1, -⟩ | ⟨-, e⟩
    · rw [hr] at hr1; cases hr1
    · rw [e]
      exact leader_for_plain { st with compl_leader := some L } p hsrc
  · intro hr p hp ho
    rw [m0, List.mem_filter]
    have e0 := passes_plain E { st with compl_leader := some L } p hfz (hfl p hp).1 (hfl p hp).2
    rw [e0]
    rcases pum_test_state_leader st L with ⟨-, e⟩ | ⟨hr1, -⟩
    · rw [e]
      have hl : leader_for { st with compl_leader := none } p = none := by
        rcases leader_for_cases { st with compl_leader := none } p with
          ⟨g1, -⟩ | ⟨arr, leader, s, -, hl, -⟩
        · exact g1
        · cases hl
      rw [hl]
      simp only [horig p ho, Bool.not_false, Bool.true_and]
      exact ⟨hp, trivial⟩
    · rw [hr] at hr1; cases hr1
  · intro hpre p hp
    rw [m1, List.mem_filter] at hp
    rw [m0, List.mem_filter]
    exact ⟨hp.1, passes_mono E st L L1 p hfz (hfl p hp.1).1 (hfl p hp.1).2 hpre hp.2⟩

/-- **C6, amended: an instance.** Over "hello", "help" and "held" the leaders
"he" and "hel" admit all three candidates and "hell" admits exactly "hello"
(entry 1). -/
theorem menu_narrows_with_leader_witness :
    menu_candidates ascii_ops (three_matches (bytes "he") {}) [0, 1, 2, 3] = [1, 2, 3]
      ∧ menu_candidates ascii_ops (three_matches (bytes "hel") {}) [0, 1, 2, 3] = [1, 2, 3]
      ∧ menu_candidates ascii_ops (three_matches (bytes "hell") {}) [0, 1, 2, 3] = [1]
      ∧ (∀ p ∈ [0, 1, 2, 3],
          (deref (three_matches [] {}).heap p).cp_flags &&& CP_ORIGINAL_TEXT = 0 →
          source_starts_before (three_matches [] {}) p = false →
          (p ∈ menu_candidates ascii_ops
              { three_matches [] {} with compl_leader := some (bytes "hell") } [0, 1, 2, 3]
            ↔ bytes "hell" <+: (deref (three_matches [] {}).heap p).cp_str))
      ∧ (∀ p, p ∈ menu_candidates ascii_ops
            { three_matches [] {} with compl_leader := some (bytes "hell") } [0, 1, 2, 3] →
          p ∈ menu_candidates ascii_ops
            { three_matches [] {} with compl_leader := some (bytes "hel") } [0, 1, 2, 3]) :=
  ⟨by decide, by decide, by decide,
    (menu_narrows_with_leader ascii_ops (three_matches [] {}) [0, 1, 2, 3] (bytes "hell")
      (bytes "hell") (by decide) (by decide) (by decide)).1 (by decide) (by decide),
    (menu_narrows_with_leader ascii_ops (three_matches [] {}) [0, 1, 2, 3] (bytes "hel")
      (bytes "hell") (by decide) (by decide) (by decide)).2.2.2 ⟨bytes "l", by decide⟩⟩

/-- **C26 fails on the code.** In `accents_session` the candidates are "e"
with a composing acute accent followed by "t" and "e" with a composing grave
accent followed by "s"; neither carries CP_ICASE and no leader is set.  After
`ins_compl_longest_match` has been applied to the two in turn, `compl_leader`
is "e" with the acute accent (three bytes): the loop compares the two "e"
(`utf_ptr2char`) and then steps over each with its accent (`utfc_ptr2len`).
That leader is not a prefix of the second candidate, so it is not a common
prefix of the two, neither in bytes nor in characters. -/
theorem ins_compl_longest_match_skips_composing :
    accents_session.compl_leader = none
      ∧ (deref accents_session.heap 1).cp_str = [0x65, 0xCC, 0x81, 0x74]
      ∧ (deref accents_session.heap 2).cp_str = [0x65, 0xCC, 0x80, 0x73]
      ∧ (deref accents_session.heap 1).cp_flags &&& CP_ICASE = 0
      ∧ (deref accents_session.heap 2).cp_flags &&& CP_ICASE = 0
      ∧ utf_ptr2char [0x65, 0xCC, 0x81, 0x74] = 0x65
      ∧ utfc_ptr2len [0x65, 0xCC, 0x81, 0x74] = 3
      ∧ utf_ptr2char [0x65, 0xCC, 0x80, 0x73] = 0x65
      ∧ utfc_ptr2len [0x65, 0xCC, 0x80, 0x73] = 3
      ∧ ([1, 2].foldl (ins_compl_longest_match composing_ops) accents_session).compl_leader
          = some [0x65, 0xCC, 0x81]
      ∧ ¬ ([0x65, 0xCC, 0x81] <+: (deref accents_session.heap 2).cp_str) := by
  decide

end Insexpand
